import Mathlib

/-!
# qsat.cpp : predicate abstraction and the alternating search loop

A shallow embedding of `src/qe/qsat.cpp` (namespace `qe`): the class `pred_abs`
(proxy maps, levels, assumption stack, assumption literals) and the class `qsat`
(search loop, projection, recursive elimination, tactic entry).

Conventions of the embedding.
* Expressions are hash-consed in the program, so pointer equality is structural
  equality; `expr` is an inductive type and `=` on it is the program's `==`.
* `unsigned` values are natural numbers; `UINT_MAX` is the sentinel for an unset
  level component, as in the program.
* `obj_map` is an association list; `insert` shadows an older entry, `find` returns
  the newest one.
* A function that can hit undefined behaviour, a failed `VERIFY` or a failed
  `SASSERT` (a lookup without default that misses, `to_app` on a non-application, an
  index out of range) returns `none` there. Two assertions are followed by code with
  a defined result when they fail, and are modelled as the release build behaves,
  where `SASSERT` does nothing: `SASSERT(m.is_true(val))` in `get_assumptions` (the
  proxy is pushed for every value that is not false) and
  `SASSERT(level.max() + 2 <= m_level)` in `project` (the difference
  `m_level - level.max()` is popped).
* The worklist `todo` is a member shared by the traversals; every traversal only
  touches the part above the size `sz0` it found, and restores that size, so each
  loop is modelled on the part of `todo` above `sz0`.
* Reference counting (`inc_ref`, `dec_keys`) is not modelled.
* The SMT kernels, the MBP plug-in, the quantifier hoister and the AST utilities are
  not part of the file: a run is driven by the list of the answers of the kernels, and
  the other collaborators are parameters (`externals`, `collaborators`).
* Fresh constants are minted from the counter `m_fresh_id`; where a statement ranges
  over reachable states, the formulas given to a call are expressions of the manager,
  whose fresh symbols were all minted already (`known_symbols`).
-/

namespace qe

/-! ## The AST layer -/

/-- Modelled from the spec: sorts of the AST manager (ast.h is not under src);
only the boolean sort is distinguished. -/
inductive expr_sort
  | bool_sort
  | other_sort (id : Nat)
  deriving DecidableEq, Repr

/-- Modelled from the spec: symbols; `fresh k` is the name minted by
`mk_fresh_const` from the manager's counter value `k`. -/
inductive symbol
  | named (id : Nat)
  | fresh (k : Nat)
  deriving DecidableEq, Repr

/-- Modelled from the spec: family identifiers (`null_family_id` for uninterpreted
symbols, the basic family, theory families). -/
inductive family_id
  | null_family_id
  | basic_family_id
  | theory_family_id (id : Nat)
  deriving DecidableEq, Repr

/-- Modelled from the spec: declaration kinds of the basic family, and `OP_OTHER`
for every other kind. -/
inductive decl_kind
  | OP_TRUE
  | OP_FALSE
  | OP_EQ
  | OP_DISTINCT
  | OP_ITE
  | OP_AND
  | OP_OR
  | OP_IFF
  | OP_XOR
  | OP_NOT
  | OP_IMPLIES
  | OP_OTHER (k : Nat)
  deriving DecidableEq, Repr

/-- Modelled from the spec: a function declaration: name, family, kind and range. -/
structure func_decl where
  name : symbol
  family : family_id
  kind : decl_kind
  range : expr_sort
  deriving DecidableEq, Repr

/-- Modelled from the spec: expressions of the AST manager: applications, bound
variables and quantifiers. -/
inductive expr
  | app (d : func_decl) (args : List expr)
  | var (idx : Nat) (s : expr_sort)
  | quantifier (is_forall : Bool) (body : expr)

mutual
/-- Structural equality test on expressions. -/
def expr.beq : expr → expr → Bool
  | .app d as, .app e bs => decide (d = e) && expr.beqList as bs
  | .var i s, .var j t => decide (i = j) && decide (s = t)
  | .quantifier f b, .quantifier g c => decide (f = g) && expr.beq b c
  | _, _ => false
/-- Structural equality test on argument lists. -/
def expr.beqList : List expr → List expr → Bool
  | [], [] => true
  | a :: as, b :: bs => expr.beq a b && expr.beqList as bs
  | _, _ => false
end

mutual
theorem expr.beq_sound : ∀ (a b : expr), expr.beq a b = true → a = b
  | .app d as, .app e bs, h => by
      simp only [expr.beq, Bool.and_eq_true, decide_eq_true_eq] at h
      rw [h.1, expr.beqList_sound as bs h.2]
  | .var i s, .var j t, h => by
      simp only [expr.beq, Bool.and_eq_true, decide_eq_true_eq] at h
      rw [h.1, h.2]
  | .quantifier f b, .quantifier g c, h => by
      simp only [expr.beq, Bool.and_eq_true, decide_eq_true_eq] at h
      rw [h.1, expr.beq_sound b c h.2]
  | .app _ _, .var _ _, h => by simp [expr.beq] at h
  | .app _ _, .quantifier _ _, h => by simp [expr.beq] at h
  | .var _ _, .app _ _, h => by simp [expr.beq] at h
  | .var _ _, .quantifier _ _, h => by simp [expr.beq] at h
  | .quantifier _ _, .app _ _, h => by simp [expr.beq] at h
  | .quantifier _ _, .var _ _, h => by simp [expr.beq] at h
theorem expr.beqList_sound : ∀ (as bs : List expr), expr.beqList as bs = true → as = bs
  | [], [], _ => rfl
  | a :: as, b :: bs, h => by
      simp only [expr.beqList, Bool.and_eq_true] at h
      rw [expr.beq_sound a b h.1, expr.beqList_sound as bs h.2]
  | [], _ :: _, h => by simp [expr.beqList] at h
  | _ :: _, [], h => by simp [expr.beqList] at h
end

mutual
theorem expr.beq_refl : ∀ (a : expr), expr.beq a a = true
  | .app d as => by simp [expr.beq, expr.beqList_refl as]
  | .var i s => by simp [expr.beq]
  | .quantifier f b => by simp [expr.beq, expr.beq_refl b]
theorem expr.beqList_refl : ∀ (as : List expr), expr.beqList as as = true
  | [] => rfl
  | a :: as => by simp [expr.beqList, expr.beq_refl a, expr.beqList_refl as]
end

instance : DecidableEq expr := fun a b =>
  if h : expr.beq a b = true then isTrue (expr.beq_sound a b h)
  else isFalse (fun e => h (e ▸ expr.beq_refl a))

mutual
/-- Number of nodes of an expression, seen as a tree. -/
def expr.size : expr → Nat
  | .app _ as => 1 + expr.sizeList as
  | .var _ _ => 1
  | .quantifier _ b => 1 + expr.size b
/-- Number of nodes of a list of expressions. -/
def expr.sizeList : List expr → Nat
  | [] => 0
  | a :: as => expr.size a + expr.sizeList as
end

/-- The arguments of an application (`get_arg`); no arguments otherwise. -/
def expr.get_args : expr → List expr
  | .app _ as => as
  | _ => []

/-- Modelled from the spec: `is_app`. -/
def is_app : expr → Bool
  | .app _ _ => true
  | _ => false

/-- Modelled from the spec: `m.is_bool(a)`: the sort of the expression is boolean. -/
def is_bool : expr → Bool
  | .app d _ => decide (d.range = expr_sort.bool_sort)
  | .var _ s => decide (s = expr_sort.bool_sort)
  | .quantifier _ _ => true

/-- Modelled from the spec: `is_uninterp_const`: an application without arguments of
a symbol of no family. -/
def is_uninterp_const : expr → Bool
  | .app d [] => decide (d.family = family_id.null_family_id)
  | _ => false

/-- Modelled from the spec: `is_app_of(a, basic_family_id, k)`. -/
def is_basic_app_of (k : decl_kind) : expr → Bool
  | .app d _ => decide (d.family = family_id.basic_family_id) && decide (d.kind = k)
  | _ => false

/-- Modelled from the spec: `m.is_eq`. -/
def is_eq (a : expr) : Bool := is_basic_app_of decl_kind.OP_EQ a

/-- Modelled from the spec: `m.is_distinct`. -/
def is_distinct (a : expr) : Bool := is_basic_app_of decl_kind.OP_DISTINCT a

/-- Modelled from the spec: `m.is_false`. -/
def is_false (a : expr) : Bool := is_basic_app_of decl_kind.OP_FALSE a

/-- Modelled from the spec: `m.is_true`. -/
def is_true (a : expr) : Bool := is_basic_app_of decl_kind.OP_TRUE a

/-- Modelled from the spec: `m.mk_not`. -/
def mk_not (a : expr) : expr :=
  .app ⟨symbol.named 9, family_id.basic_family_id, decl_kind.OP_NOT, expr_sort.bool_sort⟩ [a]

/-- Modelled from the spec: `m.is_not(a, c)`: the argument of a negation. -/
def is_not : expr → Option expr
  | .app d [c] =>
    if d.family = family_id.basic_family_id ∧ d.kind = decl_kind.OP_NOT then some c else none
  | _ => none

/-- Modelled from the spec: `m.mk_eq`. -/
def mk_eq (a b : expr) : expr :=
  .app ⟨symbol.named 2, family_id.basic_family_id, decl_kind.OP_EQ, expr_sort.bool_sort⟩ [a, b]

/-- Modelled from the spec: `m.mk_true`. -/
def mk_true : expr :=
  .app ⟨symbol.named 0, family_id.basic_family_id, decl_kind.OP_TRUE, expr_sort.bool_sort⟩ []

/-- Modelled from the spec: `m.mk_false`. -/
def mk_false : expr :=
  .app ⟨symbol.named 1, family_id.basic_family_id, decl_kind.OP_FALSE, expr_sort.bool_sort⟩ []

/-- Modelled from the spec: the constant `mk_fresh_const` returns for counter value
`k` and the boolean sort. -/
def fresh_const (k : Nat) : expr :=
  .app ⟨symbol.fresh k, family_id.null_family_id, decl_kind.OP_OTHER 0, expr_sort.bool_sort⟩ []

/-! ## obj_map -/

/-- Modelled from the spec: `obj_map`, as an association list, newest entry first. -/
structure obj_map (κ : Type) (ν : Type) where
  entries : List (κ × ν)

/-- The map without entries (`reset`). -/
def obj_map.empty {κ ν : Type} : obj_map κ ν := ⟨[]⟩

/-- Lookup in the entries, newest first. -/
def obj_map.lookup {κ ν : Type} [DecidableEq κ] (x : κ) : List (κ × ν) → Option ν
  | [] => none
  | (k, v) :: rest => if x = k then some v else obj_map.lookup x rest

/-- Lookup `find(k, v)`, as an option. -/
def obj_map.find {κ ν : Type} [DecidableEq κ] (m : obj_map κ ν) (x : κ) : Option ν :=
  obj_map.lookup x m.entries

/-- Membership test `contains(k)`. -/
def obj_map.contains {κ ν : Type} [DecidableEq κ] (m : obj_map κ ν) (x : κ) : Bool :=
  (m.find x).isSome

/-- Insertion `insert(k, v)`, overriding an older entry for `k`. -/
def obj_map.insert {κ ν : Type} (m : obj_map κ ν) (k : κ) (v : ν) : obj_map κ ν :=
  ⟨(k, v) :: m.entries⟩

/-! ## Levels -/

/-- The sentinel of an unset level component. -/
def UINT_MAX : Nat := 4294967295

/-- Modelled from the spec: the level pair `(fa, ex)` of qsat.h, `UINT_MAX` meaning
unset; a fresh level has both components unset. -/
structure max_level where
  m_ex : Nat
  m_fa : Nat
  deriving DecidableEq, Repr

/-- The level with both components unset (the default constructor). -/
def max_level.unset : max_level := ⟨UINT_MAX, UINT_MAX⟩

/-- Modelled from the spec: the maximum of two components (the static `max(a, b)` of
`max_level`), an unset one absorbed as "take the other". -/
def max_level.max2 (a b : Nat) : Nat :=
  if a = UINT_MAX then b else if b = UINT_MAX then a else max a b

/-- Modelled from the spec: `max()`, the larger component, unset when both are. -/
def max_level.max (l : max_level) : Nat := max_level.max2 l.m_ex l.m_fa

/-- Modelled from the spec: `merge(other)`, pointwise on the two components. -/
def max_level.merge (l other : max_level) : max_level :=
  ⟨max_level.max2 l.m_ex other.m_ex, max_level.max2 l.m_fa other.m_fa⟩

/-! ## Models -/

/-- Modelled from the spec: a model, through its evaluation function; `none` is an
evaluation that reports failure, otherwise the value expression is returned. -/
structure model where
  eval : expr → Option expr

/-! ## pred_abs -/

/-- The state of `pred_abs`; `m_fresh_id` is the fresh-name counter of the AST
manager the object refers to, `m_fmc` the symbols recorded in the filter model
converter. -/
structure pred_abs where
  m_fresh_id : Nat
  m_asms : List expr
  m_trail : List expr
  m_fmc : List func_decl
  m_pred2lit : obj_map expr expr
  m_lit2pred : obj_map expr expr
  m_asm2pred : obj_map expr expr
  m_pred2asm : obj_map expr expr
  m_elevel : obj_map expr max_level
  m_flevel : obj_map func_decl max_level
  m_asms_lim : List Nat
  m_preds : List (List expr)

/-- The state after construction: every container empty; `k` is the manager's
counter at that time. -/
def pred_abs.init (k : Nat) : pred_abs :=
  { m_fresh_id := k, m_asms := [], m_trail := [], m_fmc := [],
    m_pred2lit := obj_map.empty, m_lit2pred := obj_map.empty,
    m_asm2pred := obj_map.empty, m_pred2asm := obj_map.empty,
    m_elevel := obj_map.empty, m_flevel := obj_map.empty,
    m_asms_lim := [], m_preds := [] }

/-- `pred_abs::reset`. -/
def pred_abs.reset (s : pred_abs) : pred_abs :=
  { s with m_trail := [], m_lit2pred := obj_map.empty, m_pred2lit := obj_map.empty,
           m_asm2pred := obj_map.empty, m_pred2asm := obj_map.empty,
           m_elevel := obj_map.empty, m_asms := [], m_asms_lim := [], m_preds := [] }

/-- The argument loop of `compute_level`: merges the levels found for arguments
into `lvl0`, pushes the other arguments on `todo` and raises `has_new`. -/
def compute_level_args (elevel : obj_map expr max_level) :
    List expr → max_level → List expr → Bool → max_level × List expr × Bool
  | [], lvl0, todo, has_new => (lvl0, todo, has_new)
  | arg :: rest, lvl0, todo, has_new =>
    match elevel.find arg with
    | some lvl => compute_level_args elevel rest (lvl0.merge lvl) todo has_new
    | none => compute_level_args elevel rest lvl0 (arg :: todo) true

/-- The `while` loop of `compute_level` on the part of `todo` above `sz0` (top of
the stack first); `flevel` is read only. -/
def compute_level_loop (flevel : obj_map func_decl max_level) :
    Nat → List expr → obj_map expr max_level → Option (obj_map expr max_level)
  | 0, _, _ => none
  | _ + 1, [], elevel => some elevel
  | n + 1, a :: todo, elevel =>
    if elevel.contains a then compute_level_loop flevel n todo elevel
    else
      match a with
      | .app d args =>
        let lvl0 := match flevel.find d with
          | some lvl => max_level.unset.merge lvl
          | none => max_level.unset
        match compute_level_args elevel args lvl0 (a :: todo) false with
        | (lvl1, todo1, has_new) =>
          if !has_new then compute_level_loop flevel n todo1.tail (elevel.insert a lvl1)
          else compute_level_loop flevel n todo1 elevel
      | _ => none

/-- `pred_abs::compute_level`. -/
def pred_abs.compute_level (s : pred_abs) (e : expr) : Option (pred_abs × max_level) :=
  match compute_level_loop s.m_flevel (2 * e.size + 1) [e] s.m_elevel with
  | none => none
  | some elevel =>
    match elevel.find e with
    | none => none
    | some l => some ({ s with m_elevel := elevel }, l)

/-- `pred_abs::add_lit`. -/
def pred_abs.add_lit (s : pred_abs) (p lit : expr) : pred_abs :=
  if !s.m_lit2pred.contains lit then { s with m_lit2pred := s.m_lit2pred.insert lit p }
  else s

/-- `pred_abs::add_pred`. -/
def pred_abs.add_pred (s : pred_abs) (p lit : expr) : pred_abs :=
  pred_abs.add_lit { s with m_pred2lit := s.m_pred2lit.insert p lit } p lit

/-- `pred_abs::add_asm`; `SASSERT(!m_asm2pred.contains(assum))` comes first. -/
def pred_abs.add_asm (s : pred_abs) (p assum : expr) : Option pred_abs :=
  if s.m_asm2pred.contains assum then none
  else some { s with m_asm2pred := s.m_asm2pred.insert assum p,
                     m_pred2asm := s.m_pred2asm.insert p assum }

/-- `pred_abs::push`. -/
def pred_abs.push (s : pred_abs) : pred_abs :=
  { s with m_asms_lim := s.m_asms_lim ++ [s.m_asms.length] }

/-- `pred_abs::pop`. When `num_scopes` exceeds the size of `m_asms_lim` the unsigned
difference wraps around to an index outside the vector; an index outside
`m_asms_lim` is undefined behaviour, and so is a snapshot above the size of `m_asms`
here (the program would pad `m_asms` with null pointers). -/
def pred_abs.pop (s : pred_abs) (num_scopes : Nat) : Option pred_abs :=
  if num_scopes ≤ s.m_asms_lim.length then
    let l := s.m_asms_lim.length - num_scopes
    match s.m_asms_lim.get? l with
    | none => none
    | some sz =>
      if sz ≤ s.m_asms.length then
        some { s with m_asms := s.m_asms.take sz, m_asms_lim := s.m_asms_lim.take l }
      else none
  else none

/-- `pred_abs::insert`. -/
def pred_abs.insert (s : pred_abs) (a : expr) (lvl : max_level) : pred_abs :=
  let l := if lvl.max = UINT_MAX then 0 else lvl.max
  let preds := s.m_preds ++ List.replicate (l + 1 - s.m_preds.length) []
  { s with m_preds := preds.set l (preds.getD l [] ++ [a]) }

/-- `pred_abs::is_predicate`. -/
def pred_abs.is_predicate (s : pred_abs) (a : expr) (l : Nat) : Option Bool :=
  match a with
  | .app d _ =>
    match s.m_flevel.find d with
    | some lvl1 => some (decide (lvl1.max < l))
    | none => some false
  | _ => none

/-- `pred_abs::set_expr_level`. -/
def pred_abs.set_expr_level (s : pred_abs) (v : expr) (lvl : max_level) : pred_abs :=
  { s with m_elevel := s.m_elevel.insert v lvl }

/-- `pred_abs::set_decl_level`. -/
def pred_abs.set_decl_level (s : pred_abs) (f : func_decl) (lvl : max_level) : pred_abs :=
  { s with m_flevel := s.m_flevel.insert f lvl }

/-- `pred_abs::fresh_bool`: the fresh constant, and the state with the manager's
counter advanced and the symbol recorded in the filter model converter. -/
def pred_abs.fresh_bool (s : pred_abs) : expr × pred_abs :=
  (fresh_const s.m_fresh_id,
   { s with m_fresh_id := s.m_fresh_id + 1,
            m_fmc := s.m_fmc ++ [⟨symbol.fresh s.m_fresh_id, family_id.null_family_id,
              decl_kind.OP_OTHER 0, expr_sort.bool_sort⟩] })

/-- The literal `get_assumptions` builds for proxy `p` from the value `val` the
model gave: `mk_not(p)` when `val` is the constant false, `p` otherwise. -/
def signed_lit (p val : expr) : expr :=
  if is_false val then mk_not p else p

/-- The first `for` loop of `get_assumptions`: one literal per proxy of the top
scope is pushed on `m_asms`; a failed `VERIFY(mdl->eval(p, val))` aborts. The
`else` branch pushes `p` for every value that is not the constant false:
`SASSERT(m.is_true(val))` only documents that the value is then expected to be true
and does nothing in a release build. -/
def get_assumptions_top (mdl : model) : List expr → List expr → Option (List expr)
  | [], m_asms => some m_asms
  | p :: rest, m_asms =>
    match mdl.eval p with
    | none => none
    | some val =>
      if is_false val then get_assumptions_top mdl rest (m_asms ++ [mk_not p])
      else get_assumptions_top mdl rest (m_asms ++ [p])

/-- The test `use` of `get_assumptions` for the level `lvl` of a proxy of
`m_preds[i]`, at level `level`. -/
def use_pred (lvl : max_level) (i level : Nat) : Bool :=
  (decide (lvl.m_fa = i) && (decide (lvl.m_ex = UINT_MAX) || decide (lvl.m_ex < level))) ||
  (decide (lvl.m_ex = i) && (decide (lvl.m_fa = UINT_MAX) || decide (lvl.m_fa < level)))

/-- The inner `for` loop (over `j`) of the second part of `get_assumptions`, on the
proxies of `m_preds[i]`. -/
def get_assumptions_inner (elevel : obj_map expr max_level) (mdl : model) (level i : Nat) :
    List expr → List expr → Option (List expr)
  | [], asms => some asms
  | p :: rest, asms =>
    match elevel.find p with
    | none => none
    | some lvl =>
      if use_pred lvl i level then
        match mdl.eval p with
        | none => none
        | some val => get_assumptions_inner elevel mdl level i rest (asms ++ [signed_lit p val])
      else get_assumptions_inner elevel mdl level i rest asms

/-- The outer `for` loop (over `i`, in steps of 2) of the second part of
`get_assumptions`; the list argument is `m_preds` from index `i` on. -/
def get_assumptions_outer (elevel : obj_map expr max_level) (mdl : model) (level : Nat) :
    Nat → List (List expr) → List expr → Option (List expr)
  | _, [], asms => some asms
  | i, [ps], asms => get_assumptions_inner elevel mdl level i ps asms
  | i, ps :: _ :: rest, asms =>
    match get_assumptions_inner elevel mdl level i ps asms with
    | none => none
    | some asms1 => get_assumptions_outer elevel mdl level (i + 2) rest asms1

/-- `pred_abs::get_assumptions`: the new state and the extended vector `asms`. -/
def pred_abs.get_assumptions (s : pred_abs) (mdl : Option model) (asms : List expr) :
    Option (pred_abs × List expr) :=
  let level0 := s.m_asms_lim.length
  let level := if level0 > s.m_preds.length then s.m_preds.length else level0
  if level = 0 then some (s, asms)
  else
    match mdl with
    | none => some (s, asms ++ s.m_asms)
    | some mdl =>
      match s.m_preds.get? (level - 1) with
      | none => none
      | some top =>
        match get_assumptions_top mdl top s.m_asms with
        | none => none
        | some m_asms1 =>
          match get_assumptions_outer s.m_elevel mdl level (level + 1)
                  (s.m_preds.drop (level + 1)) (asms ++ m_asms1) with
          | none => none
          | some asms1 => some ({ s with m_asms := m_asms1 }, asms1)

/-- The test `is_boolop` of `abstract_atoms`; `get_arg(0)` of an application without
arguments is undefined behaviour. -/
def is_boolop (a : expr) : Option Bool :=
  match a with
  | .app d args =>
    if d.family = family_id.basic_family_id then
      match (if is_eq a then args.head?.map is_bool else some true) with
      | none => none
      | some false => some false
      | some true => if is_distinct a then args.head?.map is_bool else some true
    else some false
  | _ => none

/-- The loop of `abstract_atoms` that pushes the unmarked arguments on `todo`. -/
def push_unmarked (mark : List expr) : List expr → List expr → List expr
  | [], todo => todo
  | f :: rest, todo =>
    if f ∈ mark then push_unmarked mark rest todo else push_unmarked mark rest (f :: todo)

/-- A configuration of the loop of `abstract_atoms`: the part of `todo` above `sz0`
(top of the stack first), the mark set `mark`, the state of `pred_abs`, and the
arguments `level` and `defs`. -/
structure aa_config where
  todo : List expr
  mark : List expr
  s : pred_abs
  level : max_level
  defs : List expr

/-- One round of the `while` loop of `abstract_atoms`, for a worklist that is not
empty. -/
def abstract_atoms_round : aa_config → Option aa_config
  | ⟨[], _, _, _, _⟩ => none
  | ⟨a :: todo, mark, s, level, defs⟩ =>
    if a ∈ mark then some ⟨todo, mark, s, level, defs⟩
    else
      match s.m_lit2pred.find a with
      | some p =>
        match s.m_elevel.find p with
        | none => none
        | some lp => some ⟨todo, a :: mark, s, level.merge lp, defs⟩
      | none =>
        if is_uninterp_const a && is_bool a then
          match s.m_elevel.find a with
          | none => none
          | some l =>
            if !s.m_pred2lit.contains a then
              some ⟨todo, a :: mark, (s.add_pred a a).insert a l, level.merge l, defs⟩
            else some ⟨todo, a :: mark, s, level.merge l, defs⟩
        else
          match a with
          | .app _ args =>
            let todo1 := push_unmarked (a :: mark) args todo
            match is_boolop a with
            | none => none
            | some boolop =>
              if !boolop && is_bool a then
                match s.fresh_bool with
                | (r, s1) =>
                  match s1.compute_level a with
                  | none => none
                  | some (s2, l) =>
                    let s3 := s2.add_pred r a
                    let s4 := { s3 with m_elevel := s3.m_elevel.insert r l }
                    match s4.is_predicate a l.max with
                    | none => none
                    | some is_pred =>
                      some ⟨todo1, a :: mark, if !is_pred then s4.insert r l else s4,
                        level.merge l, defs ++ [mk_eq r a]⟩
              else some ⟨todo1, a :: mark, s, level, defs⟩
          | _ => none

/-- The `while (sz0 != todo.size())` loop of `abstract_atoms`. -/
def abstract_atoms_loop : Nat → aa_config → Option aa_config
  | 0, _ => none
  | n + 1, c =>
    if c.todo.isEmpty then some c
    else
      match abstract_atoms_round c with
      | none => none
      | some c1 => abstract_atoms_loop n c1

/-- `pred_abs::abstract_atoms(fml, level, defs)`. -/
def pred_abs.abstract_atoms (s : pred_abs) (fml : expr) (level : max_level)
    (defs : List expr) : Option (pred_abs × max_level × List expr) :=
  match abstract_atoms_loop (fml.size + 1)
      ⟨[fml], [], { s with m_trail := s.m_trail ++ [fml] }, level, defs⟩ with
  | none => none
  | some c => some (c.s, c.level, c.defs)

/-- `pred_abs::abstract_atoms(fml, defs)`. -/
def pred_abs.abstract_atoms_top (s : pred_abs) (fml : expr) (defs : List expr) :
    Option (pred_abs × List expr) :=
  match s.abstract_atoms fml max_level.unset defs with
  | none => none
  | some (s1, _, defs1) => some (s1, defs1)

/-- The argument loop of `mk_abstract` and of `mk_concrete`: collects the cached
images in `args`, records in `diff` whether one differs from its argument, and
pushes the arguments without image on `todo`. -/
def rewrite_args (cache : obj_map expr expr) :
    List expr → List expr → Bool → List expr → List expr × Bool × List expr
  | [], args, diff, todo => (args, diff, todo)
  | f :: rest, args, diff, todo =>
    match cache.find f with
    | some f1 => rewrite_args cache rest (args ++ [f1]) (diff || decide (f ≠ f1)) todo
    | none => rewrite_args cache rest args diff (f :: todo)

/-- The `while` loop of `mk_abstract` on the part of `todo` above `sz0`. -/
def mk_abstract_loop (lit2pred : obj_map expr expr) :
    Nat → List expr → obj_map expr expr → Option (obj_map expr expr)
  | 0, _, _ => none
  | _ + 1, [], cache => some cache
  | n + 1, a :: todo, cache =>
    if cache.contains a then mk_abstract_loop lit2pred n todo cache
    else
      match lit2pred.find a with
      | some b => mk_abstract_loop lit2pred n todo (cache.insert a b)
      | none =>
        match a with
        | .app d as =>
          match rewrite_args cache as [] false (a :: todo) with
          | (args, diff, todo1) =>
            if as.length = args.length then
              mk_abstract_loop lit2pred n todo1.tail
                (cache.insert a (if diff then expr.app d args else a))
            else mk_abstract_loop lit2pred n todo1 cache
        | _ => none

/-- `pred_abs::mk_abstract`. -/
def pred_abs.mk_abstract (s : pred_abs) (fml : expr) : Option expr :=
  match mk_abstract_loop s.m_lit2pred (2 * fml.size + 1) [fml] obj_map.empty with
  | none => none
  | some cache => cache.find fml

/-- The `while` loop of `mk_concrete` on the part of `todo` above `sz0`. -/
def mk_concrete_loop (map : obj_map expr expr) :
    Nat → List expr → obj_map expr expr → Option (obj_map expr expr)
  | 0, _, _ => none
  | _ + 1, [], cache => some cache
  | n + 1, a :: todo, cache =>
    if cache.contains a then mk_concrete_loop map n todo cache
    else
      match map.find a with
      | some p => mk_concrete_loop map n todo (cache.insert a p)
      | none =>
        match a with
        | .app d as =>
          match rewrite_args cache as [] false (a :: todo) with
          | (args, diff, todo1) =>
            if args.length = as.length then
              mk_concrete_loop map n todo1.tail
                (cache.insert a (if diff then expr.app d args else a))
            else mk_concrete_loop map n todo1 cache
        | _ => none

/-- The final loop of `mk_concrete`: every formula is replaced by its image in the
cache. -/
def mk_concrete_result (cache : obj_map expr expr) : List expr → Option (List expr)
  | [] => some []
  | f :: rest =>
    match cache.find f, mk_concrete_result cache rest with
    | some r, some rs => some (r :: rs)
    | _, _ => none

/-- `pred_abs::mk_concrete`; `todo.append(fmls)` leaves the last formula on top. -/
def mk_concrete (fmls : List expr) (map : obj_map expr expr) : Option (List expr) :=
  match mk_concrete_loop map (2 * expr.sizeList fmls + 1) fmls.reverse obj_map.empty with
  | none => none
  | some cache => mk_concrete_result cache fmls

/-- `pred_abs::pred2lit`. -/
def pred_abs.pred2lit (s : pred_abs) (fmls : List expr) : Option (List expr) :=
  mk_concrete fmls s.m_pred2lit

/-- The state `abstract_atoms` leaves after minting the proxy for the atom `a`. -/
def pred_abs.atom_update (s2 : pred_abs) (r a : expr) (l : max_level) (is_pred : Bool) : pred_abs :=
  let s3 := s2.add_pred r a
  let s4 := { s3 with m_elevel := s3.m_elevel.insert r l }
  if !is_pred then s4.insert r l else s4

/-- One round of the `while` loop of `abstract_atoms`. -/
inductive aa_step : aa_config → aa_config → Prop
  | marked (a todo mark s level defs) (hm : a ∈ mark) :
      aa_step ⟨a :: todo, mark, s, level, defs⟩ ⟨todo, mark, s, level, defs⟩
  | mapped (a todo mark s level defs p lp) (hm : a ∉ mark)
      (hp : s.m_lit2pred.find a = some p) (hl : s.m_elevel.find p = some lp) :
      aa_step ⟨a :: todo, mark, s, level, defs⟩ ⟨todo, a :: mark, s, level.merge lp, defs⟩
  | const_new (a todo mark s level defs l) (hm : a ∉ mark)
      (hp : s.m_lit2pred.find a = none) (hc : (is_uninterp_const a && is_bool a) = true)
      (hl : s.m_elevel.find a = some l) (hn : s.m_pred2lit.find a = none) :
      aa_step ⟨a :: todo, mark, s, level, defs⟩
        ⟨todo, a :: mark, (s.add_pred a a).insert a l, level.merge l, defs⟩
  | const_old (a todo mark s level defs l) (hm : a ∉ mark)
      (hp : s.m_lit2pred.find a = none) (hc : (is_uninterp_const a && is_bool a) = true)
      (hl : s.m_elevel.find a = some l) (hn : s.m_pred2lit.contains a = true) :
      aa_step ⟨a :: todo, mark, s, level, defs⟩ ⟨todo, a :: mark, s, level.merge l, defs⟩
  | atom (d args todo mark s level defs s2 l is_pred) (hm : expr.app d args ∉ mark)
      (hp : s.m_lit2pred.find (expr.app d args) = none)
      (hc : (is_uninterp_const (expr.app d args) && is_bool (expr.app d args)) = false)
      (hb : is_boolop (expr.app d args) = some false) (hbool : is_bool (expr.app d args) = true)
      (hlvl : s.fresh_bool.2.compute_level (expr.app d args) = some (s2, l))
      (hpred : (s2.add_pred s.fresh_bool.1 (expr.app d args)).is_predicate (expr.app d args) l.max
                = some is_pred) :
      aa_step ⟨expr.app d args :: todo, mark, s, level, defs⟩
        ⟨push_unmarked (expr.app d args :: mark) args todo, expr.app d args :: mark,
         s2.atom_update s.fresh_bool.1 (expr.app d args) l is_pred, level.merge l,
         defs ++ [mk_eq s.fresh_bool.1 (expr.app d args)]⟩
  | skip (d args todo mark s level defs boolop) (hm : expr.app d args ∉ mark)
      (hp : s.m_lit2pred.find (expr.app d args) = none)
      (hc : (is_uninterp_const (expr.app d args) && is_bool (expr.app d args)) = false)
      (hb : is_boolop (expr.app d args) = some boolop)
      (hbool : (!boolop && is_bool (expr.app d args)) = false) :
      aa_step ⟨expr.app d args :: todo, mark, s, level, defs⟩
        ⟨push_unmarked (expr.app d args :: mark) args todo, expr.app d args :: mark,
         s, level, defs⟩

/-- States reachable from the state after construction by level seeding and by
calls of `abstract_atoms` on formulas that `adm` admits in the state of the call. -/
inductive pred_abs.reach (adm : pred_abs → expr → Prop) : pred_abs → Prop
  | init (k : Nat) : pred_abs.reach adm (pred_abs.init k)
  | set_expr_level (s : pred_abs) (v : expr) (lvl : max_level) :
      pred_abs.reach adm s → pred_abs.reach adm (s.set_expr_level v lvl)
  | set_decl_level (s : pred_abs) (f : func_decl) (lvl : max_level) :
      pred_abs.reach adm s → pred_abs.reach adm (s.set_decl_level f lvl)
  | abstract_atoms (s : pred_abs) (fml : expr) (level : max_level) (defs : List expr)
      (r : pred_abs × max_level × List expr) :
      pred_abs.reach adm s → adm s fml → s.abstract_atoms fml level defs = some r →
      pred_abs.reach adm r.1

/-- The proxy-to-atom direction of the two maps: the image of every proxy is mapped
back to it. -/
def pred_abs.inv_p2l (s : pred_abs) : Prop :=
  ∀ p lit, s.m_pred2lit.find p = some lit → s.m_lit2pred.find lit = some p

end qe
namespace qe

/-- Sample input: an uninterpreted constant `id` of sort `s`. -/
def sample_const (id : Nat) (s : expr_sort) : expr :=
  .app ⟨symbol.named id, family_id.null_family_id, decl_kind.OP_OTHER 0, s⟩ []

/-- Sample input: an arithmetic atom `a < b` (a symbol of a theory family). -/
def sample_lt (a b : expr) : expr :=
  .app ⟨symbol.named 100, family_id.theory_family_id 5, decl_kind.OP_OTHER 3, expr_sort.bool_sort⟩
    [a, b]

/-- Sample input: the conjunction of two formulas. -/
def sample_and (a b : expr) : expr :=
  .app ⟨symbol.named 5, family_id.basic_family_id, decl_kind.OP_AND, expr_sort.bool_sort⟩ [a, b]

/-- Sample input: the atom `x < y` over integer constants. -/
def sample_atom : expr :=
  sample_lt (sample_const 2 (expr_sort.other_sort 0)) (sample_const 3 (expr_sort.other_sort 0))

/-- Sample input: the formula `x < y ∧ (c ∧ x < y)` with `c` a boolean constant. -/
def sample_fml : expr :=
  sample_and sample_atom (sample_and (sample_const 1 expr_sort.bool_sort) sample_atom)

/-- Sample input: the state after construction with the levels of `c` (block 0) and
`x` (block 1) seeded. -/
def sample_seeded : pred_abs :=
  ((pred_abs.init 0).set_expr_level (sample_const 1 expr_sort.bool_sort) ⟨0, UINT_MAX⟩).set_expr_level
    (sample_const 2 (expr_sort.other_sort 0)) ⟨UINT_MAX, 1⟩

/-- Sample input: the result of `abstract_atoms` on `sample_fml` in `sample_seeded`. -/
def sample_abstracted : pred_abs × max_level × List expr :=
  (sample_seeded.abstract_atoms sample_fml max_level.unset []).getD
    (sample_seeded, max_level.unset, [])

/-- The literal of the proxy `p` under the model: `mk_not p` when the model
evaluates `p` to the constant false, `p` otherwise. -/
def model_lit (mdl : model) (p : expr) : expr :=
  match mdl.eval p with
  | some val => signed_lit p val
  | none => p

/-- The literal of the top scope as the specification words it: `p` if the model
evaluates `p` to true, otherwise the negation of `p`. -/
def top_scope_lit (mdl : model) (p : expr) : expr :=
  if (mdl.eval p).any is_true then p else mk_not p

/-- The test `use` for the proxy `p` of `m_preds[i]`, read from its recorded level. -/
def use_at (elevel : obj_map expr max_level) (level : Nat) (i : Nat) (p : expr) : Bool :=
  match elevel.find p with
  | some lvl => use_pred lvl i level
  | none => false

/-- The cross-level literals of one level `i`: the literals of the proxies of `ps`
that pass the test `use`. -/
def cross_lits (elevel : obj_map expr max_level) (mdl : model) (level : Nat) (i : Nat)
    (ps : List expr) : List expr :=
  (ps.filter (use_at elevel level i)).map (model_lit mdl)

/-- The inclusion formula of the specification, in its words: a proxy of level
`(fa = f, ex = e)` is included for the level `i` of `preds` and the current level `L`
when `f = i` and `e` is unset or below `L`, or `e = i` and `f` is unset or below
`L`. -/
def level_included (lvl : max_level) (i L : Nat) : Bool :=
  decide ((lvl.m_fa = i ∧ (lvl.m_ex = UINT_MAX ∨ lvl.m_ex < L)) ∨
    (lvl.m_ex = i ∧ (lvl.m_fa = UINT_MAX ∨ lvl.m_fa < L)))

/-- The cross-level literals as the specification lists them: for the levels
`i = L+1, L+3, L+5, ...` below `|preds|`, in this order, the proxies of `preds[i]`
whose recorded level satisfies the inclusion formula, each signed by the model (the
negation of the proxy when the model evaluates it to false, the proxy otherwise). -/
def cross_level_words (s : pred_abs) (mdl : model) (L : Nat) : List expr :=
  (s.m_preds.enum.filter (fun q => decide (L < q.1) && decide ((q.1 - L) % 2 = 1))).flatMap
    (fun q =>
      (q.2.filter (fun p =>
        match s.m_elevel.find p with
        | some lvl => level_included lvl q.1 L
        | none => false)).map
      (fun p => if (mdl.eval p).any is_false then mk_not p else p))

/-- The cross-level literals in closed form, with the test `use` of the code: for the
levels `i = L+1, L+3, L+5, ...` below `|preds|`, in this order, the literals of the
proxies of `preds[i]` that pass the test. -/
def cross_level_spec (s : pred_abs) (mdl : model) (L : Nat) : List expr :=
  (s.m_preds.enum.filter (fun q => decide (L < q.1) && decide ((q.1 - L) % 2 = 1))).flatMap
    (fun q => cross_lits s.m_elevel mdl L q.1 q.2)

/-- The effective level of `get_assumptions`: the scope depth, clamped to the number
of levels of `m_preds`. -/
def pred_abs.level (s : pred_abs) : Nat :=
  if s.m_asms_lim.length > s.m_preds.length then s.m_preds.length else s.m_asms_lim.length

/-- The cross-level literals in the order the outer loop of `get_assumptions`
produces them from level `i` on. -/
def cross_from (elevel : obj_map expr max_level) (mdl : model) (level : Nat) :
    Nat → List (List expr) → List expr
  | _, [] => []
  | i, [ps] => cross_lits elevel mdl level i ps
  | i, ps :: _ :: rest => cross_lits elevel mdl level i ps ++ cross_from elevel mdl level (i + 2) rest

/-- A literal made in the call from a proxy and its value under the model: the
negated proxy for the value false, the proxy itself for any other value. -/
def made_from (mdl : model) (l : expr) : Prop :=
  ∃ p v, mdl.eval p = some v ∧
    ((is_false v = true ∧ l = mk_not p) ∨ (is_false v = false ∧ l = p))

/-- Agreement of a literal with a model, as the specification words it: a negated
proxy agrees when the model evaluates the proxy to false, a positive one when the
model evaluates it to true. -/
def lit_agrees (mdl : model) (l : expr) : Bool :=
  match is_not l with
  | some p => (mdl.eval p).any is_false
  | none => (mdl.eval l).any is_true

/-- Sample input: three boolean proxies. -/
def sample_p : expr := sample_const 11 expr_sort.bool_sort

/-- Sample input: a second proxy. -/
def sample_q : expr := sample_const 12 expr_sort.bool_sort

/-- Sample input: a third proxy. -/
def sample_u : expr := sample_const 13 expr_sort.bool_sort

/-- Sample input: a model that evaluates `sample_p` to false, `sample_q` to true and
leaves every other expression as it is (no value assigned). -/
def sample_model : model :=
  ⟨fun e => if e = sample_p then some mk_false else if e = sample_q then some mk_true
    else some e⟩

/-- Sample input: a model that evaluates every expression to true. -/
def sample_model_true : model := ⟨fun _ => some mk_true⟩

/-- Sample input: a state at scope depth 2 whose stack holds the literal `sample_p`
of scope 1; `sample_q` is the proxy of level 1 and `sample_u` a proxy of level 3. -/
def sample_depth2 : pred_abs :=
  { pred_abs.init 0 with
    m_asms := [sample_p], m_asms_lim := [0, 1],
    m_preds := [[sample_p], [sample_q], [], [sample_u]],
    m_elevel := ⟨[(sample_u, ⟨UINT_MAX, 3⟩), (sample_q, ⟨UINT_MAX, 1⟩), (sample_p, ⟨0, UINT_MAX⟩)]⟩ }

/-- Sample input: a state at scope depth 0 with a proxy of level 1. -/
def sample_depth0 : pred_abs :=
  { pred_abs.init 0 with
    m_preds := [[], [sample_q]],
    m_elevel := ⟨[(sample_q, ⟨UINT_MAX, 1⟩)]⟩ }

/-- Sample input: a state at scope depth 2 with proxies of level 0 only. -/
def sample_deep : pred_abs :=
  { pred_abs.init 0 with
    m_asms_lim := [0, 0], m_preds := [[sample_q]],
    m_elevel := ⟨[(sample_q, ⟨0, UINT_MAX⟩)]⟩ }

/-- Sample input: a state at scope depth 1 with one proxy of level 0. -/
def sample_depth1 : pred_abs :=
  { pred_abs.init 0 with
    m_asms_lim := [0], m_preds := [[sample_q]],
    m_elevel := ⟨[(sample_q, ⟨0, UINT_MAX⟩)]⟩ }

/-- Sample input: a state at scope depth 1 whose only proxy `u` of level 0 gets no
truth value from `sample_model`. -/
def sample_no_value : pred_abs :=
  { pred_abs.init 0 with
    m_asms_lim := [0], m_preds := [[sample_u]],
    m_elevel := ⟨[(sample_u, ⟨0, UINT_MAX⟩)]⟩ }

/-- The calls of the scope interface of `pred_abs`. -/
inductive pa_op
  | push
  | pop (num_scopes : Nat)
  | get_assumptions (mdl : Option model) (asms : List expr)

/-- The effect of one call on the state. -/
def pa_op.apply (s : pred_abs) : pa_op → Option pred_abs
  | .push => some s.push
  | .pop n => s.pop n
  | .get_assumptions mdl asms => (s.get_assumptions mdl asms).map Prod.fst

/-- The effect of a sequence of calls. -/
def pa_run : List pa_op → pred_abs → Option pred_abs
  | [], s => some s
  | op :: rest, s =>
    match op.apply s with
    | none => none
    | some t => pa_run rest t

/-- Balance of a sequence of calls, `d` scopes of the sequence being open: a pop
never closes more scopes than the sequence has open, and all are closed at the end.
With `inside`, `get_assumptions` is only called while a scope of the sequence is
open. -/
def pa_balanced (inside : Bool) : Nat → List pa_op → Bool
  | d, [] => decide (d = 0)
  | d, .push :: rest => pa_balanced inside (d + 1) rest
  | d, .pop n :: rest => decide (n ≤ d) && pa_balanced inside (d - n) rest
  | d, .get_assumptions _ _ :: rest => (!inside || decide (0 < d)) && pa_balanced inside d rest

/-- Sample input: a balanced sequence with a `get_assumptions` call between two
push/pop pairs. -/
def sample_ops : List pa_op :=
  [.push, .pop 1, .get_assumptions (some sample_model_true) [], .push, .pop 1]

/-- Sample input: a balanced sequence with a `get_assumptions` call inside the scope. -/
def sample_ops_inside : List pa_op :=
  [.push, .get_assumptions (some sample_model_true) [], .push, .pop 2]

/-- The relation the scope calls keep between the state `t` reached inside a balanced
sequence with `d` scopes open and the state `s` at its start: the stack of `s` is
extended by `more`, the snapshots by `extra`, and every new snapshot is at least the
size of the stack of `s`, the first one being exactly that size. -/
def scope_inv (s t : pred_abs) (d : Nat) : Prop :=
  ∃ more extra, t = { s with m_asms := s.m_asms ++ more, m_asms_lim := s.m_asms_lim ++ extra } ∧
    extra.length = d ∧ (d = 0 → more = []) ∧ (∀ x ∈ extra, s.m_asms.length ≤ x) ∧
    (∀ x, extra.head? = some x → x = s.m_asms.length)

/-- Component-wise dominance of levels, an unset component counting as least: each
component of `b` that is set is at most the same component of `a`, which is then set
too. -/
def max_level.dominates (a b : max_level) : Prop :=
  (b.m_ex ≠ UINT_MAX → a.m_ex ≠ UINT_MAX ∧ b.m_ex ≤ a.m_ex) ∧
  (b.m_fa ≠ UINT_MAX → a.m_fa ≠ UINT_MAX ∧ b.m_fa ≤ a.m_fa)

/-- The subexpression relation: `subexpr c e` when `c` occurs in `e`. -/
inductive subexpr : expr → expr → Prop
  | refl (e : expr) : subexpr e e
  | arg (c a : expr) (d : func_decl) (args : List expr) :
      a ∈ args → subexpr c a → subexpr c (expr.app d args)
  | body (c b : expr) (f : Bool) : subexpr c b → subexpr c (expr.quantifier f b)

/-- States in which only constants were seeded with levels (`set_expr_level`) and
every other entry of `elevel` was inserted by `compute_level`. With `guarded`, a
constant is only seeded while no other expression that contains it has a level. -/
inductive levels_reach (guarded : Bool) : pred_abs → Prop
  | init (k : Nat) : levels_reach guarded (pred_abs.init k)
  | seed (s : pred_abs) (d : func_decl) (lvl : max_level) :
      levels_reach guarded s →
      (guarded = true → ∀ e, s.m_elevel.contains e = true → subexpr (expr.app d []) e →
        e = expr.app d []) →
      levels_reach guarded (s.set_expr_level (expr.app d []) lvl)
  | decl (s : pred_abs) (f : func_decl) (lvl : max_level) :
      levels_reach guarded s → levels_reach guarded (s.set_decl_level f lvl)
  | compute (s : pred_abs) (e : expr) (r : pred_abs × max_level) :
      levels_reach guarded s → s.compute_level e = some r → levels_reach guarded r.1

/-- The invariant of `elevel` behind level monotonicity: every key is an application
whose arguments all have a level, dominated by the level of the application. -/
def elevel_mono (elevel : obj_map expr max_level) : Prop :=
  ∀ e l, elevel.find e = some l →
    ∃ d args, e = expr.app d args ∧
      ∀ a ∈ args, ∃ la, elevel.find a = some la ∧ l.dominates la

/-- Sample input: a unary function symbol applied to `a`. -/
def sample_f (a : expr) : expr :=
  .app ⟨symbol.named 20, family_id.null_family_id, decl_kind.OP_OTHER 0, expr_sort.other_sort 0⟩ [a]

/-- Sample input: the declaration of the integer constant `x`. -/
def sample_x_decl : func_decl :=
  ⟨symbol.named 2, family_id.null_family_id, decl_kind.OP_OTHER 0, expr_sort.other_sort 0⟩

/-- Sample input: the integer constant `x`. -/
def sample_x : expr := .app sample_x_decl []

/-- Sample input: the state after `compute_level(f(x))` in the state after
construction. -/
def sample_levels_computed : pred_abs × max_level :=
  ((pred_abs.init 0).compute_level (sample_f sample_x)).getD (pred_abs.init 0, max_level.unset)

/-- Sample input: the state after seeding `x` with level 1 and then
`compute_level(f(x))`. -/
def sample_levels_seeded : pred_abs × max_level :=
  (((pred_abs.init 0).set_expr_level sample_x ⟨UINT_MAX, 1⟩).compute_level
    (sample_f sample_x)).getD (pred_abs.init 0, max_level.unset)

mutual
/-- Expressions built from applications only: no bound variable, no quantifier. -/
def is_ground : expr → Bool
  | .app _ args => is_ground_list args
  | .var _ _ => false
  | .quantifier _ _ => false
/-- Lists of expressions built from applications only. -/
def is_ground_list : List expr → Bool
  | [] => true
  | a :: as => is_ground a && is_ground_list as
end

mutual
/-- The rewrite that `mk_abstract` and `mk_concrete` compute, as a recursive function:
an expression that is a key of `map` is replaced by its value (outermost first);
otherwise its arguments are rewritten. -/
def rewrite_spec (map : obj_map expr expr) : expr → expr
  | .app d args =>
    match map.find (.app d args) with
    | some p => p
    | none => .app d (rewrite_spec_list map args)
  | .var i s =>
    match map.find (.var i s) with
    | some p => p
    | none => .var i s
  | .quantifier f b =>
    match map.find (.quantifier f b) with
    | some p => p
    | none => .quantifier f b
/-- The rewrite of a list of expressions. -/
def rewrite_spec_list (map : obj_map expr expr) : List expr → List expr
  | [] => []
  | a :: as => rewrite_spec map a :: rewrite_spec_list map as
end

/-- A cache of the rewrite loop is sound when every entry is the rewrite of its key. -/
def cache_ok (map cache : obj_map expr expr) : Prop :=
  ∀ t v, cache.find t = some v → v = rewrite_spec map t

/-- One cache extends another when it keeps every entry. -/
def cache_le (c1 c2 : obj_map expr expr) : Prop :=
  ∀ t v, c1.find t = some v → c2.find t = some v

/-- What the rewrite loop does to an expression `e` on top of the worklist: within
`2 * e.size` rounds it pops `e`, leaving a sound, larger cache that holds the rewrite
of `e`. -/
def rewrite_runs (map : obj_map expr expr) (e : expr) : Prop :=
  ∀ (cache : obj_map expr expr) (todo : List expr), cache_ok map cache →
    ∃ (n : Nat) (cache1 : obj_map expr expr), n ≤ 2 * e.size ∧ cache_ok map cache1 ∧
      cache_le cache cache1 ∧ cache1.find e = some (rewrite_spec map e) ∧
      ∀ k, mk_concrete_loop map (n + k) (e :: todo) cache = mk_concrete_loop map k todo cache1

/-- The arguments without image in the cache. -/
def missing_args (cache : obj_map expr expr) (fs : List expr) : List expr :=
  fs.filter (fun f => (cache.find f).isNone)

mutual
/-- Every fresh symbol of the expression was minted at a counter value below `n`
(with `n` the manager's counter: the expression exists in the manager). -/
def fresh_below (n : Nat) : expr → Bool
  | .app d args =>
    (match d.name with
      | symbol.fresh k => decide (k < n)
      | symbol.named _ => true) && fresh_below_list n args
  | .var _ _ => true
  | .quantifier _ b => fresh_below n b
/-- Every fresh symbol of the expressions of the list was minted below `n`. -/
def fresh_below_list (n : Nat) : List expr → Bool
  | [] => true
  | a :: as => fresh_below n a && fresh_below_list n as
end

mutual
/-- The formula mentions none of the minted proxies: no subterm is a key of
`pred2lit` that stands for another expression. (A proxy minted for an atom is mapped
to the atom; a boolean constant that was registered as its own proxy is mapped to
itself and is part of the original vocabulary, also when `mk_fresh_const` made it
while the quantifiers were hoisted.) -/
def proxy_free (pred2lit : obj_map expr expr) : expr → Bool
  | .app d args =>
    (match pred2lit.find (.app d args) with
      | some x => decide (x = .app d args)
      | none => true) && proxy_free_list pred2lit args
  | .var _ _ => true
  | .quantifier _ b => proxy_free pred2lit b
/-- No expression of the list mentions a minted proxy. -/
def proxy_free_list (pred2lit : obj_map expr expr) : List expr → Bool
  | [] => true
  | a :: as => proxy_free pred2lit a && proxy_free_list pred2lit as
end

/-- Sample input: the constant `c` that `mk_fresh_const` made for the bound variable
of `∃c. c ∧ x < y` when the quantifier was hoisted (counter value 0). -/
def sample_hoisted_const : expr := fresh_const 0

/-- Sample input: the matrix `c ∧ x < y` over the hoisted constant `c`. -/
def sample_hoisted_fml : expr := sample_and sample_hoisted_const sample_atom

/-- Sample input: the state after construction in a manager that has made one fresh
constant, with the levels of `c` and `x` (block 1) seeded. -/
def sample_hoisted_seeded : pred_abs :=
  ((pred_abs.init 1).set_expr_level sample_hoisted_const ⟨UINT_MAX, 1⟩).set_expr_level
    (sample_const 2 (expr_sort.other_sort 0)) ⟨UINT_MAX, 1⟩

/-- Sample input: the result of `abstract_atoms` on `c ∧ x < y` in
`sample_hoisted_seeded`: `c` is its own proxy and the proxy `fresh_const 1` is minted
for `x < y`. -/
def sample_hoisted_abs : pred_abs × max_level × List expr :=
  (sample_hoisted_seeded.abstract_atoms sample_hoisted_fml max_level.unset []).getD
    (sample_hoisted_seeded, max_level.unset, [])

/-- Admissible inputs of `abstract_atoms`: expressions of the manager, whose fresh
symbols were all minted already. -/
def known_symbols (s : pred_abs) (fml : expr) : Prop :=
  fresh_below s.m_fresh_id fml = true

/-- The invariant of the proxy maps: `lit2pred` is inverted by `pred2lit`; every key
of `pred2lit` is a constant, mapped to itself unless its symbol is a fresh one; and
the fresh symbols among the keys were minted below the manager's counter. -/
def pred_abs.maps_wf (s : pred_abs) : Prop :=
  (∀ a p, s.m_lit2pred.find a = some p → s.m_pred2lit.find p = some a) ∧
  (∀ p x, s.m_pred2lit.find p = some x →
    ∃ d, p = expr.app d [] ∧ (x = p ∨ ∃ k, d.name = symbol.fresh k)) ∧
  (∀ d x k, s.m_pred2lit.find (expr.app d []) = some x → d.name = symbol.fresh k →
    k < s.m_fresh_id)

/-- Modelled from the spec: `get_sort`, the sort of an expression. -/
def get_sort : expr → expr_sort
  | .app d _ => d.range
  | .var _ s => s
  | .quantifier _ _ => expr_sort.bool_sort

/-- The sort discipline of the operators of the basic family in a formula: the
boolean connectives take boolean arguments, the arguments of an equality or a
`distinct` have one sort, an if-then-else has a boolean condition and branches of
its own sort, and no other operator of the basic family occurs. -/
def basic_sorted (d : func_decl) (args : List expr) : Bool :=
  match d.kind with
  | decl_kind.OP_TRUE => decide (d.range = expr_sort.bool_sort) && args.isEmpty
  | decl_kind.OP_FALSE => decide (d.range = expr_sort.bool_sort) && args.isEmpty
  | decl_kind.OP_EQ =>
    decide (d.range = expr_sort.bool_sort) &&
      args.all (fun a => decide (get_sort a = get_sort (args.headD a)))
  | decl_kind.OP_DISTINCT =>
    decide (d.range = expr_sort.bool_sort) &&
      args.all (fun a => decide (get_sort a = get_sort (args.headD a)))
  | decl_kind.OP_ITE =>
    match args with
    | [c, t, e] => is_bool c && decide (get_sort t = d.range) && decide (get_sort e = d.range)
    | _ => false
  | decl_kind.OP_OTHER _ => false
  | _ => decide (d.range = expr_sort.bool_sort) && args.all is_bool

mutual
/-- Well-sorted expressions, as far as the basic family is concerned. -/
def well_sorted : expr → Bool
  | .app d args =>
    well_sorted_list args &&
      (if d.family = family_id.basic_family_id then basic_sorted d args else true)
  | .var _ _ => true
  | .quantifier _ b => well_sorted b
/-- Lists of well-sorted expressions. -/
def well_sorted_list : List expr → Bool
  | [] => true
  | a :: as => well_sorted a && well_sorted_list as
end

/-- The kinds of the boolean connectives and constants of the basic family. -/
def is_connective : decl_kind → Bool
  | decl_kind.OP_OTHER _ => false
  | _ => true

mutual
/-- Boolean skeletons over the proxies of `pred2lit`: a boolean uninterpreted
constant that is a key of `pred2lit`, or a boolean connective or constant of the basic
family applied to skeletons. -/
def is_skeleton (pred2lit : obj_map expr expr) : expr → Bool
  | .app d args =>
    (pred2lit.contains (.app d args) && is_uninterp_const (.app d args) && is_bool (.app d args)) ||
    (decide (d.family = family_id.basic_family_id) && decide (d.range = expr_sort.bool_sort) &&
      is_connective d.kind && is_skeleton_list pred2lit args)
  | .var _ _ => false
  | .quantifier _ _ => false
/-- Lists of boolean skeletons. -/
def is_skeleton_list (pred2lit : obj_map expr expr) : List expr → Bool
  | [] => true
  | a :: as => is_skeleton pred2lit a && is_skeleton_list pred2lit as
end

/-- The invariant of the proxies: every value of `lit2pred` is a key of `pred2lit`,
and every key of `pred2lit` is a boolean uninterpreted constant. -/
def pred_abs.proxies_wf (s : pred_abs) : Prop :=
  (∀ a p, s.m_lit2pred.find a = some p → s.m_pred2lit.contains p = true) ∧
  (∀ p, s.m_pred2lit.contains p = true → is_uninterp_const p = true ∧ is_bool p = true)

/-- An expression the loop of `abstract_atoms` has seen: marked or on the worklist. -/
def aa_config.seen (c : aa_config) (x : expr) : Prop := x ∈ c.mark ∨ x ∈ c.todo

/-- What the loop of `abstract_atoms` has done for a marked expression `a`: `a` is a
key of `lit2pred`, or a key of `pred2lit`, or an application that is a boolean
operator or not boolean, whose arguments were all seen. -/
def aa_config.settled (c : aa_config) (a : expr) : Prop :=
  c.s.m_lit2pred.contains a = true ∨ c.s.m_pred2lit.contains a = true ∨
  ∃ d args, a = expr.app d args ∧ (is_boolop a = some true ∨ is_bool a = false) ∧
    ∀ x ∈ args, c.seen x

/-- The change of the two proxy maps in one round of the loop: none, or one new pair
of a boolean uninterpreted constant `p` and an expression `a` that was no key of
`lit2pred`. -/
def maps_change (s t : pred_abs) (a : expr) : Prop :=
  (t.m_pred2lit = s.m_pred2lit ∧ t.m_lit2pred = s.m_lit2pred) ∨
  ∃ p, s.m_lit2pred.find a = none ∧ t.m_pred2lit = s.m_pred2lit.insert p a ∧
    t.m_lit2pred = s.m_lit2pred.insert a p ∧ is_uninterp_const p = true ∧ is_bool p = true

/-! ## qsat -/

/-- Modelled from the spec: the three-valued result `lbool`. -/
inductive lbool
  | l_false
  | l_undef
  | l_true
  deriving DecidableEq, Repr

/-- Modelled from the spec: what an SMT kernel answers to `check(assumptions)`: sat
with the model `get_model` returns, unsat with the core `get_unsat_core_expr`
enumerates, or unknown. The kernels are external; a run of the search loop is driven
by the list of their answers. -/
inductive kernel_answer
  | sat (mdl : model)
  | unsat (core : List expr)
  | unknown

/-- The result value of an answer. -/
def kernel_answer.res : kernel_answer → lbool
  | .sat _ => lbool.l_true
  | .unsat _ => lbool.l_false
  | .unknown => lbool.l_undef

/-- The wrapper `qsat::kernel`: the formulas asserted so far and the unsat core of
the last check. -/
structure kernel where
  m_asserted : List expr
  m_core : List expr
  deriving DecidableEq

/-- `kernel::assert_expr`. -/
def kernel.assert_expr (k : kernel) (e : expr) : kernel :=
  { k with m_asserted := k.m_asserted ++ [e] }

/-- The interactions with the two kernels, in the order of the run (`is_ex` tells
the existential kernel from the universal one). -/
inductive kernel_event
  | assert_expr (is_ex : Bool) (e : expr)
  | check (is_ex : Bool) (level : Nat) (asms : List expr) (res : lbool)
  deriving DecidableEq

/-- Modelled from the spec: the external collaborators of the search loop: the MBP
plug-in (it returns the variables it leaves and the projected core) and the
functions `push_not` and `mk_and` of the AST utilities. -/
structure externals where
  mbp : Bool → List expr → model → List expr → List expr × List expr
  push_not : expr → expr
  mk_and : List expr → expr

/-- The state of the tactic `qsat`; `m_trace` is a ghost field that records the
interactions with the kernels, newest first. -/
structure qsat where
  m_num_rounds : Nat
  m_fa : kernel
  m_ex : kernel
  m_pred_abs : pred_abs
  m_answer : List expr
  m_asms : List expr
  m_vars : List (List expr)
  m_level : Nat
  m_model : Option model
  m_cancel : Bool
  m_qelim : Bool
  m_force_elim : Bool
  m_avars : List expr
  m_free_vars : List expr
  m_trace : List kernel_event

/-- `qsat::is_exists`. -/
def is_exists (level : Nat) : Bool := level % 2 == 0

/-- `qsat::get_kernel`. -/
def qsat.get_kernel (s : qsat) (j : Nat) : kernel :=
  if is_exists j then s.m_ex else s.m_fa

/-- `get_kernel(j).assert_expr(e)`, recorded in the trace. -/
def qsat.assert_at (s : qsat) (j : Nat) (e : expr) : qsat :=
  if is_exists j then
    { s with m_ex := s.m_ex.assert_expr e,
             m_trace := kernel_event.assert_expr true e :: s.m_trace }
  else
    { s with m_fa := s.m_fa.assert_expr e,
             m_trace := kernel_event.assert_expr false e :: s.m_trace }

/-- `qsat::push`. -/
def qsat.push (s : qsat) : qsat :=
  { s with m_level := s.m_level + 1, m_pred_abs := s.m_pred_abs.push }

/-- `qsat::pop`. -/
def qsat.pop (s : qsat) (num_scopes : Nat) : Option qsat :=
  if num_scopes ≤ s.m_level then
    match s.m_pred_abs.pop num_scopes with
    | none => none
    | some pa => some { s with m_model := none, m_pred_abs := pa,
                               m_level := s.m_level - num_scopes }
  else none

/-- `qsat::get_core`: the core of the kernel of the level, concretized with
`pred2lit`. -/
def qsat.get_core (s : qsat) (level : Nat) : Option (List expr) :=
  s.m_pred_abs.pred2lit (s.get_kernel level).m_core

/-- `qsat::get_vars`. -/
def qsat.get_vars (s : qsat) (level : Nat) : qsat :=
  { s with m_avars := (s.m_vars.drop level).flatten }

/-- `qsat::negate_core`. -/
def negate_core (ext : externals) (core : List expr) : expr :=
  ext.push_not (ext.mk_and core)

/-- `qsat::add_assumption`. -/
def qsat.add_assumption (s : qsat) (fml : expr) : qsat :=
  match s.m_pred_abs.fresh_bool with
  | (b, pa) =>
    { s with m_asms := s.m_asms ++ [b],
             m_ex := s.m_ex.assert_expr (mk_eq b fml),
             m_trace := kernel_event.assert_expr true (mk_eq b fml) :: s.m_trace,
             m_pred_abs := (pa.add_pred b fml).set_expr_level b max_level.unset }

/-- `qsat::project_qe`; the caller has checked that a model is saved. -/
def qsat.project_qe (ext : externals) (s : qsat) : Option qsat :=
  if s.m_level = 1 then
    match s.m_model with
    | none => none
    | some mdl =>
      match s.get_core s.m_level with
      | none => none
      | some core =>
        let s1 := s.get_vars s.m_level
        match ext.mbp s1.m_force_elim s1.m_avars mdl core with
        | (avars, core1) =>
          let fml := negate_core ext core1
          let s2 := qsat.add_assumption { s1 with m_avars := avars } fml
          let s3 := { s2 with m_answer := s2.m_answer ++ [fml],
                              m_free_vars := s2.m_free_vars ++ s2.m_avars }
          s3.pop 1
  else none

/-- `qsat::project`; the caller has checked that a model is saved.
`SASSERT(level.max() + 2 <= m_level)` does nothing in a release build: the difference
`m_level - level.max()` is computed whenever the first two cases do not apply, also
when it is 0 or 1. When `level.max()` exceeds `m_level` the unsigned difference wraps
around to `2^32 - (level.max() - m_level)`, more scopes than the `m_level` that are
open, for which `pop` has no result (see `qsat.pop`). -/
def qsat.project (ext : externals) (s : qsat) : Option qsat :=
  match s.get_core s.m_level with
  | none => none
  | some core =>
    if 2 ≤ s.m_level then
      match s.m_model with
      | none => none
      | some mdl =>
        let s1 := s.get_vars (s.m_level - 1)
        match ext.mbp s1.m_force_elim s1.m_avars mdl core with
        | (avars, core1) =>
          let s2 := { s1 with m_avars := avars, m_free_vars := s1.m_free_vars ++ avars }
          let fml := negate_core ext core1
          match s2.m_pred_abs.abstract_atoms fml max_level.unset [] with
          | none => none
          | some (pa, level, defs) =>
            let s3 := { s2 with
              m_pred_abs := pa
              m_ex := s2.m_ex.assert_expr (ext.mk_and defs)
              m_fa := s2.m_fa.assert_expr (ext.mk_and defs)
              m_trace := kernel_event.assert_expr false (ext.mk_and defs) ::
                kernel_event.assert_expr true (ext.mk_and defs) :: s2.m_trace }
            let num_scopes : Option Nat :=
              if level.max = UINT_MAX then some (2 * (s3.m_level / 2))
              else if s3.m_qelim && !s3.m_force_elim then some 2
              else if level.max ≤ s3.m_level then some (s3.m_level - level.max)
              else none
            match num_scopes with
            | none => none
            | some n =>
              match s3.pop n with
              | none => none
              | some s4 =>
                if s4.m_level = 0 ∧ s4.m_qelim = true then some (s4.add_assumption fml)
                else
                  match s4.m_pred_abs.mk_abstract fml with
                  | none => none
                  | some fml1 => some (s4.assert_at s4.m_level fml1)
    else none

/-- The kernel that plays at the current level keeps the unsat core of its check,
for `get_core`. -/
def qsat.set_core (s : qsat) (core : List expr) : qsat :=
  if is_exists s.m_level then { s with m_ex := { s.m_ex with m_core := core } }
  else { s with m_fa := { s.m_fa with m_core := core } }

/-- The end of one round of the loop of `check_sat`: the function returns, or the
loop goes on. -/
inductive round_end
  | returns (res : lbool) (s : qsat)
  | goes_on (s : qsat)

/-- One round of the `while (true)` loop of `qsat::check_sat`, for the answer `ans` of
the kernel; a raised cancellation (`check_cancel`) ends the run without a result. -/
def qsat.check_sat_round (ext : externals) (ans : kernel_answer) (s : qsat) :
    Option round_end :=
  let s0 := { s with m_num_rounds := s.m_num_rounds + 1 }
  if s0.m_cancel then none
  else
    match s0.m_pred_abs.get_assumptions s0.m_model s0.m_asms with
    | none => none
    | some (pa, asms) =>
      let s1 := { s0 with
        m_pred_abs := pa
        m_trace := kernel_event.check (is_exists s0.m_level) s0.m_level asms ans.res ::
          s0.m_trace }
      match ans with
      | .sat mdl => some (round_end.goes_on (qsat.push { s1 with m_model := some mdl }))
      | .unsat core =>
        let s2 := s1.set_core core
        match s2.m_level with
        | 0 => some (round_end.returns lbool.l_false s2)
        | 1 =>
          if !s2.m_qelim then some (round_end.returns lbool.l_true s2)
          else if s2.m_model.isSome then (s2.project_qe ext).map round_end.goes_on
          else (s2.pop 1).map round_end.goes_on
        | _ + 2 =>
          if s2.m_model.isSome then (s2.project ext).map round_end.goes_on
          else (s2.pop 1).map round_end.goes_on
      | .unknown => some (round_end.returns lbool.l_undef s1)

/-- `qsat::check_sat`, driven by the list of the answers of the kernels, one for
each round; the run has no result when the list ends before the function returns. -/
def qsat.check_sat (ext : externals) : List kernel_answer → qsat → Option (lbool × qsat)
  | [], _ => none
  | ans :: rest, s =>
    match s.check_sat_round ext ans with
    | none => none
    | some (round_end.returns res t) => some (res, t)
    | some (round_end.goes_on t) => qsat.check_sat ext rest t

/-- What one round of `check_sat` guarantees: when it returns, the check of this
round is the last interaction with a kernel and the result is the one the code gives
for the level and the answer; the mode flag is never changed. -/
def round_ok (s : qsat) (ans : kernel_answer) : round_end → Prop
  | round_end.goes_on t => t.m_qelim = s.m_qelim
  | round_end.returns res t =>
    t.m_qelim = s.m_qelim ∧
    ∃ asms, t.m_trace = kernel_event.check (is_exists s.m_level) s.m_level asms ans.res ::
        s.m_trace ∧
      (res = lbool.l_false → s.m_level = 0 ∧ ans.res = lbool.l_false) ∧
      (res = lbool.l_true → s.m_level = 1 ∧ ans.res = lbool.l_false ∧ s.m_qelim = false) ∧
      (res = lbool.l_undef → ans.res = lbool.l_undef)

/-- Sample input: external collaborators: a projection that leaves the variables
and the core as they are, `push_not` as a plain negation, and `mk_and` (true for no
formula, the formula itself for one, the conjunction otherwise). -/
def sample_ext : externals :=
  { mbp := fun _ vars _ core => (vars, core),
    push_not := mk_not,
    mk_and := fun l =>
      match l with
      | [] => mk_true
      | [a] => a
      | _ => .app ⟨symbol.named 5, family_id.basic_family_id, decl_kind.OP_AND,
          expr_sort.bool_sort⟩ l }

/-- Sample input: the matrix `p ∨ q` over two free boolean constants. -/
def sample_matrix : expr :=
  .app ⟨symbol.named 6, family_id.basic_family_id, decl_kind.OP_OR, expr_sort.bool_sort⟩
    [sample_p, sample_q]

/-- Sample input: the predicate abstraction of the matrix `p ∨ q`, both constants at
level 0. -/
def sample_matrix_abs : pred_abs × List expr :=
  ((((pred_abs.init 0).set_expr_level sample_p ⟨0, UINT_MAX⟩).set_expr_level sample_q
    ⟨0, UINT_MAX⟩).abstract_atoms_top sample_matrix []).getD (pred_abs.init 0, [])

/-- Sample input: the state of the `qe2` variant (`qelim` and `force_elim` set) at
level 0 before the search, for the matrix `p ∨ q` with the free variables `p`, `q`:
the existential kernel holds the matrix, the universal kernel its negation. -/
def sample_qsat : qsat :=
  { m_num_rounds := 0,
    m_fa := ⟨[sample_ext.mk_and [], mk_not sample_matrix], []⟩,
    m_ex := ⟨[sample_ext.mk_and [], sample_matrix], []⟩,
    m_pred_abs := sample_matrix_abs.1,
    m_answer := [], m_asms := [], m_vars := [[sample_p, sample_q], [], []], m_level := 0,
    m_model := none, m_cancel := false, m_qelim := true, m_force_elim := true,
    m_avars := [], m_free_vars := [], m_trace := [] }

/-- Sample input: a model with `p` true and `q` false (and every other constant
true). -/
def sample_model_p : model :=
  ⟨fun e => if e = sample_q then some mk_false else some mk_true⟩

/-- Sample input: a model with `q` true and `p` false (and every other constant
true). -/
def sample_model_q : model :=
  ⟨fun e => if e = sample_p then some mk_false else some mk_true⟩

/-- Sample input: the answers of the kernels in the run on `p ∨ q`: the existential
kernel finds `p`; the universal kernel refutes it with core `p` (so `project_qe`
learns the lemma `¬p`); the existential kernel finds `q`; the universal kernel
refutes it with core `q` (lemma `¬q`); the existential kernel has no model left. -/
def sample_script : List kernel_answer :=
  [.sat sample_model_p, .unsat [sample_p], .sat sample_model_q, .unsat [sample_q],
   .unsat [fresh_const 0, fresh_const 1]]

/-- Sample input: the result of the sample run. -/
def sample_run : lbool × qsat :=
  (qsat.check_sat sample_ext sample_script sample_qsat).getD (lbool.l_true, sample_qsat)

/-- The arguments without a recorded level. -/
def unlevelled_args (elevel : obj_map expr max_level) (fs : List expr) : List expr :=
  fs.filter (fun f => (elevel.find f).isNone)

/-- One map of levels extends another when it keeps every entry. -/
def elevel_le (e1 e2 : obj_map expr max_level) : Prop :=
  ∀ t v, e1.find t = some v → e2.find t = some v

/-- What the loop of `compute_level` does to an expression `e` on top of the
worklist: within `2 * e.size` rounds it pops `e`, leaving a larger map in which `e`
has a level. -/
def level_runs (flevel : obj_map func_decl max_level) (e : expr) : Prop :=
  ∀ (elevel : obj_map expr max_level) (todo : List expr),
    ∃ (n : Nat) (elevel1 : obj_map expr max_level), n ≤ 2 * e.size ∧
      elevel_le elevel elevel1 ∧ elevel1.contains e = true ∧
      ∀ k, compute_level_loop flevel (n + k) (e :: todo) elevel
        = compute_level_loop flevel k todo elevel1

mutual
/-- The number of rounds the loop of `abstract_atoms` can still spend on an
expression: one for a marked one, and one more than for its arguments otherwise. -/
def mark_weight (mark : List expr) : expr → Nat
  | .app d args => if expr.app d args ∈ mark then 1 else 1 + mark_weight_list mark args
  | .var _ _ => 1
  | .quantifier _ _ => 1
/-- The number of rounds the loop of `abstract_atoms` can still spend on a worklist. -/
def mark_weight_list (mark : List expr) : List expr → Nat
  | [] => 0
  | a :: as => mark_weight mark a + mark_weight_list mark as
end

/-- Sample input: the state after construction with the level of the symbol of `x`
seeded through `set_decl_level`. -/
def sample_decl_seeded : pred_abs :=
  (pred_abs.init 0).set_decl_level sample_x_decl ⟨UINT_MAX, 1⟩

/-- The number of scopes `project` pops (`num_scopes`), computed in the state `s` in
which `project` runs from the joint level `level` of the lemma. In the last case
`SASSERT(level.max() + 2 <= m_level)` does nothing in a release build and the
difference `m_level - level.max()` is computed regardless, also when it is 0 or 1;
when `level.max()` exceeds `m_level` the unsigned difference wraps around to
`2^32 - (level.max() - m_level)`, more scopes than the `m_level` that are open, for
which `pop` has no result (see `qsat.pop`). -/
def qsat.num_scopes (s : qsat) (level : max_level) : Option Nat :=
  if level.max = UINT_MAX then some (2 * (s.m_level / 2))
  else if s.m_qelim && !s.m_force_elim then some 2
  else if level.max ≤ s.m_level then some (s.m_level - level.max)
  else none

/-- The search level and the scopes of `pred_abs` are in step: one snapshot per
level, none above the size of the assumption stack. -/
def qsat.in_step (s : qsat) : Prop :=
  s.m_pred_abs.m_asms_lim.length = s.m_level ∧
  ∀ x ∈ s.m_pred_abs.m_asms_lim, x ≤ s.m_pred_abs.m_asms.length

/-- The variables of the blocks from `level` on, as `get_vars(level)` collects them. -/
def qsat.block_vars (s : qsat) (level : Nat) : List expr :=
  (s.m_vars.drop level).flatten

/-- The lemma of a projection from the blocks `level` on: the negation of the core
as the MBP plug-in projected it. -/
def qsat.lemma_of (ext : externals) (s : qsat) (level : Nat) (mdl : model)
    (core : List expr) : expr :=
  negate_core ext (ext.mbp s.m_force_elim (s.block_vars level) mdl core).2

/-- The lemma of `project_qe` in the words of the specification: the core of the
universal kernel, concretized with `pred2lit`, is projected by MBP over the variables
of the blocks from 1 on, and the lemma is the negation (`push_not`) of the conjunction
(`mk_and`) of the projected core. -/
def qsat.projected_negation (ext : externals) (s : qsat) (mdl : model) : expr :=
  ext.push_not (ext.mk_and
    (ext.mbp s.m_force_elim (s.m_vars.drop 1).flatten mdl
      (s.m_fa.m_core.map (rewrite_spec s.m_pred_abs.m_pred2lit))).2)

/-- The state in which `project` calls `pop`: the variables MBP left are in `m_avars`
and appended to `m_free_vars`, the atoms of the lemma are abstracted (`pa`), and the
conjunction of the definitions `defs` is asserted to both kernels. -/
def qsat.before_pop (ext : externals) (s : qsat) (mdl : model) (core : List expr)
    (pa : pred_abs) (defs : List expr) : qsat :=
  let avars := (ext.mbp s.m_force_elim (s.block_vars (s.m_level - 1)) mdl core).1
  { s with
    m_avars := avars
    m_free_vars := s.m_free_vars ++ avars
    m_pred_abs := pa
    m_ex := s.m_ex.assert_expr (ext.mk_and defs)
    m_fa := s.m_fa.assert_expr (ext.mk_and defs)
    m_trace := kernel_event.assert_expr false (ext.mk_and defs) ::
      kernel_event.assert_expr true (ext.mk_and defs) :: s.m_trace }

/-- The state in which a round of `check_sat` handles the answer unsat with the core
`core`: the round is counted, the assumptions are computed, the check is recorded and
the kernel keeps the core. -/
def qsat.enter_unsat (s : qsat) (core : List expr) : Option qsat :=
  let s0 := { s with m_num_rounds := s.m_num_rounds + 1 }
  if s0.m_cancel then none
  else
    match s0.m_pred_abs.get_assumptions s0.m_model s0.m_asms with
    | none => none
    | some (pa, asms) =>
      some (qsat.set_core { s0 with
        m_pred_abs := pa
        m_trace := kernel_event.check (is_exists s0.m_level) s0.m_level asms lbool.l_false ::
          s0.m_trace } core)

/-- The state after the rounds of `check_sat` for the answers of the list, when none
of these rounds returns. -/
def qsat.rounds (ext : externals) : List kernel_answer → qsat → Option qsat
  | [], s => some s
  | ans :: rest, s =>
    match s.check_sat_round ext ans with
    | some (round_end.goes_on t) => qsat.rounds ext rest t
    | _ => none

/-- The part of the state that `abstract_atoms` leaves alone: the assumption stack
with its snapshots, the two assumption maps and the levels of the symbols. -/
def pred_abs.same_scopes (s t : pred_abs) : Prop :=
  t.m_asms = s.m_asms ∧ t.m_asms_lim = s.m_asms_lim ∧ t.m_asm2pred = s.m_asm2pred ∧
  t.m_pred2asm = s.m_pred2asm ∧ t.m_flevel = s.m_flevel

/-- Sample input: the boolean constants `x`, `y`, `z`, `w` of the quantifier blocks
0, 1, 2, 3. -/
def sample_bx : expr := sample_const 21 expr_sort.bool_sort

/-- Sample input: the boolean constant `y`. -/
def sample_by : expr := sample_const 22 expr_sort.bool_sort

/-- Sample input: the boolean constant `z`. -/
def sample_bz : expr := sample_const 23 expr_sort.bool_sort

/-- Sample input: the boolean constant `w`. -/
def sample_bw : expr := sample_const 24 expr_sort.bool_sort

/-- Sample input: the disjunction of the formulas of a list. -/
def sample_or (l : List expr) : expr :=
  .app ⟨symbol.named 6, family_id.basic_family_id, decl_kind.OP_OR, expr_sort.bool_sort⟩ l

/-- Sample input: external collaborators with a projection for cores of boolean
literals: it drops the literals over the variables to eliminate and leaves no
variable; `push_not` and `mk_and` as in `sample_ext`. -/
def sample_mbp : externals :=
  { mbp := fun _ vars _ core =>
      ([], core.filter (fun l => vars.all (fun v => decide (l ≠ v) && decide (l ≠ mk_not v)))),
    push_not := mk_not,
    mk_and := sample_ext.mk_and }

/-- Sample input: a model that makes the constants of the list true and every other
constant false. -/
def sample_model_of (trues : List expr) : model :=
  ⟨fun e => if e ∈ trues then some mk_true else some mk_false⟩

/-- Sample input: the matrix `¬(x ∧ (y ∨ z))` of the negation of
`∃y ∀z. x ∧ (y ∨ z)`, over the blocks `[x]`, `[y]`, `[z]`. -/
def sample_elim_matrix : expr :=
  mk_not (sample_and sample_bx (sample_or [sample_by, sample_bz]))

/-- Sample input: the predicate abstraction of `sample_elim_matrix`, with the levels
of `x` (block 0), `y` (block 1) and `z` (block 2) set. -/
def sample_elim_abs : pred_abs × List expr :=
  (((((pred_abs.init 0).set_expr_level sample_bx ⟨0, UINT_MAX⟩).set_expr_level sample_by
    ⟨UINT_MAX, 1⟩).set_expr_level sample_bz ⟨2, UINT_MAX⟩).abstract_atoms_top
      sample_elim_matrix []).getD (pred_abs.init 0, [])

/-- Sample input: the state of the `qe2` variant at level 0 before the search for the
input `∃y ∀z. x ∧ (y ∨ z)`: the existential kernel holds the matrix of the negation,
the universal kernel the negation of that matrix. -/
def sample_elim_qsat : qsat :=
  { m_num_rounds := 0,
    m_fa := ⟨[sample_mbp.mk_and [], mk_not sample_elim_matrix], []⟩,
    m_ex := ⟨[sample_mbp.mk_and [], sample_elim_matrix], []⟩,
    m_pred_abs := sample_elim_abs.1,
    m_answer := [], m_asms := [],
    m_vars := [[sample_bx], [sample_by], [sample_bz], []], m_level := 0,
    m_model := none, m_cancel := false, m_qelim := true, m_force_elim := true,
    m_avars := [], m_free_vars := [], m_trace := [] }

/-- Sample input: the state in which `project` runs at level 2 in the run on
`sample_elim_qsat`: the existential kernel found `x` (level 0), the universal kernel
answered with `y` (level 1), and the existential kernel is unsat with the core
`x, y` (level 2). -/
def sample_elim_level2 : qsat :=
  ((qsat.rounds sample_mbp [.sat (sample_model_of [sample_bx]),
      .sat (sample_model_of [sample_bx, sample_by])] sample_elim_qsat).bind
    (fun s => s.enter_unsat [sample_bx, sample_by])).getD sample_elim_qsat

/-- Sample input: the state `project` leaves from `sample_elim_level2`. -/
def sample_elim_projected : qsat :=
  (sample_elim_level2.project sample_mbp).getD sample_elim_qsat

/-- Sample input: the matrix `x ∨ y ∨ z ∨ w` of `∃x ∀y ∃z ∀w. x ∨ y ∨ z ∨ w`. -/
def sample_alt_matrix : expr :=
  sample_or [sample_bx, sample_by, sample_bz, sample_bw]

/-- Sample input: the predicate abstraction of `sample_alt_matrix`, with the levels
of `x`, `y`, `z`, `w` (blocks 0 to 3) set. -/
def sample_alt_abs : pred_abs × List expr :=
  ((((((pred_abs.init 0).set_expr_level sample_bx ⟨0, UINT_MAX⟩).set_expr_level sample_by
    ⟨UINT_MAX, 1⟩).set_expr_level sample_bz ⟨2, UINT_MAX⟩).set_expr_level sample_bw
    ⟨UINT_MAX, 3⟩).abstract_atoms_top sample_alt_matrix []).getD (pred_abs.init 0, [])

/-- Sample input: the state of the `qsat` variant at level 0 before the search for
`∃x ∀y ∃z ∀w. x ∨ y ∨ z ∨ w`. -/
def sample_alt_qsat : qsat :=
  { m_num_rounds := 0,
    m_fa := ⟨[sample_mbp.mk_and [], mk_not sample_alt_matrix], []⟩,
    m_ex := ⟨[sample_mbp.mk_and [], sample_alt_matrix], []⟩,
    m_pred_abs := sample_alt_abs.1,
    m_answer := [], m_asms := [],
    m_vars := [[sample_bx], [sample_by], [sample_bz], [sample_bw], []], m_level := 0,
    m_model := none, m_cancel := false, m_qelim := false, m_force_elim := true,
    m_avars := [], m_free_vars := [], m_trace := [] }

/-- Sample input: the state in which `project` runs at level 3 in the run on
`sample_alt_qsat`: the existential kernel found `w` (level 0), the universal kernel
made every constant false (level 1), the existential kernel answered with `z`
(level 2), and the universal kernel is unsat with the core `z` (level 3). -/
def sample_alt_level3 : qsat :=
  ((qsat.rounds sample_mbp [.sat (sample_model_of [sample_bw]), .sat (sample_model_of []),
      .sat (sample_model_of [sample_bz])] sample_alt_qsat).bind
    (fun s => s.enter_unsat [sample_bz])).getD sample_alt_qsat

/-- Sample input: the state `project` leaves from `sample_alt_level3`. -/
def sample_alt_projected : qsat :=
  (sample_alt_level3.project sample_mbp).getD sample_alt_qsat

/-- Sample input: the state in which `project_qe` runs at level 1 in the run of the
`qe2` variant on `p ∨ q`: the existential kernel found `p` (level 0), and the
universal kernel is unsat with the core `p` (level 1). -/
def sample_level1 : qsat :=
  ((qsat.rounds sample_ext [.sat sample_model_p] sample_qsat).bind
    (fun s => s.enter_unsat [sample_p])).getD sample_qsat

/-- Modelled from the spec: `model::register_decl(p->get_decl(), v)` for the constant
`p`: the model then evaluates `p` to `v`. -/
def model.register_decl (mdl : model) (p v : expr) : model :=
  ⟨fun e => if e = p then some v else mdl.eval e⟩

/-- `pred_abs::pred2asm`: the formula concretized with `m_pred2asm`; `mk_and` is the
function of the AST utilities. -/
def pred_abs.pred2asm (ext : externals) (s : pred_abs) (fml : expr) : Option expr :=
  match mk_concrete [fml] s.m_pred2asm with
  | none => none
  | some fmls => some (ext.mk_and fmls)

/-- `pred_abs::mk_assumption_literal`: the literal `q`, the new state, the model
after `register_decl`, and the extended `defs`. -/
def pred_abs.mk_assumption_literal (ext : externals) (s : pred_abs) (a : expr)
    (mdl : Option model) (lvl : max_level) (defs : List expr) :
    Option (expr × pred_abs × Option model × List expr) :=
  match s.pred2asm ext a with
  | none => none
  | some a =>
    match s.m_asm2pred.find a with
    | some b => some (b, s, mdl, defs)
    | none =>
      match (is_not a).bind s.m_asm2pred.find with
      | some b => some (mk_not b, s, mdl, defs)
      | none =>
        if (s.m_pred2asm.find a).isSome then some (a, s, mdl, defs)
        else if ((is_not a).bind s.m_pred2asm.find).isSome then some (a, s, mdl, defs)
        else
          match s.fresh_bool with
          | (p, s1) =>
            let a1 := (is_not a).getD a
            let q := if (is_not a).isSome then mk_not p else p
            let mdl1 := mdl.map (fun md =>
              md.register_decl p (if (is_not a).isSome then mk_false else mk_true))
            let s2 := pred_abs.insert { s1 with m_elevel := s1.m_elevel.insert p lvl } p lvl
            match s2.abstract_atoms a1 max_level.unset defs with
            | none => none
            | some (s3, _, defs1) =>
              match s3.mk_abstract a1 with
              | none => none
              | some fml =>
                match s3.add_asm p a1 with
                | none => none
                | some s4 => some (q, s4, mdl1, defs1 ++ [mk_eq p fml])

/-- The invariant of the assumption maps that `mk_assumption_literal` keeps: every
key of `pred2asm` is a proxy minted below the manager's counter. -/
def pred_abs.asm_wf (s : pred_abs) : Prop :=
  ∀ k v, s.m_pred2asm.find k = some v → ∃ i, k = fresh_const i ∧ i < s.m_fresh_id

/-- The assumption maps of `t` extend those of `s`: the counter has not gone back,
every entry of `asm2pred` is kept, and `pred2asm` differs only at proxies minted from
the counter of `s` on. -/
def pred_abs.asm_ext (s t : pred_abs) : Prop :=
  s.m_fresh_id ≤ t.m_fresh_id ∧
  (∀ k v, s.m_asm2pred.find k = some v → t.m_asm2pred.find k = some v) ∧
  (∀ k, t.m_pred2asm.find k = s.m_pred2asm.find k ∨ ∃ i, k = fresh_const i ∧ s.m_fresh_id ≤ i)

/-- The states later than `s`: reached from `s` by calls of `mk_assumption_literal`,
`abstract_atoms`, `set_expr_level`, `push`, `pop` and `get_assumptions` that return. -/
inductive pred_abs.asm_later (ext : externals) (s : pred_abs) : pred_abs → Prop
  | refl : pred_abs.asm_later ext s s
  | set_expr_level (t : pred_abs) (v : expr) (lvl : max_level) :
      pred_abs.asm_later ext s t → pred_abs.asm_later ext s (t.set_expr_level v lvl)
  | push (t : pred_abs) : pred_abs.asm_later ext s t → pred_abs.asm_later ext s t.push
  | pop (t u : pred_abs) (n : Nat) :
      pred_abs.asm_later ext s t → t.pop n = some u → pred_abs.asm_later ext s u
  | get_assumptions (t : pred_abs) (mdl : Option model) (asms : List expr)
      (r : pred_abs × List expr) :
      pred_abs.asm_later ext s t → t.get_assumptions mdl asms = some r →
      pred_abs.asm_later ext s r.1
  | mk_assumption_literal (t : pred_abs) (a : expr) (mdl : Option model) (lvl : max_level)
      (defs : List expr) (r : expr × pred_abs × Option model × List expr) :
      pred_abs.asm_later ext s t → t.mk_assumption_literal ext a mdl lvl defs = some r →
      pred_abs.asm_later ext s r.2.1
  | abstract_atoms (t : pred_abs) (fml : expr) (level : max_level) (defs : List expr)
      (r : pred_abs × max_level × List expr) :
      pred_abs.asm_later ext s t → t.abstract_atoms fml level defs = some r →
      pred_abs.asm_later ext s r.1

/-- Sample input: the state after construction with the level of the boolean
constant `u` set. -/
def sample_asm_seeded : pred_abs :=
  (pred_abs.init 0).set_expr_level sample_u ⟨0, UINT_MAX⟩

/-- Sample input: the result of `mk_assumption_literal` for `u` in
`sample_asm_seeded`, without a model. -/
def sample_asm_u : expr × pred_abs × Option model × List expr :=
  (sample_asm_seeded.mk_assumption_literal sample_ext sample_u none ⟨0, UINT_MAX⟩ []).getD
    (sample_u, sample_asm_seeded, none, [])

/-- Sample input: the state after `mk_assumption_literal` was called for `¬¬u`
and then for `u`, without a model. -/
def sample_asm_twice : pred_abs :=
  (((sample_asm_seeded.mk_assumption_literal sample_ext (mk_not (mk_not sample_u)) none
      ⟨0, UINT_MAX⟩ []).bind
    (fun r => r.2.1.mk_assumption_literal sample_ext sample_u none ⟨0, UINT_MAX⟩ r.2.2.2)).map
    (fun r => r.2.1)).getD sample_asm_seeded

/-- Sample input: the state after `mk_assumption_literal` was called for `¬u`
and then for `¬¬u`, without a model. -/
def sample_asm_neg_twice : pred_abs :=
  (((sample_asm_seeded.mk_assumption_literal sample_ext (mk_not sample_u) none
      ⟨0, UINT_MAX⟩ []).bind
    (fun r => r.2.1.mk_assumption_literal sample_ext (mk_not (mk_not sample_u)) none
      ⟨0, UINT_MAX⟩ r.2.2.2)).map
    (fun r => r.2.1)).getD sample_asm_seeded

/-- Sample input: the state after `mk_assumption_literal` was called for `¬¬u` in
`sample_asm_seeded`, without a model. -/
def sample_asm_dneg : pred_abs :=
  ((sample_asm_seeded.mk_assumption_literal sample_ext (mk_not (mk_not sample_u)) none
      ⟨0, UINT_MAX⟩ []).map (fun r => r.2.1)).getD sample_asm_seeded

/-- Sample input: the state after `mk_assumption_literal` was called for `¬u` in
`sample_asm_seeded`, without a model. -/
def sample_asm_neg : pred_abs :=
  ((sample_asm_seeded.mk_assumption_literal sample_ext (mk_not sample_u) none
      ⟨0, UINT_MAX⟩ []).map (fun r => r.2.1)).getD sample_asm_seeded

/-- Modelled from the spec: `is_var`. -/
def is_var : expr → Bool
  | .var _ _ => true
  | _ => false

/-- The `while` loop of `get_free_vars` on the part of `todo` above `sz0`; the
arguments of an application are pushed in order, so the last one is on top. -/
def get_free_vars_loop : Nat → List expr → List expr → List expr → Option (List expr)
  | 0, _, _, _ => none
  | _ + 1, [], _, vars => some vars
  | n + 1, e :: todo, mark, vars =>
    if e ∈ mark ∨ is_var e = true then get_free_vars_loop n todo mark vars
    else
      match e with
      | .quantifier _ body => get_free_vars_loop n (body :: todo) (e :: mark) vars
      | .app _ args =>
        get_free_vars_loop n (args.reverse ++ todo) (e :: mark)
          (if is_uninterp_const e then vars ++ [e] else vars)
      | .var _ _ => get_free_vars_loop n todo mark vars

/-- `pred_abs::get_free_vars`: the vector `vars` with the constants appended. -/
def get_free_vars (fml : expr) (vars : List expr) : Option (List expr) :=
  get_free_vars_loop (fml.size + 1) [fml] [] vars

/-- `kernel::k().reset()`: the kernel forgets its assertions and its core. -/
def kernel.reset (_k : kernel) : kernel := ⟨[], []⟩

/-- `qsat::reset` (statistics are not modelled; the trace restarts with the
kernels). -/
def qsat.reset (s : qsat) : qsat :=
  { s with
    m_level := 0
    m_answer := []
    m_asms := []
    m_pred_abs := s.m_pred_abs.reset
    m_vars := []
    m_model := none
    m_fa := s.m_fa.reset
    m_ex := s.m_ex.reset
    m_cancel := false
    m_free_vars := []
    m_trace := [] }

/-- The inner loop of `initialize_levels`: the level of every variable of a block. -/
def initialize_levels_block (lvl : max_level) : List expr → pred_abs → pred_abs
  | [], pa => pa
  | v :: rest, pa => initialize_levels_block lvl rest (pa.set_expr_level v lvl)

/-- The outer loop of `initialize_levels`, from block `i` on. -/
def initialize_levels_loop : Nat → List (List expr) → pred_abs → pred_abs
  | _, [], pa => pa
  | i, vars :: rest, pa =>
    initialize_levels_loop (i + 1) rest
      (initialize_levels_block
        (if is_exists i then ⟨i, UINT_MAX⟩ else ⟨UINT_MAX, i⟩) vars pa)

/-- `qsat::initialize_levels`. -/
def qsat.initialize_levels (s : qsat) : qsat :=
  { s with m_pred_abs := initialize_levels_loop 0 s.m_vars s.m_pred_abs }

/-- Modelled from the spec: the external collaborators of the tactic entry. The
hoister's `pull_quantifier(is_forall, fml, vars)` and `extract_vars(q, body, vars)`
mint the constants they return from the manager's counter, which they are given and
give back; `mk_exists` closes a formula over constants; `ex_failure` and `fa_failure`
are what `last_failure_as_string` of the two kernels returns after the run. -/
structure collaborators where
  pull_quantifier : Nat → Bool → expr → expr × List expr × Nat
  extract_vars : Nat → expr → expr × List expr × Nat
  mk_exists : List expr → expr → expr
  ex_failure : String
  fa_failure : String

/-- The `do ... while (!vars.empty())` loop of `hoist`; a hoister that pulls a
non-empty block removes a quantifier, so `fml.size + 1` rounds are allowed. -/
def hoist_loop (tx : collaborators) : Nat → Bool → expr → qsat → Option (expr × qsat)
  | 0, _, _, _ => none
  | n + 1, is_forall, fml, s =>
    match tx.pull_quantifier s.m_pred_abs.m_fresh_id (!is_forall) fml with
    | (fml1, vars, ctr) =>
      let s1 := { s with m_vars := s.m_vars ++ [vars],
                         m_pred_abs := { s.m_pred_abs with m_fresh_id := ctr } }
      if vars.isEmpty then some (fml1, s1) else hoist_loop tx n (!is_forall) fml1 s1

/-- `qsat::hoist`: the matrix and the state with the blocks of variables and their
levels. -/
def qsat.hoist (tx : collaborators) (s : qsat) (fml : expr) : Option (expr × qsat) :=
  match get_free_vars fml [] with
  | none => none
  | some vars =>
    let s1 := { s with m_vars := s.m_vars ++ [vars] }
    let r :=
      if s1.m_qelim then
        match tx.pull_quantifier s1.m_pred_abs.m_fresh_id true fml with
        | (fml1, vars1, ctr) =>
          (true, fml1,
            { s1 with m_vars := s1.m_vars ++ [vars1],
                      m_pred_abs := { s1.m_pred_abs with m_fresh_id := ctr } })
      else
        match tx.pull_quantifier s1.m_pred_abs.m_fresh_id false fml with
        | (fml1, vars1, ctr) =>
          (false, fml1,
            { s1 with m_vars := s1.m_vars.dropLast ++ [s1.m_vars.getLastD [] ++ vars1],
                      m_pred_abs := { s1.m_pred_abs with m_fresh_id := ctr } })
    match hoist_loop tx (r.2.1.size + 1) r.1 r.2.1 r.2.2 with
    | none => none
    | some (fml2, s2) => some (fml2, s2.initialize_levels)

/-- The loop of `elim` that removes duplicates from `m_free_vars`. The vector is
split at the index `i`: `pre` holds the positions below `i`, which are exactly the
elements of the hash table `vars`, and the second list the positions from `i` on; a
duplicate at position `i` is overwritten with the last element, which is popped. -/
def elim_dedup_loop : Nat → List expr → List expr → Option (List expr)
  | 0, _, _ => none
  | _ + 1, pre, [] => some pre
  | n + 1, pre, v :: post =>
    if v ∈ pre then
      match post.getLast? with
      | none => elim_dedup_loop n pre []
      | some l => elim_dedup_loop n pre (l :: post.dropLast)
    else elim_dedup_loop n (pre ++ [v]) post

/-- The vector `m_free_vars` after the loop of `elim` that removes duplicates. -/
def elim_dedup (free_vars : List expr) : Option (List expr) :=
  elim_dedup_loop (free_vars.length + 1) [] free_vars

/-- The four assertions that set up the kernels: the definitions to both, the
abstracted formula to the existential kernel and its negation to the universal one. -/
def qsat.assert_matrix (ext : externals) (s : qsat) (defs : List expr) (fml : expr) : qsat :=
  qsat.assert_at (qsat.assert_at (qsat.assert_at (qsat.assert_at s 0 (ext.mk_and defs)) 1
    (ext.mk_and defs)) 0 fml) 1 (mk_not fml)

/-- The part of `qsat::elim` before the call of `check_sat`: the state with the two
blocks `[]`, `vars` and the kernels set up for the negation of the formula. -/
def qsat.elim_prepare (ext : externals) (s : qsat) (vars : List expr) (_fml : expr) :
    Option qsat :=
  let s1 := qsat.initialize_levels { s.reset with m_vars := [[], vars] }
  let fml := ext.push_not _fml
  match s1.m_pred_abs.abstract_atoms_top fml [] with
  | none => none
  | some (pa, defs) =>
    match pa.mk_abstract fml with
    | none => none
    | some fml1 => some (qsat.assert_matrix ext { s1 with m_pred_abs := pa } defs fml1)

/-- `qsat::elim`, driven by the answers `script` of the kernels: the formula it
returns and the state it leaves. -/
def qsat.elim (ext : externals) (tx : collaborators) (script : List kernel_answer) (s : qsat)
    (vars : List expr) (_fml : expr) : Option (expr × qsat) :=
  match s.elim_prepare ext vars _fml with
  | none => none
  | some s1 =>
    match qsat.check_sat ext script s1 with
    | none => none
    | some (is_sat, t) =>
      if is_sat = lbool.l_false then
        match elim_dedup t.m_free_vars with
        | none => none
        | some free_vars =>
          some (tx.mk_exists free_vars (ext.mk_and t.m_answer),
                { t with m_free_vars := free_vars })
      else some (_fml, t)

/-- The `while` loop of `qsat::elim_rec`, with the recursive call for the body of a
quantifier; every call of `elim` takes the next list of kernel answers from
`scripts`. A raised cancellation ends the run without a result. -/
def elim_rec_loop (ext : externals) (tx : collaborators) :
    Nat → List (List kernel_answer) → qsat → List expr → obj_map expr expr →
    Option (obj_map expr expr × qsat × List (List kernel_answer))
  | 0, _, _, _, _ => none
  | _ + 1, scripts, s, [], visited => some (visited, s, scripts)
  | n + 1, scripts, s, e :: todo, visited =>
    if s.m_cancel then none
    else if visited.contains e then elim_rec_loop ext tx n scripts s todo visited
    else
      match e with
      | .app d as =>
        match rewrite_args visited as [] false (e :: todo) with
        | (args, _, todo1) =>
          if args.length = as.length then
            elim_rec_loop ext tx n scripts s todo1.tail (visited.insert e (expr.app d args))
          else elim_rec_loop ext tx n scripts s todo1 visited
      | .quantifier is_fa _ =>
        match tx.extract_vars s.m_pred_abs.m_fresh_id e with
        | (tmp, vars, ctr) =>
          match elim_rec_loop ext tx n scripts
              { s with m_pred_abs := { s.m_pred_abs with m_fresh_id := ctr } } [tmp]
              obj_map.empty with
          | none => none
          | some (visited1, s1, scripts1) =>
            match visited1.find tmp, scripts1 with
            | some tmp1, script :: scripts2 =>
              match qsat.elim ext tx script s1 vars
                  (if is_fa then ext.push_not tmp1 else tmp1) with
              | none => none
              | some (tmp2, s2) =>
                elim_rec_loop ext tx n scripts2 s2 todo
                  (visited.insert e (if is_fa then ext.push_not tmp2 else tmp2))
            | _, _ => none
      | .var _ _ => none

/-- `qsat::elim_rec`: the formula with its quantifiers eliminated, the state and the
lists of kernel answers that are left. -/
def qsat.elim_rec (ext : externals) (tx : collaborators) (scripts : List (List kernel_answer))
    (s : qsat) (fml : expr) : Option (expr × qsat × List (List kernel_answer)) :=
  match elim_rec_loop ext tx (2 * fml.size + 1) scripts s [fml] obj_map.empty with
  | none => none
  | some (visited, t, rest) =>
    match visited.find fml with
    | none => none
    | some e => some (e, t, rest)

/-- Modelled from the spec: a goal of the tactic framework: its formulas, its depth,
and whether models, proofs and unsat cores are enabled for it. `assert_expr` is
modelled as recording the formula it is given. -/
structure goal where
  m_forms : List expr
  m_depth : Nat
  m_models_enabled : Bool
  m_proofs_enabled : Bool
  m_cores_enabled : Bool

/-- What a call of the tactic leaves in its output parameters: the goals of `result`,
the model converter `mc` (the symbols of the filter model converter and the model),
the proof converter `pc`, the dependency `core`, and the message of the
`tactic_exception` it threw, if it threw one. -/
structure goal_result where
  result : List goal
  mc : Option (List func_decl × Option model)
  pc : Option Unit
  core : Option (List expr)
  failure : Option String

/-- The end of `qsat::operator()` after `check_sat` returned `is_sat` in state `t`. -/
def qsat.finish (tx : collaborators) (ext : externals) (g : goal) (is_sat : lbool)
    (t : qsat) : goal_result :=
  match is_sat with
  | lbool.l_false =>
    ⟨[{ g with m_forms := [if t.m_qelim then ext.mk_and t.m_answer else mk_false],
               m_depth := g.m_depth + 1 }], none, none, none, none⟩
  | lbool.l_true =>
    ⟨[{ g with m_forms := [], m_depth := g.m_depth + 1 }],
      if g.m_models_enabled then some (t.m_pred_abs.m_fmc, t.m_model) else none,
      none, none, none⟩
  | lbool.l_undef =>
    ⟨[g], none, none, none,
      some (if tx.ex_failure = "ok" then tx.fa_failure else tx.ex_failure)⟩

/-- The part of `qsat::operator()` between the test of `m_force_elim` and the call of
`check_sat`: the state with the kernels set up for the search. -/
def qsat.prepare (ext : externals) (tx : collaborators) (s : qsat) (fml : expr) :
    Option qsat :=
  let s1 := s.reset
  match s1.hoist tx (if s1.m_qelim then ext.push_not fml else fml) with
  | none => none
  | some (fml1, s2) =>
    match s2.m_pred_abs.abstract_atoms_top fml1 [] with
    | none => none
    | some (pa, defs) =>
      match pa.mk_abstract fml1 with
      | none => none
      | some fml2 => some (qsat.assert_matrix ext { s2 with m_pred_abs := pa } defs fml2)

/-- `qsat::operator()`, the tactic entry, driven by the lists of kernel answers
`scripts` (one list for each run of the search loop): what it leaves in its output
parameters, and the state. -/
def qsat.operator (ext : externals) (tx : collaborators) (scripts : List (List kernel_answer))
    (s : qsat) (g : goal) : Option (goal_result × qsat) :=
  let fml := ext.mk_and g.m_forms
  if !s.m_force_elim then
    match s.elim_rec ext tx scripts fml with
    | none => none
    | some (fml1, t, _) =>
      some (⟨[{ g with m_forms := [fml1], m_depth := g.m_depth + 1 }], none, none, none, none⟩,
            t)
  else
    match s.prepare ext tx fml with
    | none => none
    | some s1 =>
      match qsat.check_sat ext (scripts.headD []) s1 with
      | none => none
      | some (is_sat, t) => some (qsat.finish tx ext g is_sat t, t)

mutual
/-- Sample input: the expression with every occurrence of `x` replaced by `y`. -/
def sample_replace (x y : expr) : expr → expr
  | .app d args => if expr.app d args = x then y else .app d (sample_replace_list x y args)
  | .var i s => if expr.var i s = x then y else .var i s
  | .quantifier f b => if expr.quantifier f b = x then y else .quantifier f b
/-- Sample input: the replacement in a list of expressions. -/
def sample_replace_list (x y : expr) : List expr → List expr
  | [] => []
  | a :: as => sample_replace x y a :: sample_replace_list x y as
end

/-- Sample input: collaborators of the tactic entry for quantifiers over one boolean
variable, written as the bound variable 0: the hoister pulls the quantifier at the
root when it has the requested kind, `extract_vars` instantiates the bound variable
with a fresh constant, `mk_exists` binds the first constant of its list; the
existential kernel reports no failure, the universal kernel reports `incomplete`. -/
def sample_collab : collaborators :=
  { pull_quantifier := fun ctr is_forall fml =>
      match fml with
      | .quantifier f body =>
        if f = is_forall then
          (sample_replace (.var 0 expr_sort.bool_sort) (fresh_const ctr) body,
            [fresh_const ctr], ctr + 1)
        else (fml, [], ctr)
      | _ => (fml, [], ctr),
    extract_vars := fun ctr q =>
      match q with
      | .quantifier _ body =>
        (sample_replace (.var 0 expr_sort.bool_sort) (fresh_const ctr) body,
          [fresh_const ctr], ctr + 1)
      | _ => (q, [], ctr),
    mk_exists := fun vars body =>
      match vars with
      | [] => body
      | v :: _ => .quantifier false (sample_replace v (.var 0 expr_sort.bool_sort) body),
    ex_failure := "ok",
    fa_failure := "incomplete" }

/-- Sample input: external collaborators of the search loop for the samples of the
tactic entry: the projection drops the literals over the variables and leaves no
variable, except that it leaves the variables alone when the core is empty;
`push_not` moves a negation below a quantifier at the root; `mk_and` as in
`sample_ext`. -/
def sample_ext_q : externals :=
  { mbp := fun force vars mdl core =>
      if core.isEmpty then (vars, []) else sample_mbp.mbp force vars mdl core,
    push_not := fun e =>
      match e with
      | .quantifier f b => .quantifier (!f) (mk_not b)
      | _ => mk_not e,
    mk_and := sample_ext.mk_and }

/-- With forced elimination nothing is left over: the flag is set and no variable
was handed back by MBP. -/
def qsat.none_left (s : qsat) : Prop :=
  s.m_force_elim = true ∧ s.m_free_vars = []

/-- Sample input: a tactic object after construction, for the flags `qelim` and
`force_elim`. -/
def sample_tactic (qelim force_elim : Bool) : qsat :=
  { m_num_rounds := 0, m_fa := ⟨[], []⟩, m_ex := ⟨[], []⟩, m_pred_abs := pred_abs.init 0,
    m_answer := [], m_asms := [], m_vars := [], m_level := 0, m_model := none,
    m_cancel := false, m_qelim := qelim, m_force_elim := force_elim, m_avars := [],
    m_free_vars := [], m_trace := [] }

/-- Sample input: a goal with the single formula `fml`, models enabled, and proofs
and unsat cores enabled when `tracking` is set. -/
def sample_goal (fml : expr) (tracking : Bool) : goal :=
  ⟨[fml], 0, true, tracking, tracking⟩

/-- Sample input: the formula `∃y. y ∧ ¬y`. -/
def sample_contra : expr :=
  .quantifier false (sample_and (.var 0 expr_sort.bool_sort) (mk_not (.var 0 expr_sort.bool_sort)))

/-- Sample input: the kernel answers in the elimination run on `∃y. y ∧ ¬y`: the
existential kernel finds a model, the universal kernel is unsat with an empty core,
and the existential kernel is unsat under the proxy of the lemma. -/
def sample_contra_script : List kernel_answer :=
  [.sat (sample_model_of [fresh_const 0]), .unsat [], .unsat [fresh_const 1]]

/-- A trace without a check that a kernel answered with unknown. -/
def no_undef (tr : List kernel_event) : Prop :=
  ∀ is_ex lvl asms, kernel_event.check is_ex lvl asms lbool.l_undef ∉ tr

/-- A list of interactions that are all assertions. -/
def assert_only (l : List kernel_event) : Prop :=
  ∀ e ∈ l, ∃ b x, e = kernel_event.assert_expr b x

/-- Sample input: the body `c ∧ ¬c` of `∃y. y ∧ ¬y` with the bound variable
instantiated by the constant `fresh_const 0`. -/
def sample_contra_body : expr :=
  sample_and (fresh_const 0) (mk_not (fresh_const 0))

/-- Sample input: the tactic object of the `qe_rec` variant when `elim_rec` calls
`elim` for `∃y. y ∧ ¬y`: `extract_vars` has minted one constant. -/
def sample_rec_state : qsat :=
  { sample_tactic true false with m_pred_abs := pred_abs.init 1 }

/-- Sample input: what the `qe_rec` variant leaves for the goal `∃y. y ∧ ¬y` when
the existential kernel answers its first check with unknown. -/
def sample_rec_unknown_run : goal_result × qsat :=
  ((sample_tactic true false).operator sample_ext_q sample_collab [[.unknown]]
    (sample_goal sample_contra false)).getD
      (⟨[], none, none, none, none⟩, sample_tactic true false)

/-- Sample input: the formula `∀y. y`. -/
def sample_forall : expr := .quantifier true (.var 0 expr_sort.bool_sort)

/-- Sample input: what the `qe_rec` variant leaves for the goal `∀y. y` when the
existential kernel answers its first check with unknown. -/
def sample_forall_unknown_run : goal_result × qsat :=
  ((sample_tactic true false).operator sample_ext_q sample_collab [[.unknown]]
    (sample_goal sample_forall false)).getD
      (⟨[], none, none, none, none⟩, sample_tactic true false)

/-- Sample input: what the `qsat` variant leaves for the goal `∃y. y ∧ ¬y` with
proofs and unsat cores enabled, when the existential kernel answers its first check
with unsat. -/
def sample_tracking_run : goal_result × qsat :=
  ((sample_tactic false true).operator sample_ext_q sample_collab [[.unsat []]]
    (sample_goal sample_contra true)).getD
      (⟨[], none, none, none, none⟩, sample_tactic false true)

/-- Sample input: the state the `qsat` variant hands to `check_sat` for the goal
`∃y. y ∧ ¬y`. -/
def sample_qsat_prepared : qsat :=
  ((sample_tactic false true).prepare sample_ext_q sample_collab
    (sample_ext_q.mk_and (sample_goal sample_contra false).m_forms)).getD
      (sample_tactic false true)

/-- Sample input: the round of `check_sat` in `sample_qsat_prepared` in which the
existential kernel answers unknown. -/
def sample_unknown_round : round_end :=
  (sample_qsat_prepared.check_sat_round sample_ext_q kernel_answer.unknown).getD
    (round_end.goes_on sample_qsat_prepared)

/-- Sample input: the formula `∃y. p ∧ y` with the free boolean constant `p`. -/
def sample_free : expr :=
  .quantifier false (sample_and sample_p (.var 0 expr_sort.bool_sort))

/-- Sample input: the body `p ∧ c` of `∃y. p ∧ y` with the bound variable
instantiated by the constant `fresh_const 0`. -/
def sample_free_body : expr :=
  sample_and sample_p (fresh_const 0)

/-- Sample input: the state of `elim` for the variable `fresh_const 0` after
`initialize_levels`, before the atoms of the body are abstracted. -/
def sample_free_levels : qsat :=
  qsat.initialize_levels { sample_rec_state.reset with m_vars := [[], [fresh_const 0]] }

/-- Sample input: the state of the prenex `qe2` variant for `∃y. p ∧ y` after
`hoist`. -/
def sample_free_hoisted : expr × qsat :=
  ((sample_tactic true true).reset.hoist sample_collab
    (sample_ext_q.push_not sample_free)).getD (sample_free, sample_tactic true true)

/-- The states of `pred_abs` reachable from the state after construction by calls of
its interface that return. `adm` admits the formulas given to `abstract_atoms` and
those `mk_assumption_literal` works on (its argument after `pred2asm`); `seed` admits
the expressions given to `set_expr_level`. -/
inductive pred_abs.reachable (ext : externals) (adm seed : pred_abs → expr → Prop) :
    pred_abs → Prop
  | init (k : Nat) : pred_abs.reachable ext adm seed (pred_abs.init k)
  | reset (s : pred_abs) :
      pred_abs.reachable ext adm seed s → pred_abs.reachable ext adm seed s.reset
  | set_expr_level (s : pred_abs) (v : expr) (lvl : max_level) :
      pred_abs.reachable ext adm seed s → seed s v →
      pred_abs.reachable ext adm seed (s.set_expr_level v lvl)
  | set_decl_level (s : pred_abs) (f : func_decl) (lvl : max_level) :
      pred_abs.reachable ext adm seed s →
      pred_abs.reachable ext adm seed (s.set_decl_level f lvl)
  | fresh_bool (s : pred_abs) :
      pred_abs.reachable ext adm seed s → pred_abs.reachable ext adm seed s.fresh_bool.2
  | add_pred (s : pred_abs) (p lit : expr) :
      pred_abs.reachable ext adm seed s → pred_abs.reachable ext adm seed (s.add_pred p lit)
  | push (s : pred_abs) :
      pred_abs.reachable ext adm seed s → pred_abs.reachable ext adm seed s.push
  | pop (s t : pred_abs) (n : Nat) :
      pred_abs.reachable ext adm seed s → s.pop n = some t →
      pred_abs.reachable ext adm seed t
  | get_assumptions (s : pred_abs) (mdl : Option model) (asms : List expr)
      (r : pred_abs × List expr) :
      pred_abs.reachable ext adm seed s → s.get_assumptions mdl asms = some r →
      pred_abs.reachable ext adm seed r.1
  | abstract_atoms (s : pred_abs) (fml : expr) (level : max_level) (defs : List expr)
      (r : pred_abs × max_level × List expr) :
      pred_abs.reachable ext adm seed s → adm s fml →
      s.abstract_atoms fml level defs = some r → pred_abs.reachable ext adm seed r.1
  | mk_assumption_literal (s : pred_abs) (a : expr) (mdl : Option model) (lvl : max_level)
      (defs : List expr) (r : expr × pred_abs × Option model × List expr) :
      pred_abs.reachable ext adm seed s → (∀ a1, s.pred2asm ext a = some a1 → adm s a1) →
      s.mk_assumption_literal ext a mdl lvl defs = some r →
      pred_abs.reachable ext adm seed r.2.1

/-- No restriction on the arguments of a call. -/
def any_input (_s : pred_abs) (_e : expr) : Prop := True

/-- The invariant of the assumption stack: while no scope is open, and while no
level of `m_preds` exists, the stack is empty; and the first snapshot is 0. -/
def pred_abs.stack_inv (s : pred_abs) : Prop :=
  (s.m_asms_lim = [] → s.m_asms = []) ∧ (s.m_preds = [] → s.m_asms = []) ∧
  ∀ x, s.m_asms_lim.head? = some x → x = 0

/-- Sample input: the result of `abstract_atoms` on the boolean constant `p` after
its level was set. -/
def sample_stack_abs : pred_abs × max_level × List expr :=
  (((pred_abs.init 0).set_expr_level sample_p ⟨0, UINT_MAX⟩).abstract_atoms sample_p
    max_level.unset []).getD (pred_abs.init 0, max_level.unset, [])

/-- Sample input: a state at scope depth 1 with the literal `p` on its stack: after
`sample_stack_abs` a scope is opened, and `get_assumptions` reads a model that makes
`p` true. -/
def sample_stack : pred_abs :=
  ((sample_stack_abs.1.push.get_assumptions (some sample_model_true) []).getD
    (pred_abs.init 0, [])).1

/-- The snapshots of the assumption stack are in order: each one is at most the
next, and the last one at most the size of the stack. -/
def pred_abs.scopes_sorted (s : pred_abs) : Prop :=
  (s.m_asms_lim ++ [s.m_asms.length]).Pairwise (fun a b => a ≤ b)

/-- The invariant of the search loop: the search level is the scope depth of
`pred_abs`, and the snapshots are in order. -/
def qsat.scopes_ok (s : qsat) : Prop :=
  s.m_pred_abs.m_asms_lim.length = s.m_level ∧ s.m_pred_abs.scopes_sorted

/-- Sample input: the state of the sample search for `p ∨ q` at the start of the
second round: the existential kernel found a model in the first round. -/
def sample_round1 : qsat :=
  (qsat.rounds sample_ext [.sat sample_model_p] sample_qsat).getD sample_qsat

mutual
/-- The number of rounds the loop of `get_free_vars` can still spend on an
expression: one for a marked one and for a bound variable, and one more than for its
arguments, or its body, otherwise. -/
def fv_weight (mark : List expr) : expr → Nat
  | .app d args => if expr.app d args ∈ mark then 1 else 1 + fv_weight_list mark args
  | .var _ _ => 1
  | .quantifier f b => if expr.quantifier f b ∈ mark then 1 else 1 + fv_weight mark b
/-- The number of rounds the loop of `get_free_vars` can still spend on a worklist. -/
def fv_weight_list (mark : List expr) : List expr → Nat
  | [] => 0
  | a :: as => fv_weight mark a + fv_weight_list mark as
end

/-- The direct subexpressions of an expression: the arguments of an application, the
body of a quantifier. -/
def expr.children : expr → List expr
  | .app _ args => args
  | .var _ _ => []
  | .quantifier _ b => [b]

/-- The invariant of the loop of `get_free_vars` for the formula `fml`: the vector
holds, without repetition, the marked uninterpreted constants; marked expressions and
those on the worklist occur in `fml`; the direct subexpressions of a marked
expression are marked, bound variables, or on the worklist; and so is `fml`. -/
def fv_inv (fml : expr) (todo mark vars : List expr) : Prop :=
  vars.Nodup ∧ (∀ c, c ∈ vars ↔ c ∈ mark ∧ is_uninterp_const c = true) ∧
  (∀ e ∈ mark, subexpr e fml) ∧ (∀ e ∈ todo, subexpr e fml) ∧
  (∀ e ∈ mark, ∀ x ∈ e.children, x ∈ mark ∨ x ∈ todo ∨ is_var x = true) ∧
  (fml ∈ mark ∨ fml ∈ todo ∨ is_var fml = true)

/-- The notion of the specification: the head of the expression is a boolean
connective, that is an operator of the basic family (true, false, not, and, or,
implies, iff, xor, if-then-else, and equality or distinct between formulas) applied
to boolean arguments only. -/
def connective_head : expr → Bool
  | .app d args =>
    decide (d.family = family_id.basic_family_id) && is_connective d.kind && args.all is_bool
  | _ => false

mutual
/-- The notion of the specification: `a` is reached from the root `e` through
boolean connectives only (the walk stops at every subterm whose head is not a
boolean connective). -/
def reached_by_connectives (a : expr) : expr → Bool
  | .app d args =>
    decide (a = expr.app d args) ||
      (connective_head (expr.app d args) && reached_by_connectives_list a args)
  | .var i s => decide (a = expr.var i s)
  | .quantifier f b => decide (a = expr.quantifier f b)
/-- Some expression of the list reaches `a` through boolean connectives only. -/
def reached_by_connectives_list (a : expr) : List expr → Bool
  | [] => false
  | e :: es => reached_by_connectives a e || reached_by_connectives_list a es
end

/-- Sample input: the atom `ite(x < y, x, y) = x` over integer constants, with the
atom `x < y` nested inside. -/
def sample_nested : expr :=
  mk_eq
    (.app ⟨symbol.named 7, family_id.basic_family_id, decl_kind.OP_ITE, expr_sort.other_sort 0⟩
      [sample_atom, sample_x, sample_const 3 (expr_sort.other_sort 0)])
    sample_x

/-- Sample input: the result of `abstract_atoms` on `c ∧ (ite(x < y, x, y) = x)`. -/
def sample_nested_abs : pred_abs × max_level × List expr :=
  (sample_seeded.abstract_atoms
    (sample_and (sample_const 1 expr_sort.bool_sort) sample_nested) max_level.unset []).getD
    (sample_seeded, max_level.unset, [])

/-- What a configuration of the loop of `abstract_atoms` on `fml`, started with the
counter `n0` and the definitions `defs0`, has added: the definitions `new`, one for
each proxy minted, each for a boolean subterm of `fml` whose head is not a boolean
connective and which is no uninterpreted constant. -/
def aa_defs_inv (fml : expr) (n0 : Nat) (defs0 : List expr) (c : aa_config) : Prop :=
  ∃ new, c.defs = defs0 ++ new ∧ c.s.m_fresh_id = n0 + new.length ∧
    ∀ i d, new.get? i = some d →
      ∃ a, d = mk_eq (fresh_const (n0 + i)) a ∧ subexpr a fml ∧ is_bool a = true ∧
        is_boolop a = some false ∧ is_uninterp_const a = false

/-- The index of `m_preds` at which `insert` stores a proxy of level `lvl`. -/
def level_index (lvl : max_level) : Nat :=
  if lvl.max = UINT_MAX then 0 else lvl.max

/-- Admissible arguments of `set_expr_level`: expressions of the manager that are no
proxy of `m_preds` yet. -/
def pred_abs.seed_ok (s : pred_abs) (v : expr) : Prop :=
  fresh_below s.m_fresh_id v = true ∧ ∀ blk ∈ s.m_preds, v ∉ blk

/-- The invariant behind the levels of the proxies: a proxy of `m_preds[k]` has a
recorded level whose index is `k`, and every expression with a recorded level is an
expression of the manager. -/
def pred_abs.preds_inv (s : pred_abs) : Prop :=
  (∀ k blk x, s.m_preds.get? k = some blk → x ∈ blk →
    ∃ l, s.m_elevel.find x = some l ∧ k = level_index l) ∧
  ∀ x l, s.m_elevel.find x = some l → fresh_below s.m_fresh_id x = true

/-- Sample input: the state with the levels of `p` (block 0) and `q` (block 1) set. -/
def sample_two_seeded : pred_abs :=
  ((pred_abs.init 0).set_expr_level sample_p ⟨0, UINT_MAX⟩).set_expr_level sample_q
    ⟨UINT_MAX, 1⟩

/-- Sample input: the result of `abstract_atoms` on `p ∨ q` in `sample_two_seeded`:
`p` is a proxy of level 0 and `q` a proxy of level 1. -/
def sample_two_levels : pred_abs × max_level × List expr :=
  (sample_two_seeded.abstract_atoms sample_matrix max_level.unset []).getD
    (sample_two_seeded, max_level.unset, [])

/-- Sample input: a state at scope depth 2 with proxies on the levels 1 to 5. On
level 3, `u` has the level `(fa = 3, ex unset)`, `x` the level `(fa = 3, ex = 1)`,
`y` the level `(fa = 3, ex = 2)` and `z` the level `(ex = 3, fa = 0)`; `w` is the
proxy of level 2 and `p` the proxy of level 5. -/
def sample_cross : pred_abs :=
  { pred_abs.init 0 with
    m_asms_lim := [0, 0],
    m_preds := [[], [sample_q], [sample_bw], [sample_u, sample_bx, sample_by, sample_bz], [],
      [sample_p]],
    m_elevel := ⟨[(sample_q, ⟨UINT_MAX, 1⟩), (sample_bw, ⟨2, UINT_MAX⟩),
      (sample_u, ⟨UINT_MAX, 3⟩), (sample_bx, ⟨1, 3⟩), (sample_by, ⟨2, 3⟩),
      (sample_bz, ⟨3, 0⟩), (sample_p, ⟨UINT_MAX, 5⟩)]⟩ }

mutual
/-- No subterm of the expression is one of the expressions `vs`. -/
def mentions_none (vs : List expr) : expr → Bool
  | .app d args => decide (expr.app d args ∉ vs) && mentions_none_list vs args
  | .var i s => decide (expr.var i s ∉ vs)
  | .quantifier f b => decide (expr.quantifier f b ∉ vs) && mentions_none vs b
/-- No subterm of the expressions of the list is one of the expressions `vs`. -/
def mentions_none_list (vs : List expr) : List expr → Bool
  | [] => true
  | a :: as => mentions_none vs a && mentions_none_list vs as
end

/-- Both components of the level are unset or at most `b`. -/
def lvl_le (b : Nat) (l : max_level) : Prop :=
  (l.m_ex = UINT_MAX ∨ l.m_ex ≤ b) ∧ (l.m_fa = UINT_MAX ∨ l.m_fa ≤ b)

/-- The level `l` is justified for the expression `e`: for every `b`, when `e`
mentions no minted proxy and no variable of the blocks after `b`, the components of
`l` are unset or at most `b`. -/
def level_below (pred2lit : obj_map expr expr) (vars : List (List expr)) (e : expr)
    (l : max_level) : Prop :=
  ∀ b, proxy_free pred2lit e = true → mentions_none (vars.drop (b + 1)).flatten e = true →
    lvl_le b l

/-- The invariant of the levels, for the blocks `vars` of the search: every recorded
level is justified for its expression; the proxy of every key of `lit2pred` has a
recorded level that is justified for the key; every expression with a recorded level
is an expression of the manager; and no symbol has a level of its own
(`set_decl_level` is never called by the search). -/
def pred_abs.levels_ok (pa : pred_abs) (vars : List (List expr)) : Prop :=
  (∀ e l, pa.m_elevel.find e = some l → level_below pa.m_pred2lit vars e l) ∧
  (∀ a p, pa.m_lit2pred.find a = some p →
    ∃ lp, pa.m_elevel.find p = some lp ∧ level_below pa.m_pred2lit vars a lp) ∧
  (∀ x l, pa.m_elevel.find x = some l → fresh_below pa.m_fresh_id x = true) ∧
  (∀ f, pa.m_flevel.find f = none)

/-- The invariant of the levels of the search: the one of `pred_abs` for the blocks
`m_vars`. -/
def qsat.levels_ok (s : qsat) : Prop := s.m_pred_abs.levels_ok s.m_vars

/-- The values of `pred2lit` are expressions of the manager. -/
def pred_abs.values_known (pa : pred_abs) : Prop :=
  ∀ p x, pa.m_pred2lit.find p = some x → fresh_below pa.m_fresh_id x = true

/-- The invariant of the search: the recorded levels are justified for the blocks of
the search, and the values of `pred2lit` are expressions of the manager. -/
def qsat.search_inv (s : qsat) : Prop :=
  s.m_pred_abs.levels_ok s.m_vars ∧ s.m_pred_abs.values_known

/-- Modelled from the spec: the lemma computed from a core of expressions of the
manager is an expression of the manager (MBP, `push_not` and `mk_and` make no symbol
that `mk_fresh_const` can return later). -/
def externals.known (ext : externals) : Prop :=
  ∀ force vars mdl core n, fresh_below_list n core = true →
    fresh_below n (negate_core ext (ext.mbp force vars mdl core).2) = true

/-- The cores of the kernel answers are lists of applications over symbols of the
manager. -/
def cores_known (n : Nat) (script : List kernel_answer) : Prop :=
  ∀ core, kernel_answer.unsat core ∈ script →
    is_ground_list core = true ∧ fresh_below_list n core = true

/-- Modelled from the spec: the hoister works in the manager: from a formula of the
manager it returns a formula and constants of the manager, and it never takes the
counter back. -/
def collaborators.known (tx : collaborators) : Prop :=
  ∀ ctr b fml, fresh_below ctr fml = true →
    ctr ≤ (tx.pull_quantifier ctr b fml).2.2 ∧
    fresh_below (tx.pull_quantifier ctr b fml).2.2 (tx.pull_quantifier ctr b fml).1 = true ∧
    ∀ v ∈ (tx.pull_quantifier ctr b fml).2.1,
      fresh_below (tx.pull_quantifier ctr b fml).2.2 v = true

/-- What `hoist` keeps before it calls `initialize_levels`: the blocks and the
formula are made of expressions of the manager, and `pred_abs` holds no proxy and no
level. -/
def qsat.hoist_inv (s : qsat) (fml : expr) : Prop :=
  (∀ blk ∈ s.m_vars, ∀ v ∈ blk, fresh_below s.m_pred_abs.m_fresh_id v = true) ∧
  fresh_below s.m_pred_abs.m_fresh_id fml = true ∧
  s.m_pred_abs.m_elevel = obj_map.empty ∧ s.m_pred_abs.m_lit2pred = obj_map.empty ∧
  s.m_pred_abs.m_pred2lit = obj_map.empty ∧ ∀ f, s.m_pred_abs.m_flevel.find f = none

theorem obj_map.find_empty {κ ν : Type} [DecidableEq κ] (x : κ) :
    (obj_map.empty : obj_map κ ν).find x = none := rfl

theorem obj_map.find_insert {κ ν : Type} [DecidableEq κ] (m : obj_map κ ν) (k x : κ) (v : ν) :
    (m.insert k v).find x = if x = k then some v else m.find x := rfl

theorem obj_map.find_insert_self {κ ν : Type} [DecidableEq κ] (m : obj_map κ ν) (k : κ) (v : ν) :
    (m.insert k v).find k = some v := by
  simp [obj_map.find_insert]

theorem obj_map.find_insert_ne {κ ν : Type} [DecidableEq κ] (m : obj_map κ ν) {k x : κ} (v : ν)
    (h : x ≠ k) : (m.insert k v).find x = m.find x := by
  simp [obj_map.find_insert, h]

theorem obj_map.contains_eq_false {κ ν : Type} [DecidableEq κ] (m : obj_map κ ν) (x : κ) :
    m.contains x = false ↔ m.find x = none := by
  unfold obj_map.contains
  cases m.find x <;> simp

theorem obj_map.contains_eq_true {κ ν : Type} [DecidableEq κ] (m : obj_map κ ν) (x : κ) :
    m.contains x = true ↔ ∃ v, m.find x = some v := by
  unfold obj_map.contains
  cases m.find x <;> simp

theorem abstract_atoms_round_step (c c1 : aa_config) (h : abstract_atoms_round c = some c1) :
    aa_step c c1 := by
  obtain ⟨todo, mark, s, level, defs⟩ := c
  cases todo with
  | nil => simp [abstract_atoms_round] at h
  | cons a todo =>
    simp only [abstract_atoms_round] at h
    split at h
    · rename_i hm
      simp only [Option.some.injEq] at h
      subst h
      exact aa_step.marked a todo mark s level defs hm
    · rename_i hm
      split at h
      · rename_i p hp
        split at h
        · simp at h
        · rename_i lp hl
          simp only [Option.some.injEq] at h
          subst h
          exact aa_step.mapped a todo mark s level defs p lp hm hp hl
      · rename_i hp
        split at h
        · rename_i hc
          split at h
          · simp at h
          · rename_i l hl
            split at h
            · rename_i hn
              simp only [Bool.not_eq_true', obj_map.contains_eq_false] at hn
              simp only [Option.some.injEq] at h
              subst h
              exact aa_step.const_new a todo mark s level defs l hm hp hc hl hn
            · rename_i hn
              simp only [Bool.not_eq_true', Bool.not_eq_false] at hn
              simp only [Option.some.injEq] at h
              subst h
              exact aa_step.const_old a todo mark s level defs l hm hp hc hl hn
        · rename_i hc
          simp only [Bool.not_eq_true] at hc
          split at h
          · rename_i d args
            split at h
            · simp at h
            · rename_i boolop hb
              split at h
              · rename_i hbool
                simp only [Bool.and_eq_true, Bool.not_eq_true'] at hbool
                obtain ⟨hb1, hb2⟩ := hbool
                subst hb1
                split at h
                · simp at h
                · rename_i s2 l hlvl
                  split at h
                  · simp at h
                  · rename_i is_pred hpred
                    simp only [Option.some.injEq] at h
                    subst h
                    exact aa_step.atom d args todo mark s level defs s2 l is_pred hm hp hc hb
                      hb2 hlvl hpred
              · rename_i hbool
                simp only [Bool.not_eq_true] at hbool
                simp only [Option.some.injEq] at h
                subst h
                exact aa_step.skip d args todo mark s level defs boolop hm hp hc hb hbool
          · simp at h

theorem abstract_atoms_loop_steps :
    ∀ (n : Nat) (c c1 : aa_config), abstract_atoms_loop n c = some c1 →
      Relation.ReflTransGen aa_step c c1 ∧ c1.todo = [] := by
  intro n
  induction n with
  | zero => intro c c1 h; simp [abstract_atoms_loop] at h
  | succ n ih =>
    intro c c1 h
    simp only [abstract_atoms_loop] at h
    split at h
    · rename_i he
      simp only [Option.some.injEq] at h
      subst h
      exact ⟨Relation.ReflTransGen.refl, List.isEmpty_iff.1 he⟩
    · split at h
      · simp at h
      · rename_i c2 hr
        obtain ⟨h1, h2⟩ := ih c2 c1 h
        exact ⟨Relation.ReflTransGen.head (abstract_atoms_round_step c c2 hr) h1, h2⟩

/-- A call of `abstract_atoms` that returns is a sequence of rounds of its loop that
empties the worklist. -/
theorem pred_abs.abstract_atoms_steps {s : pred_abs} {fml : expr} {level : max_level}
    {defs : List expr} {r : pred_abs × max_level × List expr}
    (h : s.abstract_atoms fml level defs = some r) :
    ∃ mark, Relation.ReflTransGen aa_step
      ⟨[fml], [], { s with m_trail := s.m_trail ++ [fml] }, level, defs⟩
      ⟨[], mark, r.1, r.2.1, r.2.2⟩ := by
  unfold pred_abs.abstract_atoms at h
  split at h
  · simp at h
  · rename_i c hc
    simp only [Option.some.injEq] at h
    subst h
    obtain ⟨h1, h2⟩ := abstract_atoms_loop_steps _ _ _ hc
    obtain ⟨todo, mark, s1, level1, defs1⟩ := c
    simp only at h2
    subst h2
    exact ⟨mark, h1⟩

theorem pred_abs.compute_level_eq {s s2 : pred_abs} {e : expr} {l : max_level}
    (h : s.compute_level e = some (s2, l)) : s2 = { s with m_elevel := s2.m_elevel } := by
  unfold pred_abs.compute_level at h
  split at h
  · simp at h
  · split at h
    · simp at h
    · simp only [Option.some.injEq, Prod.mk.injEq] at h
      rw [← h.1]

theorem pred_abs.inv_p2l_congr {s t : pred_abs} (h1 : t.m_pred2lit = s.m_pred2lit)
    (h2 : t.m_lit2pred = s.m_lit2pred) (h : s.inv_p2l) : t.inv_p2l := by
  unfold pred_abs.inv_p2l at *
  rw [h1, h2]; exact h

theorem pred_abs.add_pred_pred2lit (s : pred_abs) (p lit : expr) :
    (s.add_pred p lit).m_pred2lit = s.m_pred2lit.insert p lit := by
  unfold pred_abs.add_pred pred_abs.add_lit
  split <;> rfl

theorem pred_abs.add_pred_lit2pred_new (s : pred_abs) (p lit : expr)
    (h : s.m_lit2pred.find lit = none) :
    (s.add_pred p lit).m_lit2pred = s.m_lit2pred.insert lit p := by
  unfold pred_abs.add_pred pred_abs.add_lit
  have : s.m_lit2pred.contains lit = false := (obj_map.contains_eq_false _ _).2 h
  simp [this]

theorem pred_abs.inv_p2l_add_pred {s : pred_abs} (p lit : expr) (h : s.inv_p2l)
    (hl : s.m_lit2pred.find lit = none) : (s.add_pred p lit).inv_p2l := by
  intro q x hq
  rw [pred_abs.add_pred_pred2lit, obj_map.find_insert] at hq
  rw [pred_abs.add_pred_lit2pred_new s p lit hl, obj_map.find_insert]
  by_cases hqp : q = p
  · simp only [hqp, if_true, Option.some.injEq] at hq
    simp [hq, hqp]
  · simp only [hqp, if_false] at hq
    have hx := h q x hq
    have : x ≠ lit := by
      intro e; rw [e, hl] at hx; simp at hx
    simp [this, hx]

theorem pred_abs.atom_update_pred2lit (s2 : pred_abs) (r a : expr) (l : max_level) (b : Bool) :
    (s2.atom_update r a l b).m_pred2lit = (s2.add_pred r a).m_pred2lit := by
  unfold pred_abs.atom_update
  cases b <;> rfl

theorem pred_abs.atom_update_lit2pred (s2 : pred_abs) (r a : expr) (l : max_level) (b : Bool) :
    (s2.atom_update r a l b).m_lit2pred = (s2.add_pred r a).m_lit2pred := by
  unfold pred_abs.atom_update
  cases b <;> rfl

theorem aa_step_inv_p2l {c c1 : aa_config} (h : aa_step c c1) (hi : c.s.inv_p2l) :
    c1.s.inv_p2l := by
  cases h with
  | marked => exact hi
  | mapped => exact hi
  | const_new a todo mark s level defs l hm hp hc hl hn =>
    exact pred_abs.inv_p2l_congr rfl rfl (pred_abs.inv_p2l_add_pred a a hi hp)
  | const_old => exact hi
  | atom d args todo mark s level defs s2 l is_pred hm hp hc hb hbool hlvl hpred =>
    have e := pred_abs.compute_level_eq hlvl
    have h1 : s2.m_pred2lit = s.m_pred2lit := by rw [e]; rfl
    have h2 : s2.m_lit2pred = s.m_lit2pred := by rw [e]; rfl
    have hi2 : s2.inv_p2l := pred_abs.inv_p2l_congr h1 h2 hi
    have hp2 : s2.m_lit2pred.find (expr.app d args) = none := by rw [h2]; exact hp
    exact pred_abs.inv_p2l_congr (pred_abs.atom_update_pred2lit _ _ _ _ _)
      (pred_abs.atom_update_lit2pred _ _ _ _ _)
      (pred_abs.inv_p2l_add_pred _ _ hi2 hp2)
  | skip => exact hi

theorem aa_steps_inv_p2l {c c1 : aa_config} (h : Relation.ReflTransGen aa_step c c1)
    (hi : c.s.inv_p2l) : c1.s.inv_p2l := by
  induction h with
  | refl => exact hi
  | tail _ hstep ih => exact aa_step_inv_p2l hstep ih

theorem pred_abs.abstract_atoms_inv_p2l {s : pred_abs} {fml : expr} {level : max_level}
    {defs : List expr} {r : pred_abs × max_level × List expr}
    (h : s.abstract_atoms fml level defs = some r) (hi : s.inv_p2l) : r.1.inv_p2l := by
  obtain ⟨mk, hmk⟩ := pred_abs.abstract_atoms_steps h
  exact aa_steps_inv_p2l hmk (pred_abs.inv_p2l_congr rfl rfl hi)

theorem pred_abs.reach_inv_p2l {adm : pred_abs → expr → Prop} {s : pred_abs}
    (h : pred_abs.reach adm s) : s.inv_p2l := by
  induction h with
  | init k => intro p lit hp; simp [pred_abs.init, obj_map.find_empty] at hp
  | set_expr_level s v lvl _ ih => exact pred_abs.inv_p2l_congr rfl rfl ih
  | set_decl_level s f lvl _ ih => exact pred_abs.inv_p2l_congr rfl rfl ih
  | abstract_atoms s fml level defs r _ _ hr ih => exact pred_abs.abstract_atoms_inv_p2l hr ih

/-- C1: in every state reachable from the state after construction by level seeding
and `abstract_atoms` calls (on any formulas), every proxy `p` of `pred2lit` has its
image in `lit2pred`, mapped back to `p`. -/
theorem C1_lit2pred_of_pred2lit (adm : pred_abs → expr → Prop) (s : pred_abs)
    (h : pred_abs.reach adm s) (p lit : expr) (hp : s.m_pred2lit.find p = some lit) :
    s.m_lit2pred.find lit = some p :=
  pred_abs.reach_inv_p2l h p lit hp

theorem sample_abstracted_eq :
    sample_seeded.abstract_atoms sample_fml max_level.unset [] = some sample_abstracted := by
  rfl

theorem sample_abstracted_reach (adm : pred_abs → expr → Prop)
    (h : adm sample_seeded sample_fml) : pred_abs.reach adm sample_abstracted.1 :=
  pred_abs.reach.abstract_atoms _ _ _ _ _
    (pred_abs.reach.set_expr_level _ _ _
      (pred_abs.reach.set_expr_level _ _ _ (pred_abs.reach.init 0)))
    h sample_abstracted_eq

theorem C1_lit2pred_of_pred2lit_witness :
    sample_abstracted.1.m_pred2lit.find (fresh_const 0) = some sample_atom ∧
    sample_abstracted.1.m_lit2pred.find sample_atom = some (fresh_const 0) :=
  ⟨by decide, C1_lit2pred_of_pred2lit (fun _ _ => True) sample_abstracted.1
    (sample_abstracted_reach _ trivial) (fresh_const 0) sample_atom (by decide)⟩

theorem is_true_not_false (v : expr) (h : is_true v = true) : is_false v = false := by
  cases v with
  | app d args =>
    simp only [is_true, is_false, is_basic_app_of, Bool.and_eq_true, decide_eq_true_eq] at h ⊢
    simp [h.2]
  | var i s => rfl
  | quantifier f b => rfl

theorem get_assumptions_top_spec (mdl : model) :
    ∀ (ps acc r : List expr), get_assumptions_top mdl ps acc = some r →
      r = acc ++ ps.map (model_lit mdl) ∧ ∀ p ∈ ps, ∃ v, mdl.eval p = some v := by
  intro ps
  induction ps with
  | nil => intro acc r h; simp [get_assumptions_top] at h; simp [h]
  | cons p rest ih =>
    intro acc r h
    simp only [get_assumptions_top] at h
    split at h
    · simp at h
    · rename_i val hv
      have hl : model_lit mdl p = signed_lit p val := by simp [model_lit, hv]
      split at h
      · rename_i hf
        obtain ⟨h1, h2⟩ := ih _ _ h
        refine ⟨by simp [h1, hl, signed_lit, hf], ?_⟩
        intro q hq
        rcases List.mem_cons.1 hq with e | e
        · exact ⟨val, by rw [e]; exact hv⟩
        · exact h2 q e
      · rename_i hf
        obtain ⟨h1, h2⟩ := ih _ _ h
        refine ⟨by simp [h1, hl, signed_lit, hf], ?_⟩
        intro q hq
        rcases List.mem_cons.1 hq with e | e
        · exact ⟨val, by rw [e]; exact hv⟩
        · exact h2 q e

theorem get_assumptions_inner_spec (elevel : obj_map expr max_level) (mdl : model)
    (level i : Nat) :
    ∀ (ps acc r : List expr), get_assumptions_inner elevel mdl level i ps acc = some r →
      r = acc ++ cross_lits elevel mdl level i ps ∧
      ∀ p ∈ ps.filter (use_at elevel level i), ∃ v, mdl.eval p = some v := by
  intro ps
  induction ps with
  | nil => intro acc r h; simp [get_assumptions_inner] at h; simp [h, cross_lits]
  | cons p rest ih =>
    intro acc r h
    simp only [get_assumptions_inner] at h
    split at h
    · simp at h
    · rename_i lvl hlvl
      have hu : use_at elevel level i p = use_pred lvl i level := by simp [use_at, hlvl]
      split at h
      · rename_i huse
        split at h
        · simp at h
        · rename_i val hv
          obtain ⟨h1, h2⟩ := ih _ _ h
          have hl : model_lit mdl p = signed_lit p val := by simp [model_lit, hv]
          refine ⟨by simp [h1, cross_lits, List.filter_cons, hu, huse, hl], ?_⟩
          intro q hq
          simp only [List.filter_cons, hu, huse, if_true, List.mem_cons] at hq
          rcases hq with e | e
          · exact ⟨val, by rw [e]; exact hv⟩
          · exact h2 q e
      · rename_i huse
        obtain ⟨h1, h2⟩ := ih _ _ h
        refine ⟨by simp [h1, cross_lits, List.filter_cons, hu, huse], ?_⟩
        intro q hq
        simp only [List.filter_cons, hu, huse] at hq
        exact h2 q hq

theorem cross_lits_made (elevel : obj_map expr max_level) (mdl : model) (level i : Nat)
    (ps : List expr) (h : ∀ p ∈ ps.filter (use_at elevel level i), ∃ v, mdl.eval p = some v) :
    ∀ l ∈ cross_lits elevel mdl level i ps, made_from mdl l := by
  intro l hl
  simp only [cross_lits, List.mem_map] at hl
  obtain ⟨p, hp, rfl⟩ := hl
  obtain ⟨v, hv⟩ := h p hp
  refine ⟨p, v, hv, ?_⟩
  simp only [model_lit, hv, signed_lit]
  cases hf : is_false v <;> simp

theorem get_assumptions_outer_spec (elevel : obj_map expr max_level) (mdl : model)
    (level : Nat) :
    ∀ (n : Nat) (rest : List (List expr)), rest.length ≤ n → ∀ (i : Nat) (acc r : List expr),
      get_assumptions_outer elevel mdl level i rest acc = some r →
      r = acc ++ cross_from elevel mdl level i rest ∧
      ∀ l ∈ cross_from elevel mdl level i rest, made_from mdl l := by
  intro n
  induction n with
  | zero =>
    intro rest hlen i acc r h
    have : rest = [] := List.length_eq_zero.1 (Nat.le_zero.1 hlen)
    subst this
    simp [get_assumptions_outer] at h
    simp [h, cross_from]
  | succ n ih =>
    intro rest hlen i acc r h
    match rest, hlen, h with
    | [], _, h =>
      simp [get_assumptions_outer] at h
      simp [h, cross_from]
    | [ps], _, h =>
      simp only [get_assumptions_outer] at h
      obtain ⟨h1, h2⟩ := get_assumptions_inner_spec elevel mdl level i ps acc r h
      exact ⟨by simp [h1, cross_from], by
        simpa [cross_from] using cross_lits_made elevel mdl level i ps h2⟩
    | ps :: x :: rest1, hlen, h =>
      simp only [get_assumptions_outer] at h
      split at h
      · simp at h
      · rename_i asms1 hin
        obtain ⟨h1, h2⟩ := get_assumptions_inner_spec elevel mdl level i ps acc asms1 hin
        have hlen1 : rest1.length ≤ n := by
          simp only [List.length_cons] at hlen; omega
        obtain ⟨h3, h4⟩ := ih rest1 hlen1 (i + 2) asms1 r h
        refine ⟨by simp [h3, h1, cross_from], ?_⟩
        intro l hl
        simp only [cross_from, List.mem_append] at hl
        rcases hl with hl | hl
        · exact cross_lits_made elevel mdl level i ps h2 l hl
        · exact h4 l hl

theorem enumFrom_filter_drop (P : Nat × List expr → Bool) (L : Nat)
    (hP : ∀ q : Nat × List expr, q.1 ≤ L → P q = false) :
    ∀ (n : Nat) (l : List (List expr)) (k : Nat), k + n ≤ L + 1 →
      (l.enumFrom k).filter P = ((l.drop n).enumFrom (k + n)).filter P := by
  intro n
  induction n with
  | zero => intro l k _; simp
  | succ n ih =>
    intro l k hk
    cases l with
    | nil => simp
    | cons a l1 =>
      have hq : P (k, a) = false := hP (k, a) (by simp; omega)
      simp only [List.enumFrom_cons, List.filter_cons, hq, List.drop_succ_cons]
      rw [ih l1 (k + 1) (by omega)]
      have : k + 1 + n = k + (n + 1) := by omega
      simp [this]

theorem cross_from_eq (elevel : obj_map expr max_level) (mdl : model) (L : Nat) :
    ∀ (n : Nat) (rest : List (List expr)), rest.length ≤ n → ∀ (i : Nat), L < i →
      (i - L) % 2 = 1 →
      cross_from elevel mdl L i rest =
        ((rest.enumFrom i).filter
          (fun q => decide (L < q.1) && decide ((q.1 - L) % 2 = 1))).flatMap
          (fun q => cross_lits elevel mdl L q.1 q.2) := by
  intro n
  induction n with
  | zero =>
    intro rest hlen i _ _
    have : rest = [] := List.length_eq_zero.1 (Nat.le_zero.1 hlen)
    subst this
    simp [cross_from]
  | succ n ih =>
    intro rest hlen i hi hpar
    match rest, hlen with
    | [], _ => simp [cross_from]
    | [ps], _ =>
      simp [cross_from, List.enumFrom_cons, List.filter_cons, hi, hpar]
    | ps :: x :: rest1, hlen =>
      have hlen1 : rest1.length ≤ n := by
        simp only [List.length_cons] at hlen; omega
      have h1 : ¬ ((i + 1 - L) % 2 = 1) := by omega
      have h2 : (i + 2 - L) % 2 = 1 := by omega
      have h3 : i + 1 + 1 = i + 2 := rfl
      simp only [cross_from, List.enumFrom_cons, List.filter_cons, hi, hpar, decide_True,
        Bool.and_self, if_true, h1, decide_False, Bool.and_false, List.flatMap_cons, h3]
      rw [ih rest1 hlen1 (i + 2) (by omega) h2]
      simp

theorem cross_from_eq_spec (s : pred_abs) (mdl : model) (L : Nat) :
    cross_from s.m_elevel mdl L (L + 1) (s.m_preds.drop (L + 1)) = cross_level_spec s mdl L := by
  rw [cross_from_eq s.m_elevel mdl L _ _ (le_refl _) (L + 1) (by omega) (by simp)]
  unfold cross_level_spec List.enum
  rw [enumFrom_filter_drop _ L (by intro q hq; simp; omega) (L + 1) s.m_preds 0 (by omega)]
  simp

/-- What a call of `get_assumptions` with a model does at an effective level of at
least 1. -/
theorem get_assumptions_model_spec (s : pred_abs) (mdl : model) (out : List expr)
    (r : pred_abs × List expr) (hL : 1 ≤ s.level)
    (h : s.get_assumptions (some mdl) out = some r) :
    r.1 = { s with m_asms := s.m_asms ++ (s.m_preds.getD (s.level - 1) []).map (model_lit mdl) } ∧
    r.2 = out ++ r.1.m_asms ++ cross_level_spec s mdl s.level ∧
    (∀ p ∈ s.m_preds.getD (s.level - 1) [], ∃ v, mdl.eval p = some v) ∧
    (∀ l ∈ cross_level_spec s mdl s.level, made_from mdl l) := by
  unfold pred_abs.get_assumptions at h
  simp only at h
  have hlev : (if s.m_asms_lim.length > s.m_preds.length then s.m_preds.length
      else s.m_asms_lim.length) = s.level := rfl
  rw [hlev] at h
  have hne : ¬ (s.level = 0) := by omega
  simp only [hne, if_false] at h
  split at h
  · simp at h
  · rename_i top htop
    have hget : s.m_preds.getD (s.level - 1) [] = top := by
      simp [List.getD_eq_getElem?_getD, ← List.get?_eq_getElem?, htop]
    split at h
    · simp at h
    · rename_i m_asms1 h1
      split at h
      · simp at h
      · rename_i asms1 h2
        obtain ⟨t1, t2⟩ := get_assumptions_top_spec mdl _ _ _ h1
        obtain ⟨o1, o2⟩ := get_assumptions_outer_spec s.m_elevel mdl s.level _ _ (le_refl _) _ _ _ h2
        simp only [Option.some.injEq] at h
        subst h
        rw [cross_from_eq_spec] at o1 o2
        rw [hget]
        exact ⟨by rw [t1], by rw [o1], t2, o2⟩

theorem model_lit_eq_top_scope_lit (mdl : model) (p v : expr) (hv : mdl.eval p = some v)
    (h : is_false v = true ∨ is_true v = true) : model_lit mdl p = top_scope_lit mdl p := by
  simp only [model_lit, top_scope_lit, hv, signed_lit, Option.any_some]
  rcases h with h | h
  · have : is_true v = false := by
      cases ht : is_true v
      · rfl
      · rw [is_true_not_false v ht] at h; simp at h
    simp [h, this]
  · simp [h, is_true_not_false v h]

/-- C4 (amended): every literal that a call of `get_assumptions` with a model makes
is the negated proxy when the model evaluates the proxy to false and the proxy itself
otherwise; the literals that were on the `asms` stack before the call are appended
unchanged in front of them. -/
theorem C4_made_literals_follow_model (s : pred_abs) (mdl : model) (out : List expr)
    (r : pred_abs × List expr) (h : s.get_assumptions (some mdl) out = some r) :
    ∃ carried made, r.2 = out ++ carried ++ made ∧ (carried = s.m_asms ∨ carried = []) ∧
      ∀ l ∈ made, made_from mdl l := by
  by_cases hL : 1 ≤ s.level
  · obtain ⟨h1, h2, h3, h4⟩ := get_assumptions_model_spec s mdl out r hL h
    refine ⟨s.m_asms, (s.m_preds.getD (s.level - 1) []).map (model_lit mdl) ++
      cross_level_spec s mdl s.level, ?_, Or.inl rfl, ?_⟩
    · rw [h2, h1]; simp
    · intro l hl
      rcases List.mem_append.1 hl with hl | hl
      · obtain ⟨p, hp, rfl⟩ := List.mem_map.1 hl
        obtain ⟨v, hv⟩ := h3 p hp
        refine ⟨p, v, hv, ?_⟩
        simp only [model_lit, hv, signed_lit]
        cases hf : is_false v <;> simp
      · exact h4 l hl
  · have h0 : s.level = 0 := by omega
    unfold pred_abs.get_assumptions at h
    have hlev : (if s.m_asms_lim.length > s.m_preds.length then s.m_preds.length
        else s.m_asms_lim.length) = s.level := rfl
    simp only [hlev, h0, if_true, Option.some.injEq] at h
    exact ⟨[], [], by simp [← h], Or.inr rfl, by simp⟩

theorem C4_made_literals_follow_model_witness :
    ∃ carried made, [sample_q] = [] ++ carried ++ made ∧
      (carried = sample_depth1.m_asms ∨ carried = []) ∧
      ∀ l ∈ made, made_from sample_model_true l :=
  C4_made_literals_follow_model sample_depth1 sample_model_true []
    ({ sample_depth1 with m_asms := [sample_q] }, [sample_q]) (by rfl)

/-- C4 (as stated, refuted): at scope depth 2 the call appends the literal `sample_p`
that an earlier scope left on the stack although the model evaluates it to false,
and the cross-level proxy `sample_u` positively although the model gives it no truth
value. -/
theorem C4_counterexample :
    (sample_depth2.get_assumptions (some sample_model) []).map Prod.snd
      = some [sample_p, sample_q, sample_u] ∧
    lit_agrees sample_model sample_p = false ∧ lit_agrees sample_model sample_u = false := by
  decide

/-- C7 (as amended): with a model and an effective level `L ≥ 1` (the scope depth,
clamped to the number of levels of `preds`), `get_assumptions` pushes on `asms` one
literal for every proxy `p` of `preds[L-1]`, in order: the negation of `p` when the
model evaluates `p` to false, and `p` otherwise; for a model that gives every proxy of
`preds[L-1]` a truth value this is `p` if the model evaluates `p` to true and the
negation of `p` otherwise. The call changes nothing else of the state and appends the
whole stack to `out` (before the cross-level literals). -/
theorem C7_top_scope_materialized (s : pred_abs) (mdl : model) (out : List expr)
    (r : pred_abs × List expr) (hL : 1 ≤ s.level)
    (h : s.get_assumptions (some mdl) out = some r) :
    r.1 = { s with m_asms :=
      (s.m_asms ++ (s.m_preds.getD (s.level - 1) []).map
        (fun p => if (mdl.eval p).any is_false then mk_not p else p)) } ∧
    ((∀ p ∈ s.m_preds.getD (s.level - 1) [],
        (mdl.eval p).any is_true = true ∨ (mdl.eval p).any is_false = true) →
      r.1 = { s with m_asms :=
        (s.m_asms ++ (s.m_preds.getD (s.level - 1) []).map (top_scope_lit mdl)) }) ∧
    ∃ cross, r.2 = out ++ r.1.m_asms ++ cross := by
  obtain ⟨h1, h2, h3, _⟩ := get_assumptions_model_spec s mdl out r hL h
  have e1 : (s.m_preds.getD (s.level - 1) []).map (model_lit mdl) =
      (s.m_preds.getD (s.level - 1) []).map
        (fun p => if (mdl.eval p).any is_false then mk_not p else p) := by
    apply List.map_congr_left
    intro p hp
    obtain ⟨v, hv⟩ := h3 p hp
    simp only [model_lit, hv, signed_lit, Option.any_some]
  refine ⟨by rw [h1, e1], ?_, _, h2⟩
  intro hb
  rw [h1]
  have : (s.m_preds.getD (s.level - 1) []).map (model_lit mdl) =
      (s.m_preds.getD (s.level - 1) []).map (top_scope_lit mdl) := by
    apply List.map_congr_left
    intro p hp
    obtain ⟨v, hv⟩ := h3 p hp
    have hbp := hb p hp
    rw [hv] at hbp
    simp only [Option.any_some] at hbp
    exact model_lit_eq_top_scope_lit mdl p v hv (hbp.symm)
  rw [this]

/-- C7 (witness): at scope depth 2 the model makes the proxy `q` of `preds[1]` true
and the call pushes `q` on the stack, which held `p`. -/
theorem C7_top_scope_materialized_witness :
    ({ sample_depth2 with m_asms := [sample_p, sample_q] } : pred_abs) =
      { sample_depth2 with m_asms := (sample_depth2.m_asms ++
        (sample_depth2.m_preds.getD (sample_depth2.level - 1) []).map
          (fun p => if (sample_model.eval p).any is_false then mk_not p else p)) } ∧
    ((∀ p ∈ sample_depth2.m_preds.getD (sample_depth2.level - 1) [],
        (sample_model.eval p).any is_true = true ∨ (sample_model.eval p).any is_false = true) →
      ({ sample_depth2 with m_asms := [sample_p, sample_q] } : pred_abs) =
        { sample_depth2 with m_asms := (sample_depth2.m_asms ++
          (sample_depth2.m_preds.getD (sample_depth2.level - 1) []).map
            (top_scope_lit sample_model)) }) ∧
    ∃ cross, [sample_p, sample_q, sample_u] = [] ++ [sample_p, sample_q] ++ cross :=
  C7_top_scope_materialized sample_depth2 sample_model []
    ({ sample_depth2 with m_asms := [sample_p, sample_q] }, [sample_p, sample_q, sample_u])
    (by decide) (by rfl)

/-- C7 (as stated, refuted): at scope depth `L = 2` with a single level of proxies
there is no `preds[L-1]`, and the call still pushes a literal, the one of the proxy of
`preds[0]`; and at scope depth 1 a model that gives the proxy `u` of `preds[0]` no
truth value (it evaluates `u` to `u`) makes the call push `u`, not the negation of
`u`. -/
theorem C7_counterexample :
    sample_deep.m_asms_lim.length = 2 ∧ sample_deep.m_preds.get? (2 - 1) = none ∧
    (sample_deep.get_assumptions (some sample_model) []).map (fun r => r.1.m_asms)
      = some [sample_q] ∧
    sample_no_value.m_asms_lim.length = 1 ∧ sample_no_value.m_preds.get? (1 - 1) = some [sample_u] ∧
    sample_model.eval sample_u = some sample_u ∧ is_true sample_u = false ∧
    top_scope_lit sample_model sample_u = mk_not sample_u ∧
    (sample_no_value.get_assumptions (some sample_model) []).map (fun r => r.1.m_asms)
      = some [sample_u] := by
  decide

theorem pred_abs.get_assumptions_state (s : pred_abs) (mdl : Option model) (out : List expr)
    (r : pred_abs × List expr) (h : s.get_assumptions mdl out = some r) :
    ∃ more, r.1 = { s with m_asms := s.m_asms ++ more } := by
  cases mdl with
  | none =>
    unfold pred_abs.get_assumptions at h
    simp only at h
    split at h <;> split at h <;>
    · have e := Option.some.inj h
      subst e
      exact ⟨[], by simp⟩
  | some m =>
    by_cases hL : 1 ≤ s.level
    · obtain ⟨h1, _⟩ := get_assumptions_model_spec s m out r hL h
      exact ⟨_, h1⟩
    · have h0 : s.level = 0 := by omega
      unfold pred_abs.get_assumptions at h
      have hlev : (if s.m_asms_lim.length > s.m_preds.length then s.m_preds.length
          else s.m_asms_lim.length) = s.level := rfl
      simp only [hlev, h0, if_true, Option.some.injEq] at h
      exact ⟨[], by simp [← h]⟩

theorem scope_inv_run (s : pred_abs) :
    ∀ (ops : List pa_op) (d : Nat) (t r : pred_abs), scope_inv s t d →
      pa_balanced true d ops = true → pa_run ops t = some r → r = s := by
  intro ops
  induction ops with
  | nil =>
    intro d t r hinv hb hr
    simp only [pa_balanced, decide_eq_true_eq] at hb
    simp only [pa_run, Option.some.injEq] at hr
    obtain ⟨more, extra, ht, hlen, hmore, _, _⟩ := hinv
    subst hb
    have he : extra = [] := List.length_eq_zero.1 hlen
    rw [← hr, ht, hmore rfl, he]
    simp
  | cons op rest ih =>
    intro d t r hinv hb hr
    obtain ⟨more, extra, ht, hlen, hmore, hge, hhead⟩ := hinv
    cases op with
    | push =>
      simp only [pa_balanced] at hb
      simp only [pa_run, pa_op.apply] at hr
      refine ih (d + 1) t.push r ?_ hb hr
      refine ⟨more, extra ++ [t.m_asms.length], ?_, by simp [hlen], by omega, ?_, ?_⟩
      · rw [ht]; simp [pred_abs.push]
      · intro x hx
        rcases List.mem_append.1 hx with hx | hx
        · exact hge x hx
        · simp only [List.mem_singleton] at hx
          rw [hx, ht]; simp
      · intro x hx
        cases extra with
        | nil =>
          simp only [List.nil_append, List.head?_cons, Option.some.injEq] at hx
          have hd : d = 0 := by simpa using hlen.symm
          rw [← hx, ht, hmore hd]; simp
        | cons y ys =>
          simp only [List.cons_append, List.head?_cons, Option.some.injEq] at hx
          exact hhead x (by simp [hx])
    | pop n =>
      simp only [pa_balanced, Bool.and_eq_true, decide_eq_true_eq] at hb
      obtain ⟨hn, hb⟩ := hb
      simp only [pa_run, pa_op.apply] at hr
      split at hr
      · simp at hr
      · rename_i t1 hpop
        refine ih (d - n) t1 r ?_ hb hr
        unfold pred_abs.pop at hpop
        split at hpop
        · simp only at hpop
          split at hpop
          · simp at hpop
          · rename_i sz hsz
            split at hpop
            · rename_i hle
              simp only [Option.some.injEq] at hpop
              have hlim : t.m_asms_lim = s.m_asms_lim ++ extra := by rw [ht]
              have hasm : t.m_asms = s.m_asms ++ more := by rw [ht]
              have hidx : t.m_asms_lim.length - n = s.m_asms_lim.length + (d - n) := by
                rw [hlim]; simp; omega
              rw [hidx, hlim, List.get?_eq_getElem?,
                List.getElem?_append_right (Nat.le_add_right _ _)] at hsz
              simp only [Nat.add_sub_cancel_left] at hsz
              have hmem : sz ∈ extra := List.getElem?_mem hsz
              have hszge := hge sz hmem
              refine ⟨more.take (sz - s.m_asms.length), extra.take (d - n), ?_, ?_, ?_, ?_, ?_⟩
              · rw [← hpop, hidx, hlim, hasm, ht]
                simp [List.take_append_eq_append_take, List.take_of_length_le hszge,
                  List.take_of_length_le (Nat.le_add_right _ _)]
              · simp [hlen]
              · intro hd
                rw [hd] at hsz
                have := hhead sz (by rw [List.head?_eq_getElem?]; exact hsz)
                simp [this]
              · intro x hx
                exact hge x (List.mem_of_mem_take hx)
              · intro x hx
                cases extra with
                | nil => simp at hx
                | cons y ys =>
                  cases hdn : d - n with
                  | zero => rw [hdn] at hx; simp at hx
                  | succ k =>
                    rw [hdn] at hx
                    simp only [List.take_succ_cons, List.head?_cons, Option.some.injEq] at hx
                    exact hhead x (by simp [hx])
            · simp at hpop
        · simp at hpop
    | get_assumptions mdl out =>
      simp only [pa_balanced, Bool.not_true, Bool.false_or, Bool.and_eq_true,
        decide_eq_true_eq] at hb
      obtain ⟨hd, hb⟩ := hb
      simp only [pa_run, pa_op.apply] at hr
      split at hr
      · simp at hr
      · rename_i t1 hga
        cases hg : t.get_assumptions mdl out with
        | none => rw [hg] at hga; simp at hga
        | some r1 =>
          rw [hg] at hga
          simp only [Option.map_some', Option.some.injEq] at hga
          obtain ⟨more1, hm1⟩ := pred_abs.get_assumptions_state t mdl out r1 hg
          refine ih d t1 r ?_ hb hr
          refine ⟨more ++ more1, extra, ?_, hlen, by omega, hge, hhead⟩
          rw [← hga, hm1, ht]
          simp

/-- C5 (amended): after a balanced sequence of `push` and `pop(n)` calls in which
`get_assumptions` is only called while a scope opened by the sequence is still open,
the state is the one at the start: `asms` has the same contents, `asms_lim` is the
same and `preds` is unchanged. -/
theorem C5_push_pop_balance (ops : List pa_op) (s r : pred_abs)
    (hb : pa_balanced true 0 ops = true) (hr : pa_run ops s = some r) :
    r.m_asms = s.m_asms ∧ r.m_asms_lim = s.m_asms_lim ∧ r.m_preds = s.m_preds ∧ r = s := by
  have h : r = s :=
    scope_inv_run s ops 0 s r ⟨[], [], by simp, rfl, fun _ => rfl, by simp, by simp⟩ hb hr
  rw [h]
  exact ⟨rfl, rfl, rfl, rfl⟩

theorem C5_push_pop_balance_witness :
    sample_depth1.m_asms = sample_depth1.m_asms ∧
    sample_depth1.m_asms_lim = sample_depth1.m_asms_lim ∧
    sample_depth1.m_preds = sample_depth1.m_preds ∧ sample_depth1 = sample_depth1 :=
  C5_push_pop_balance sample_ops_inside sample_depth1 sample_depth1 (by decide) (by rfl)

/-- C5 (as stated, refuted): the sequence `push, pop(1), get_assumptions, push, pop(1)`
is balanced and never pops more scopes than are open, and `asms` ends with one
literal more than at the start: the literal `get_assumptions` pushed in the scope
that was open before the sequence. -/
theorem C5_counterexample :
    pa_balanced false 0 sample_ops = true ∧ sample_depth1.m_asms = [] ∧
    (pa_run sample_ops sample_depth1).map (fun r => r.m_asms) = some [sample_q] := by
  decide

theorem max_level.dominates_refl (a : max_level) : a.dominates a :=
  ⟨fun h => ⟨h, le_refl _⟩, fun h => ⟨h, le_refl _⟩⟩

theorem max_level.dominates_trans {a b c : max_level} (h1 : a.dominates b)
    (h2 : b.dominates c) : a.dominates c := by
  constructor
  · intro h
    obtain ⟨hb, hle⟩ := h2.1 h
    obtain ⟨ha, hle2⟩ := h1.1 hb
    exact ⟨ha, le_trans hle hle2⟩
  · intro h
    obtain ⟨hb, hle⟩ := h2.2 h
    obtain ⟨ha, hle2⟩ := h1.2 hb
    exact ⟨ha, le_trans hle hle2⟩

theorem max_level.max2_left (a b : Nat) (h : a ≠ UINT_MAX) :
    max_level.max2 a b ≠ UINT_MAX ∧ a ≤ max_level.max2 a b := by
  unfold max_level.max2
  rw [if_neg h]
  by_cases hb : b = UINT_MAX
  · rw [if_pos hb]; exact ⟨h, le_refl _⟩
  · rw [if_neg hb]
    refine ⟨?_, le_max_left a b⟩
    rcases max_choice a b with e | e <;> rw [e] <;> assumption

theorem max_level.max2_right (a b : Nat) (h : b ≠ UINT_MAX) :
    max_level.max2 a b ≠ UINT_MAX ∧ b ≤ max_level.max2 a b := by
  unfold max_level.max2
  by_cases ha : a = UINT_MAX
  · rw [if_pos ha]; exact ⟨h, le_refl _⟩
  · rw [if_neg ha, if_neg h]
    refine ⟨?_, le_max_right a b⟩
    rcases max_choice a b with e | e <;> rw [e] <;> assumption

theorem max_level.merge_dominates_left (a b : max_level) : (a.merge b).dominates a :=
  ⟨fun h => max_level.max2_left _ _ h, fun h => max_level.max2_left _ _ h⟩

theorem max_level.merge_dominates_right (a b : max_level) : (a.merge b).dominates b :=
  ⟨fun h => max_level.max2_right _ _ h, fun h => max_level.max2_right _ _ h⟩

theorem compute_level_args_spec (elevel : obj_map expr max_level) :
    ∀ (args : List expr) (lvl0 : max_level) (todo : List expr) (has_new : Bool)
      (lvl1 : max_level) (todo1 : List expr),
      compute_level_args elevel args lvl0 todo has_new = (lvl1, todo1, false) →
      has_new = false ∧ todo1 = todo ∧ lvl1.dominates lvl0 ∧
      ∀ a ∈ args, ∃ la, elevel.find a = some la ∧ lvl1.dominates la := by
  intro args
  induction args with
  | nil =>
    intro lvl0 todo has_new lvl1 todo1 h
    simp only [compute_level_args, Prod.mk.injEq] at h
    obtain ⟨h1, h2, h3⟩ := h
    subst h1 h2 h3
    exact ⟨rfl, rfl, max_level.dominates_refl _, by simp⟩
  | cons a rest ih =>
    intro lvl0 todo has_new lvl1 todo1 h
    simp only [compute_level_args] at h
    split at h
    · rename_i lvl hl
      obtain ⟨h1, h2, h3, h4⟩ := ih _ _ _ _ _ h
      refine ⟨h1, h2, max_level.dominates_trans h3 (max_level.merge_dominates_left _ _), ?_⟩
      intro x hx
      rcases List.mem_cons.1 hx with e | e
      · exact ⟨lvl, by rw [e]; exact hl,
          max_level.dominates_trans h3 (max_level.merge_dominates_right _ _)⟩
      · exact h4 x e
    · obtain ⟨h1, _⟩ := ih _ _ _ _ _ h
      simp at h1

theorem elevel_mono_insert (elevel : obj_map expr max_level) (d : func_decl) (args : List expr)
    (l : max_level) (hm : elevel_mono elevel) (hnew : elevel.find (expr.app d args) = none)
    (hargs : ∀ a ∈ args, ∃ la, elevel.find a = some la ∧ l.dominates la) :
    elevel_mono (elevel.insert (expr.app d args) l) := by
  have keep : ∀ a la, elevel.find a = some la →
      (elevel.insert (expr.app d args) l).find a = some la := by
    intro a la ha
    have : a ≠ expr.app d args := by
      intro e; rw [e, hnew] at ha; simp at ha
    rw [obj_map.find_insert_ne _ _ this]; exact ha
  intro e le he
  rw [obj_map.find_insert] at he
  split at he
  · rename_i heq
    simp only [Option.some.injEq] at he
    subst he
    refine ⟨d, args, heq, ?_⟩
    intro a ha
    obtain ⟨la, h1, h2⟩ := hargs a ha
    exact ⟨la, keep a la h1, h2⟩
  · obtain ⟨d1, args1, h1, h2⟩ := hm e le he
    refine ⟨d1, args1, h1, ?_⟩
    intro a ha
    obtain ⟨la, h3, h4⟩ := h2 a ha
    exact ⟨la, keep a la h3, h4⟩

theorem compute_level_loop_mono (flevel : obj_map func_decl max_level) :
    ∀ (n : Nat) (todo : List expr) (elevel r : obj_map expr max_level),
      compute_level_loop flevel n todo elevel = some r → elevel_mono elevel → elevel_mono r := by
  intro n
  induction n with
  | zero => intro todo elevel r h; simp [compute_level_loop] at h
  | succ n ih =>
    intro todo elevel r h hm
    cases todo with
    | nil =>
      simp only [compute_level_loop, Option.some.injEq] at h
      rw [← h]; exact hm
    | cons a todo =>
      simp only [compute_level_loop] at h
      split at h
      · exact ih _ _ _ h hm
      · rename_i hc
        simp only [Bool.not_eq_true, obj_map.contains_eq_false] at hc
        split at h
        · rename_i d args
          rcases hargs : compute_level_args elevel args
            (match flevel.find d with
              | some lvl => max_level.unset.merge lvl
              | none => max_level.unset) (expr.app d args :: todo) false
            with ⟨lvl1, todo1, has_new⟩
          rw [hargs] at h
          simp only at h
          cases has_new with
          | false =>
            simp only [Bool.not_false, if_true] at h
            obtain ⟨_, _, _, h4⟩ := compute_level_args_spec _ _ _ _ _ _ _ hargs
            exact ih _ _ _ h (elevel_mono_insert elevel d args lvl1 hm hc h4)
          | true =>
            simp only [Bool.not_true, Bool.false_eq_true, if_false] at h
            exact ih _ _ _ h hm
        · simp at h

theorem pred_abs.compute_level_mono {s : pred_abs} {e : expr} {r : pred_abs × max_level}
    (h : s.compute_level e = some r) (hm : elevel_mono s.m_elevel) :
    elevel_mono r.1.m_elevel := by
  unfold pred_abs.compute_level at h
  split at h
  · simp at h
  · rename_i elevel hloop
    split at h
    · simp at h
    · simp only [Option.some.injEq] at h
      rw [← h]
      exact compute_level_loop_mono _ _ _ _ _ hloop hm

theorem elevel_mono_seed (elevel : obj_map expr max_level) (d : func_decl) (lvl : max_level)
    (hm : elevel_mono elevel)
    (hg : ∀ e, elevel.contains e = true → subexpr (expr.app d []) e → e = expr.app d []) :
    elevel_mono (elevel.insert (expr.app d []) lvl) := by
  intro e le he
  rw [obj_map.find_insert] at he
  split at he
  · rename_i heq
    exact ⟨d, [], heq, by simp⟩
  · rename_i hne
    obtain ⟨d1, args1, h1, h2⟩ := hm e le he
    refine ⟨d1, args1, h1, ?_⟩
    intro a ha
    obtain ⟨la, h3, h4⟩ := h2 a ha
    have : a ≠ expr.app d [] := by
      intro ea
      apply hne
      apply hg e ((obj_map.contains_eq_true _ _).2 ⟨le, he⟩)
      rw [h1]
      exact subexpr.arg _ a d1 args1 ha (by rw [ea]; exact subexpr.refl _)
    exact ⟨la, by rw [obj_map.find_insert_ne _ _ this]; exact h3, h4⟩

theorem levels_reach_mono {s : pred_abs} (h : levels_reach true s) : elevel_mono s.m_elevel := by
  induction h with
  | init k => intro e l he; simp [pred_abs.init, obj_map.find_empty] at he
  | seed s d lvl _ hg ih => exact elevel_mono_seed s.m_elevel d lvl ih (hg rfl)
  | decl s f lvl _ ih => exact ih
  | compute s e r _ hr ih => exact pred_abs.compute_level_mono hr ih

theorem elevel_mono_subexpr (elevel : obj_map expr max_level) (hm : elevel_mono elevel)
    (c e : expr) (hs : subexpr c e) :
    ∀ l, elevel.find e = some l → ∃ lc, elevel.find c = some lc ∧ l.dominates lc := by
  induction hs with
  | refl => intro l hl; exact ⟨l, hl, max_level.dominates_refl l⟩
  | arg a d args ha _ ih =>
    intro l hl
    obtain ⟨d1, args1, h1, h2⟩ := hm _ l hl
    simp only [expr.app.injEq] at h1
    obtain ⟨la, h3, h4⟩ := h2 a (by rw [← h1.2]; exact ha)
    obtain ⟨lc, h5, h6⟩ := ih la h3
    exact ⟨lc, h5, max_level.dominates_trans h4 h6⟩
  | body b f _ _ =>
    intro l hl
    obtain ⟨d1, args1, h1, _⟩ := hm _ l hl
    simp at h1

/-- C8 (amended): in a state where only constants were seeded with levels, each while
no other expression containing it had a level, and every other entry of `elevel` was
inserted by `compute_level`, every subexpression `c` of an expression `e` with a level
has a level, and the level of `e` dominates it component-wise. -/
theorem C8_level_monotonicity (s : pred_abs) (h : levels_reach true s) (e c : expr)
    (l : max_level) (he : s.m_elevel.find e = some l) (hc : subexpr c e) :
    ∃ lc, s.m_elevel.find c = some lc ∧ l.dominates lc :=
  elevel_mono_subexpr s.m_elevel (levels_reach_mono h) c e hc l he

theorem sample_levels_seeded_reach : levels_reach true sample_levels_seeded.1 :=
  levels_reach.compute _ (sample_f sample_x) _
    (levels_reach.seed _ sample_x_decl ⟨UINT_MAX, 1⟩ (levels_reach.init 0) (by
      intro _ e he
      simp [pred_abs.init, obj_map.contains, obj_map.find_empty] at he))
    (by rfl)

theorem C8_level_monotonicity_witness :
    ∃ lc, sample_levels_seeded.1.m_elevel.find sample_x = some lc ∧
      (max_level.mk UINT_MAX 1).dominates lc :=
  C8_level_monotonicity sample_levels_seeded.1 sample_levels_seeded_reach (sample_f sample_x)
    sample_x ⟨UINT_MAX, 1⟩ (by decide)
    (subexpr.arg _ sample_x _ _ (by simp) (subexpr.refl _))

/-- C8 (as stated, refuted): `compute_level(f(x))` gives `f(x)` and `x` the unset level;
seeding the constant `x` with level 2 afterwards leaves `f(x)` with a level that does
not dominate the level of its subexpression `x`. -/
theorem C8_counterexample :
    levels_reach false (sample_levels_computed.1.set_expr_level sample_x ⟨2, UINT_MAX⟩) ∧
    subexpr sample_x (sample_f sample_x) ∧
    (sample_levels_computed.1.set_expr_level sample_x ⟨2, UINT_MAX⟩).m_elevel.find
      (sample_f sample_x) = some max_level.unset ∧
    (sample_levels_computed.1.set_expr_level sample_x ⟨2, UINT_MAX⟩).m_elevel.find sample_x
      = some ⟨2, UINT_MAX⟩ ∧
    ¬ max_level.unset.dominates ⟨2, UINT_MAX⟩ := by
  refine ⟨?_, subexpr.arg _ sample_x _ _ (by simp) (subexpr.refl _), by decide, by decide, ?_⟩
  · exact levels_reach.seed _ sample_x_decl ⟨2, UINT_MAX⟩
      (levels_reach.compute _ (sample_f sample_x) _ (levels_reach.init 0) (by rfl))
      (by intro h; simp at h)
  · intro h
    have := (h.1 (by decide)).1
    exact this rfl

theorem rewrite_spec_of_find (map : obj_map expr expr) (e p : expr) (h : map.find e = some p) :
    rewrite_spec map e = p := by
  cases e <;> simp [rewrite_spec, h]

theorem rewrite_spec_list_eq_map (map : obj_map expr expr) (l : List expr) :
    rewrite_spec_list map l = l.map (rewrite_spec map) := by
  induction l with
  | nil => rfl
  | cons a l ih => simp [rewrite_spec_list, ih]

theorem expr.sizeList_append (l1 l2 : List expr) :
    expr.sizeList (l1 ++ l2) = expr.sizeList l1 + expr.sizeList l2 := by
  induction l1 with
  | nil => simp [expr.sizeList]
  | cons a l ih => simp [expr.sizeList, ih]; omega

theorem expr.sizeList_reverse (l : List expr) : expr.sizeList l.reverse = expr.sizeList l := by
  induction l with
  | nil => rfl
  | cons a l ih => simp [expr.sizeList, expr.sizeList_append, ih]; omega

theorem expr.sizeList_filter_le (p : expr → Bool) (l : List expr) :
    expr.sizeList (l.filter p) ≤ expr.sizeList l := by
  induction l with
  | nil => simp
  | cons a l ih =>
    simp only [List.filter_cons]
    split <;> simp only [expr.sizeList] <;> omega

theorem is_ground_list_iff (l : List expr) :
    is_ground_list l = true ↔ ∀ a ∈ l, is_ground a = true := by
  induction l with
  | nil => simp [is_ground_list]
  | cons a l ih => simp [is_ground_list, ih]

theorem cache_le_refl (c : obj_map expr expr) : cache_le c c := fun _ _ h => h

theorem cache_le_trans {c1 c2 c3 : obj_map expr expr} (h1 : cache_le c1 c2)
    (h2 : cache_le c2 c3) : cache_le c1 c3 := fun t v h => h2 t v (h1 t v h)

theorem cache_le_insert (c : obj_map expr expr) (e v : expr) (h : c.find e = none) :
    cache_le c (c.insert e v) := by
  intro t w ht
  have : t ≠ e := by intro e1; rw [e1, h] at ht; simp at ht
  rw [obj_map.find_insert_ne _ _ this]; exact ht

theorem cache_ok_insert (map c : obj_map expr expr) (e : expr) (h : cache_ok map c) :
    cache_ok map (c.insert e (rewrite_spec map e)) := by
  intro t w ht
  rw [obj_map.find_insert] at ht
  split at ht
  · rename_i he; simp only [Option.some.injEq] at ht; rw [← ht, he]
  · exact h t w ht

theorem rewrite_args_todo (cache : obj_map expr expr) :
    ∀ (fs args : List expr) (diff : Bool) (todo : List expr),
      (rewrite_args cache fs args diff todo).2.2 = (missing_args cache fs).reverse ++ todo := by
  intro fs
  induction fs with
  | nil => intro args diff todo; simp [rewrite_args, missing_args]
  | cons f rest ih =>
    intro args diff todo
    simp only [rewrite_args]
    split
    · rename_i f1 hf
      rw [ih]
      simp [missing_args, List.filter_cons, hf]
    · rename_i hf
      rw [ih]
      simp [missing_args, List.filter_cons, hf]

theorem rewrite_args_args (cache : obj_map expr expr) :
    ∀ (fs args : List expr) (diff : Bool) (todo : List expr),
      (rewrite_args cache fs args diff todo).1 = args ++ fs.filterMap cache.find := by
  intro fs
  induction fs with
  | nil => intro args diff todo; simp [rewrite_args]
  | cons f rest ih =>
    intro args diff todo
    simp only [rewrite_args]
    split
    · rename_i f1 hf
      rw [ih]
      simp [List.filterMap_cons, hf]
    · rename_i hf
      rw [ih]
      simp [List.filterMap_cons, hf]

theorem rewrite_args_diff (cache : obj_map expr expr) :
    ∀ (fs args : List expr) (diff : Bool) (todo : List expr),
      (rewrite_args cache fs args diff todo).2.1 = false →
      ∀ f ∈ fs, ∀ f1, cache.find f = some f1 → f = f1 := by
  intro fs
  induction fs with
  | nil => intro args diff todo _ f hf; simp at hf
  | cons f rest ih =>
    intro args diff todo h x hx x1 hx1
    simp only [rewrite_args] at h
    split at h
    · rename_i f1 hf
      rcases List.mem_cons.1 hx with e | e
      · subst e
        rw [hf] at hx1
        simp only [Option.some.injEq] at hx1
        by_contra hne
        have hd : (diff || decide (x ≠ f1)) = true := by
          rw [hx1]; simp [hne]
        rw [hd] at h
        have : ∀ (fs args : List expr) (todo : List expr),
            (rewrite_args cache fs args true todo).2.1 = true := by
          intro fs
          induction fs with
          | nil => intro args todo; rfl
          | cons g gs ihg =>
            intro args todo
            simp only [rewrite_args]
            split
            · simp only [Bool.true_or]; exact ihg _ _
            · exact ihg _ _
        rw [this] at h
        simp at h
      · exact ih _ _ _ h x e x1 hx1
    · rcases List.mem_cons.1 hx with e | e
      · subst e
        rename_i hf
        rw [hf] at hx1; simp at hx1
      · exact ih _ _ _ h x e x1 hx1

theorem filterMap_length_add_missing (cache : obj_map expr expr) (fs : List expr) :
    (fs.filterMap cache.find).length + (missing_args cache fs).length = fs.length := by
  induction fs with
  | nil => simp [missing_args]
  | cons f rest ih =>
    unfold missing_args at ih ⊢
    cases hf : cache.find f with
    | none => simp [List.filterMap_cons, List.filter_cons, hf]; omega
    | some v => simp [List.filterMap_cons, List.filter_cons, hf]; omega

theorem filterMap_all_found (map cache : obj_map expr expr) (fs : List expr)
    (h : ∀ f ∈ fs, cache.find f = some (rewrite_spec map f)) :
    fs.filterMap cache.find = rewrite_spec_list map fs := by
  induction fs with
  | nil => simp [rewrite_spec_list]
  | cons f rest ih =>
    have h1 := h f (by simp)
    have h2 := ih (fun g hg => h g (by simp [hg]))
    simp [List.filterMap_cons, h1, h2, rewrite_spec_list]

theorem missing_args_nil (map cache : obj_map expr expr) (fs : List expr)
    (hok : cache_ok map cache) (h : missing_args cache fs = []) :
    ∀ f ∈ fs, cache.find f = some (rewrite_spec map f) := by
  intro f hf
  cases hc : cache.find f with
  | none =>
    have : f ∈ missing_args cache fs := by
      simp [missing_args, List.mem_filter, hf, hc]
    rw [h] at this; simp at this
  | some v => rw [hok f v hc]

/-- The round of the loop that finds every argument of `e` in the cache. -/
theorem mk_concrete_loop_finish (map cache : obj_map expr expr) (d : func_decl)
    (args todo : List expr) (hok : cache_ok map cache)
    (hall : ∀ f ∈ args, cache.find f = some (rewrite_spec map f)) :
    ∃ cache1, cache_ok map cache1 ∧ cache_le cache cache1 ∧
      cache1.find (expr.app d args) = some (rewrite_spec map (expr.app d args)) ∧
      ∀ k, mk_concrete_loop map (1 + k) (expr.app d args :: todo) cache
        = mk_concrete_loop map k todo cache1 := by
  by_cases hc : cache.contains (expr.app d args) = true
  · obtain ⟨v, hv⟩ := (obj_map.contains_eq_true _ _).1 hc
    refine ⟨cache, hok, cache_le_refl _, by rw [hv, hok _ _ hv], ?_⟩
    intro k
    rw [Nat.add_comm]
    simp [mk_concrete_loop, hc]
  · have hc1 : cache.find (expr.app d args) = none := by
      simp only [Bool.not_eq_true] at hc
      exact (obj_map.contains_eq_false _ _).1 hc
    refine ⟨cache.insert (expr.app d args) (rewrite_spec map (expr.app d args)),
      cache_ok_insert map cache _ hok, cache_le_insert _ _ _ hc1,
      obj_map.find_insert_self _ _ _, ?_⟩
    intro k
    rw [Nat.add_comm]
    have hcf : cache.contains (expr.app d args) = false := (obj_map.contains_eq_false _ _).2 hc1
    simp only [mk_concrete_loop, hcf, Bool.false_eq_true, if_false]
    cases hm : map.find (expr.app d args) with
    | some p =>
      simp only
      rw [rewrite_spec_of_find map _ p hm]
    | none =>
      simp only
      have hmiss : missing_args cache args = [] := by
        simp only [missing_args, List.filter_eq_nil_iff]
        intro f hf
        simp [hall f hf]
      have hfm := filterMap_all_found map cache args hall
      rcases hr : rewrite_args cache args [] false (expr.app d args :: todo)
        with ⟨args1, diff, todo1⟩
      have e1 : args1 = rewrite_spec_list map args := by
        have := rewrite_args_args cache args [] false (expr.app d args :: todo)
        rw [hr] at this
        simpa [hfm] using this
      have e2 : todo1 = expr.app d args :: todo := by
        have := rewrite_args_todo cache args [] false (expr.app d args :: todo)
        rw [hr] at this
        simpa [hmiss] using this
      have e3 : diff = false → args1 = args := by
        intro hd
        have := rewrite_args_diff cache args [] false (expr.app d args :: todo) (by rw [hr]; exact hd)
        rw [e1, rewrite_spec_list_eq_map]
        conv_rhs => rw [← List.map_id args]
        apply List.map_congr_left
        intro f hf
        exact (this f hf _ (hall f hf)).symm
      have hlen : args1.length = args.length := by
        rw [e1, rewrite_spec_list_eq_map]; simp
      simp only [hlen, if_true, e2, List.tail_cons]
      have hval : (if diff = true then expr.app d args1 else expr.app d args)
          = rewrite_spec map (expr.app d args) := by
        simp only [rewrite_spec, hm]
        cases diff with
        | true => simp [e1]
        | false => simp; rw [← e1, e3 rfl]
      rw [hval]

theorem rewrite_runs_list (map : obj_map expr expr) :
    ∀ (l : List expr), (∀ a ∈ l, rewrite_runs map a) →
      ∀ (cache : obj_map expr expr) (todo : List expr), cache_ok map cache →
        ∃ (n : Nat) (cache1 : obj_map expr expr), n ≤ 2 * expr.sizeList l ∧
          cache_ok map cache1 ∧ cache_le cache cache1 ∧
          (∀ a ∈ l, cache1.find a = some (rewrite_spec map a)) ∧
          ∀ k, mk_concrete_loop map (n + k) (l ++ todo) cache
            = mk_concrete_loop map k todo cache1 := by
  intro l
  induction l with
  | nil =>
    intro _ cache todo hok
    exact ⟨0, cache, by simp, hok, cache_le_refl _, by simp, by simp⟩
  | cons a l ih =>
    intro hruns cache todo hok
    obtain ⟨n1, c1, hn1, hok1, hle1, hfind1, hrun1⟩ := hruns a (by simp) cache (l ++ todo) hok
    obtain ⟨n2, c2, hn2, hok2, hle2, hfind2, hrun2⟩ :=
      ih (fun x hx => hruns x (by simp [hx])) c1 todo hok1
    refine ⟨n1 + n2, c2, by simp only [expr.sizeList]; omega, hok2, cache_le_trans hle1 hle2,
      ?_, ?_⟩
    · intro x hx
      rcases List.mem_cons.1 hx with e | e
      · rw [e]; exact hle2 _ _ hfind1
      · exact hfind2 x e
    · intro k
      rw [List.cons_append, Nat.add_assoc, hrun1, hrun2]

theorem rewrite_runs_app (map : obj_map expr expr) (d : func_decl) (args : List expr)
    (hargs : ∀ a ∈ args, rewrite_runs map a) : rewrite_runs map (expr.app d args) := by
  intro cache todo hok
  by_cases hmiss : missing_args cache args = []
  · obtain ⟨c1, h1, h2, h3, h4⟩ := mk_concrete_loop_finish map cache d args todo hok
      (missing_args_nil map cache args hok hmiss)
    exact ⟨1, c1, by simp only [expr.size]; omega, h1, h2, h3, h4⟩
  · by_cases hc : cache.contains (expr.app d args) = true
    · obtain ⟨v, hv⟩ := (obj_map.contains_eq_true _ _).1 hc
      refine ⟨1, cache, by simp only [expr.size]; omega, hok, cache_le_refl _,
        by rw [hv, hok _ _ hv], ?_⟩
      intro k
      rw [Nat.add_comm]
      simp [mk_concrete_loop, hc]
    · have hc1 : cache.find (expr.app d args) = none := by
        simp only [Bool.not_eq_true] at hc
        exact (obj_map.contains_eq_false _ _).1 hc
      have hcf : cache.contains (expr.app d args) = false :=
        (obj_map.contains_eq_false _ _).2 hc1
      cases hm : map.find (expr.app d args) with
      | some p =>
        refine ⟨1, cache.insert (expr.app d args) (rewrite_spec map (expr.app d args)),
          by simp only [expr.size]; omega, cache_ok_insert map cache _ hok,
          cache_le_insert _ _ _ hc1, obj_map.find_insert_self _ _ _, ?_⟩
        intro k
        rw [Nat.add_comm]
        simp only [mk_concrete_loop, hcf, Bool.false_eq_true, if_false, hm]
        rw [rewrite_spec_of_find map _ p hm]
      | none =>
        -- first visit: the arguments without image are pushed
        have hruns : ∀ a ∈ (missing_args cache args).reverse, rewrite_runs map a := by
          intro a ha
          exact hargs a (List.mem_of_mem_filter (List.mem_reverse.1 ha))
        obtain ⟨n2, c2, hn2, hok2, hle2, hfind2, hrun2⟩ :=
          rewrite_runs_list map _ hruns cache (expr.app d args :: todo) hok
        have hall : ∀ f ∈ args, c2.find f = some (rewrite_spec map f) := by
          intro f hf
          cases hcf1 : cache.find f with
          | none =>
            apply hfind2
            simp [missing_args, List.mem_filter, hf, hcf1]
          | some v =>
            rw [hle2 f v hcf1, hok f v hcf1]
        obtain ⟨c3, hok3, hle3, hfind3, hrun3⟩ :=
          mk_concrete_loop_finish map c2 d args todo hok2 hall
        have hsz : expr.sizeList (missing_args cache args).reverse ≤ expr.sizeList args := by
          rw [expr.sizeList_reverse]
          exact expr.sizeList_filter_le _ _
        refine ⟨1 + (n2 + 1), c3, by simp only [expr.size]; omega, hok3,
          cache_le_trans hle2 hle3, hfind3, ?_⟩
        intro k
        have step1 : ∀ m, mk_concrete_loop map (1 + m) (expr.app d args :: todo) cache
            = mk_concrete_loop map m
                ((missing_args cache args).reverse ++ expr.app d args :: todo) cache := by
          intro m
          rw [Nat.add_comm]
          simp only [mk_concrete_loop, hcf, Bool.false_eq_true, if_false, hm]
          rcases hr : rewrite_args cache args [] false (expr.app d args :: todo)
            with ⟨args1, diff, todo1⟩
          have e1 : args1 = args.filterMap cache.find := by
            have := rewrite_args_args cache args [] false (expr.app d args :: todo)
            rw [hr] at this
            simpa using this
          have e2 : todo1 = (missing_args cache args).reverse ++ expr.app d args :: todo := by
            have := rewrite_args_todo cache args [] false (expr.app d args :: todo)
            rw [hr] at this
            simpa using this
          have hlen : ¬ (args1.length = args.length) := by
            intro hl
            have := filterMap_length_add_missing cache args
            rw [← e1, hl] at this
            have : (missing_args cache args).length = 0 := by omega
            exact hmiss (List.length_eq_zero.1 this)
          simp only [hlen, if_false, e2]
        rw [Nat.add_assoc, step1, Nat.add_assoc, hrun2, hrun3]

mutual
theorem rewrite_runs_of_ground (map : obj_map expr expr) :
    ∀ (e : expr), is_ground e = true → rewrite_runs map e
  | .app d args, h =>
    rewrite_runs_app map d args (rewrite_runs_of_ground_list map args (by simpa [is_ground] using h))
  | .var _ _, h => by simp [is_ground] at h
  | .quantifier _ _, h => by simp [is_ground] at h
theorem rewrite_runs_of_ground_list (map : obj_map expr expr) :
    ∀ (l : List expr), is_ground_list l = true → ∀ a ∈ l, rewrite_runs map a
  | [], _ => by simp
  | a :: l, h => by
    simp only [is_ground_list, Bool.and_eq_true] at h
    intro x hx
    rcases List.mem_cons.1 hx with e | e
    · rw [e]; exact rewrite_runs_of_ground map a h.1
    · exact rewrite_runs_of_ground_list map l h.2 x e
end

theorem mk_abstract_loop_eq (map : obj_map expr expr) :
    ∀ (n : Nat) (todo : List expr) (cache : obj_map expr expr),
      mk_abstract_loop map n todo cache = mk_concrete_loop map n todo cache := by
  intro n
  induction n with
  | zero => intro todo cache; rfl
  | succ n ih =>
    intro todo cache
    cases todo with
    | nil => rfl
    | cons a todo =>
      cases a with
      | app d as =>
        simp only [mk_abstract_loop, mk_concrete_loop, ih]
        rcases rewrite_args cache as [] false (expr.app d as :: todo) with ⟨args1, diff, todo1⟩
        simp only [eq_comm]
      | var i s => simp only [mk_abstract_loop, mk_concrete_loop, ih]
      | quantifier f b => simp only [mk_abstract_loop, mk_concrete_loop, ih]

theorem mk_concrete_result_spec (map cache : obj_map expr expr) :
    ∀ (fmls : List expr), (∀ f ∈ fmls, cache.find f = some (rewrite_spec map f)) →
      mk_concrete_result cache fmls = some (fmls.map (rewrite_spec map)) := by
  intro fmls
  induction fmls with
  | nil => intro _; rfl
  | cons f rest ih =>
    intro h
    simp [mk_concrete_result, h f (by simp), ih (fun g hg => h g (by simp [hg]))]

theorem cache_ok_empty (map : obj_map expr expr) : cache_ok map obj_map.empty := by
  intro t v h
  simp [obj_map.find_empty] at h

/-- What `mk_concrete` returns on expressions without bound variables and
quantifiers: the list of the rewrites under `map`; the fuel of the loop suffices. -/
theorem mk_concrete_eq (fmls : List expr) (map : obj_map expr expr)
    (hg : is_ground_list fmls = true) :
    mk_concrete fmls map = some (fmls.map (rewrite_spec map)) := by
  have hruns : ∀ a ∈ fmls.reverse, rewrite_runs map a := by
    intro a ha
    exact rewrite_runs_of_ground_list map fmls hg a (List.mem_reverse.1 ha)
  obtain ⟨n, c1, hn, hok, _, hfind, hrun⟩ :=
    rewrite_runs_list map _ hruns obj_map.empty [] (cache_ok_empty map)
  rw [expr.sizeList_reverse] at hn
  unfold mk_concrete
  have hfuel : 2 * expr.sizeList fmls + 1 = n + (2 * expr.sizeList fmls - n + 1) := by omega
  have := hrun (2 * expr.sizeList fmls - n + 1)
  rw [List.append_nil] at this
  rw [hfuel, this]
  simp only [mk_concrete_loop]
  exact mk_concrete_result_spec map c1 fmls (fun f hf => hfind f (List.mem_reverse.2 hf))

/-- What `mk_abstract` returns on an expression without bound variables and
quantifiers: its rewrite under `lit2pred`; the fuel of the loop suffices. -/
theorem pred_abs.mk_abstract_eq (s : pred_abs) (fml : expr) (hg : is_ground fml = true) :
    s.mk_abstract fml = some (rewrite_spec s.m_lit2pred fml) := by
  obtain ⟨n, c1, hn, hok, _, hfind, hrun⟩ :=
    rewrite_runs_of_ground s.m_lit2pred fml hg obj_map.empty [] (cache_ok_empty _)
  unfold pred_abs.mk_abstract
  have hfuel : 2 * fml.size + 1 = n + (2 * fml.size - n + 1) := by omega
  rw [mk_abstract_loop_eq, hfuel, hrun]
  simp only [mk_concrete_loop]
  exact hfind

theorem fresh_below_list_iff (n : Nat) (l : List expr) :
    fresh_below_list n l = true ↔ ∀ a ∈ l, fresh_below n a = true := by
  induction l with
  | nil => simp [fresh_below_list]
  | cons a l ih => simp [fresh_below_list, ih]

mutual
theorem fresh_below_mono (n m : Nat) (h : n ≤ m) :
    ∀ (e : expr), fresh_below n e = true → fresh_below m e = true
  | .app d args, he => by
    simp only [fresh_below, Bool.and_eq_true] at he ⊢
    refine ⟨?_, fresh_below_list_mono n m h args he.2⟩
    have h1 := he.1
    split at h1
    · rename_i k hk
      simp only [decide_eq_true_eq] at h1 ⊢
      omega
    · rfl
  | .var _ _, _ => rfl
  | .quantifier _ b, he => by
    simp only [fresh_below] at he ⊢
    exact fresh_below_mono n m h b he
theorem fresh_below_list_mono (n m : Nat) (h : n ≤ m) :
    ∀ (l : List expr), fresh_below_list n l = true → fresh_below_list m l = true
  | [], _ => rfl
  | a :: l, hl => by
    simp only [fresh_below_list, Bool.and_eq_true] at hl ⊢
    exact ⟨fresh_below_mono n m h a hl.1, fresh_below_list_mono n m h l hl.2⟩
end

theorem push_unmarked_mem (mark : List expr) :
    ∀ (args todo : List expr) (x : expr), x ∈ push_unmarked mark args todo →
      x ∈ args ∨ x ∈ todo := by
  intro args
  induction args with
  | nil => intro todo x hx; exact Or.inr hx
  | cons f rest ih =>
    intro todo x hx
    simp only [push_unmarked] at hx
    split at hx
    · rcases ih _ _ hx with h | h
      · exact Or.inl (by simp [h])
      · exact Or.inr h
    · rcases ih _ _ hx with h | h
      · exact Or.inl (by simp [h])
      · rcases List.mem_cons.1 h with e | e
        · exact Or.inl (by simp [e])
        · exact Or.inr e

theorem push_unmarked_todo (mark : List expr) :
    ∀ (args todo : List expr) (x : expr), x ∈ todo → x ∈ push_unmarked mark args todo := by
  intro args
  induction args with
  | nil => intro todo x hx; exact hx
  | cons f rest ih =>
    intro todo x hx
    simp only [push_unmarked]
    split
    · exact ih _ _ hx
    · exact ih _ _ (by simp [hx])

theorem push_unmarked_args (mark : List expr) :
    ∀ (args todo : List expr) (x : expr), x ∈ args →
      x ∈ mark ∨ x ∈ push_unmarked mark args todo := by
  intro args
  induction args with
  | nil => intro todo x hx; simp at hx
  | cons f rest ih =>
    intro todo x hx
    simp only [push_unmarked]
    rcases List.mem_cons.1 hx with e | e
    · split
      · rename_i hm; exact Or.inl (by rw [e]; exact hm)
      · exact Or.inr (push_unmarked_todo mark rest _ x (by simp [e]))
    · split
      · exact ih _ _ e
      · exact ih _ _ e

theorem is_uninterp_const_eq (a : expr) (h : is_uninterp_const a = true) :
    ∃ d, a = expr.app d [] ∧ d.family = family_id.null_family_id := by
  cases a with
  | app d args =>
    cases args with
    | nil => exact ⟨d, rfl, by simpa [is_uninterp_const] using h⟩
    | cons x xs => simp [is_uninterp_const] at h
  | var i s => simp [is_uninterp_const] at h
  | quantifier f b => simp [is_uninterp_const] at h

theorem pred_abs.add_pred_fresh_id (s : pred_abs) (p lit : expr) :
    (s.add_pred p lit).m_fresh_id = s.m_fresh_id := by
  unfold pred_abs.add_pred pred_abs.add_lit
  split <;> rfl

theorem pred_abs.atom_update_fresh_id (s2 : pred_abs) (r a : expr) (l : max_level) (b : Bool) :
    (s2.atom_update r a l b).m_fresh_id = (s2.add_pred r a).m_fresh_id := by
  unfold pred_abs.atom_update
  cases b <;> rfl

/-- The maps invariant is kept when a pair `(p, lit)` is registered for an atom that
is no key of `lit2pred` and a proxy that is no key of `pred2lit`. -/
theorem pred_abs.maps_wf_add_pred (s t : pred_abs) (d : func_decl) (lit : expr)
    (hwf : s.maps_wf)
    (h1 : t.m_pred2lit = s.m_pred2lit.insert (expr.app d []) lit)
    (h2 : t.m_lit2pred = s.m_lit2pred.insert lit (expr.app d []))
    (hp : s.m_pred2lit.find (expr.app d []) = none)
    (hkind : lit = expr.app d [] ∨ ∃ k, d.name = symbol.fresh k)
    (hfresh : ∀ k, d.name = symbol.fresh k → k < t.m_fresh_id)
    (hcnt : s.m_fresh_id ≤ t.m_fresh_id) : t.maps_wf := by
  obtain ⟨hJ, hK, hF⟩ := hwf
  refine ⟨?_, ?_, ?_⟩
  · intro a p hap
    rw [h2, obj_map.find_insert] at hap
    rw [h1, obj_map.find_insert]
    split at hap
    · rename_i ha
      simp only [Option.some.injEq] at hap
      simp [← hap, ha]
    · have hold := hJ a p hap
      have : p ≠ expr.app d [] := by
        intro e; rw [e, hp] at hold; simp at hold
      simp [this, hold]
  · intro p x hpx
    rw [h1, obj_map.find_insert] at hpx
    split at hpx
    · rename_i he
      simp only [Option.some.injEq] at hpx
      refine ⟨d, he, ?_⟩
      rcases hkind with hk | hk
      · exact Or.inl (by rw [← hpx, he, hk])
      · exact Or.inr hk
    · exact hK p x hpx
  · intro d1 x k hfind hname
    rw [h1, obj_map.find_insert] at hfind
    split at hfind
    · rename_i he
      simp only [expr.app.injEq, and_true] at he
      exact hfresh k (by rw [← he]; exact hname)
    · exact lt_of_lt_of_le (hF d1 x k hfind hname) hcnt

theorem aa_step_maps_wf {c c1 : aa_config} (h : aa_step c c1)
    (hwf : c.s.maps_wf) (htodo : ∀ t ∈ c.todo, fresh_below c.s.m_fresh_id t = true) :
    c1.s.maps_wf ∧ ∀ t ∈ c1.todo, fresh_below c1.s.m_fresh_id t = true := by
  cases h with
  | marked a todo mark s level defs hm =>
    exact ⟨hwf, fun t ht => htodo t (by simp [ht])⟩
  | mapped a todo mark s level defs p lp hm hp hl =>
    exact ⟨hwf, fun t ht => htodo t (by simp [ht])⟩
  | const_new a todo mark s level defs l hm hp hc hl hn =>
    simp only [Bool.and_eq_true] at hc
    obtain ⟨d, had, _⟩ := is_uninterp_const_eq a hc.1
    subst had
    have hfa := htodo (expr.app d []) (by simp)
    have hid : ((s.add_pred (expr.app d []) (expr.app d [])).insert (expr.app d []) l).m_fresh_id
        = s.m_fresh_id := pred_abs.add_pred_fresh_id s _ _
    refine ⟨?_, fun t ht => by
      show fresh_below ((s.add_pred (expr.app d []) (expr.app d [])).insert
        (expr.app d []) l).m_fresh_id t = true
      rw [hid]; exact htodo t (by simp [ht])⟩
    refine pred_abs.maps_wf_add_pred s _ d (expr.app d []) hwf ?_ ?_ hn (Or.inl rfl) ?_
      (le_of_eq hid.symm)
    · exact pred_abs.add_pred_pred2lit s _ _
    · exact pred_abs.add_pred_lit2pred_new s _ _ hp
    · intro k hk
      simp only [fresh_below, hk, Bool.and_eq_true, decide_eq_true_eq] at hfa
      show k < ((s.add_pred (expr.app d []) (expr.app d [])).insert (expr.app d []) l).m_fresh_id
      rw [hid]
      exact hfa.1
  | const_old a todo mark s level defs l hm hp hc hl hn =>
    exact ⟨hwf, fun t ht => htodo t (by simp [ht])⟩
  | atom d args todo mark s level defs s2 l is_pred hm hp hc hb hbool hlvl hpred =>
    have e := pred_abs.compute_level_eq hlvl
    have h1 : s2.m_pred2lit = s.m_pred2lit := by rw [e]; rfl
    have h2 : s2.m_lit2pred = s.m_lit2pred := by rw [e]; rfl
    have h3 : s2.m_fresh_id = s.m_fresh_id + 1 := by rw [e]; rfl
    have h4 : (s2.atom_update s.fresh_bool.1 (expr.app d args) l is_pred).m_fresh_id
        = s.m_fresh_id + 1 := by
      rw [pred_abs.atom_update_fresh_id, pred_abs.add_pred_fresh_id, h3]
    have hfa := htodo (expr.app d args) (by simp)
    refine ⟨?_, ?_⟩
    · refine pred_abs.maps_wf_add_pred s _
        ⟨symbol.fresh s.m_fresh_id, family_id.null_family_id, decl_kind.OP_OTHER 0,
          expr_sort.bool_sort⟩ (expr.app d args) hwf ?_ ?_ ?_ (Or.inr ⟨_, rfl⟩) ?_ ?_
      · rw [pred_abs.atom_update_pred2lit, pred_abs.add_pred_pred2lit, h1]; rfl
      · rw [pred_abs.atom_update_lit2pred, pred_abs.add_pred_lit2pred_new _ _ _ (by rw [h2]; exact hp),
          h2]; rfl
      · cases hf : s.m_pred2lit.find (expr.app ⟨symbol.fresh s.m_fresh_id,
          family_id.null_family_id, decl_kind.OP_OTHER 0, expr_sort.bool_sort⟩ []) with
        | none => rfl
        | some x =>
          exact absurd (hwf.2.2 _ x s.m_fresh_id hf rfl) (lt_irrefl _)
      · intro k hk
        simp only [symbol.fresh.injEq] at hk
        show k < (s2.atom_update s.fresh_bool.1 (expr.app d args) l is_pred).m_fresh_id
        rw [h4]; omega
      · show s.m_fresh_id ≤ (s2.atom_update s.fresh_bool.1 (expr.app d args) l is_pred).m_fresh_id
        rw [h4]; omega
    · intro t ht
      show fresh_below (s2.atom_update s.fresh_bool.1 (expr.app d args) l is_pred).m_fresh_id t
        = true
      rw [h4]
      rcases push_unmarked_mem _ _ _ _ ht with h | h
      · simp only [fresh_below, Bool.and_eq_true] at hfa
        exact fresh_below_mono _ _ (Nat.le_succ _) t ((fresh_below_list_iff _ _).1 hfa.2 t h)
      · exact fresh_below_mono _ _ (Nat.le_succ _) t (htodo t (by simp [h]))
  | skip d args todo mark s level defs boolop hm hp hc hb hbool =>
    have hfa := htodo (expr.app d args) (by simp)
    refine ⟨hwf, ?_⟩
    intro t ht
    rcases push_unmarked_mem _ _ _ _ ht with h | h
    · simp only [fresh_below, Bool.and_eq_true] at hfa
      exact (fresh_below_list_iff _ _).1 hfa.2 t h
    · exact htodo t (by simp [h])

theorem aa_steps_maps_wf {c c1 : aa_config} (h : Relation.ReflTransGen aa_step c c1)
    (hwf : c.s.maps_wf) (htodo : ∀ t ∈ c.todo, fresh_below c.s.m_fresh_id t = true) :
    c1.s.maps_wf ∧ ∀ t ∈ c1.todo, fresh_below c1.s.m_fresh_id t = true := by
  induction h with
  | refl => exact ⟨hwf, htodo⟩
  | tail _ hstep ih => exact aa_step_maps_wf hstep ih.1 ih.2

theorem pred_abs.reach_maps_wf {s : pred_abs} (h : pred_abs.reach known_symbols s) :
    s.maps_wf := by
  induction h with
  | init k =>
    refine ⟨?_, ?_, ?_⟩ <;> intros <;> simp_all [pred_abs.init, obj_map.find_empty]
  | set_expr_level s v lvl _ ih => exact ih
  | set_decl_level s f lvl _ ih => exact ih
  | abstract_atoms s fml level defs r _ hadm hr ih =>
    obtain ⟨mk, hmk⟩ := pred_abs.abstract_atoms_steps hr
    exact (aa_steps_maps_wf hmk ih (by
      intro t ht
      simp only [List.mem_singleton] at ht
      rw [ht]; exact hadm)).1

mutual
theorem rewrite_round_trip (s : pred_abs) (hwf : s.maps_wf) :
    ∀ (e : expr), is_ground e = true → proxy_free s.m_pred2lit e = true →
      rewrite_spec s.m_pred2lit (rewrite_spec s.m_lit2pred e) = e ∧
      is_ground (rewrite_spec s.m_lit2pred e) = true
  | .app d args, hg, hf => by
    simp only [is_ground] at hg
    simp only [proxy_free, Bool.and_eq_true] at hf
    obtain ⟨ih1, ih2⟩ := rewrite_round_trip_list s hwf args hg hf.2
    cases hl : s.m_lit2pred.find (expr.app d args) with
    | some p =>
      have hp := hwf.1 _ _ hl
      obtain ⟨d1, hd1, _⟩ := hwf.2.1 _ _ hp
      rw [rewrite_spec_of_find _ _ p hl]
      exact ⟨rewrite_spec_of_find _ _ _ hp, by rw [hd1]; rfl⟩
    | none =>
      have e1 : rewrite_spec s.m_lit2pred (expr.app d args)
          = expr.app d (rewrite_spec_list s.m_lit2pred args) := by
        simp [rewrite_spec, hl]
      rw [e1]
      refine ⟨?_, by simpa [is_ground] using ih2⟩
      cases hp : s.m_pred2lit.find (expr.app d (rewrite_spec_list s.m_lit2pred args)) with
      | some x =>
        rw [rewrite_spec_of_find _ _ x hp]
        obtain ⟨d1, hd1, _⟩ := hwf.2.1 _ _ hp
        simp only [expr.app.injEq] at hd1
        have hargs : args = [] := by
          cases args with
          | nil => rfl
          | cons a as => simp [rewrite_spec_list] at hd1
        subst hargs
        have hp1 : s.m_pred2lit.find (expr.app d []) = some x := hp
        have := hf.1
        rw [hp1] at this
        simpa using this
      | none =>
        simp only [rewrite_spec, hp]
        rw [ih1]
  | .var _ _, hg, _ => by simp [is_ground] at hg
  | .quantifier _ _, hg, _ => by simp [is_ground] at hg
theorem rewrite_round_trip_list (s : pred_abs) (hwf : s.maps_wf) :
    ∀ (l : List expr), is_ground_list l = true → proxy_free_list s.m_pred2lit l = true →
      rewrite_spec_list s.m_pred2lit (rewrite_spec_list s.m_lit2pred l) = l ∧
      is_ground_list (rewrite_spec_list s.m_lit2pred l) = true
  | [], _, _ => ⟨rfl, rfl⟩
  | a :: l, hg, hf => by
    simp only [is_ground_list, Bool.and_eq_true] at hg
    simp only [proxy_free_list, Bool.and_eq_true] at hf
    obtain ⟨h1, h2⟩ := rewrite_round_trip s hwf a hg.1 hf.1
    obtain ⟨h3, h4⟩ := rewrite_round_trip_list s hwf l hg.2 hf.2
    simp only [rewrite_spec_list, is_ground_list, h1, h2, h3, h4]
    exact ⟨trivial, rfl⟩
end

mutual
/-- A formula without fresh symbols mentions no minted proxy, in every state with the
maps invariant. -/
theorem proxy_free_of_fresh_below (s : pred_abs) (hwf : s.maps_wf) :
    ∀ (e : expr), is_ground e = true → fresh_below 0 e = true →
      proxy_free s.m_pred2lit e = true
  | .app d args, hg, hf => by
    simp only [is_ground] at hg
    simp only [fresh_below, Bool.and_eq_true] at hf
    simp only [proxy_free, Bool.and_eq_true]
    refine ⟨?_, proxy_free_of_fresh_below_list s hwf args hg hf.2⟩
    cases hp : s.m_pred2lit.find (expr.app d args) with
    | none => rfl
    | some x =>
      obtain ⟨d1, hd1, hx⟩ := hwf.2.1 _ _ hp
      simp only [expr.app.injEq] at hd1
      rcases hx with hx | ⟨k, hk⟩
      · simp [hx]
      · rw [← hd1.1] at hk
        have := hf.1
        rw [hk] at this
        simp at this
  | .var _ _, hg, _ => by simp [is_ground] at hg
  | .quantifier _ _, hg, _ => by simp [is_ground] at hg
theorem proxy_free_of_fresh_below_list (s : pred_abs) (hwf : s.maps_wf) :
    ∀ (l : List expr), is_ground_list l = true → fresh_below_list 0 l = true →
      proxy_free_list s.m_pred2lit l = true
  | [], _, _ => rfl
  | a :: l, hg, hf => by
    simp only [is_ground_list, Bool.and_eq_true] at hg
    simp only [fresh_below_list, Bool.and_eq_true] at hf
    simp only [proxy_free_list, Bool.and_eq_true]
    exact ⟨proxy_free_of_fresh_below s hwf a hg.1 hf.1,
      proxy_free_of_fresh_below_list s hwf l hg.2 hf.2⟩
end

theorem sample_hoisted_abs_eq :
    sample_hoisted_seeded.abstract_atoms sample_hoisted_fml max_level.unset []
      = some sample_hoisted_abs := by
  rfl

/-- C2: in every state reached from the state after construction by level seeding
and `abstract_atoms` calls on expressions of the manager, for every formula `f`
without bound variables and quantifiers that mentions none of the minted proxies (no
subterm of `f` is a key of `pred2lit` standing for another expression; constants made
by `mk_fresh_const` for hoisted variables are allowed), `mk_abstract` returns an
abstraction `g` of `f` and concretizing `[g]` with `pred2lit` returns `[f]`. -/
theorem C2_round_trip (s : pred_abs) (h : pred_abs.reach known_symbols s) (f : expr)
    (hg : is_ground f = true) (hf : proxy_free s.m_pred2lit f = true) :
    ∃ g, s.mk_abstract f = some g ∧ s.pred2lit [g] = some [f] := by
  obtain ⟨h1, h2⟩ := rewrite_round_trip s (pred_abs.reach_maps_wf h) f hg hf
  refine ⟨rewrite_spec s.m_lit2pred f, pred_abs.mk_abstract_eq s f hg, ?_⟩
  unfold pred_abs.pred2lit
  rw [mk_concrete_eq _ _ (by simp [is_ground_list, h2])]
  simp [h1]

/-- C2 (witness): after `abstract_atoms` on `c ∧ x < y`, with `c` a constant made by
`mk_fresh_const` for a hoisted variable, the formula `c ∧ x < y` mentions no minted
proxy (the proxy `fresh_const 1` of `x < y` is one, and a formula that mentions it is
not admitted), its abstraction is `c ∧ fresh_const 1` and the round trip gives it
back. -/
theorem C2_round_trip_witness :
    sample_hoisted_abs.1.m_pred2lit.find sample_hoisted_const = some sample_hoisted_const ∧
    sample_hoisted_abs.1.m_pred2lit.find (fresh_const 1) = some sample_atom ∧
    proxy_free sample_hoisted_abs.1.m_pred2lit (fresh_const 1) = false ∧
    sample_hoisted_abs.1.mk_abstract sample_hoisted_fml
      = some (sample_and sample_hoisted_const (fresh_const 1)) ∧
    ∃ g, sample_hoisted_abs.1.mk_abstract sample_hoisted_fml = some g ∧
      sample_hoisted_abs.1.pred2lit [g] = some [sample_hoisted_fml] :=
  ⟨by decide, by decide, by decide, by rfl,
   C2_round_trip sample_hoisted_abs.1
    (pred_abs.reach.abstract_atoms _ _ _ _ _
      (pred_abs.reach.set_expr_level _ _ _
        (pred_abs.reach.set_expr_level _ _ _ (pred_abs.reach.init 1)))
      (show fresh_below 1 sample_hoisted_fml = true by decide) sample_hoisted_abs_eq)
    sample_hoisted_fml (by decide) (by decide)⟩

theorem aa_step_maps_change {c c1 : aa_config} (h : aa_step c c1) :
    ∃ a rest, c.todo = a :: rest ∧ maps_change c.s c1.s a ∧
      (c1.s.m_lit2pred.contains a = true ∨ c1.s.m_pred2lit.contains a = true ∨
        c1.s.m_lit2pred = c.s.m_lit2pred) := by
  cases h with
  | marked a todo mark s level defs hm =>
    exact ⟨a, todo, rfl, Or.inl ⟨rfl, rfl⟩, Or.inr (Or.inr rfl)⟩
  | mapped a todo mark s level defs p lp hm hp hl =>
    exact ⟨a, todo, rfl, Or.inl ⟨rfl, rfl⟩, Or.inr (Or.inr rfl)⟩
  | const_new a todo mark s level defs l hm hp hc hl hn =>
    simp only [Bool.and_eq_true] at hc
    refine ⟨a, todo, rfl, Or.inr ⟨a, hp, pred_abs.add_pred_pred2lit s _ _,
      pred_abs.add_pred_lit2pred_new s _ _ hp, hc.1, hc.2⟩, Or.inl ?_⟩
    show ((s.add_pred a a).insert a l).m_lit2pred.contains a = true
    have : ((s.add_pred a a).insert a l).m_lit2pred = s.m_lit2pred.insert a a :=
      pred_abs.add_pred_lit2pred_new s _ _ hp
    rw [this, obj_map.contains_eq_true]
    exact ⟨a, obj_map.find_insert_self _ _ _⟩
  | const_old a todo mark s level defs l hm hp hc hl hn =>
    exact ⟨a, todo, rfl, Or.inl ⟨rfl, rfl⟩, Or.inr (Or.inr rfl)⟩
  | atom d args todo mark s level defs s2 l is_pred hm hp hc hb hbool hlvl hpred =>
    have e := pred_abs.compute_level_eq hlvl
    have h1 : s2.m_pred2lit = s.m_pred2lit := by rw [e]; rfl
    have h2 : s2.m_lit2pred = s.m_lit2pred := by rw [e]; rfl
    have h3 : (s2.atom_update s.fresh_bool.1 (expr.app d args) l is_pred).m_lit2pred
        = s.m_lit2pred.insert (expr.app d args) s.fresh_bool.1 := by
      rw [pred_abs.atom_update_lit2pred,
        pred_abs.add_pred_lit2pred_new _ _ _ (by rw [h2]; exact hp), h2]
    refine ⟨expr.app d args, todo, rfl, Or.inr ⟨s.fresh_bool.1, hp, ?_, h3, rfl, rfl⟩, Or.inl ?_⟩
    · show (s2.atom_update s.fresh_bool.1 (expr.app d args) l is_pred).m_pred2lit = _
      rw [pred_abs.atom_update_pred2lit, pred_abs.add_pred_pred2lit, h1]
    · show (s2.atom_update s.fresh_bool.1 (expr.app d args) l is_pred).m_lit2pred.contains _
        = true
      rw [h3, obj_map.contains_eq_true]
      exact ⟨_, obj_map.find_insert_self _ _ _⟩
  | skip d args todo mark s level defs boolop hm hp hc hb hbool =>
    exact ⟨_, todo, rfl, Or.inl ⟨rfl, rfl⟩, Or.inr (Or.inr rfl)⟩

theorem maps_change_lit2pred {s t : pred_abs} {a : expr} (h : maps_change s t a) (x : expr)
    (hx : s.m_lit2pred.contains x = true) : t.m_lit2pred.contains x = true := by
  rcases h with ⟨_, h2⟩ | ⟨p, hnone, _, h2, _⟩
  · rw [h2]; exact hx
  · rw [h2]
    obtain ⟨v, hv⟩ := (obj_map.contains_eq_true _ _).1 hx
    have : x ≠ a := by intro e; rw [e, hnone] at hv; simp at hv
    rw [obj_map.contains_eq_true]
    exact ⟨v, by rw [obj_map.find_insert_ne _ _ this]; exact hv⟩

theorem maps_change_pred2lit {s t : pred_abs} {a : expr} (h : maps_change s t a) (x : expr)
    (hx : s.m_pred2lit.contains x = true) : t.m_pred2lit.contains x = true := by
  rcases h with ⟨h1, _⟩ | ⟨p, _, h1, _, _⟩
  · rw [h1]; exact hx
  · rw [h1]
    obtain ⟨v, hv⟩ := (obj_map.contains_eq_true _ _).1 hx
    rw [obj_map.contains_eq_true, obj_map.find_insert]
    split
    · exact ⟨_, rfl⟩
    · exact ⟨v, hv⟩

theorem maps_change_proxies_wf {s t : pred_abs} {a : expr} (h : maps_change s t a)
    (hwf : s.proxies_wf) : t.proxies_wf := by
  rcases h with ⟨h1, h2⟩ | ⟨p, hnone, h1, h2, hu, hb⟩
  · unfold pred_abs.proxies_wf
    rw [h1, h2]; exact hwf
  · constructor
    · intro x q hxq
      rw [h2, obj_map.find_insert] at hxq
      rw [h1, obj_map.contains_eq_true, obj_map.find_insert]
      split at hxq
      · simp only [Option.some.injEq] at hxq
        exact ⟨a, by simp [hxq]⟩
      · obtain ⟨v, hv⟩ := (obj_map.contains_eq_true _ _).1 (hwf.1 x q hxq)
        split
        · exact ⟨_, rfl⟩
        · exact ⟨v, hv⟩
    · intro q hq
      rw [h1, obj_map.contains_eq_true] at hq
      obtain ⟨v, hv⟩ := hq
      rw [obj_map.find_insert] at hv
      split at hv
      · rename_i e; rw [e]; exact ⟨hu, hb⟩
      · exact hwf.2 q ((obj_map.contains_eq_true _ _).2 ⟨v, hv⟩)

theorem aa_step_seen {c c1 : aa_config} (h : aa_step c c1) (x : expr) (hx : c.seen x) :
    c1.seen x := by
  unfold aa_config.seen at *
  cases h with
  | marked a todo mark s level defs hm =>
    rcases hx with hx | hx
    · exact Or.inl hx
    · rcases List.mem_cons.1 hx with e | e
      · exact Or.inl (by rw [e]; exact hm)
      · exact Or.inr e
  | mapped a todo mark s level defs p lp hm hp hl =>
    rcases hx with hx | hx
    · exact Or.inl (by simp [hx])
    · rcases List.mem_cons.1 hx with e | e
      · exact Or.inl (by simp [e])
      · exact Or.inr e
  | const_new a todo mark s level defs l hm hp hc hl hn =>
    rcases hx with hx | hx
    · exact Or.inl (by simp [hx])
    · rcases List.mem_cons.1 hx with e | e
      · exact Or.inl (by simp [e])
      · exact Or.inr e
  | const_old a todo mark s level defs l hm hp hc hl hn =>
    rcases hx with hx | hx
    · exact Or.inl (by simp [hx])
    · rcases List.mem_cons.1 hx with e | e
      · exact Or.inl (by simp [e])
      · exact Or.inr e
  | atom d args todo mark s level defs s2 l is_pred hm hp hc hb hbool hlvl hpred =>
    rcases hx with hx | hx
    · exact Or.inl (by simp [hx])
    · rcases List.mem_cons.1 hx with e | e
      · exact Or.inl (by simp [e])
      · exact Or.inr (push_unmarked_todo _ _ _ _ e)
  | skip d args todo mark s level defs boolop hm hp hc hb hbool =>
    rcases hx with hx | hx
    · exact Or.inl (by simp [hx])
    · rcases List.mem_cons.1 hx with e | e
      · exact Or.inl (by simp [e])
      · exact Or.inr (push_unmarked_todo _ _ _ _ e)

theorem aa_step_settled {c c1 : aa_config} (h : aa_step c c1)
    (hs : ∀ a ∈ c.mark, c.settled a) : ∀ a ∈ c1.mark, c1.settled a := by
  have hold : ∀ a, c.settled a → c1.settled a := by
    intro a ha
    obtain ⟨a0, rest, _, hch, _⟩ := aa_step_maps_change h
    rcases ha with ha | ha | ⟨d, args, h1, h2, h3⟩
    · exact Or.inl (maps_change_lit2pred hch a ha)
    · exact Or.inr (Or.inl (maps_change_pred2lit hch a ha))
    · exact Or.inr (Or.inr ⟨d, args, h1, h2, fun x hx => aa_step_seen h x (h3 x hx)⟩)
  have hkeep := aa_step_maps_change h
  cases h with
  | marked a todo mark s level defs hm => exact fun x hx => hold x (hs x hx)
  | mapped a todo mark s level defs p lp hm hp hl =>
    intro x hx
    rcases List.mem_cons.1 hx with e | e
    · exact Or.inl (by rw [e]; exact (obj_map.contains_eq_true _ _).2 ⟨p, hp⟩)
    · exact hold x (hs x e)
  | const_new a todo mark s level defs l hm hp hc hl hn =>
    intro x hx
    rcases List.mem_cons.1 hx with e | e
    · obtain ⟨a0, rest, h0, _, h1⟩ := hkeep
      simp only [List.cons.injEq] at h0
      obtain ⟨h01, _⟩ := h0
      subst h01
      rw [e]
      rcases h1 with h1 | h1 | h1
      · exact Or.inl h1
      · exact Or.inr (Or.inl h1)
      · exfalso
        have : ((s.add_pred a a).insert a l).m_lit2pred = s.m_lit2pred.insert a a :=
          pred_abs.add_pred_lit2pred_new s _ _ hp
        have h2 : (s.m_lit2pred.insert a a).find a = s.m_lit2pred.find a := by
          rw [← this]; exact congrArg (fun m => obj_map.find m a) h1
        rw [obj_map.find_insert_self, hp] at h2
        simp at h2
    · exact hold x (hs x e)
  | const_old a todo mark s level defs l hm hp hc hl hn =>
    intro x hx
    rcases List.mem_cons.1 hx with e | e
    · exact Or.inr (Or.inl (by rw [e]; exact hn))
    · exact hold x (hs x e)
  | atom d args todo mark s level defs s2 l is_pred hm hp hc hb hbool hlvl hpred =>
    intro x hx
    rcases List.mem_cons.1 hx with e | e
    · obtain ⟨a0, rest, h0, _, h1⟩ := hkeep
      simp only [List.cons.injEq] at h0
      obtain ⟨h01, _⟩ := h0
      subst h01
      rw [e]
      rcases h1 with h1 | h1 | h1
      · exact Or.inl h1
      · exact Or.inr (Or.inl h1)
      · exfalso
        have e2 := pred_abs.compute_level_eq hlvl
        have h2 : s2.m_lit2pred = s.m_lit2pred := by rw [e2]; rfl
        have h3 : (s2.atom_update s.fresh_bool.1 (expr.app d args) l is_pred).m_lit2pred
            = s.m_lit2pred.insert (expr.app d args) s.fresh_bool.1 := by
          rw [pred_abs.atom_update_lit2pred,
            pred_abs.add_pred_lit2pred_new _ _ _ (by rw [h2]; exact hp), h2]
        have h4 : (s.m_lit2pred.insert (expr.app d args) s.fresh_bool.1).find (expr.app d args)
            = s.m_lit2pred.find (expr.app d args) := by
          rw [← h3]; exact congrArg (fun m => obj_map.find m (expr.app d args)) h1
        rw [obj_map.find_insert_self, hp] at h4
        simp at h4
    · exact hold x (hs x e)
  | skip d args todo mark s level defs boolop hm hp hc hb hbool =>
    intro x hx
    rcases List.mem_cons.1 hx with e | e
    · refine Or.inr (Or.inr ⟨d, args, e, ?_, ?_⟩)
      · rw [e]
        cases boolop with
        | true => exact Or.inl hb
        | false => exact Or.inr (by simpa using hbool)
      · intro y hy
        exact push_unmarked_args _ _ todo y hy
    · exact hold x (hs x e)

/-- The facts the loop of `abstract_atoms` keeps from round to round. -/
theorem aa_steps_settled {c c1 : aa_config} (h : Relation.ReflTransGen aa_step c c1)
    (hwf : c.s.proxies_wf) (hs : ∀ a ∈ c.mark, c.settled a) :
    c1.s.proxies_wf ∧ (∀ a ∈ c1.mark, c1.settled a) ∧ ∀ x, c.seen x → c1.seen x := by
  induction h with
  | refl => exact ⟨hwf, hs, fun _ hx => hx⟩
  | tail _ hstep ih =>
    obtain ⟨a0, rest, _, hch, _⟩ := aa_step_maps_change hstep
    exact ⟨maps_change_proxies_wf hch ih.1, aa_step_settled hstep ih.2.1,
      fun x hx => aa_step_seen hstep x (ih.2.2 x hx)⟩

theorem pred_abs.reach_proxies_wf {adm : pred_abs → expr → Prop} {s : pred_abs}
    (h : pred_abs.reach adm s) : s.proxies_wf := by
  induction h with
  | init k =>
    constructor
    · intro a p h; simp [pred_abs.init, obj_map.find_empty] at h
    · intro p h; simp [pred_abs.init, obj_map.contains, obj_map.find_empty] at h
  | set_expr_level s v lvl _ ih => exact ih
  | set_decl_level s f lvl _ ih => exact ih
  | abstract_atoms s fml level defs r _ _ hr ih =>
    obtain ⟨mk, hmk⟩ := pred_abs.abstract_atoms_steps hr
    exact (aa_steps_settled hmk ih (by simp)).1

theorem is_skeleton_list_iff (m : obj_map expr expr) (l : List expr) :
    is_skeleton_list m l = true ↔ ∀ a ∈ l, is_skeleton m a = true := by
  induction l with
  | nil => simp [is_skeleton_list]
  | cons a l ih => simp [is_skeleton_list, ih]

theorem well_sorted_list_iff (l : List expr) :
    well_sorted_list l = true ↔ ∀ a ∈ l, well_sorted a = true := by
  induction l with
  | nil => simp [well_sorted_list]
  | cons a l ih => simp [well_sorted_list, ih]

theorem is_bool_iff_sort (a : expr) : is_bool a = true ↔ get_sort a = expr_sort.bool_sort := by
  cases a <;> simp [is_bool, get_sort]

/-- A boolean operator of the basic family in a well-sorted formula is a boolean
connective or constant over boolean arguments. -/
theorem boolop_args_bool (d : func_decl) (args : List expr)
    (hb : is_boolop (expr.app d args) = some true)
    (hs : well_sorted (expr.app d args) = true) (hbool : is_bool (expr.app d args) = true) :
    d.family = family_id.basic_family_id ∧ d.range = expr_sort.bool_sort ∧
    is_connective d.kind = true ∧ ∀ x ∈ args, is_bool x = true := by
  have hrange : d.range = expr_sort.bool_sort := by simpa [is_bool] using hbool
  by_cases hfam : d.family = family_id.basic_family_id
  · simp only [well_sorted, hfam, if_true, Bool.and_eq_true] at hs
    obtain ⟨_, hs⟩ := hs
    simp only [is_boolop, hfam, if_true, is_eq, is_distinct, is_basic_app_of, decide_True,
      Bool.true_and, decide_eq_true_eq] at hb
    refine ⟨hfam, hrange, ?_, ?_⟩
    · cases hk : d.kind <;> simp_all [is_connective, basic_sorted]
    · cases hk : d.kind <;> simp only [hk, basic_sorted, Bool.and_eq_true, decide_eq_true_eq,
        List.all_eq_true, List.isEmpty_iff] at hs
      · intro x hx; rw [hs.2] at hx; simp at hx
      · intro x hx; rw [hs.2] at hx; simp at hx
      · -- OP_EQ
        simp only [hk, if_true] at hb
        cases args with
        | nil => simp at hb
        | cons a0 rest =>
          simp only [List.head?_cons, Option.map_some'] at hb
          have ha0 : is_bool a0 = true := by
            cases h0 : is_bool a0
            · rw [h0] at hb; simp at hb
            · rfl
          intro x hx
          have := hs.2 x hx
          simp only [List.headD_cons] at this
          rw [is_bool_iff_sort, this, ← is_bool_iff_sort]; exact ha0
      · -- OP_DISTINCT
        simp only [hk, if_true] at hb
        cases args with
        | nil => simp at hb
        | cons a0 rest =>
          simp only [List.head?_cons, Option.map_some'] at hb
          have ha0 : is_bool a0 = true := by
            cases h0 : is_bool a0
            · rw [h0] at hb; simp at hb
            · rfl
          intro x hx
          have := hs.2 x hx
          simp only [List.headD_cons] at this
          rw [is_bool_iff_sort, this, ← is_bool_iff_sort]; exact ha0
      · -- OP_ITE
        split at hs
        · rename_i c t e
          simp only [Bool.and_eq_true, decide_eq_true_eq] at hs
          intro x hx
          simp only [List.mem_cons, List.mem_singleton, List.not_mem_nil, or_false] at hx
          rcases hx with hx | hx | hx
          · rw [hx]; exact hs.1.1
          · rw [hx, is_bool_iff_sort, hs.1.2, hrange]
          · rw [hx, is_bool_iff_sort, hs.2, hrange]
        · simp at hs
      all_goals first
        | (intro x hx; exact hs.2 x hx)
        | simp at hs
  · simp [is_boolop, hfam] at hb

mutual
theorem skeleton_of_marked (c : aa_config) (htodo : c.todo = []) (hwf : c.s.proxies_wf)
    (hs : ∀ a ∈ c.mark, c.settled a) :
    ∀ (e : expr), e ∈ c.mark → is_bool e = true → well_sorted e = true →
      is_skeleton c.s.m_pred2lit (rewrite_spec c.s.m_lit2pred e) = true
  | .app d args, hm, hb, hw => by
    have proxy : ∀ p, c.s.m_pred2lit.contains p = true → is_skeleton c.s.m_pred2lit p = true := by
      intro p hp
      obtain ⟨h1, h2⟩ := hwf.2 p hp
      obtain ⟨d1, hd1, _⟩ := is_uninterp_const_eq p h1
      subst hd1
      simp [is_skeleton, hp, h1, h2]
    cases hl : c.s.m_lit2pred.find (expr.app d args) with
    | some p =>
      rw [rewrite_spec_of_find _ _ p hl]
      exact proxy p (hwf.1 _ _ hl)
    | none =>
      rcases hs _ hm with h1 | h1 | ⟨d1, args1, h1, h2, h3⟩
      · rw [obj_map.contains_eq_true] at h1
        obtain ⟨v, hv⟩ := h1
        rw [hl] at hv; simp at hv
      · obtain ⟨hu, _⟩ := hwf.2 _ h1
        obtain ⟨d1, hd1, _⟩ := is_uninterp_const_eq _ hu
        simp only [expr.app.injEq] at hd1
        obtain ⟨hd, ha⟩ := hd1
        subst hd ha
        have : rewrite_spec c.s.m_lit2pred (expr.app d []) = expr.app d [] := by
          simp [rewrite_spec, hl, rewrite_spec_list]
        rw [this]
        exact proxy _ h1
      · simp only [expr.app.injEq] at h1
        obtain ⟨hd, ha⟩ := h1
        subst hd ha
        have hbo : is_boolop (expr.app d args) = some true := by
          rcases h2 with h2 | h2
          · exact h2
          · rw [hb] at h2; simp at h2
        obtain ⟨hfam, hrange, hconn, hargs⟩ := boolop_args_bool d args hbo hw hb
        have hwl : well_sorted_list args = true := by
          simp only [well_sorted, Bool.and_eq_true] at hw
          exact hw.1
        have hmarks : ∀ x ∈ args, x ∈ c.mark := by
          intro x hx
          rcases h3 x hx with h | h
          · exact h
          · rw [htodo] at h; simp at h
        have ih := skeleton_of_marked_list c htodo hwf hs args hmarks hargs hwl
        simp only [rewrite_spec, hl, is_skeleton, hfam, hrange, hconn, ih, decide_True,
          Bool.and_self, Bool.or_true]
  | .var _ _, hm, _, _ => by
    rcases hs _ hm with h1 | h1 | ⟨d1, args1, h1, _, _⟩
    · obtain ⟨v, hv⟩ := (obj_map.contains_eq_true _ _).1 h1
      rw [rewrite_spec_of_find _ _ v hv]
      have hp := hwf.1 _ _ hv
      obtain ⟨h2, h3⟩ := hwf.2 v hp
      obtain ⟨d1, hd1, _⟩ := is_uninterp_const_eq v h2
      subst hd1
      simp [is_skeleton, hp, h2, h3]
    · have := (hwf.2 _ h1).1
      simp [is_uninterp_const] at this
    · simp at h1
  | .quantifier _ _, hm, _, _ => by
    rcases hs _ hm with h1 | h1 | ⟨d1, args1, h1, _, _⟩
    · obtain ⟨v, hv⟩ := (obj_map.contains_eq_true _ _).1 h1
      rw [rewrite_spec_of_find _ _ v hv]
      have hp := hwf.1 _ _ hv
      obtain ⟨h2, h3⟩ := hwf.2 v hp
      obtain ⟨d1, hd1, _⟩ := is_uninterp_const_eq v h2
      subst hd1
      simp [is_skeleton, hp, h2, h3]
    · have := (hwf.2 _ h1).1
      simp [is_uninterp_const] at this
    · simp at h1
theorem skeleton_of_marked_list (c : aa_config) (htodo : c.todo = []) (hwf : c.s.proxies_wf)
    (hs : ∀ a ∈ c.mark, c.settled a) :
    ∀ (l : List expr), (∀ x ∈ l, x ∈ c.mark) → (∀ x ∈ l, is_bool x = true) →
      well_sorted_list l = true →
      is_skeleton_list c.s.m_pred2lit (rewrite_spec_list c.s.m_lit2pred l) = true
  | [], _, _, _ => rfl
  | a :: l, hm, hb, hw => by
    simp only [well_sorted_list, Bool.and_eq_true] at hw
    simp only [rewrite_spec_list, is_skeleton_list, Bool.and_eq_true]
    exact ⟨skeleton_of_marked c htodo hwf hs a (hm a (by simp)) (hb a (by simp)) hw.1,
      skeleton_of_marked_list c htodo hwf hs l (fun x hx => hm x (by simp [hx]))
        (fun x hx => hb x (by simp [hx])) hw.2⟩
end

/-- C3: after `abstract_atoms(f, ..)` on a well-sorted boolean formula `f` without
bound variables and quantifiers, in a state reached by level seeding and
`abstract_atoms` calls, `mk_abstract(f)` returns a boolean skeleton: it is built only
from boolean connectives and constants of the basic family and from boolean
uninterpreted constants that are keys of `pred2lit`. -/
theorem C3_boolean_skeleton (adm : pred_abs → expr → Prop) (s : pred_abs)
    (h : pred_abs.reach adm s) (f : expr) (hg : is_ground f = true)
    (hw : well_sorted f = true) (hb : is_bool f = true) (level : max_level)
    (defs : List expr) (r : pred_abs × max_level × List expr)
    (hr : s.abstract_atoms f level defs = some r) :
    ∃ g, r.1.mk_abstract f = some g ∧ is_skeleton r.1.m_pred2lit g = true := by
  refine ⟨rewrite_spec r.1.m_lit2pred f, pred_abs.mk_abstract_eq r.1 f hg, ?_⟩
  obtain ⟨mk, hmk⟩ := pred_abs.abstract_atoms_steps hr
  have hwfs : s.proxies_wf := pred_abs.reach_proxies_wf h
  have hwf0 : pred_abs.proxies_wf { s with m_trail := s.m_trail ++ [f] } := hwfs
  obtain ⟨h1, h2, h3⟩ := aa_steps_settled hmk hwf0 (by simp)
  have hseen := h3 f (Or.inr (by simp))
  have hmark : f ∈ mk := by
    rcases hseen with h | h
    · exact h
    · simp at h
  exact skeleton_of_marked ⟨[], mk, r.1, r.2.1, r.2.2⟩ rfl h1 h2 f hmark hb hw

theorem C3_boolean_skeleton_witness :
    ∃ g, sample_abstracted.1.mk_abstract sample_fml = some g ∧
      is_skeleton sample_abstracted.1.m_pred2lit g = true :=
  C3_boolean_skeleton (fun _ _ => True) sample_seeded
    (pred_abs.reach.set_expr_level _ _ _
      (pred_abs.reach.set_expr_level _ _ _ (pred_abs.reach.init 0)))
    sample_fml (by decide) (by decide) (by decide) max_level.unset [] sample_abstracted
    sample_abstracted_eq

theorem qsat.pop_qelim {s t : qsat} {n : Nat} (h : s.pop n = some t) :
    t.m_qelim = s.m_qelim := by
  unfold qsat.pop at h
  split at h
  · split at h
    · simp at h
    · simp only [Option.some.injEq] at h
      rw [← h]
  · simp at h

theorem qsat.add_assumption_qelim (s : qsat) (fml : expr) :
    (s.add_assumption fml).m_qelim = s.m_qelim := rfl

theorem qsat.assert_at_qelim (s : qsat) (j : Nat) (e : expr) :
    (s.assert_at j e).m_qelim = s.m_qelim := by
  unfold qsat.assert_at
  split <;> rfl

theorem qsat.project_qe_qelim {ext : externals} {s t : qsat} (h : s.project_qe ext = some t) :
    t.m_qelim = s.m_qelim := by
  unfold qsat.project_qe at h
  split at h
  · split at h
    · simp at h
    · split at h
      · simp at h
      · simp only at h
        rw [qsat.pop_qelim h]
        rfl
  · simp at h

theorem qsat.project_qelim {ext : externals} {s t : qsat} (h : s.project ext = some t) :
    t.m_qelim = s.m_qelim := by
  unfold qsat.project at h
  split at h
  · simp at h
  · split at h
    · split at h
      · simp at h
      · simp only at h
        split at h
        · simp at h
        · split at h
          · simp at h
          · rename_i n hn
            split at h
            · simp at h
            · rename_i s4 hpop
              have h4 := qsat.pop_qelim hpop
              split at h
              · simp only [Option.some.injEq] at h
                rw [← h, qsat.add_assumption_qelim, h4]; rfl
              · split at h
                · simp at h
                · simp only [Option.some.injEq] at h
                  rw [← h, qsat.assert_at_qelim, h4]; rfl
    · simp at h

theorem qsat.set_core_level (s : qsat) (core : List expr) :
    (s.set_core core).m_level = s.m_level := by
  unfold qsat.set_core
  split <;> rfl

theorem qsat.set_core_qelim (s : qsat) (core : List expr) :
    (s.set_core core).m_qelim = s.m_qelim := by
  unfold qsat.set_core
  split <;> rfl

theorem qsat.set_core_trace (s : qsat) (core : List expr) :
    (s.set_core core).m_trace = s.m_trace := by
  unfold qsat.set_core
  split <;> rfl

theorem qsat.check_sat_round_spec (ext : externals) (ans : kernel_answer) (s : qsat)
    (out : round_end) (h : s.check_sat_round ext ans = some out) : round_ok s ans out := by
  unfold qsat.check_sat_round at h
  simp only at h
  split at h
  · simp at h
  · split at h
    · simp at h
    · rename_i pa asms hga
      cases ans with
      | sat mdl =>
        simp only [Option.some.injEq] at h
        subst h
        rfl
      | unknown =>
        simp only [Option.some.injEq] at h
        subst h
        refine ⟨rfl, asms, rfl, ?_, ?_, ?_⟩
        · intro hc; cases hc
        · intro hc; cases hc
        · intro _; rfl
      | unsat core =>
        simp only at h
        split at h
        · rename_i hlev
          simp only [qsat.set_core_level] at hlev
          simp only [Option.some.injEq] at h
          subst h
          refine ⟨by rw [qsat.set_core_qelim], asms, by rw [qsat.set_core_trace], ?_, ?_, ?_⟩
          · intro _; exact ⟨hlev, rfl⟩
          · intro hc; cases hc
          · intro hc; cases hc
        · rename_i hlev
          simp only [qsat.set_core_level] at hlev
          split at h
          · rename_i hq
            simp only [qsat.set_core_qelim] at hq
            simp only [Option.some.injEq] at h
            subst h
            refine ⟨by rw [qsat.set_core_qelim], asms, by rw [qsat.set_core_trace],
              ?_, ?_, ?_⟩
            · intro hc; cases hc
            · intro _; exact ⟨hlev, rfl, by simpa using hq⟩
            · intro hc; cases hc
          · split at h
            · simp only [Option.map_eq_some'] at h
              obtain ⟨t, ht, hout⟩ := h
              subst hout
              show t.m_qelim = s.m_qelim
              rw [qsat.project_qe_qelim ht, qsat.set_core_qelim]
            · simp only [Option.map_eq_some'] at h
              obtain ⟨t, ht, hout⟩ := h
              subst hout
              show t.m_qelim = s.m_qelim
              rw [qsat.pop_qelim ht, qsat.set_core_qelim]
        · split at h
          · simp only [Option.map_eq_some'] at h
            obtain ⟨t, ht, hout⟩ := h
            subst hout
            show t.m_qelim = s.m_qelim
            rw [qsat.project_qelim ht, qsat.set_core_qelim]
          · simp only [Option.map_eq_some'] at h
            obtain ⟨t, ht, hout⟩ := h
            subst hout
            show t.m_qelim = s.m_qelim
            rw [qsat.pop_qelim ht, qsat.set_core_qelim]

/-- The outcome of `check_sat` and the last interaction with a kernel. -/
theorem qsat.check_sat_last_check (ext : externals) :
    ∀ (script : List kernel_answer) (s : qsat) (res : lbool) (t : qsat),
      qsat.check_sat ext script s = some (res, t) →
      t.m_qelim = s.m_qelim ∧
      ∃ level asms ans rest,
        t.m_trace = kernel_event.check (is_exists level) level asms ans :: rest ∧
        (res = lbool.l_false → level = 0 ∧ ans = lbool.l_false) ∧
        (res = lbool.l_true → level = 1 ∧ ans = lbool.l_false ∧ t.m_qelim = false) ∧
        (res = lbool.l_undef → ans = lbool.l_undef) := by
  intro script
  induction script with
  | nil => intro s res t h; simp [qsat.check_sat] at h
  | cons ans rest ih =>
    intro s res t h
    simp only [qsat.check_sat] at h
    split at h
    · simp at h
    · rename_i res1 t1 hround
      simp only [Option.some.injEq, Prod.mk.injEq] at h
      obtain ⟨h1, h2⟩ := h
      subst h1 h2
      obtain ⟨q, asms, htr, c1, c2, c3⟩ := qsat.check_sat_round_spec ext ans s _ hround
      refine ⟨q, s.m_level, asms, ans.res, s.m_trace, htr, c1, ?_, c3⟩
      intro hc
      obtain ⟨a, b, c⟩ := c2 hc
      exact ⟨a, b, by rw [q]; exact c⟩
    · rename_i t1 hround
      have hq : t1.m_qelim = s.m_qelim := qsat.check_sat_round_spec ext ans s _ hround
      obtain ⟨h1, h2⟩ := ih _ _ _ h
      exact ⟨by rw [h1, hq], h2⟩

/-- C10: when `check_sat` returns, the last interaction with a kernel is a check, and
the result is UNSAT only after the existential kernel (level 0) answered unsat, SAT
only after the universal kernel (level 1) answered unsat outside elimination mode,
UNKNOWN only after an answer unknown; in elimination mode it never returns SAT. -/
theorem C10_check_sat_outcomes (ext : externals) (script : List kernel_answer) (s : qsat)
    (res : lbool) (t : qsat) (h : qsat.check_sat ext script s = some (res, t)) :
    (∃ is_ex level asms ans rest,
      t.m_trace = kernel_event.check is_ex level asms ans :: rest ∧
      (res = lbool.l_false → is_ex = true ∧ level = 0 ∧ ans = lbool.l_false) ∧
      (res = lbool.l_true →
        is_ex = false ∧ level = 1 ∧ ans = lbool.l_false ∧ s.m_qelim = false) ∧
      (res = lbool.l_undef → ans = lbool.l_undef)) ∧
    (s.m_qelim = true → res ≠ lbool.l_true) := by
  obtain ⟨hq, level, asms, ans, rest, htr, c1, c2, c3⟩ :=
    qsat.check_sat_last_check ext script s res t h
  refine ⟨⟨is_exists level, level, asms, ans, rest, htr, ?_, ?_, c3⟩, ?_⟩
  · intro hc
    obtain ⟨a, b⟩ := c1 hc
    exact ⟨by rw [a]; rfl, a, b⟩
  · intro hc
    obtain ⟨a, b, c⟩ := c2 hc
    exact ⟨by rw [a]; rfl, a, b, by rw [← hq]; exact c⟩
  · intro hqe hc
    obtain ⟨_, _, c⟩ := c2 hc
    rw [hq, hqe] at c
    simp at c

theorem sample_run_eq :
    qsat.check_sat sample_ext sample_script sample_qsat = some sample_run := by
  rfl

theorem C10_check_sat_outcomes_witness :
    (∃ is_ex level asms ans rest,
      sample_run.2.m_trace = kernel_event.check is_ex level asms ans :: rest ∧
      (sample_run.1 = lbool.l_false → is_ex = true ∧ level = 0 ∧ ans = lbool.l_false) ∧
      (sample_run.1 = lbool.l_true →
        is_ex = false ∧ level = 1 ∧ ans = lbool.l_false ∧ sample_qsat.m_qelim = false) ∧
      (sample_run.1 = lbool.l_undef → ans = lbool.l_undef)) ∧
    (sample_qsat.m_qelim = true → sample_run.1 ≠ lbool.l_true) :=
  C10_check_sat_outcomes sample_ext sample_script sample_qsat sample_run.1 sample_run.2
    sample_run_eq

/-- C9 (the code at a failing input): in the run of the `qe2` variant on `p ∨ q`,
`project_qe` registers the proxy `b` (`fresh_const 0`) for the lemma `¬p` through
`add_assumption`; the equivalence `b = ¬p` is asserted to the existential kernel
only, and two rounds later the universal kernel is checked under the assumptions
`b, q, ¬p` without ever having been given the equivalence. -/
theorem C9_add_assumption_skips_universal_kernel :
    sample_run.1 = lbool.l_false ∧
    sample_run.2.m_pred_abs.m_pred2lit.find (fresh_const 0) = some (mk_not sample_p) ∧
    fresh_const 0 ≠ mk_not sample_p ∧
    sample_run.2.m_trace =
      [kernel_event.check true 0 [fresh_const 0, fresh_const 1] lbool.l_false,
       kernel_event.assert_expr true (mk_eq (fresh_const 1) (mk_not sample_q)),
       kernel_event.check false 1 [fresh_const 0, sample_q, mk_not sample_p] lbool.l_false,
       kernel_event.check true 0 [fresh_const 0] lbool.l_true,
       kernel_event.assert_expr true (mk_eq (fresh_const 0) (mk_not sample_p)),
       kernel_event.check false 1 [mk_not sample_q, sample_p] lbool.l_false,
       kernel_event.check true 0 [] lbool.l_true] ∧
    sample_run.2.m_ex.m_asserted =
      [mk_true, sample_matrix, mk_eq (fresh_const 0) (mk_not sample_p),
       mk_eq (fresh_const 1) (mk_not sample_q)] ∧
    sample_run.2.m_fa.m_asserted = [mk_true, mk_not sample_matrix] := by
  decide

/-- `add_assumption` registers the proxy, makes it a permanent assumption and gives
its definition to the existential kernel; the universal kernel is left as it is. -/
theorem qsat.add_assumption_kernels (s : qsat) (fml : expr) :
    (s.add_assumption fml).m_fa = s.m_fa ∧
    (s.add_assumption fml).m_ex.m_asserted
      = s.m_ex.m_asserted ++ [mk_eq (fresh_const s.m_pred_abs.m_fresh_id) fml] ∧
    (s.add_assumption fml).m_asms = s.m_asms ++ [fresh_const s.m_pred_abs.m_fresh_id] ∧
    (s.add_assumption fml).m_pred_abs.m_pred2lit.find (fresh_const s.m_pred_abs.m_fresh_id)
      = some fml := by
  refine ⟨rfl, rfl, rfl, ?_⟩
  show ((s.m_pred_abs.fresh_bool.2.add_pred (fresh_const s.m_pred_abs.m_fresh_id) fml).set_expr_level
    _ _).m_pred2lit.find _ = some fml
  have : ((s.m_pred_abs.fresh_bool.2.add_pred (fresh_const s.m_pred_abs.m_fresh_id)
      fml).set_expr_level (fresh_const s.m_pred_abs.m_fresh_id) max_level.unset).m_pred2lit
      = s.m_pred_abs.fresh_bool.2.m_pred2lit.insert (fresh_const s.m_pred_abs.m_fresh_id) fml :=
    pred_abs.add_pred_pred2lit _ _ _
  rw [this, obj_map.find_insert_self]

theorem compute_level_args_todo (elevel : obj_map expr max_level) :
    ∀ (fs : List expr) (lvl0 : max_level) (todo : List expr) (hn : Bool),
      (compute_level_args elevel fs lvl0 todo hn).2.1
        = (unlevelled_args elevel fs).reverse ++ todo := by
  intro fs
  induction fs with
  | nil => intro lvl0 todo hn; simp [compute_level_args, unlevelled_args]
  | cons f rest ih =>
    intro lvl0 todo hn
    simp only [compute_level_args]
    split
    · rename_i lvl hf
      rw [ih]
      simp [unlevelled_args, List.filter_cons, hf]
    · rename_i hf
      rw [ih]
      simp [unlevelled_args, List.filter_cons, hf]

theorem compute_level_args_has_new (elevel : obj_map expr max_level) :
    ∀ (fs : List expr) (lvl0 : max_level) (todo : List expr) (hn : Bool),
      (compute_level_args elevel fs lvl0 todo hn).2.2
        = (hn || !(unlevelled_args elevel fs).isEmpty) := by
  intro fs
  induction fs with
  | nil => intro lvl0 todo hn; simp [compute_level_args, unlevelled_args]
  | cons f rest ih =>
    intro lvl0 todo hn
    simp only [compute_level_args]
    split
    · rename_i lvl hf
      rw [ih]
      simp [unlevelled_args, List.filter_cons, hf]
    · rename_i hf
      rw [ih]
      simp [unlevelled_args, List.filter_cons, hf]

theorem elevel_le_refl (e : obj_map expr max_level) : elevel_le e e := fun _ _ h => h

theorem elevel_le_trans {e1 e2 e3 : obj_map expr max_level} (h1 : elevel_le e1 e2)
    (h2 : elevel_le e2 e3) : elevel_le e1 e3 := fun t v h => h2 t v (h1 t v h)

theorem elevel_le_insert (e : obj_map expr max_level) (a : expr) (l : max_level)
    (h : e.find a = none) : elevel_le e (e.insert a l) := by
  intro t v ht
  have : t ≠ a := by intro e1; rw [e1, h] at ht; simp at ht
  rw [obj_map.find_insert_ne _ _ this]; exact ht

/-- The round of the loop of `compute_level` that finds a level for every argument. -/
theorem compute_level_loop_finish (flevel : obj_map func_decl max_level)
    (elevel : obj_map expr max_level) (d : func_decl) (args todo : List expr)
    (hall : unlevelled_args elevel args = []) :
    ∃ elevel1, elevel_le elevel elevel1 ∧ elevel1.contains (expr.app d args) = true ∧
      ∀ k, compute_level_loop flevel (1 + k) (expr.app d args :: todo) elevel
        = compute_level_loop flevel k todo elevel1 := by
  by_cases hc : elevel.contains (expr.app d args) = true
  · refine ⟨elevel, elevel_le_refl _, hc, ?_⟩
    intro k
    rw [Nat.add_comm]
    simp [compute_level_loop, hc]
  · have hc1 : elevel.find (expr.app d args) = none := by
      simp only [Bool.not_eq_true] at hc
      exact (obj_map.contains_eq_false _ _).1 hc
    have hcf : elevel.contains (expr.app d args) = false :=
      (obj_map.contains_eq_false _ _).2 hc1
    rcases hr : compute_level_args elevel args
      (match flevel.find d with
        | some lvl => max_level.unset.merge lvl
        | none => max_level.unset) (expr.app d args :: todo) false
      with ⟨lvl1, todo1, has_new⟩
    have e1 : todo1 = expr.app d args :: todo := by
      have := compute_level_args_todo elevel args
        (match flevel.find d with
          | some lvl => max_level.unset.merge lvl
          | none => max_level.unset) (expr.app d args :: todo) false
      rw [hr] at this
      simpa [hall] using this
    have e2 : has_new = false := by
      have := compute_level_args_has_new elevel args
        (match flevel.find d with
          | some lvl => max_level.unset.merge lvl
          | none => max_level.unset) (expr.app d args :: todo) false
      rw [hr] at this
      simpa [hall] using this
    refine ⟨elevel.insert (expr.app d args) lvl1, elevel_le_insert _ _ _ hc1,
      (obj_map.contains_eq_true _ _).2 ⟨lvl1, obj_map.find_insert_self _ _ _⟩, ?_⟩
    intro k
    rw [Nat.add_comm]
    simp only [compute_level_loop, hcf, Bool.false_eq_true, if_false, hr, e1, e2, Bool.not_false,
      if_true, List.tail_cons]

theorem level_runs_list (flevel : obj_map func_decl max_level) :
    ∀ (l : List expr), (∀ a ∈ l, level_runs flevel a) →
      ∀ (elevel : obj_map expr max_level) (todo : List expr),
        ∃ (n : Nat) (elevel1 : obj_map expr max_level), n ≤ 2 * expr.sizeList l ∧
          elevel_le elevel elevel1 ∧ (∀ a ∈ l, elevel1.contains a = true) ∧
          ∀ k, compute_level_loop flevel (n + k) (l ++ todo) elevel
            = compute_level_loop flevel k todo elevel1 := by
  intro l
  induction l with
  | nil =>
    intro _ elevel todo
    exact ⟨0, elevel, by simp, elevel_le_refl _, by simp, by simp⟩
  | cons a l ih =>
    intro hruns elevel todo
    obtain ⟨n1, c1, hn1, hle1, hfind1, hrun1⟩ := hruns a (by simp) elevel (l ++ todo)
    obtain ⟨n2, c2, hn2, hle2, hfind2, hrun2⟩ := ih (fun x hx => hruns x (by simp [hx])) c1 todo
    refine ⟨n1 + n2, c2, by simp only [expr.sizeList]; omega, elevel_le_trans hle1 hle2, ?_, ?_⟩
    · intro x hx
      rcases List.mem_cons.1 hx with e | e
      · rw [e]
        obtain ⟨v, hv⟩ := (obj_map.contains_eq_true _ _).1 hfind1
        exact (obj_map.contains_eq_true _ _).2 ⟨v, hle2 _ _ hv⟩
      · exact hfind2 x e
    · intro k
      rw [List.cons_append, Nat.add_assoc, hrun1, hrun2]

theorem level_runs_app (flevel : obj_map func_decl max_level) (d : func_decl)
    (args : List expr) (hargs : ∀ a ∈ args, level_runs flevel a) :
    level_runs flevel (expr.app d args) := by
  intro elevel todo
  by_cases hmiss : unlevelled_args elevel args = []
  · obtain ⟨c1, h1, h2, h3⟩ := compute_level_loop_finish flevel elevel d args todo hmiss
    exact ⟨1, c1, by simp only [expr.size]; omega, h1, h2, h3⟩
  · by_cases hc : elevel.contains (expr.app d args) = true
    · refine ⟨1, elevel, by simp only [expr.size]; omega, elevel_le_refl _, hc, ?_⟩
      intro k
      rw [Nat.add_comm]
      simp [compute_level_loop, hc]
    · have hc1 : elevel.find (expr.app d args) = none := by
        simp only [Bool.not_eq_true] at hc
        exact (obj_map.contains_eq_false _ _).1 hc
      have hcf : elevel.contains (expr.app d args) = false :=
        (obj_map.contains_eq_false _ _).2 hc1
      have hruns : ∀ a ∈ (unlevelled_args elevel args).reverse, level_runs flevel a := by
        intro a ha
        exact hargs a (List.mem_of_mem_filter (List.mem_reverse.1 ha))
      obtain ⟨n2, c2, hn2, hle2, hfind2, hrun2⟩ :=
        level_runs_list flevel _ hruns elevel (expr.app d args :: todo)
      have hall : unlevelled_args c2 args = [] := by
        simp only [unlevelled_args, List.filter_eq_nil_iff]
        intro f hf
        cases hcf1 : elevel.find f with
        | none =>
          have : c2.contains f = true := by
            apply hfind2
            simp [unlevelled_args, List.mem_filter, hf, hcf1]
          obtain ⟨v, hv⟩ := (obj_map.contains_eq_true _ _).1 this
          simp [hv]
        | some v => simp [hle2 f v hcf1]
      obtain ⟨c3, hle3, hfind3, hrun3⟩ := compute_level_loop_finish flevel c2 d args todo hall
      have hsz : expr.sizeList (unlevelled_args elevel args).reverse ≤ expr.sizeList args := by
        rw [expr.sizeList_reverse]
        exact expr.sizeList_filter_le _ _
      refine ⟨1 + (n2 + 1), c3, by simp only [expr.size]; omega, elevel_le_trans hle2 hle3,
        hfind3, ?_⟩
      intro k
      have step1 : ∀ m, compute_level_loop flevel (1 + m) (expr.app d args :: todo) elevel
          = compute_level_loop flevel m
              ((unlevelled_args elevel args).reverse ++ expr.app d args :: todo) elevel := by
        intro m
        rw [Nat.add_comm]
        rcases hr : compute_level_args elevel args
          (match flevel.find d with
            | some lvl => max_level.unset.merge lvl
            | none => max_level.unset) (expr.app d args :: todo) false
          with ⟨lvl1, todo1, has_new⟩
        have e1 : todo1 = (unlevelled_args elevel args).reverse ++ expr.app d args :: todo := by
          have := compute_level_args_todo elevel args
            (match flevel.find d with
              | some lvl => max_level.unset.merge lvl
              | none => max_level.unset) (expr.app d args :: todo) false
          rw [hr] at this
          simpa using this
        have e2 : has_new = true := by
          have := compute_level_args_has_new elevel args
            (match flevel.find d with
              | some lvl => max_level.unset.merge lvl
              | none => max_level.unset) (expr.app d args :: todo) false
          rw [hr] at this
          simp only [Bool.false_or] at this
          rw [this]
          simpa [List.isEmpty_iff] using hmiss
        simp only [compute_level_loop, hcf, Bool.false_eq_true, if_false, hr, e1, e2,
          Bool.not_true]
      rw [Nat.add_assoc, step1, Nat.add_assoc, hrun2, hrun3]

mutual
theorem level_runs_of_ground (flevel : obj_map func_decl max_level) :
    ∀ (e : expr), is_ground e = true → level_runs flevel e
  | .app d args, h =>
    level_runs_app flevel d args
      (level_runs_of_ground_list flevel args (by simpa [is_ground] using h))
  | .var _ _, h => by simp [is_ground] at h
  | .quantifier _ _, h => by simp [is_ground] at h
theorem level_runs_of_ground_list (flevel : obj_map func_decl max_level) :
    ∀ (l : List expr), is_ground_list l = true → ∀ a ∈ l, level_runs flevel a
  | [], _ => by simp
  | a :: l, h => by
    simp only [is_ground_list, Bool.and_eq_true] at h
    intro x hx
    rcases List.mem_cons.1 hx with e | e
    · rw [e]; exact level_runs_of_ground flevel a h.1
    · exact level_runs_of_ground_list flevel l h.2 x e
end

/-- `compute_level` returns a level for every expression without bound variables and
quantifiers: the fuel of its loop suffices and the final lookup finds the entry. -/
theorem pred_abs.compute_level_total (s : pred_abs) (e : expr) (hg : is_ground e = true) :
    ∃ r, s.compute_level e = some r := by
  obtain ⟨n, c1, hn, _, hfind, hrun⟩ := level_runs_of_ground s.m_flevel e hg s.m_elevel []
  obtain ⟨v, hv⟩ := (obj_map.contains_eq_true _ _).1 hfind
  unfold pred_abs.compute_level
  have hfuel : 2 * e.size + 1 = n + (2 * e.size - n + 1) := by omega
  rw [hfuel, hrun]
  simp only [compute_level_loop, hv]
  exact ⟨_, rfl⟩

theorem mark_weight_pos (mark : List expr) (e : expr) : 1 ≤ mark_weight mark e := by
  cases e with
  | app d args => simp only [mark_weight]; split <;> omega
  | var i s => simp [mark_weight]
  | quantifier f b => simp [mark_weight]

mutual
theorem mark_weight_mono (m1 m2 : List expr) (h : ∀ x ∈ m1, x ∈ m2) :
    ∀ (e : expr), mark_weight m2 e ≤ mark_weight m1 e
  | .app d args => by
    simp only [mark_weight]
    have ih := mark_weight_list_mono m1 m2 h args
    by_cases h1 : expr.app d args ∈ m1
    · simp [h1, h _ h1]
    · by_cases h2 : expr.app d args ∈ m2
      · simp [h1, h2]
      · simp [h1, h2, ih]
  | .var _ _ => by simp [mark_weight]
  | .quantifier _ _ => by simp [mark_weight]
theorem mark_weight_list_mono (m1 m2 : List expr) (h : ∀ x ∈ m1, x ∈ m2) :
    ∀ (l : List expr), mark_weight_list m2 l ≤ mark_weight_list m1 l
  | [] => by simp [mark_weight_list]
  | a :: l => by
    simp only [mark_weight_list]
    have h1 := mark_weight_mono m1 m2 h a
    have h2 := mark_weight_list_mono m1 m2 h l
    omega
end

mutual
theorem mark_weight_le_size : ∀ (e : expr), mark_weight [] e ≤ e.size
  | .app d args => by
    simp only [mark_weight, List.not_mem_nil, if_false, expr.size]
    have := mark_weight_list_le_size args
    omega
  | .var _ _ => by simp [mark_weight, expr.size]
  | .quantifier _ b => by simp [mark_weight, expr.size]
theorem mark_weight_list_le_size : ∀ (l : List expr), mark_weight_list [] l ≤ expr.sizeList l
  | [] => by simp [mark_weight_list, expr.sizeList]
  | a :: l => by
    simp only [mark_weight_list, expr.sizeList]
    have h1 := mark_weight_le_size a
    have h2 := mark_weight_list_le_size l
    omega
end

theorem push_unmarked_weight (m mark : List expr) :
    ∀ (args todo : List expr),
      mark_weight_list m (push_unmarked mark args todo)
        ≤ mark_weight_list m args + mark_weight_list m todo := by
  intro args
  induction args with
  | nil => intro todo; simp [push_unmarked, mark_weight_list]
  | cons f rest ih =>
    intro todo
    simp only [push_unmarked, mark_weight_list]
    split
    · have := ih todo
      omega
    · have := ih (f :: todo)
      simp only [mark_weight_list] at this
      omega

/-- Every round of the loop of `abstract_atoms` lowers the weight of the worklist. -/
theorem aa_step_weight {c c1 : aa_config} (h : aa_step c c1) :
    mark_weight_list c1.mark c1.todo < mark_weight_list c.mark c.todo := by
  have drop : ∀ (a : expr) (todo mark : List expr),
      mark_weight_list (a :: mark) todo < mark_weight_list mark (a :: todo) := by
    intro a todo mark
    simp only [mark_weight_list]
    have h1 := mark_weight_pos mark a
    have h2 := mark_weight_list_mono mark (a :: mark) (fun x hx => by simp [hx]) todo
    omega
  have push : ∀ (d : func_decl) (args todo mark : List expr), expr.app d args ∉ mark →
      mark_weight_list (expr.app d args :: mark)
          (push_unmarked (expr.app d args :: mark) args todo)
        < mark_weight_list mark (expr.app d args :: todo) := by
    intro d args todo mark hm
    have h1 := push_unmarked_weight (expr.app d args :: mark) (expr.app d args :: mark) args todo
    have h2 := mark_weight_list_mono mark (expr.app d args :: mark)
      (fun x hx => by simp [hx]) args
    have h3 := mark_weight_list_mono mark (expr.app d args :: mark)
      (fun x hx => by simp [hx]) todo
    simp only [mark_weight_list, mark_weight, hm, if_false]
    omega
  cases h with
  | marked a todo mark s level defs hm =>
    show mark_weight_list mark todo < mark_weight_list mark (a :: todo)
    simp only [mark_weight_list]
    have := mark_weight_pos mark a
    omega
  | mapped a todo mark s level defs p lp hm hp hl => exact drop a todo mark
  | const_new a todo mark s level defs l hm hp hc hl hn => exact drop a todo mark
  | const_old a todo mark s level defs l hm hp hc hl hn => exact drop a todo mark
  | atom d args todo mark s level defs s2 l is_pred hm hp hc hb hbool hlvl hpred =>
    exact push d args todo mark hm
  | skip d args todo mark s level defs boolop hm hp hc hb hbool =>
    exact push d args todo mark hm

/-- The loop of `abstract_atoms` with more rounds than the weight of its worklist
gives the same result with any larger number of rounds. -/
theorem abstract_atoms_loop_fuel :
    ∀ (n : Nat) (c : aa_config), mark_weight_list c.mark c.todo < n →
      ∀ k, abstract_atoms_loop (n + k) c = abstract_atoms_loop n c := by
  intro n
  induction n with
  | zero => intro c h; omega
  | succ n ih =>
    intro c h k
    have e : n + 1 + k = (n + k) + 1 := by omega
    rw [e]
    simp only [abstract_atoms_loop]
    split
    · rfl
    · cases hr : abstract_atoms_round c with
      | none => rfl
      | some c1 =>
        simp only
        have := aa_step_weight (abstract_atoms_round_step c c1 hr)
        exact ih c1 (by omega) k

/-- The number of rounds `abstract_atoms` allows its loop is enough: with any larger
number of rounds the loop gives the same result, so a call without result is one
that ran into undefined behaviour. -/
theorem pred_abs.abstract_atoms_fuel (s : pred_abs) (fml : expr) (level : max_level)
    (defs : List expr) (k : Nat) :
    abstract_atoms_loop (fml.size + 1 + k) ⟨[fml], [], s, level, defs⟩
      = abstract_atoms_loop (fml.size + 1) ⟨[fml], [], s, level, defs⟩ := by
  apply abstract_atoms_loop_fuel
  show mark_weight_list [] [fml] < fml.size + 1
  simp only [mark_weight_list]
  have := mark_weight_le_size fml
  omega

theorem cross_level_spec_deep (s : pred_abs) (mdl : model) (L : Nat)
    (h : s.m_preds.length ≤ L) : cross_level_spec s mdl L = [] := by
  unfold cross_level_spec
  have : s.m_preds.enum.filter (fun q => decide (L < q.1) && decide ((q.1 - L) % 2 = 1)) = [] := by
    rw [List.filter_eq_nil_iff]
    intro q hq
    have := List.fst_lt_of_mem_enum hq
    simp only [Bool.and_eq_true, decide_eq_true_eq, not_and]
    intro h1
    omega
  rw [this]
  rfl

theorem use_pred_eq_level_included (lvl : max_level) (i L : Nat) :
    use_pred lvl i L = level_included lvl i L := by
  unfold use_pred level_included
  by_cases h1 : lvl.m_fa = i <;> by_cases h2 : lvl.m_ex = i <;>
    by_cases h3 : lvl.m_ex = UINT_MAX <;> by_cases h4 : lvl.m_fa = UINT_MAX <;>
    by_cases h5 : lvl.m_ex < L <;> by_cases h6 : lvl.m_fa < L <;>
    simp [h1, h2, h3, h4, h5, h6]

/-- The closed form of the loop of the code lists what the specification lists. -/
theorem cross_level_spec_eq_words (s : pred_abs) (mdl : model) (L : Nat) :
    cross_level_spec s mdl L = cross_level_words s mdl L := by
  unfold cross_level_spec cross_level_words
  congr 1
  funext q
  unfold cross_lits
  have e1 : use_at s.m_elevel L q.1 = (fun p =>
      match s.m_elevel.find p with
      | some lvl => level_included lvl q.1 L
      | none => false) := by
    funext p
    unfold use_at
    cases s.m_elevel.find p with
    | none => rfl
    | some lvl => exact use_pred_eq_level_included lvl q.1 L
  have e2 : model_lit mdl = (fun p => if (mdl.eval p).any is_false then mk_not p else p) := by
    funext p
    unfold model_lit
    cases mdl.eval p with
    | none => rfl
    | some v => simp [signed_lit]
  rw [e1, e2]

/-- C6 (as amended): with a model and a current level `L = |asms_lim|` of at least 1,
what `get_assumptions` appends to `out` after the `asms` stack is exactly the list of
the literals, signed by the model, of the proxies `p` of `preds[i]`,
`i = L+1, L+3, ...` below `|preds|`, whose level `(fa = f, ex = e)` satisfies
`(f = i and (e unset or e < L)) or (e = i and (f unset or f < L))`; when `preds` has
no level at all, nothing is appended and there is no such proxy. -/
theorem C6_cross_level_literals (s : pred_abs) (mdl : model) (out : List expr)
    (r : pred_abs × List expr) (hL : 1 ≤ s.m_asms_lim.length)
    (h : s.get_assumptions (some mdl) out = some r) :
    (s.m_preds ≠ [] →
      r.2 = out ++ r.1.m_asms ++ cross_level_words s mdl s.m_asms_lim.length) ∧
    (s.m_preds = [] → r.2 = out ∧ cross_level_words s mdl s.m_asms_lim.length = []) := by
  rw [← cross_level_spec_eq_words]
  constructor
  · intro hp
    have hlen : 1 ≤ s.m_preds.length := by
      cases hs : s.m_preds with
      | nil => exact absurd hs hp
      | cons a l => simp
    have hlev : 1 ≤ s.level := by
      unfold pred_abs.level
      split <;> omega
    have h2 := (get_assumptions_model_spec s mdl out r hlev h).2.1
    by_cases hc : s.m_asms_lim.length > s.m_preds.length
    · have e1 : s.level = s.m_preds.length := by
        unfold pred_abs.level; simp [hc]
      rw [e1, cross_level_spec_deep s mdl _ (le_refl _)] at h2
      rw [cross_level_spec_deep s mdl _ (le_of_lt hc)]
      exact h2
    · have e1 : s.level = s.m_asms_lim.length := by
        unfold pred_abs.level; simp [hc]
      rw [e1] at h2
      exact h2
  · intro hp
    refine ⟨?_, cross_level_spec_deep s mdl _ (by simp [hp])⟩
    unfold pred_abs.get_assumptions at h
    simp only [hp, List.length_nil, gt_iff_lt] at h
    have : (if 0 < s.m_asms_lim.length then 0 else s.m_asms_lim.length) = 0 := by
      split <;> omega
    simp only [this, if_true, Option.some.injEq] at h
    rw [← h]

/-- C6 (witness): at level 2, with proxies on the levels 1 to 5, the literals appended
after the stack are those of `u` (level `(fa = 3, ex unset)`), `x` (level
`(fa = 3, ex = 1)`, and `1 < 2`), `z` (level `(ex = 3, fa = 0)`) and of the proxy `p`
of level 5; `y` of level `(fa = 3, ex = 2)` is left out because `2 < 2` fails, and so
are the proxies of the levels 2 and 4. -/
theorem C6_cross_level_literals_witness :
    cross_level_words sample_cross (sample_model_of [sample_u, sample_q]) 2
      = [sample_u, mk_not sample_bx, mk_not sample_bz, mk_not sample_p] ∧
    (sample_cross.m_preds ≠ [] →
      [sample_q, sample_u, mk_not sample_bx, mk_not sample_bz, mk_not sample_p]
        = [] ++ [sample_q] ++
          cross_level_words sample_cross (sample_model_of [sample_u, sample_q])
            sample_cross.m_asms_lim.length) ∧
    (sample_cross.m_preds = [] →
      [sample_q, sample_u, mk_not sample_bx, mk_not sample_bz, mk_not sample_p] = [] ∧
        cross_level_words sample_cross (sample_model_of [sample_u, sample_q])
          sample_cross.m_asms_lim.length = []) :=
  ⟨by decide,
   C6_cross_level_literals sample_cross (sample_model_of [sample_u, sample_q]) []
    ({ sample_cross with m_asms := [sample_q] },
      [sample_q, sample_u, mk_not sample_bx, mk_not sample_bz, mk_not sample_p])
    (by decide) (by rfl)⟩

/-- C6 (as stated, refuted): at level 0 the call returns at once and appends nothing,
although the level `(fa = 1, ex unset)` of the proxy `q` of `preds[1]` satisfies the
inclusion formula for `i = 1` and `L = 0`. -/
theorem C6_counterexample :
    sample_depth0.m_asms_lim.length = 0 ∧
    (sample_depth0.get_assumptions (some sample_model) []).map Prod.snd = some [] ∧
    cross_level_words sample_depth0 sample_model 0 = [sample_q] := by
  decide

/-- C14 (the code at a failing input): `reset` empties `pred2lit`, `lit2pred`,
`asm2pred`, `pred2asm`, `elevel`, `asms`, `asms_lim` and `preds` in every state, but
it has no statement for `flevel`, which it leaves as it is: after
`set_decl_level(f, lvl)` and `reset()`, the lookup of `f` in `flevel` still finds
`lvl`. -/
theorem C14_reset_keeps_flevel :
    (∀ s : pred_abs,
      s.reset.m_pred2lit = obj_map.empty ∧ s.reset.m_lit2pred = obj_map.empty ∧
      s.reset.m_asm2pred = obj_map.empty ∧ s.reset.m_pred2asm = obj_map.empty ∧
      s.reset.m_elevel = obj_map.empty ∧ s.reset.m_asms = [] ∧ s.reset.m_asms_lim = [] ∧
      s.reset.m_preds = [] ∧ s.reset.m_flevel = s.m_flevel) ∧
    sample_decl_seeded.reset.m_flevel.find sample_x_decl = some ⟨UINT_MAX, 1⟩ ∧
    sample_decl_seeded.reset.m_flevel ≠ obj_map.empty := by
  refine ⟨fun s => ⟨rfl, rfl, rfl, rfl, rfl, rfl, rfl, rfl, rfl⟩, by rfl, ?_⟩
  intro h
  have := congrArg (fun m => m.entries.length) h
  revert this
  decide

theorem pred_abs.pop_inv {s t : pred_abs} {n : Nat} (h : s.pop n = some t) :
    1 ≤ n ∧ n ≤ s.m_asms_lim.length ∧
    ∃ sz, s.m_asms_lim.get? (s.m_asms_lim.length - n) = some sz ∧ sz ≤ s.m_asms.length ∧
      t = { s with m_asms := s.m_asms.take sz,
                   m_asms_lim := s.m_asms_lim.take (s.m_asms_lim.length - n) } := by
  unfold pred_abs.pop at h
  split at h
  · rename_i hn
    simp only at h
    split at h
    · simp at h
    · rename_i sz hsz
      split at h
      · rename_i hle
        simp only [Option.some.injEq] at h
        have hlt : s.m_asms_lim.length - n < s.m_asms_lim.length := by
          rcases List.get?_eq_some.1 hsz with ⟨hl, _⟩
          exact hl
        exact ⟨by omega, hn, sz, hsz, hle, h.symm⟩
      · simp at h
  · simp at h

theorem qsat.pop_qsat_inv {s t : qsat} {n : Nat} (h : s.pop n = some t) :
    n ≤ s.m_level ∧ ∃ pa, s.m_pred_abs.pop n = some pa ∧
      t = { s with m_model := none, m_pred_abs := pa, m_level := s.m_level - n } := by
  unfold qsat.pop at h
  split at h
  · rename_i hn
    split at h
    · simp at h
    · rename_i pa hpa
      simp only [Option.some.injEq] at h
      exact ⟨hn, pa, hpa, h.symm⟩
  · simp at h

/-- What a call of `project` that returns has done, step by step. -/
theorem qsat.project_inv {ext : externals} {s t : qsat} (h : s.project ext = some t) :
    ∃ core mdl pa level defs n s4,
      s.get_core s.m_level = some core ∧ 2 ≤ s.m_level ∧ s.m_model = some mdl ∧
      s.m_pred_abs.abstract_atoms (s.lemma_of ext (s.m_level - 1) mdl core) max_level.unset []
        = some (pa, level, defs) ∧
      s.num_scopes level = some n ∧
      (s.before_pop ext mdl core pa defs).pop n = some s4 ∧
      ((s4.m_level = 0 ∧ s4.m_qelim = true ∧
          t = s4.add_assumption (s.lemma_of ext (s.m_level - 1) mdl core)) ∨
       (¬ (s4.m_level = 0 ∧ s4.m_qelim = true) ∧
          ∃ fml1, s4.m_pred_abs.mk_abstract (s.lemma_of ext (s.m_level - 1) mdl core)
              = some fml1 ∧
            t = s4.assert_at s4.m_level fml1)) := by
  unfold qsat.project at h
  split at h
  · simp at h
  · rename_i core hcore
    split at h
    · rename_i hk
      split at h
      · simp at h
      · rename_i mdl hmdl
        simp only at h
        split at h
        · simp at h
        · rename_i pa level defs haa
          split at h
          · simp at h
          · rename_i n hn
            split at h
            · simp at h
            · rename_i s4 hpop
              refine ⟨core, mdl, pa, level, defs, n, s4, hcore, hk, hmdl, haa, hn, hpop, ?_⟩
              split at h
              · rename_i h0
                simp only [Option.some.injEq] at h
                exact Or.inl ⟨h0.1, h0.2, h.symm⟩
              · rename_i h0
                split at h
                · simp at h
                · rename_i fml1 hf
                  simp only [Option.some.injEq] at h
                  exact Or.inr ⟨h0, fml1, hf, h.symm⟩
    · simp at h

theorem pred_abs.same_scopes_refl (s : pred_abs) : s.same_scopes s :=
  ⟨rfl, rfl, rfl, rfl, rfl⟩

theorem pred_abs.same_scopes_trans {s t u : pred_abs} (h1 : s.same_scopes t)
    (h2 : t.same_scopes u) : s.same_scopes u := by
  obtain ⟨a1, a2, a3, a4, a5⟩ := h1
  obtain ⟨b1, b2, b3, b4, b5⟩ := h2
  exact ⟨b1.trans a1, b2.trans a2, b3.trans a3, b4.trans a4, b5.trans a5⟩

theorem pred_abs.same_scopes_add_pred (s : pred_abs) (p lit : expr) :
    s.same_scopes (s.add_pred p lit) := by
  unfold pred_abs.add_pred pred_abs.add_lit
  split <;> exact ⟨rfl, rfl, rfl, rfl, rfl⟩

theorem pred_abs.same_scopes_atom_update (s2 : pred_abs) (r a : expr) (l : max_level)
    (b : Bool) : s2.same_scopes (s2.atom_update r a l b) := by
  have h := pred_abs.same_scopes_add_pred s2 r a
  unfold pred_abs.atom_update
  cases b
  · exact h
  · exact h

theorem aa_step_same_scopes {c c1 : aa_config} (h : aa_step c c1) :
    c.s.same_scopes c1.s := by
  cases h with
  | marked => exact pred_abs.same_scopes_refl _
  | mapped => exact pred_abs.same_scopes_refl _
  | const_new a todo mark s level defs l =>
    exact pred_abs.same_scopes_add_pred s a a
  | const_old => exact pred_abs.same_scopes_refl _
  | atom d args todo mark s level defs s2 l is_pred hm hp hc hb hbool hlvl hpred =>
    have e := pred_abs.compute_level_eq hlvl
    have h1 : s.same_scopes s2 := by
      rw [e]; exact ⟨rfl, rfl, rfl, rfl, rfl⟩
    exact pred_abs.same_scopes_trans h1 (pred_abs.same_scopes_atom_update _ _ _ _ _)
  | skip => exact pred_abs.same_scopes_refl _

theorem aa_steps_same_scopes {c c1 : aa_config} (h : Relation.ReflTransGen aa_step c c1) :
    c.s.same_scopes c1.s := by
  induction h with
  | refl => exact pred_abs.same_scopes_refl _
  | tail _ hstep ih => exact pred_abs.same_scopes_trans ih (aa_step_same_scopes hstep)

/-- `abstract_atoms` leaves the assumption stack, its snapshots, the assumption maps
and the levels of the symbols as they are. -/
theorem pred_abs.abstract_atoms_same_scopes {s : pred_abs} {fml : expr} {level : max_level}
    {defs : List expr} {r : pred_abs × max_level × List expr}
    (h : s.abstract_atoms fml level defs = some r) : s.same_scopes r.1 := by
  obtain ⟨mark, hsteps⟩ := pred_abs.abstract_atoms_steps h
  exact aa_steps_same_scopes hsteps

/-- The post-state of a call of `project` that returns: the scopes popped, the new
level, and where the lemma went. -/
theorem qsat.project_post {ext : externals} {s t : qsat} (h : s.project ext = some t) :
    ∃ core mdl pa level defs n,
      s.get_core s.m_level = some core ∧ 2 ≤ s.m_level ∧ s.m_model = some mdl ∧
      s.m_pred_abs.abstract_atoms (s.lemma_of ext (s.m_level - 1) mdl core) max_level.unset []
        = some (pa, level, defs) ∧
      s.num_scopes level = some n ∧
      1 ≤ n ∧ n ≤ s.m_level ∧ n ≤ s.m_pred_abs.m_asms_lim.length ∧
      t.m_level = s.m_level - n ∧
      t.m_pred_abs.m_asms_lim.length = s.m_pred_abs.m_asms_lim.length - n ∧
      t.m_answer = s.m_answer ∧ t.m_model = none ∧
      ((t.m_level = 0 ∧ s.m_qelim = true ∧
          t.m_asms = s.m_asms ++ [fresh_const pa.m_fresh_id] ∧
          t.m_pred_abs.m_pred2lit.find (fresh_const pa.m_fresh_id)
            = some (s.lemma_of ext (s.m_level - 1) mdl core) ∧
          t.m_trace =
            kernel_event.assert_expr true
              (mk_eq (fresh_const pa.m_fresh_id) (s.lemma_of ext (s.m_level - 1) mdl core)) ::
            kernel_event.assert_expr false (ext.mk_and defs) ::
            kernel_event.assert_expr true (ext.mk_and defs) :: s.m_trace) ∨
       (¬ (t.m_level = 0 ∧ s.m_qelim = true) ∧ t.m_asms = s.m_asms ∧
          ∃ fml1, pa.mk_abstract (s.lemma_of ext (s.m_level - 1) mdl core) = some fml1 ∧
            t.m_trace =
              kernel_event.assert_expr (is_exists t.m_level) fml1 ::
              kernel_event.assert_expr false (ext.mk_and defs) ::
              kernel_event.assert_expr true (ext.mk_and defs) :: s.m_trace)) := by
  obtain ⟨core, mdl, pa, level, defs, n, s4, hcore, hk, hmdl, haa, hn, hpop, hroute⟩ :=
    qsat.project_inv h
  obtain ⟨hnl, pa1, hpa1, hs4⟩ := qsat.pop_qsat_inv hpop
  obtain ⟨hn1, hn2, sz, hsz, hszle, hpa1eq⟩ := pred_abs.pop_inv hpa1
  obtain ⟨_, hlim, _, _, _⟩ := pred_abs.abstract_atoms_same_scopes haa
  have hlim1 : pa.m_asms_lim = s.m_pred_abs.m_asms_lim := hlim
  have hn2s : n ≤ s.m_pred_abs.m_asms_lim.length := by
    have : (s.before_pop ext mdl core pa defs).m_pred_abs.m_asms_lim = pa.m_asms_lim := rfl
    rw [this, hlim1] at hn2
    exact hn2
  have hlev : (s.before_pop ext mdl core pa defs).m_level = s.m_level := rfl
  have hpa1lim : pa1.m_asms_lim.length = s.m_pred_abs.m_asms_lim.length - n := by
    rw [hpa1eq]
    show (List.take _ pa.m_asms_lim).length = _
    rw [hlim1, List.length_take]
    have : (s.before_pop ext mdl core pa defs).m_pred_abs.m_asms_lim = pa.m_asms_lim := rfl
    rw [this, hlim1]
    omega
  have hpa1fresh : pa1.m_fresh_id = pa.m_fresh_id := by rw [hpa1eq]; rfl
  have hpa1l2p : pa1.m_lit2pred = pa.m_lit2pred := by rw [hpa1eq]; rfl
  refine ⟨core, mdl, pa, level, defs, n, hcore, hk, hmdl, haa, hn, hn1, ?_, hn2s, ?_, ?_, ?_, ?_, ?_⟩
  · rw [hlev] at hnl; exact hnl
  · rcases hroute with ⟨_, _, ht⟩ | ⟨_, fml1, _, ht⟩
    · rw [ht, hs4]; rfl
    · rw [ht, hs4]; unfold qsat.assert_at; split <;> rfl
  · rcases hroute with ⟨_, _, ht⟩ | ⟨_, fml1, _, ht⟩
    · rw [ht, hs4]
      show (((pa1.fresh_bool).2.add_pred _ _).set_expr_level _ _).m_asms_lim.length = _
      have := (pred_abs.same_scopes_add_pred pa1.fresh_bool.2 (fresh_const pa1.m_fresh_id)
        (s.lemma_of ext (s.m_level - 1) mdl core)).2.1
      show ((pa1.fresh_bool).2.add_pred _ _).m_asms_lim.length = _
      rw [this]
      exact hpa1lim
    · rw [ht, hs4]
      have : ∀ (u : qsat) (j : Nat) (e : expr), (u.assert_at j e).m_pred_abs = u.m_pred_abs := by
        intro u j e; unfold qsat.assert_at; split <;> rfl
      rw [this]
      exact hpa1lim
  · rcases hroute with ⟨_, _, ht⟩ | ⟨_, fml1, _, ht⟩
    · rw [ht, hs4]; rfl
    · rw [ht, hs4]; unfold qsat.assert_at; split <;> rfl
  · rcases hroute with ⟨_, _, ht⟩ | ⟨_, fml1, _, ht⟩
    · rw [ht, hs4]; rfl
    · rw [ht, hs4]; unfold qsat.assert_at; split <;> rfl
  · rcases hroute with ⟨h0, hq, ht⟩ | ⟨hne, fml1, hf, ht⟩
    · left
      have hq1 : s.m_qelim = true := by rw [hs4] at hq; exact hq
      have hkern := qsat.add_assumption_kernels s4 (s.lemma_of ext (s.m_level - 1) mdl core)
      have hfr : s4.m_pred_abs.m_fresh_id = pa.m_fresh_id := by rw [hs4]; exact hpa1fresh
      refine ⟨by rw [ht]; exact h0, hq1, ?_, ?_, ?_⟩
      · rw [ht, hkern.2.2.1, hfr, hs4]; rfl
      · rw [ht, ← hfr]; exact hkern.2.2.2
      · rw [ht]
        show kernel_event.assert_expr true (mk_eq (fresh_const s4.m_pred_abs.m_fresh_id) _) ::
          s4.m_trace = _
        rw [hfr, hs4]; rfl
    · right
      have hlt : (s4.assert_at s4.m_level fml1).m_level = s4.m_level := by
        unfold qsat.assert_at; split <;> rfl
      have hq4 : s4.m_qelim = s.m_qelim := by rw [hs4]; rfl
      refine ⟨?_, ?_, fml1, ?_, ?_⟩
      · rw [ht, hlt, ← hq4]; exact hne
      · rw [ht, hs4]; unfold qsat.assert_at; split <;> rfl
      · have : s4.m_pred_abs.mk_abstract (s.lemma_of ext (s.m_level - 1) mdl core)
            = pa.mk_abstract (s.lemma_of ext (s.m_level - 1) mdl core) := by
          unfold pred_abs.mk_abstract
          have : s4.m_pred_abs.m_lit2pred = pa.m_lit2pred := by rw [hs4]; exact hpa1l2p
          rw [this]
        rw [← this]; exact hf
      · rw [ht, hlt]
        have htr : s4.m_trace = kernel_event.assert_expr false (ext.mk_and defs) ::
            kernel_event.assert_expr true (ext.mk_and defs) :: s.m_trace := by
          rw [hs4]; rfl
        unfold qsat.assert_at
        split
        · rename_i he
          show kernel_event.assert_expr true fml1 :: s4.m_trace = _
          rw [he, htr]
        · rename_i he
          have he' : is_exists s4.m_level = false := by simpa using he
          show kernel_event.assert_expr false fml1 :: s4.m_trace = _
          rw [he', htr]

theorem qsat.num_scopes_eq {s : qsat} {level : max_level} {n : Nat}
    (h : s.num_scopes level = some n) :
    n = (if level.max = UINT_MAX then 2 * (s.m_level / 2)
         else if s.m_qelim = true ∧ s.m_force_elim = false then 2
         else s.m_level - level.max) ∧
    (level.max ≠ UINT_MAX → ¬ (s.m_qelim = true ∧ s.m_force_elim = false) →
      level.max ≤ s.m_level) := by
  unfold qsat.num_scopes at h
  by_cases h1 : level.max = UINT_MAX
  · simp only [h1, if_true, Option.some.injEq] at h
    simp [h1, h.symm]
  · rw [if_neg h1] at h
    cases h2 : (s.m_qelim && !s.m_force_elim) with
    | true =>
      rw [h2, if_pos rfl] at h
      have h2' : s.m_qelim = true ∧ s.m_force_elim = false := by simpa using h2
      simp only [Option.some.injEq] at h
      rw [if_neg h1, if_pos h2']
      exact ⟨h.symm, fun _ hc => absurd h2' hc⟩
    | false =>
      rw [h2, if_neg (by simp)] at h
      have h2' : ¬ (s.m_qelim = true ∧ s.m_force_elim = false) := by
        intro hc
        have : (s.m_qelim && !s.m_force_elim) = true := by simp [hc.1, hc.2]
        rw [h2] at this
        cases this
      by_cases h3 : level.max ≤ s.m_level
      · rw [if_pos h3] at h
        simp only [Option.some.injEq] at h
        rw [if_neg h1, if_neg h2']
        exact ⟨h.symm, fun _ _ => h3⟩
      · rw [if_neg h3] at h
        cases h

/-- C18: a call of `project` (at a level `k` of at least 2) that abstracts its lemma
to the joint level `L` pops `2 * (k / 2)` scopes when `L.max()` is unset, otherwise 2
scopes in elimination mode without forced elimination, otherwise `k - L.max()`
scopes: the search level and the number of snapshots of `pred_abs` both go down by
that number, and in the last case the new level is `L.max()`. -/
theorem C18_backjump_amount (ext : externals) (s t : qsat) (h : s.project ext = some t) :
    2 ≤ s.m_level ∧
    ∃ core mdl pa level defs n,
      s.get_core s.m_level = some core ∧ s.m_model = some mdl ∧
      s.m_pred_abs.abstract_atoms (s.lemma_of ext (s.m_level - 1) mdl core) max_level.unset []
        = some (pa, level, defs) ∧
      n = (if level.max = UINT_MAX then 2 * (s.m_level / 2)
           else if s.m_qelim = true ∧ s.m_force_elim = false then 2
           else s.m_level - level.max) ∧
      t.m_level + n = s.m_level ∧
      t.m_pred_abs.m_asms_lim.length + n = s.m_pred_abs.m_asms_lim.length ∧
      (level.max ≠ UINT_MAX → ¬ (s.m_qelim = true ∧ s.m_force_elim = false) →
        t.m_level = level.max) := by
  obtain ⟨core, mdl, pa, level, defs, n, hcore, hk, hmdl, haa, hn, _, hnl, hnlim, hlev, hlim,
    _, _, _⟩ := qsat.project_post h
  obtain ⟨hneq, hs⟩ := qsat.num_scopes_eq hn
  refine ⟨hk, core, mdl, pa, level, defs, n, hcore, hmdl, haa, hneq, by omega, by omega, ?_⟩
  intro h1 h2
  have h3 := hs h1 h2
  rw [if_neg h1, if_neg h2] at hneq
  omega

theorem C18_backjump_amount_witness :
    sample_elim_level2.project sample_mbp = some sample_elim_projected ∧
    2 ≤ sample_elim_level2.m_level ∧
    ∃ core mdl pa level defs n,
      sample_elim_level2.get_core sample_elim_level2.m_level = some core ∧
      sample_elim_level2.m_model = some mdl ∧
      sample_elim_level2.m_pred_abs.abstract_atoms
        (sample_elim_level2.lemma_of sample_mbp (sample_elim_level2.m_level - 1) mdl core)
        max_level.unset [] = some (pa, level, defs) ∧
      n = (if level.max = UINT_MAX then 2 * (sample_elim_level2.m_level / 2)
           else if sample_elim_level2.m_qelim = true ∧ sample_elim_level2.m_force_elim = false
           then 2
           else sample_elim_level2.m_level - level.max) ∧
      sample_elim_projected.m_level + n = sample_elim_level2.m_level ∧
      sample_elim_projected.m_pred_abs.m_asms_lim.length + n
        = sample_elim_level2.m_pred_abs.m_asms_lim.length ∧
      (level.max ≠ UINT_MAX →
        ¬ (sample_elim_level2.m_qelim = true ∧ sample_elim_level2.m_force_elim = false) →
        sample_elim_projected.m_level = level.max) :=
  ⟨by rfl, C18_backjump_amount sample_mbp sample_elim_level2 sample_elim_projected (by rfl)⟩

/-- C19 (amended): when the lemma learned by `project` at level `k` (at least 2) has
no level, the level after the backjump is `k mod 2`: level 0, an existential level,
for even `k`, and level 1, a universal level, for odd `k`. -/
theorem C19_level_free_backjump (ext : externals) (s t : qsat)
    (h : s.project ext = some t) :
    2 ≤ s.m_level ∧
    ∃ core mdl pa level defs,
      s.get_core s.m_level = some core ∧ s.m_model = some mdl ∧
      s.m_pred_abs.abstract_atoms (s.lemma_of ext (s.m_level - 1) mdl core) max_level.unset []
        = some (pa, level, defs) ∧
      (level.max = UINT_MAX →
        t.m_level = s.m_level % 2 ∧ is_exists t.m_level = is_exists s.m_level) := by
  obtain ⟨core, mdl, pa, level, defs, n, hcore, hk, hmdl, haa, hn, _, hnl, _, hlev, _, _, _, _⟩ :=
    qsat.project_post h
  obtain ⟨hneq, _⟩ := qsat.num_scopes_eq hn
  refine ⟨hk, core, mdl, pa, level, defs, hcore, hmdl, haa, ?_⟩
  intro h1
  rw [if_pos h1] at hneq
  have e : t.m_level = s.m_level % 2 := by omega
  refine ⟨e, ?_⟩
  unfold is_exists
  rw [e, Nat.mod_mod]

theorem C19_level_free_backjump_witness :
    sample_alt_level3.project sample_mbp = some sample_alt_projected ∧
    2 ≤ sample_alt_level3.m_level ∧
    ∃ core mdl pa level defs,
      sample_alt_level3.get_core sample_alt_level3.m_level = some core ∧
      sample_alt_level3.m_model = some mdl ∧
      sample_alt_level3.m_pred_abs.abstract_atoms
        (sample_alt_level3.lemma_of sample_mbp (sample_alt_level3.m_level - 1) mdl core)
        max_level.unset [] = some (pa, level, defs) ∧
      (level.max = UINT_MAX →
        sample_alt_projected.m_level = sample_alt_level3.m_level % 2 ∧
        is_exists sample_alt_projected.m_level = is_exists sample_alt_level3.m_level) :=
  ⟨by rfl, C19_level_free_backjump sample_mbp sample_alt_level3 sample_alt_projected (by rfl)⟩

/-- C19 (counterexample): in the run of the `qsat` variant on
`∃x ∀y ∃z ∀w. x ∨ y ∨ z ∨ w`, `project` runs at level 3 with the core `z`; the
projected core is empty, the lemma `¬true` has no level, two scopes are popped, and
the level after the backjump is 1: an odd level, where the universal kernel plays. -/
theorem C19_counterexample :
    sample_alt_level3.m_level = 3 ∧
    sample_alt_level3.get_core 3 = some [sample_bz] ∧
    sample_alt_level3.lemma_of sample_mbp 2 (sample_model_of [sample_bz]) [sample_bz]
      = mk_not mk_true ∧
    ((sample_alt_level3.m_pred_abs.abstract_atoms (mk_not mk_true) max_level.unset []).map
      (fun r => r.2.1.max)) = some UINT_MAX ∧
    (sample_alt_level3.project sample_mbp).isSome = true ∧
    sample_alt_projected.m_level = 1 ∧
    sample_alt_projected.m_level % 2 ≠ 0 ∧
    is_exists sample_alt_projected.m_level = false := by
  decide

/-- A pop of at least one and at most all open scopes returns when no snapshot is
above the size of the assumption stack. -/
theorem pred_abs.pop_total (s : pred_abs) (n : Nat) (h1 : 1 ≤ n)
    (h2 : n ≤ s.m_asms_lim.length) (hsz : ∀ x ∈ s.m_asms_lim, x ≤ s.m_asms.length) :
    ∃ t, s.pop n = some t ∧ t.m_asms_lim.length + n = s.m_asms_lim.length := by
  have hlt : s.m_asms_lim.length - n < s.m_asms_lim.length := by omega
  have hget : s.m_asms_lim.get? (s.m_asms_lim.length - n)
      = some (s.m_asms_lim.get ⟨_, hlt⟩) := List.get?_eq_get hlt
  have hle : s.m_asms_lim.get ⟨_, hlt⟩ ≤ s.m_asms.length := hsz _ (List.get_mem _ _ _)
  refine ⟨{ s with m_asms := s.m_asms.take (s.m_asms_lim.get ⟨_, hlt⟩),
                   m_asms_lim := s.m_asms_lim.take (s.m_asms_lim.length - n) }, ?_, ?_⟩
  · unfold pred_abs.pop
    rw [if_pos h2]
    simp only [hget, if_pos hle]
  · show (List.take _ _).length + n = _
    rw [List.length_take]
    omega

/-- The state after `project_qe`, with the lemma as the code computes it. -/
theorem qsat.project_qe_post (ext : externals) (s : qsat) (mdl : model)
    (hl : s.m_level = 1) (hm : s.m_model = some mdl) (hstep : s.in_step)
    (hg : is_ground_list s.m_fa.m_core = true) :
    ∃ t, s.project_qe ext = some t ∧ t.m_level = 0 ∧ t.m_model = none ∧
      t.m_answer = s.m_answer ++
        [s.lemma_of ext 1 mdl (s.m_fa.m_core.map (rewrite_spec s.m_pred_abs.m_pred2lit))] ∧
      t.m_asms = s.m_asms ++ [fresh_const s.m_pred_abs.m_fresh_id] ∧
      t.m_pred_abs.m_fresh_id = s.m_pred_abs.m_fresh_id + 1 ∧
      t.m_pred_abs.m_pred2lit.find (fresh_const s.m_pred_abs.m_fresh_id) =
        some (s.lemma_of ext 1 mdl
          (s.m_fa.m_core.map (rewrite_spec s.m_pred_abs.m_pred2lit))) ∧
      t.m_ex.m_asserted = s.m_ex.m_asserted ++
        [mk_eq (fresh_const s.m_pred_abs.m_fresh_id)
          (s.lemma_of ext 1 mdl (s.m_fa.m_core.map (rewrite_spec s.m_pred_abs.m_pred2lit)))] ∧
      t.m_fa = s.m_fa := by
  obtain ⟨hs1, hs2⟩ := hstep
  obtain ⟨nr, fa, ex, pa, answer, asms, vars, lvl, model0, cancel, qelim, force, avars0, fv, trace⟩ := s
  simp only at hl hm hs1 hs2 hg
  subst hl hm
  let s0 : qsat := ⟨nr, fa, ex, pa, answer, asms, vars, 1, some mdl, cancel, qelim, force, avars0, fv,
    trace⟩
  have hcore : s0.get_core 1 = some (fa.m_core.map (rewrite_spec pa.m_pred2lit)) :=
    mk_concrete_eq _ _ hg
  let lem := s0.lemma_of ext 1 mdl (fa.m_core.map (rewrite_spec pa.m_pred2lit))
  let avars := (ext.mbp force (s0.block_vars 1) mdl
    (fa.m_core.map (rewrite_spec pa.m_pred2lit))).1
  let s2 := qsat.add_assumption { s0.get_vars 1 with m_avars := avars } lem
  let s3 : qsat := { s2 with m_answer := s2.m_answer ++ [lem],
                             m_free_vars := s2.m_free_vars ++ s2.m_avars }
  have hproj : s0.project_qe ext = s3.pop 1 := by
    unfold qsat.project_qe
    rw [if_pos rfl]
    simp only [s0, hcore]
    rfl
  have hpa : pa.same_scopes s3.m_pred_abs := by
    show pa.same_scopes
      ((pa.fresh_bool.2.add_pred (fresh_const pa.m_fresh_id) lem).set_expr_level _ _)
    have h1 := pred_abs.same_scopes_add_pred pa.fresh_bool.2 (fresh_const pa.m_fresh_id) lem
    obtain ⟨a1, a2, a3, a4, a5⟩ := h1
    exact ⟨a1, a2, a3, a4, a5⟩
  obtain ⟨hasms, hlim, _, _, _⟩ := hpa
  obtain ⟨pa1, hpop, hlen⟩ := pred_abs.pop_total s3.m_pred_abs 1 (le_refl 1)
    (by rw [hlim, hs1]) (by rw [hlim, hasms]; exact hs2)
  have hpa1 := (pred_abs.pop_inv hpop).2.2
  obtain ⟨sz, _, _, hpa1eq⟩ := hpa1
  have hkern := qsat.add_assumption_kernels { s0.get_vars 1 with m_avars := avars } lem
  refine ⟨{ s3 with m_model := none, m_pred_abs := pa1, m_level := s3.m_level - 1 }, ?_, ?_,
    rfl, rfl, ?_, ?_, ?_, ?_, ?_⟩
  · rw [hproj]
    unfold qsat.pop
    have hl3 : s3.m_level = 1 := rfl
    rw [if_pos (by rw [hl3]), hpop]
  · rfl
  · exact hkern.2.2.1
  · show pa1.m_fresh_id = _
    rw [hpa1eq]
    show (pa.fresh_bool.2.add_pred (fresh_const pa.m_fresh_id) lem).m_fresh_id = _
    rw [pred_abs.add_pred_fresh_id]
    rfl
  · show pa1.m_pred2lit.find _ = _
    rw [hpa1eq]
    exact hkern.2.2.2
  · exact hkern.2.1
  · rfl

/-- C17: in every state at level 1 with a saved model (the level and the scopes of
`pred_abs` in step, the core of the universal kernel made of applications only),
`project_qe` returns; afterwards the level is 0 and the saved model is cleared;
`answer` has grown by exactly one element, the lemma
`push_not (mk_and (mbp (vars of the blocks from 1 on) (core concretized with pred2lit))))`,
the negation of the projected core; and the permanent assumptions have grown by
exactly one element, the proxy just minted, which `pred2lit` maps to that lemma and
whose equivalence with the lemma is asserted to the existential kernel. -/
theorem C17_project_qe_post (ext : externals) (s : qsat) (mdl : model)
    (hl : s.m_level = 1) (hm : s.m_model = some mdl) (hstep : s.in_step)
    (hg : is_ground_list s.m_fa.m_core = true) :
    ∃ t, s.project_qe ext = some t ∧ t.m_level = 0 ∧ t.m_model = none ∧
      t.m_answer = s.m_answer ++ [s.projected_negation ext mdl] ∧
      t.m_asms = s.m_asms ++ [fresh_const s.m_pred_abs.m_fresh_id] ∧
      t.m_pred_abs.m_fresh_id = s.m_pred_abs.m_fresh_id + 1 ∧
      t.m_pred_abs.m_pred2lit.find (fresh_const s.m_pred_abs.m_fresh_id) =
        some (s.projected_negation ext mdl) ∧
      t.m_ex.m_asserted = s.m_ex.m_asserted ++
        [mk_eq (fresh_const s.m_pred_abs.m_fresh_id) (s.projected_negation ext mdl)] ∧
      t.m_fa = s.m_fa :=
  qsat.project_qe_post ext s mdl hl hm hstep hg

/-- C17 (witness): in the run on `p ∨ q` the universal kernel refutes the model `p`
with the core `p`; `project_qe` adds the lemma `¬p` to `answer`, and the proxy
`fresh_const 0` with the definition `fresh_const 0 = ¬p` to the assumptions. -/
theorem C17_project_qe_post_witness :
    sample_level1.m_level = 1 ∧ sample_level1.m_model = some sample_model_p ∧
    sample_level1.in_step ∧ is_ground_list sample_level1.m_fa.m_core = true ∧
    sample_level1.m_fa.m_core = [sample_p] ∧
    sample_level1.projected_negation sample_ext sample_model_p = mk_not sample_p ∧
    ∃ t, sample_level1.project_qe sample_ext = some t ∧ t.m_level = 0 ∧ t.m_model = none ∧
      t.m_answer = sample_level1.m_answer ++
        [sample_level1.projected_negation sample_ext sample_model_p] ∧
      t.m_asms = sample_level1.m_asms ++ [fresh_const sample_level1.m_pred_abs.m_fresh_id] ∧
      t.m_pred_abs.m_fresh_id = sample_level1.m_pred_abs.m_fresh_id + 1 ∧
      t.m_pred_abs.m_pred2lit.find (fresh_const sample_level1.m_pred_abs.m_fresh_id) =
        some (sample_level1.projected_negation sample_ext sample_model_p) ∧
      t.m_ex.m_asserted = sample_level1.m_ex.m_asserted ++
        [mk_eq (fresh_const sample_level1.m_pred_abs.m_fresh_id)
          (sample_level1.projected_negation sample_ext sample_model_p)] ∧
      t.m_fa = sample_level1.m_fa :=
  ⟨by decide, by rfl, ⟨by decide, by decide⟩, by decide, by decide, by decide,
   C17_project_qe_post sample_ext sample_level1 sample_model_p (by decide) (by rfl)
     ⟨by decide, by decide⟩ (by decide)⟩

theorem aa_step_fresh_le {c c1 : aa_config} (h : aa_step c c1) :
    c.s.m_fresh_id ≤ c1.s.m_fresh_id := by
  cases h with
  | marked => exact le_refl _
  | mapped => exact le_refl _
  | const_new a todo mark s level defs l =>
    show s.m_fresh_id ≤ ((s.add_pred a a).insert a l).m_fresh_id
    show s.m_fresh_id ≤ (s.add_pred a a).m_fresh_id
    rw [pred_abs.add_pred_fresh_id]
  | const_old => exact le_refl _
  | atom d args todo mark s level defs s2 l is_pred hm hp hc hb hbool hlvl hpred =>
    show s.m_fresh_id ≤ (s2.atom_update _ _ _ _).m_fresh_id
    have e2 : s2.m_fresh_id = s.m_fresh_id + 1 := by
      rw [pred_abs.compute_level_eq hlvl]; rfl
    rw [pred_abs.atom_update_fresh_id, pred_abs.add_pred_fresh_id, e2]
    omega
  | skip => exact le_refl _

theorem aa_steps_fresh_le {c c1 : aa_config} (h : Relation.ReflTransGen aa_step c c1) :
    c.s.m_fresh_id ≤ c1.s.m_fresh_id := by
  induction h with
  | refl => exact le_refl _
  | tail _ hstep ih => exact le_trans ih (aa_step_fresh_le hstep)

/-- `abstract_atoms` never takes the manager's counter back. -/
theorem pred_abs.abstract_atoms_fresh_le {s : pred_abs} {fml : expr} {level : max_level}
    {defs : List expr} {r : pred_abs × max_level × List expr}
    (h : s.abstract_atoms fml level defs = some r) : s.m_fresh_id ≤ r.1.m_fresh_id := by
  obtain ⟨mark, hsteps⟩ := pred_abs.abstract_atoms_steps h
  exact aa_steps_fresh_le hsteps

theorem fresh_below_ne_fresh_const (n i : Nat) (hi : n ≤ i) (e : expr)
    (h : fresh_below n e = true) : e ≠ fresh_const i := by
  intro he
  subst he
  simp only [fresh_const, fresh_below, fresh_below_list, Bool.and_true, decide_eq_true_eq] at h
  omega

mutual
/-- The rewrite of an expression whose fresh symbols are below `n` is the same under
two maps that differ only at proxies minted from `n` on. -/
theorem rewrite_spec_ext (m1 m2 : obj_map expr expr) (n : Nat)
    (hm : ∀ k, m2.find k = m1.find k ∨ ∃ i, k = fresh_const i ∧ n ≤ i) :
    ∀ (e : expr), fresh_below n e = true → rewrite_spec m2 e = rewrite_spec m1 e
  | .app d args, he => by
    have hk : m2.find (.app d args) = m1.find (.app d args) := by
      rcases hm (.app d args) with h | ⟨i, hi, hni⟩
      · exact h
      · exact absurd hi (fresh_below_ne_fresh_const n i hni _ he)
    simp only [fresh_below, Bool.and_eq_true] at he
    simp only [rewrite_spec, hk, rewrite_spec_list_ext m1 m2 n hm args he.2]
  | .var i s, _ => by
    have hk : m2.find (.var i s) = m1.find (.var i s) := by
      rcases hm (.var i s) with h | ⟨j, hj, _⟩
      · exact h
      · simp [fresh_const] at hj
    simp only [rewrite_spec, hk]
  | .quantifier f b, _ => by
    have hk : m2.find (.quantifier f b) = m1.find (.quantifier f b) := by
      rcases hm (.quantifier f b) with h | ⟨j, hj, _⟩
      · exact h
      · simp [fresh_const] at hj
    simp only [rewrite_spec, hk]
theorem rewrite_spec_list_ext (m1 m2 : obj_map expr expr) (n : Nat)
    (hm : ∀ k, m2.find k = m1.find k ∨ ∃ i, k = fresh_const i ∧ n ≤ i) :
    ∀ (l : List expr), fresh_below_list n l = true →
      rewrite_spec_list m2 l = rewrite_spec_list m1 l
  | [], _ => rfl
  | a :: l, hl => by
    simp only [fresh_below_list, Bool.and_eq_true] at hl
    simp only [rewrite_spec_list, rewrite_spec_ext m1 m2 n hm a hl.1,
      rewrite_spec_list_ext m1 m2 n hm l hl.2]
end

/-- What `pred2asm` returns on an expression made of applications only, when `mk_and`
returns the single formula of a one-element list. -/
theorem pred_abs.pred2asm_eq (ext : externals) (hand : ∀ x, ext.mk_and [x] = x)
    (s : pred_abs) (a : expr) (hg : is_ground a = true) :
    s.pred2asm ext a = some (rewrite_spec s.m_pred2asm a) := by
  unfold pred_abs.pred2asm
  have hgl : is_ground_list [a] = true := by simp [is_ground_list, hg]
  rw [mk_concrete_eq [a] _ hgl]
  simp [hand]

theorem is_not_inv {x c : expr} (h : is_not x = some c) :
    ∃ d, x = expr.app d [c] ∧ d.family = family_id.basic_family_id ∧
      d.kind = decl_kind.OP_NOT := by
  unfold is_not at h
  split at h
  · rename_i d c1
    split at h
    · rename_i hd
      simp only [Option.some.injEq] at h
      subst h
      exact ⟨d, rfl, hd.1, hd.2⟩
    · simp at h
  · simp at h

theorem is_not_ne {x c : expr} (h : is_not x = some c) : x ≠ c := by
  obtain ⟨d, hx, _, _⟩ := is_not_inv h
  intro e
  have := congrArg expr.size e
  rw [hx] at this
  simp only [expr.size, expr.sizeList] at this
  omega

theorem is_not_mk_not (x : expr) : is_not (mk_not x) = some x := by
  simp [is_not, mk_not]

theorem mk_not_ne (x : expr) : mk_not x ≠ x := is_not_ne (is_not_mk_not x)

/-- What a call of `mk_assumption_literal` that returns has done: it found the
formula (as concretized by `pred2asm`) or its negation in one of the assumption maps
and left the state, the model and `defs` as they were, or it minted the proxy
`fresh_const m_fresh_id` and registered the formula, stripped of one negation. -/
theorem pred_abs.mk_assumption_literal_inv {ext : externals} {s : pred_abs} {a : expr}
    {mdl : Option model} {lvl : max_level} {defs : List expr}
    {r : expr × pred_abs × Option model × List expr}
    (h : s.mk_assumption_literal ext a mdl lvl defs = some r) :
    ∃ a', s.pred2asm ext a = some a' ∧
      ((r.2.1 = s ∧ r.2.2.1 = mdl ∧ r.2.2.2 = defs) ∨
       (s.m_asm2pred.find a' = none ∧ (is_not a').bind s.m_asm2pred.find = none ∧
        s.m_asm2pred.find ((is_not a').getD a') = none ∧
        r.1 = (if (is_not a').isSome then mk_not (fresh_const s.m_fresh_id)
               else fresh_const s.m_fresh_id) ∧
        r.2.1.m_asm2pred
          = s.m_asm2pred.insert ((is_not a').getD a') (fresh_const s.m_fresh_id) ∧
        r.2.1.m_pred2asm
          = s.m_pred2asm.insert (fresh_const s.m_fresh_id) ((is_not a').getD a') ∧
        s.m_fresh_id + 1 ≤ r.2.1.m_fresh_id)) := by
  unfold pred_abs.mk_assumption_literal at h
  split at h
  · simp at h
  · rename_i a' ha'
    refine ⟨a', ha', ?_⟩
    split at h
    · simp only [Option.some.injEq] at h
      subst h
      exact Or.inl ⟨rfl, rfl, rfl⟩
    · rename_i h1
      split at h
      · simp only [Option.some.injEq] at h
        subst h
        exact Or.inl ⟨rfl, rfl, rfl⟩
      · rename_i h2
        split at h
        · simp only [Option.some.injEq] at h
          subst h
          exact Or.inl ⟨rfl, rfl, rfl⟩
        · split at h
          · simp only [Option.some.injEq] at h
            subst h
            exact Or.inl ⟨rfl, rfl, rfl⟩
          · simp only [pred_abs.fresh_bool] at h
            split at h
            · simp at h
            · rename_i s3 lv defs1 haa
              split at h
              · simp at h
              · rename_i fml hfml
                split at h
                · simp at h
                · rename_i s4 hadd
                  simp only [Option.some.injEq] at h
                  subst h
                  have hsc := pred_abs.abstract_atoms_same_scopes haa
                  have hfr := pred_abs.abstract_atoms_fresh_le haa
                  obtain ⟨_, _, h3, h4, _⟩ := hsc
                  unfold pred_abs.add_asm at hadd
                  split at hadd
                  · simp at hadd
                  · rename_i hcont
                    simp only [Option.some.injEq] at hadd
                    subst hadd
                    have hcont' : s3.m_asm2pred.find ((is_not a').getD a') = none := by
                      have := (obj_map.contains_eq_false s3.m_asm2pred _).1
                        (by simpa using hcont)
                      exact this
                    have h3' : s3.m_asm2pred = s.m_asm2pred := h3
                    have h4' : s3.m_pred2asm = s.m_pred2asm := h4
                    right
                    refine ⟨h1, h2, by rw [← h3']; exact hcont', rfl, ?_, ?_, ?_⟩
                    · show s3.m_asm2pred.insert _ _ = _
                      rw [h3']
                    · show s3.m_pred2asm.insert _ _ = _
                      rw [h4']
                    · exact hfr

theorem pred_abs.asm_ext_refl (s : pred_abs) : s.asm_ext s :=
  ⟨le_refl _, fun _ _ h => h, fun _ => Or.inl rfl⟩

theorem pred_abs.asm_ext_trans {s t u : pred_abs} (h1 : s.asm_ext t) (h2 : t.asm_ext u) :
    s.asm_ext u := by
  obtain ⟨a1, a2, a3⟩ := h1
  obtain ⟨b1, b2, b3⟩ := h2
  refine ⟨le_trans a1 b1, fun k v h => b2 k v (a2 k v h), ?_⟩
  intro k
  rcases b3 k with h | ⟨i, hi, hle⟩
  · rcases a3 k with h' | h'
    · exact Or.inl (h.trans h')
    · exact Or.inr h'
  · exact Or.inr ⟨i, hi, le_trans a1 hle⟩

/-- A call of `mk_assumption_literal` extends the assumption maps. -/
theorem pred_abs.mk_assumption_literal_ext {ext : externals} {s : pred_abs} {a : expr}
    {mdl : Option model} {lvl : max_level} {defs : List expr}
    {r : expr × pred_abs × Option model × List expr}
    (h : s.mk_assumption_literal ext a mdl lvl defs = some r) : s.asm_ext r.2.1 := by
  obtain ⟨a', _, hcase⟩ := pred_abs.mk_assumption_literal_inv h
  rcases hcase with ⟨hs, _, _⟩ | ⟨_, _, hnone, _, h2, h3, hfr⟩
  · rw [hs]; exact pred_abs.asm_ext_refl s
  · refine ⟨by omega, ?_, ?_⟩
    · intro k v hk
      rw [h2, obj_map.find_insert]
      have : k ≠ (is_not a').getD a' := by
        intro e; rw [e, hnone] at hk; cases hk
      rw [if_neg this]; exact hk
    · intro k
      rw [h3, obj_map.find_insert]
      by_cases hk : k = fresh_const s.m_fresh_id
      · exact Or.inr ⟨s.m_fresh_id, hk, le_refl _⟩
      · rw [if_neg hk]; exact Or.inl rfl

/-- A call of `mk_assumption_literal` keeps the invariant of the assumption maps. -/
theorem pred_abs.mk_assumption_literal_wf {ext : externals} {s : pred_abs} {a : expr}
    {mdl : Option model} {lvl : max_level} {defs : List expr}
    {r : expr × pred_abs × Option model × List expr}
    (h : s.mk_assumption_literal ext a mdl lvl defs = some r) (hwf : s.asm_wf) :
    r.2.1.asm_wf := by
  obtain ⟨a', _, hcase⟩ := pred_abs.mk_assumption_literal_inv h
  rcases hcase with ⟨hs, _, _⟩ | ⟨_, _, _, _, _, h3, hfr⟩
  · rw [hs]; exact hwf
  · intro k v hk
    rw [h3, obj_map.find_insert] at hk
    by_cases hkp : k = fresh_const s.m_fresh_id
    · exact ⟨s.m_fresh_id, hkp, by omega⟩
    · rw [if_neg hkp] at hk
      obtain ⟨i, hi, hlt⟩ := hwf k v hk
      exact ⟨i, hi, by omega⟩

/-- In a later state the assumption maps extend the earlier ones and keep their
invariant. -/
theorem pred_abs.asm_later_ext {ext : externals} {s t : pred_abs}
    (h : pred_abs.asm_later ext s t) (hwf : s.asm_wf) : s.asm_ext t ∧ t.asm_wf := by
  induction h with
  | refl => exact ⟨pred_abs.asm_ext_refl s, hwf⟩
  | set_expr_level t v lvl _ ih => exact ih
  | push t _ ih => exact ih
  | pop t u n _ hpop ih =>
    obtain ⟨_, _, sz, _, _, hu⟩ := pred_abs.pop_inv hpop
    rw [hu]
    exact ih
  | get_assumptions t mdl asms r _ hga ih =>
    obtain ⟨more, hr⟩ := pred_abs.get_assumptions_state t mdl asms r hga
    rw [hr]
    exact ih
  | mk_assumption_literal t a mdl lvl defs r _ hcall ih =>
    exact ⟨pred_abs.asm_ext_trans ih.1 (pred_abs.mk_assumption_literal_ext hcall),
      pred_abs.mk_assumption_literal_wf hcall ih.2⟩
  | abstract_atoms t fml level defs r _ hcall ih =>
    obtain ⟨_, _, h3, h4, _⟩ := pred_abs.abstract_atoms_same_scopes hcall
    have hfr := pred_abs.abstract_atoms_fresh_le hcall
    refine ⟨pred_abs.asm_ext_trans ih.1 ⟨hfr, ?_, ?_⟩, ?_⟩
    · intro k v hk; rw [h3]; exact hk
    · intro k; rw [h4]; exact Or.inl rfl
    · intro k v hk
      rw [h4] at hk
      obtain ⟨i, hi, hlt⟩ := ih.2 k v hk
      exact ⟨i, hi, by omega⟩

/-- A call of `mk_assumption_literal` whose formula, as concretized, is a key of
`asm2pred` returns the proxy registered for it and changes nothing. -/
theorem pred_abs.mk_assumption_literal_found (ext : externals) (s : pred_abs) (a a' b : expr)
    (mdl : Option model) (lvl : max_level) (defs : List expr)
    (ha : s.pred2asm ext a = some a') (hb : s.m_asm2pred.find a' = some b) :
    s.mk_assumption_literal ext a mdl lvl defs = some (b, s, mdl, defs) := by
  unfold pred_abs.mk_assumption_literal
  simp only [ha, hb]

/-- A call of `mk_assumption_literal` whose formula, as concretized, is no key of
`asm2pred` but the negation of a key returns the negation of the proxy registered for
that key and changes nothing. -/
theorem pred_abs.mk_assumption_literal_found_not (ext : externals) (s : pred_abs)
    (a a' c b : expr) (mdl : Option model) (lvl : max_level) (defs : List expr)
    (ha : s.pred2asm ext a = some a') (hn : s.m_asm2pred.find a' = none)
    (hc : is_not a' = some c) (hb : s.m_asm2pred.find c = some b) :
    s.mk_assumption_literal ext a mdl lvl defs = some (mk_not b, s, mdl, defs) := by
  unfold pred_abs.mk_assumption_literal
  simp only [ha, hn, hc, Option.some_bind, hb]

/-- In a state whose assumption maps extend those of `s`, `pred2asm` concretizes a
formula that existed in `s` as it did in `s`. -/
theorem pred_abs.pred2asm_later (ext : externals) (hand : ∀ x, ext.mk_and [x] = x)
    {s t : pred_abs} (hext : s.asm_ext t) (b : expr) (hg : is_ground b = true)
    (hfb : fresh_below s.m_fresh_id b = true) :
    t.pred2asm ext b = some (rewrite_spec s.m_pred2asm b) := by
  rw [pred_abs.pred2asm_eq ext hand t b hg,
    rewrite_spec_ext s.m_pred2asm t.m_pred2asm s.m_fresh_id hext.2.2 b hfb]

/-- C15 (amended): let `mk_assumption_literal` mint the proxy `p` for the formula `a`
(concretized to `a'`; it registers `a'`, or `c'` when `a'` is the negation of `c'`,
and returns `p`, or `¬p`). In every later state `t`: a call with `a`, with `¬a`, or
with `c` when `a` is the negation of `c`, changes neither the state (no proxy is
minted, `preds` is unchanged) nor `defs`; the call with `a` returns the same literal
again, unless `a'` is a negation that has itself become a key of `asm2pred`; the call
with `¬a` (for `a'` not a negation) returns `¬p`, unless `¬a'` is itself a key of
`asm2pred`; the call with `c` returns `p`. -/
theorem C15_assumption_literal_reuse (ext : externals) (hand : ∀ x, ext.mk_and [x] = x)
    (s s1 t : pred_abs) (a q : expr) (mdl mdl1 : Option model) (lvl : max_level)
    (defs defs1 : List expr)
    (hg : is_ground a = true) (hfb : fresh_below s.m_fresh_id a = true) (hwf : s.asm_wf)
    (hfirst : s.mk_assumption_literal ext a mdl lvl defs = some (q, s1, mdl1, defs1))
    (hmint : s.m_fresh_id < s1.m_fresh_id)
    (hlater : pred_abs.asm_later ext s1 t) :
    ((is_not (rewrite_spec s.m_pred2asm a) = none ∧ q = fresh_const s.m_fresh_id) ∨
     ((is_not (rewrite_spec s.m_pred2asm a)).isSome = true ∧
       q = mk_not (fresh_const s.m_fresh_id))) ∧
    (∀ mdl2 lvl2 defs2,
      (∃ q2, t.mk_assumption_literal ext a mdl2 lvl2 defs2 = some (q2, t, mdl2, defs2)) ∧
      (is_not (rewrite_spec s.m_pred2asm a) = none ∨
          t.m_asm2pred.find (rewrite_spec s.m_pred2asm a) = none →
        t.mk_assumption_literal ext a mdl2 lvl2 defs2 = some (q, t, mdl2, defs2))) ∧
    (is_not (rewrite_spec s.m_pred2asm a) = none → ∀ mdl2 lvl2 defs2,
      (∃ q2, t.mk_assumption_literal ext (mk_not a) mdl2 lvl2 defs2
        = some (q2, t, mdl2, defs2)) ∧
      (t.m_asm2pred.find (mk_not (rewrite_spec s.m_pred2asm a)) = none →
        t.mk_assumption_literal ext (mk_not a) mdl2 lvl2 defs2
          = some (mk_not q, t, mdl2, defs2))) ∧
    (∀ c, is_not a = some c → ∀ mdl2 lvl2 defs2,
      t.mk_assumption_literal ext c mdl2 lvl2 defs2
        = some (fresh_const s.m_fresh_id, t, mdl2, defs2)) := by
  obtain ⟨a', ha', hcase⟩ := pred_abs.mk_assumption_literal_inv hfirst
  rw [pred_abs.pred2asm_eq ext hand s a hg] at ha'
  simp only [Option.some.injEq] at ha'
  subst ha'
  rcases hcase with ⟨hs, _, _⟩ | ⟨h1, h2, hnone, hq, hm1, hm2, hfr⟩
  · simp only at hs
    rw [hs] at hmint
    exact absurd hmint (lt_irrefl _)
  simp only at hq hm1 hm2 hfr
  have hext1 : s.asm_ext s1 := pred_abs.mk_assumption_literal_ext hfirst
  have hwf1 : s1.asm_wf := pred_abs.mk_assumption_literal_wf hfirst hwf
  have hext : s.asm_ext t := pred_abs.asm_ext_trans hext1 (pred_abs.asm_later_ext hlater hwf1).1
  have hreg : t.m_asm2pred.find ((is_not (rewrite_spec s.m_pred2asm a)).getD
      (rewrite_spec s.m_pred2asm a)) = some (fresh_const s.m_fresh_id) := by
    apply (pred_abs.asm_later_ext hlater hwf1).1.2.1
    rw [hm1, obj_map.find_insert_self]
  have hpa : t.pred2asm ext a = some (rewrite_spec s.m_pred2asm a) :=
    pred_abs.pred2asm_later ext hand hext a hg hfb
  cases hnot : is_not (rewrite_spec s.m_pred2asm a) with
  | none =>
    rw [hnot] at hq hreg
    simp only [Option.isSome_none, Bool.false_eq_true, if_false] at hq
    simp only [Option.getD_none] at hreg
    have hsame : ∀ mdl2 lvl2 defs2,
        t.mk_assumption_literal ext a mdl2 lvl2 defs2 = some (q, t, mdl2, defs2) := by
      intro mdl2 lvl2 defs2
      rw [hq]
      exact pred_abs.mk_assumption_literal_found ext t a _ _ mdl2 lvl2 defs2 hpa hreg
    refine ⟨Or.inl ⟨rfl, hq⟩, ?_, ?_, ?_⟩
    · intro mdl2 lvl2 defs2
      exact ⟨⟨q, hsame mdl2 lvl2 defs2⟩, fun _ => hsame mdl2 lvl2 defs2⟩
    · intro _ mdl2 lvl2 defs2
      have hgn : is_ground (mk_not a) = true := by
        simp [mk_not, is_ground, is_ground_list, hg]
      have hfbn : fresh_below s.m_fresh_id (mk_not a) = true := by
        simp [mk_not, fresh_below, fresh_below_list, hfb]
      have hkey : s.m_pred2asm.find (mk_not a) = none := by
        cases hk : s.m_pred2asm.find (mk_not a) with
        | none => rfl
        | some v =>
          obtain ⟨i, hi, _⟩ := hwf _ _ hk
          simp [mk_not, fresh_const] at hi
      have hrw : rewrite_spec s.m_pred2asm (mk_not a) = mk_not (rewrite_spec s.m_pred2asm a) := by
        have : mk_not a = expr.app ⟨symbol.named 9, family_id.basic_family_id,
            decl_kind.OP_NOT, expr_sort.bool_sort⟩ [a] := rfl
        rw [this] at hkey ⊢
        simp only [rewrite_spec, hkey, rewrite_spec_list]
        rfl
      have hpan : t.pred2asm ext (mk_not a) = some (mk_not (rewrite_spec s.m_pred2asm a)) := by
        rw [pred_abs.pred2asm_later ext hand hext (mk_not a) hgn hfbn, hrw]
      constructor
      · cases hfn : t.m_asm2pred.find (mk_not (rewrite_spec s.m_pred2asm a)) with
        | some b =>
          exact ⟨b, pred_abs.mk_assumption_literal_found ext t _ _ _ mdl2 lvl2 defs2 hpan hfn⟩
        | none =>
          exact ⟨_, pred_abs.mk_assumption_literal_found_not ext t _ _ _ _ mdl2 lvl2 defs2 hpan
            hfn (is_not_mk_not _) hreg⟩
      · intro hfn
        rw [hq]
        exact pred_abs.mk_assumption_literal_found_not ext t _ _ _ _ mdl2 lvl2 defs2 hpan
          hfn (is_not_mk_not _) hreg
    · intro c hc
      exfalso
      obtain ⟨d, hx, hd1, hd2⟩ := is_not_inv hc
      have hkey : s.m_pred2asm.find (expr.app d [c]) = none := by
        cases hk : s.m_pred2asm.find (expr.app d [c]) with
        | none => rfl
        | some v =>
          obtain ⟨i, hi, _⟩ := hwf _ _ hk
          simp [fresh_const] at hi
      rw [hx] at hnot
      simp only [rewrite_spec, hkey, rewrite_spec_list] at hnot
      simp [is_not, hd1, hd2] at hnot
  | some c' =>
    rw [hnot] at hq hreg h2
    simp only [Option.isSome_some, if_true] at hq
    simp only [Option.getD_some] at hreg
    refine ⟨Or.inr ⟨rfl, hq⟩, ?_, ?_, ?_⟩
    · intro mdl2 lvl2 defs2
      constructor
      · cases hfn : t.m_asm2pred.find (rewrite_spec s.m_pred2asm a) with
        | some b =>
          exact ⟨b, pred_abs.mk_assumption_literal_found ext t _ _ _ mdl2 lvl2 defs2 hpa hfn⟩
        | none =>
          exact ⟨_, pred_abs.mk_assumption_literal_found_not ext t _ _ _ _ mdl2 lvl2 defs2 hpa
            hfn hnot hreg⟩
      · intro hcond
        rcases hcond with hc | hfn
        · cases hc
        · rw [hq]
          exact pred_abs.mk_assumption_literal_found_not ext t _ _ _ _ mdl2 lvl2 defs2 hpa
            hfn hnot hreg
    · intro hc
      cases hc
    · intro c hc mdl2 lvl2 defs2
      obtain ⟨d, hx, hd1, hd2⟩ := is_not_inv hc
      have hkey : s.m_pred2asm.find (expr.app d [c]) = none := by
        cases hk : s.m_pred2asm.find (expr.app d [c]) with
        | none => rfl
        | some v =>
          obtain ⟨i, hi, _⟩ := hwf _ _ hk
          simp [fresh_const] at hi
      have hgc : is_ground c = true := by
        rw [hx] at hg
        simpa [is_ground, is_ground_list] using hg
      have hfbc : fresh_below s.m_fresh_id c = true := by
        rw [hx] at hfb
        simp only [fresh_below, fresh_below_list, Bool.and_true, Bool.and_eq_true] at hfb
        exact hfb.2
      have hc' : c' = rewrite_spec s.m_pred2asm c := by
        rw [hx] at hnot
        simp only [rewrite_spec, hkey, rewrite_spec_list] at hnot
        simp only [is_not, hd1, hd2, and_self, if_true, Option.some.injEq] at hnot
        exact hnot.symm
      rw [hc'] at hreg
      exact pred_abs.mk_assumption_literal_found ext t c _ _ mdl2 lvl2 defs2
        (pred_abs.pred2asm_later ext hand hext c hgc hfbc) hreg

theorem C15_assumption_literal_reuse_witness :
    (∀ x, sample_ext.mk_and [x] = x) ∧ is_ground sample_u = true ∧
    fresh_below sample_asm_seeded.m_fresh_id sample_u = true ∧ sample_asm_seeded.asm_wf ∧
    sample_asm_seeded.mk_assumption_literal sample_ext sample_u none ⟨0, UINT_MAX⟩ []
      = some (sample_asm_u.1, sample_asm_u.2.1, sample_asm_u.2.2.1, sample_asm_u.2.2.2) ∧
    sample_asm_seeded.m_fresh_id < sample_asm_u.2.1.m_fresh_id ∧
    sample_asm_u.1 = fresh_const 0 ∧
    sample_asm_u.2.1.mk_assumption_literal sample_ext sample_u none ⟨0, UINT_MAX⟩ []
      = some (sample_asm_u.1, sample_asm_u.2.1, none, []) ∧
    sample_asm_u.2.1.mk_assumption_literal sample_ext (mk_not sample_u) none ⟨0, UINT_MAX⟩ []
      = some (mk_not sample_asm_u.1, sample_asm_u.2.1, none, []) :=
  have hwf : sample_asm_seeded.asm_wf := fun k v h =>
    Option.noConfusion (show (none : Option expr) = some v from h)
  have hthm := C15_assumption_literal_reuse sample_ext (fun _ => rfl) sample_asm_seeded
    sample_asm_u.2.1 sample_asm_u.2.1 sample_u sample_asm_u.1 none sample_asm_u.2.2.1
    ⟨0, UINT_MAX⟩ [] sample_asm_u.2.2.2 (by decide) (by decide) hwf (by rfl) (by decide)
    (pred_abs.asm_later.refl)
  ⟨fun _ => rfl, by decide, by decide, hwf, by rfl, by decide, by decide,
   ((hthm.2.1 none ⟨0, UINT_MAX⟩ []).2 (Or.inl (by decide))),
   ((hthm.2.2.1 (by decide) none ⟨0, UINT_MAX⟩ []).2 (by decide))⟩

/-- C15 (counterexample): (1) after a call for `¬¬u` (which registers `¬u` with the
proxy `fresh_const 0`), the call for `u` mints the proxy `fresh_const 1` and returns
it; the later call for the negation `¬u` finds `¬u` itself in `asm2pred` and returns
`fresh_const 0`, not the negated literal `¬(fresh_const 1)`. (2) The call for `¬u`
mints `fresh_const 0`, registers `u` and returns `¬(fresh_const 0)`; after a call for
`¬¬u` (which mints `fresh_const 1` for `¬u`), the later call with the same formula
`¬u` returns `fresh_const 1`, not the same literal. -/
theorem C15_counterexample :
    (sample_asm_dneg.m_fresh_id = 1 ∧
     (sample_asm_dneg.mk_assumption_literal sample_ext sample_u none ⟨0, UINT_MAX⟩ []).map
       (fun r => (r.1, r.2.1.m_fresh_id, r.2.1.m_asm2pred.find sample_u))
       = some (fresh_const 1, 2, some (fresh_const 1)) ∧
     sample_asm_twice.m_fresh_id = 2 ∧
     (sample_asm_twice.mk_assumption_literal sample_ext (mk_not sample_u) none
       ⟨0, UINT_MAX⟩ []).map (fun r => r.1) = some (fresh_const 0) ∧
     fresh_const 0 ≠ mk_not (fresh_const 1)) ∧
    (sample_asm_seeded.m_fresh_id = 0 ∧
     (sample_asm_seeded.mk_assumption_literal sample_ext (mk_not sample_u) none
       ⟨0, UINT_MAX⟩ []).map (fun r => (r.1, r.2.1.m_fresh_id, r.2.1.m_asm2pred.find sample_u))
       = some (mk_not (fresh_const 0), 1, some (fresh_const 0)) ∧
     (sample_asm_neg.mk_assumption_literal sample_ext (mk_not (mk_not sample_u)) none
       ⟨0, UINT_MAX⟩ []).map (fun r => (r.1, r.2.1.m_fresh_id))
       = some (mk_not (fresh_const 1), 2) ∧
     (sample_asm_neg_twice.mk_assumption_literal sample_ext (mk_not sample_u) none
       ⟨0, UINT_MAX⟩ []).map (fun r => r.1) = some (fresh_const 1) ∧
     fresh_const 1 ≠ mk_not (fresh_const 0)) := by
  decide

theorem qsat.project_qe_trace {ext : externals} {s t : qsat} (h : s.project_qe ext = some t) :
    ∃ b x, t.m_trace = kernel_event.assert_expr b x :: s.m_trace := by
  unfold qsat.project_qe at h
  split at h
  · split at h
    · simp at h
    · split at h
      · simp at h
      · simp only at h
        obtain ⟨_, pa, _, ht⟩ := qsat.pop_qsat_inv h
        rw [ht]
        exact ⟨_, _, rfl⟩
  · simp at h

theorem qsat.project_trace {ext : externals} {s t : qsat} (h : s.project ext = some t) :
    ∃ added, assert_only added ∧ t.m_trace = added ++ s.m_trace := by
  obtain ⟨core, mdl, pa, level, defs, n, _, _, _, _, _, _, _, _, _, _, _, _, hroute⟩ :=
    qsat.project_post h
  rcases hroute with ⟨_, _, _, _, htr⟩ | ⟨_, _, fml1, _, htr⟩
  · refine ⟨[_, _, _], ?_, htr⟩
    intro e he
    simp only [List.mem_cons, List.mem_singleton, List.not_mem_nil, or_false] at he
    rcases he with he | he | he <;> exact ⟨_, _, he⟩
  · refine ⟨[_, _, _], ?_, htr⟩
    intro e he
    simp only [List.mem_cons, List.mem_singleton, List.not_mem_nil, or_false] at he
    rcases he with he | he | he <;> exact ⟨_, _, he⟩

/-- The interactions of a round of `check_sat` after which the loop goes on: one
check, answered with sat or unsat, and then assertions only. -/
theorem qsat.check_sat_round_trace (ext : externals) (ans : kernel_answer) (s t : qsat)
    (h : s.check_sat_round ext ans = some (round_end.goes_on t)) :
    ∃ added asms, assert_only added ∧ ans.res ≠ lbool.l_undef ∧
      t.m_trace = added ++
        kernel_event.check (is_exists s.m_level) s.m_level asms ans.res :: s.m_trace := by
  unfold qsat.check_sat_round at h
  simp only at h
  split at h
  · simp at h
  · split at h
    · simp at h
    · rename_i pa asms hga
      have hnil : assert_only [] := fun e he => by cases he
      cases ans with
      | sat mdl =>
        simp only [Option.some.injEq, round_end.goes_on.injEq] at h
        subst h
        exact ⟨[], asms, hnil, by simp [kernel_answer.res], rfl⟩
      | unknown =>
        simp at h
      | unsat core =>
        simp only at h
        have hres : (kernel_answer.unsat core).res ≠ lbool.l_undef := by
          simp [kernel_answer.res]
        split at h
        · simp at h
        · split at h
          · simp at h
          · split at h
            · simp only [Option.map_eq_some', round_end.goes_on.injEq] at h
              obtain ⟨t1, ht1, hout⟩ := h
              subst hout
              obtain ⟨b, x, htr⟩ := qsat.project_qe_trace ht1
              refine ⟨[kernel_event.assert_expr b x], asms, ?_, hres, ?_⟩
              · intro e he
                simp only [List.mem_singleton] at he
                exact ⟨b, x, he⟩
              · rw [htr, qsat.set_core_trace]; rfl
            · simp only [Option.map_eq_some', round_end.goes_on.injEq] at h
              obtain ⟨t1, ht1, hout⟩ := h
              subst hout
              obtain ⟨_, pa1, _, ht⟩ := qsat.pop_qsat_inv ht1
              refine ⟨[], asms, hnil, hres, ?_⟩
              rw [ht]
              show (qsat.set_core _ core).m_trace = _
              rw [qsat.set_core_trace]; rfl
        · split at h
          · simp only [Option.map_eq_some', round_end.goes_on.injEq] at h
            obtain ⟨t1, ht1, hout⟩ := h
            subst hout
            obtain ⟨added, hadd, htr⟩ := qsat.project_trace ht1
            refine ⟨added, asms, hadd, hres, ?_⟩
            rw [htr, qsat.set_core_trace]
          · simp only [Option.map_eq_some', round_end.goes_on.injEq] at h
            obtain ⟨t1, ht1, hout⟩ := h
            subst hout
            obtain ⟨_, pa1, _, ht⟩ := qsat.pop_qsat_inv ht1
            refine ⟨[], asms, hnil, hres, ?_⟩
            rw [ht]
            show (qsat.set_core _ core).m_trace = _
            rw [qsat.set_core_trace]; rfl

theorem no_undef_append {added tr : List kernel_event} {is_ex : Bool} {lvl : Nat}
    {asms : List expr} {res : lbool} (h1 : assert_only added) (h2 : res ≠ lbool.l_undef)
    (h3 : no_undef tr) :
    no_undef (added ++ kernel_event.check is_ex lvl asms res :: tr) := by
  intro b l a hm
  rcases List.mem_append.1 hm with hm | hm
  · obtain ⟨b1, x, he⟩ := h1 _ hm
    cases he
  · rcases List.mem_cons.1 hm with hm | hm
    · simp only [kernel_event.check.injEq] at hm
      exact h2 hm.2.2.2.symm
    · exact h3 b l a hm

/-- A run of `check_sat` that starts from a trace without an unknown answer returns
`l_undef` exactly when a kernel answered a check with unknown. -/
theorem qsat.check_sat_undef (ext : externals) :
    ∀ (script : List kernel_answer) (s : qsat) (res : lbool) (t : qsat),
      qsat.check_sat ext script s = some (res, t) → no_undef s.m_trace →
      ((∃ is_ex lvl asms, kernel_event.check is_ex lvl asms lbool.l_undef ∈ t.m_trace) ↔
        res = lbool.l_undef) := by
  intro script
  induction script with
  | nil => intro s res t h; simp [qsat.check_sat] at h
  | cons ans rest ih =>
    intro s res t h hno
    simp only [qsat.check_sat] at h
    split at h
    · simp at h
    · rename_i res1 t1 hround
      simp only [Option.some.injEq, Prod.mk.injEq] at h
      obtain ⟨h1, h2⟩ := h
      subst h1 h2
      obtain ⟨_, asms, htr, c1, c2, c3⟩ := qsat.check_sat_round_spec ext ans s _ hround
      constructor
      · rintro ⟨b, l, a, hm⟩
        rw [htr] at hm
        rcases List.mem_cons.1 hm with hm | hm
        · simp only [kernel_event.check.injEq] at hm
          have hans : ans.res = lbool.l_undef := hm.2.2.2.symm
          cases hres : res1 with
          | l_undef => rfl
          | l_false =>
            have := (c1 hres).2
            rw [hans] at this; cases this
          | l_true =>
            have := (c2 hres).2.1
            rw [hans] at this; cases this
        · exact absurd hm (hno b l a)
      · intro hres
        refine ⟨is_exists s.m_level, s.m_level, asms, ?_⟩
        rw [htr, c3 hres]
        exact List.mem_cons_self _ _
    · rename_i t1 hround
      obtain ⟨added, asms, hadd, hres, htr⟩ := qsat.check_sat_round_trace ext ans s t1 hround
      have hno1 : no_undef t1.m_trace := by
        rw [htr]; exact no_undef_append hadd hres hno
      exact ih t1 res t h hno1

theorem qsat.assert_matrix_trace (ext : externals) (s : qsat) (defs : List expr) (fml : expr) :
    (s.assert_matrix ext defs fml).m_trace =
      kernel_event.assert_expr false (mk_not fml) :: kernel_event.assert_expr true fml ::
      kernel_event.assert_expr false (ext.mk_and defs) ::
      kernel_event.assert_expr true (ext.mk_and defs) :: s.m_trace := rfl

theorem qsat.assert_matrix_qelim (ext : externals) (s : qsat) (defs : List expr) (fml : expr) :
    (s.assert_matrix ext defs fml).m_qelim = s.m_qelim := rfl

theorem hoist_loop_frame (tx : collaborators) :
    ∀ (n : Nat) (b : Bool) (fml : expr) (s : qsat) (r : expr × qsat),
      hoist_loop tx n b fml s = some r →
      r.2.m_qelim = s.m_qelim ∧ r.2.m_trace = s.m_trace := by
  intro n
  induction n with
  | zero => intro b fml s r h; simp [hoist_loop] at h
  | succ n ih =>
    intro b fml s r h
    simp only [hoist_loop] at h
    split at h
    · simp only [Option.some.injEq] at h
      subst h
      exact ⟨rfl, rfl⟩
    · obtain ⟨h1, h2⟩ := ih _ _ _ _ h
      exact ⟨h1, h2⟩

theorem qsat.hoist_frame {tx : collaborators} {s : qsat} {fml : expr} {r : expr × qsat}
    (h : s.hoist tx fml = some r) : r.2.m_qelim = s.m_qelim ∧ r.2.m_trace = s.m_trace := by
  unfold qsat.hoist at h
  split at h
  · simp at h
  · simp only at h
    split at h
    · simp at h
    · rename_i fml2 s2 hloop
      simp only [Option.some.injEq] at h
      subst h
      obtain ⟨h1, h2⟩ := hoist_loop_frame tx _ _ _ _ _ hloop
      refine ⟨?_, ?_⟩
      · show s2.m_qelim = _
        rw [h1]
        split <;> rfl
      · show s2.m_trace = _
        rw [h2]
        split <;> rfl

/-- The state `operator()` hands to `check_sat`: the mode flag is the one of the
tactic, and the only interactions with the kernels so far are the four assertions
that set them up. -/
theorem qsat.prepare_frame {ext : externals} {tx : collaborators} {s s1 : qsat} {fml : expr}
    (h : s.prepare ext tx fml = some s1) :
    s1.m_qelim = s.m_qelim ∧
    ∃ defs fml2, s1.m_trace =
      [kernel_event.assert_expr false (mk_not fml2), kernel_event.assert_expr true fml2,
       kernel_event.assert_expr false (ext.mk_and defs),
       kernel_event.assert_expr true (ext.mk_and defs)] := by
  unfold qsat.prepare at h
  simp only at h
  split at h
  · simp at h
  · rename_i fml1 s2 hh
    obtain ⟨hq, htr⟩ := qsat.hoist_frame hh
    split at h
    · simp at h
    · rename_i pa defs haa
      split at h
      · simp at h
      · rename_i fml2 hf
        simp only [Option.some.injEq] at h
        subst h
        refine ⟨?_, defs, fml2, ?_⟩
        · rw [qsat.assert_matrix_qelim]
          exact hq
        · rw [qsat.assert_matrix_trace]
          show _ :: _ :: _ :: _ :: s2.m_trace = _
          have : s2.m_trace = [] := htr
          rw [this]

theorem no_undef_of_assert_only {tr : List kernel_event} (h : assert_only tr) : no_undef tr := by
  intro b l a hm
  obtain ⟨_, _, he⟩ := h _ hm
  cases he

/-- C13 (the code at a failing input): called on a goal with proof production and
unsat-core tracking enabled, the `qsat` variant does not fail: it asserts the
definitions and the matrix to both kernels, runs the search loop (one check, answered
with unsat) and returns the goal `false`. -/
theorem C13_proofs_and_cores_not_declined :
    (sample_goal sample_contra true).m_proofs_enabled = true ∧
    (sample_goal sample_contra true).m_cores_enabled = true ∧
    ((sample_tactic false true).operator sample_ext_q sample_collab [[.unsat []]]
      (sample_goal sample_contra true)).isSome = true ∧
    sample_tracking_run.1.failure = none ∧
    sample_tracking_run.1.result.map (fun g => (g.m_forms, g.m_depth)) = [([mk_false], 1)] ∧
    sample_tracking_run.2.m_trace =
      [kernel_event.check true 0 [] lbool.l_false,
       kernel_event.assert_expr false (mk_not sample_contra_body),
       kernel_event.assert_expr true sample_contra_body,
       kernel_event.assert_expr false mk_true,
       kernel_event.assert_expr true mk_true] := by
  decide

/-- The tactic entry never reads the flags for proofs and unsat cores of its goal:
with the flags changed it ends in the same state, with the same failure or none, and
the same formulas in the result goals. -/
theorem qsat.operator_ignores_tracking (ext : externals) (tx : collaborators)
    (scripts : List (List kernel_answer)) (s : qsat) (g : goal) (p c : Bool) :
    (s.operator ext tx scripts { g with m_proofs_enabled := p, m_cores_enabled := c }).map
        (fun r => (r.1.failure, r.1.result.map (fun g => g.m_forms), r.2))
      = (s.operator ext tx scripts g).map
        (fun r => (r.1.failure, r.1.result.map (fun g => g.m_forms), r.2)) := by
  unfold qsat.operator
  simp only
  split
  · cases s.elim_rec ext tx scripts (ext.mk_and g.m_forms) with
    | none => rfl
    | some r => rfl
  · cases s.prepare ext tx (ext.mk_and g.m_forms) with
    | none => rfl
    | some s1 =>
      simp only
      cases qsat.check_sat ext (scripts.headD []) s1 with
      | none => rfl
      | some r =>
        obtain ⟨is_sat, t⟩ := r
        cases is_sat <;> rfl

/-- The failures of the tactic entry, read from the trace: with forced elimination, a
call in which a kernel answered a check with unknown has thrown the diagnostic string
of a kernel, without model converter, proof converter or unsat core, the goal echoed
back, and a call fails only then; without forced elimination no call fails. -/
theorem qsat.operator_failure (ext : externals) (tx : collaborators)
    (scripts : List (List kernel_answer)) (s t : qsat) (g : goal) (out : goal_result)
    (h : s.operator ext tx scripts g = some (out, t)) :
    (s.m_force_elim = true →
      ((∃ is_ex lvl asms, kernel_event.check is_ex lvl asms lbool.l_undef ∈ t.m_trace) →
        out.failure = some (if tx.ex_failure = "ok" then tx.fa_failure else tx.ex_failure) ∧
        out.mc = none ∧ out.pc = none ∧ out.core = none ∧ out.result = [g]) ∧
      (out.failure.isSome = true →
        ∃ is_ex lvl asms, kernel_event.check is_ex lvl asms lbool.l_undef ∈ t.m_trace)) ∧
    (s.m_force_elim = false → out.failure = none ∧ out.mc = none ∧ out.core = none) := by
  unfold qsat.operator at h
  simp only at h
  constructor
  · intro hf
    simp only [hf, Bool.not_true, Bool.false_eq_true, if_false] at h
    split at h
    · simp at h
    · rename_i s1 hprep
      split at h
      · simp at h
      · rename_i is_sat t1 hcs
        simp only [Option.some.injEq, Prod.mk.injEq] at h
        obtain ⟨hout, ht⟩ := h
        subst ht
        obtain ⟨_, defs, fml2, htr⟩ := qsat.prepare_frame hprep
        have hno : no_undef s1.m_trace := by
          rw [htr]
          apply no_undef_of_assert_only
          intro e he
          simp only [List.mem_cons, List.mem_singleton, List.not_mem_nil, or_false] at he
          rcases he with he | he | he | he <;> exact ⟨_, _, he⟩
        have hiff := qsat.check_sat_undef ext _ _ _ _ hcs hno
        constructor
        · intro hu
          have hres := hiff.1 hu
          subst hres
          rw [← hout]
          exact ⟨rfl, rfl, rfl, rfl, rfl⟩
        · intro hfail
          apply hiff.2
          rw [← hout] at hfail
          cases is_sat with
          | l_undef => rfl
          | l_false => simp [qsat.finish] at hfail
          | l_true => simp [qsat.finish] at hfail
  · intro hf
    simp only [hf, Bool.not_false, if_true] at h
    split at h
    · simp at h
    · simp only [Option.some.injEq, Prod.mk.injEq] at h
      rw [← h.1]
      exact ⟨rfl, rfl, rfl⟩

theorem qsat.check_sat_rounds (ext : externals) :
    ∀ (pre l : List kernel_answer) (s1 s2 : qsat), qsat.rounds ext pre s1 = some s2 →
      qsat.check_sat ext (pre ++ l) s1 = qsat.check_sat ext l s2 := by
  intro pre
  induction pre with
  | nil =>
    intro l s1 s2 h
    simp only [qsat.rounds, Option.some.injEq] at h
    subst h
    rfl
  | cons ans rest ih =>
    intro l s1 s2 h
    simp only [qsat.rounds] at h
    simp only [List.cons_append, qsat.check_sat]
    split at h
    · rename_i t hr
      rw [hr]
      exact ih l t s2 h
    · simp at h

/-- A round of `check_sat` in which the kernel answers unknown, when it does not
abort, records the check and returns `l_undef`. -/
theorem qsat.check_sat_round_unknown {ext : externals} {s : qsat} {r : round_end}
    (h : s.check_sat_round ext kernel_answer.unknown = some r) :
    ∃ t asms, r = round_end.returns lbool.l_undef t ∧
      t.m_trace = kernel_event.check (is_exists s.m_level) s.m_level asms lbool.l_undef ::
        s.m_trace := by
  unfold qsat.check_sat_round at h
  simp only at h
  split at h
  · simp at h
  · split at h
    · simp at h
    · rename_i pa asms hga
      simp only [Option.some.injEq] at h
      exact ⟨_, asms, h.symm, rfl⟩

/-- In the variants `qsat` and `qe2` (forced elimination), when the run of the search
loop reaches a check that the kernel answers with unknown, the call of the tactic
ends with a tactic failure whose message is the diagnostic string of a kernel (the
one of the existential kernel, or the one of the universal kernel when the former is
`ok`); no model converter, proof converter or unsat core is produced and the goal is
echoed back. -/
theorem qsat.operator_unknown_fails (ext : externals) (tx : collaborators) (s s1 s2 : qsat)
    (g : goal) (pre rest : List kernel_answer) (more : List (List kernel_answer))
    (r : round_end) (hf : s.m_force_elim = true)
    (hprep : s.prepare ext tx (ext.mk_and g.m_forms) = some s1)
    (hrounds : qsat.rounds ext pre s1 = some s2)
    (hround : s2.check_sat_round ext kernel_answer.unknown = some r) :
    ∃ t asms,
      s.operator ext tx ((pre ++ kernel_answer.unknown :: rest) :: more) g
        = some (⟨[g], none, none, none,
            some (if tx.ex_failure = "ok" then tx.fa_failure else tx.ex_failure)⟩, t) ∧
      t.m_trace = kernel_event.check (is_exists s2.m_level) s2.m_level asms lbool.l_undef ::
        s2.m_trace := by
  obtain ⟨t, asms, hr, htr⟩ := qsat.check_sat_round_unknown hround
  refine ⟨t, asms, ?_, htr⟩
  have hcs : qsat.check_sat ext (pre ++ kernel_answer.unknown :: rest) s1
      = some (lbool.l_undef, t) := by
    rw [qsat.check_sat_rounds ext pre _ s1 s2 hrounds]
    simp only [qsat.check_sat, hround, hr]
  unfold qsat.operator
  simp only [hf, Bool.not_true, Bool.false_eq_true, if_false, hprep, List.headD_cons, hcs,
    qsat.finish]

/-- The prenex `qsat` variant on the goal `∃y. y ∧ ¬y`, with the first check answered
with unknown, ends with the failure `incomplete`. -/
theorem qsat.operator_unknown_fails_sample :
    ∃ t asms,
      (sample_tactic false true).operator sample_ext_q sample_collab
          (([] ++ kernel_answer.unknown :: []) :: []) (sample_goal sample_contra false)
        = some (⟨[sample_goal sample_contra false], none, none, none,
            some (if sample_collab.ex_failure = "ok" then sample_collab.fa_failure
                  else sample_collab.ex_failure)⟩, t) ∧
      t.m_trace = kernel_event.check (is_exists sample_qsat_prepared.m_level)
        sample_qsat_prepared.m_level asms lbool.l_undef :: sample_qsat_prepared.m_trace :=
  qsat.operator_unknown_fails sample_ext_q sample_collab (sample_tactic false true)
    sample_qsat_prepared sample_qsat_prepared (sample_goal sample_contra false) [] [] []
    sample_unknown_round rfl (by rfl) (by rfl) (by rfl)

/-- C12 (the code at a failing input): in the `qe_rec` variant the kernel answers the
check of `elim` with unknown. On the goal `∃y. y ∧ ¬y` the call ends without a
failure and the result goal holds `c ∧ ¬c`, the body over the constant `c` that
`extract_vars` made, with the quantifier dropped; on the goal `∀y. y` it ends without
a failure with the result goal `¬¬c`. On the same goals and the same kernel answer
the prenex variants `qe2` and `qsat` end with a tactic failure that carries the
diagnostic string of a kernel, echo the goal back and produce no model converter and
no unsat core. -/
theorem C12_unknown_not_surfaced_by_qe_rec :
    (sample_tactic true false).m_qelim = true ∧ (sample_tactic true false).m_force_elim = false ∧
    ((sample_tactic true false).operator sample_ext_q sample_collab [[.unknown]]
      (sample_goal sample_contra false)).isSome = true ∧
    kernel_event.check true 0 [] lbool.l_undef ∈ sample_rec_unknown_run.2.m_trace ∧
    sample_rec_unknown_run.1.failure = none ∧
    sample_rec_unknown_run.1.result.map (fun g => g.m_forms) = [[sample_contra_body]] ∧
    ((sample_tactic true false).operator sample_ext_q sample_collab [[.unknown]]
      (sample_goal sample_forall false)).isSome = true ∧
    kernel_event.check true 0 [] lbool.l_undef ∈ sample_forall_unknown_run.2.m_trace ∧
    sample_forall_unknown_run.1.failure = none ∧
    sample_forall_unknown_run.1.result.map (fun g => g.m_forms)
      = [[mk_not (mk_not (fresh_const 0))]] ∧
    ((sample_tactic true true).operator sample_ext_q sample_collab [[.unknown]]
        (sample_goal sample_contra false)).map
      (fun r => (r.1.failure, r.1.result.map (fun g => g.m_forms), r.1.mc.isSome,
        r.1.core.isSome))
      = some (some "incomplete", [[sample_contra]], false, false) ∧
    ((sample_tactic false true).operator sample_ext_q sample_collab [[.unknown]]
        (sample_goal sample_forall false)).map
      (fun r => (r.1.failure, r.1.result.map (fun g => g.m_forms), r.1.mc.isSome,
        r.1.core.isSome))
      = some (some "incomplete", [[sample_forall]], false, false) := by
  decide

/-- A round of `check_sat` for the answer unsat, from the state `enter_unsat` gives:
`project` and `project_qe` run in that state. -/
theorem qsat.check_sat_round_unsat (ext : externals) (s : qsat) (core : List expr) :
    s.check_sat_round ext (kernel_answer.unsat core) =
      match s.enter_unsat core with
      | none => none
      | some s2 =>
        match s2.m_level with
        | 0 => some (round_end.returns lbool.l_false s2)
        | 1 =>
          if !s2.m_qelim then some (round_end.returns lbool.l_true s2)
          else if s2.m_model.isSome then (s2.project_qe ext).map round_end.goes_on
          else (s2.pop 1).map round_end.goes_on
        | _ + 2 =>
          if s2.m_model.isSome then (s2.project ext).map round_end.goes_on
          else (s2.pop 1).map round_end.goes_on := by
  unfold qsat.check_sat_round qsat.enter_unsat
  simp only
  split
  · rfl
  · split <;> rfl

/-- C23 (as amended): after `add_pred(p, lit)`, `pred2lit[p] = lit` in every state;
`lit2pred[lit] = p` when `lit` was not a key of `lit2pred` before the call; and when
`lit` was a key, `lit2pred[lit]` keeps the proxy it had (`add_lit` inserts only for a
new key). -/
theorem C23_add_pred_maps (s : pred_abs) (p lit : expr) :
    (s.add_pred p lit).m_pred2lit.find p = some lit ∧
    (s.m_lit2pred.find lit = none → (s.add_pred p lit).m_lit2pred.find lit = some p) ∧
    (∀ p0, s.m_lit2pred.find lit = some p0 →
      (s.add_pred p lit).m_lit2pred.find lit = some p0) := by
  refine ⟨?_, ?_, ?_⟩
  · rw [pred_abs.add_pred_pred2lit, obj_map.find_insert_self]
  · intro h
    rw [pred_abs.add_pred_lit2pred_new s p lit h, obj_map.find_insert_self]
  · intro p0 h
    have hc : s.m_lit2pred.contains lit = true := (obj_map.contains_eq_true _ _).2 ⟨p0, h⟩
    unfold pred_abs.add_pred pred_abs.add_lit
    simp [hc, h]

/-- C23 (counterexample): in the state of the sample search for `p ∨ q`, where the
constant `p` is its own proxy, the call `add_pred(b, p)` that `add_assumption` makes
for the lemma `p` and the fresh proxy `b` records `pred2lit[b] = p` but leaves
`lit2pred[p] = p`, which is not `b`. -/
theorem C23_counterexample :
    sample_qsat.m_pred_abs.fresh_bool.1 = fresh_const 0 ∧
    (sample_qsat.m_pred_abs.fresh_bool.2.add_pred (fresh_const 0) sample_p).m_pred2lit.find
      (fresh_const 0) = some sample_p ∧
    (sample_qsat.m_pred_abs.fresh_bool.2.add_pred (fresh_const 0) sample_p).m_lit2pred.find
      sample_p = some sample_p ∧
    sample_p ≠ fresh_const 0 ∧
    (sample_qsat.add_assumption sample_p).m_pred_abs.m_lit2pred.find sample_p
      = some sample_p := by
  refine ⟨by decide, by decide, by decide, by decide, by decide⟩

theorem initialize_levels_block_find (lvl : max_level) (vars : List expr) (pa : pred_abs)
    (v : expr) :
    (initialize_levels_block lvl vars pa).m_elevel.find v
      = if v ∈ vars then some lvl else pa.m_elevel.find v := by
  induction vars generalizing pa with
  | nil => simp [initialize_levels_block]
  | cons x rest ih =>
    rw [initialize_levels_block, ih]
    by_cases h : v ∈ rest
    · simp [h]
    · by_cases hx : v = x
      · subst hx
        simp [h, pred_abs.set_expr_level, obj_map.find_insert_self]
      · simp [h, hx, pred_abs.set_expr_level, obj_map.find_insert_ne _ _ hx]

/-- A variable outside all the blocks keeps the level it had. -/
theorem initialize_levels_loop_other (blocks : List (List expr)) (k : Nat) (pa : pred_abs)
    (v : expr) (h : ∀ b ∈ blocks, v ∉ b) :
    (initialize_levels_loop k blocks pa).m_elevel.find v = pa.m_elevel.find v := by
  induction blocks generalizing k pa with
  | nil => rfl
  | cons b rest ih =>
    rw [initialize_levels_loop, ih _ _ (fun b1 hb1 => h b1 (List.mem_cons_of_mem _ hb1)),
      initialize_levels_block_find, if_neg (h b (List.mem_cons_self _ _))]

/-- A variable of exactly one block gets the level of this block, counted from the
index `k` of the first block of the list. -/
theorem initialize_levels_loop_find (blocks : List (List expr)) (k : Nat) (pa : pred_abs)
    (i : Nat) (blk : List expr) (v : expr) (hi : blocks.get? i = some blk) (hv : v ∈ blk)
    (hother : ∀ j b, j ≠ i → blocks.get? j = some b → v ∉ b) :
    (initialize_levels_loop k blocks pa).m_elevel.find v
      = some (if is_exists (k + i) then ⟨k + i, UINT_MAX⟩ else ⟨UINT_MAX, k + i⟩) := by
  induction blocks generalizing k pa i with
  | nil => simp at hi
  | cons b rest ih =>
    rw [initialize_levels_loop]
    cases i with
    | zero =>
      simp only [List.get?_cons_zero, Option.some.injEq] at hi
      subst hi
      rw [initialize_levels_loop_other, initialize_levels_block_find, if_pos hv]
      · rfl
      · intro b1 hb1
        obtain ⟨j, hj⟩ := List.mem_iff_get?.1 hb1
        exact hother (j + 1) b1 (by omega) (by simpa using hj)
    | succ i =>
      have := ih (k + 1) (initialize_levels_block
        (if is_exists k then ⟨k, UINT_MAX⟩ else ⟨UINT_MAX, k⟩) b pa) i
        (by simpa using hi)
        (fun j b1 hj hb1 => hother (j + 1) b1 (by omega) (by simpa using hb1))
      rw [this]
      have e : k + 1 + i = k + (i + 1) := by omega
      rw [e]

/-- C24: after `initialize_levels`, a variable `v` that occurs in block `vars[i]` and
in no other block has `elevel(v) = (ex = i, fa unset)` when `i` is even and
`elevel(v) = (fa = i, ex unset)` when `i` is odd. -/
theorem C24_block_levels (s : qsat) (i : Nat) (blk : List expr) (v : expr)
    (hi : s.m_vars.get? i = some blk) (hv : v ∈ blk)
    (hother : ∀ j b, j ≠ i → s.m_vars.get? j = some b → v ∉ b) :
    s.initialize_levels.m_pred_abs.m_elevel.find v
      = some (if i % 2 = 0 then { m_ex := i, m_fa := UINT_MAX }
              else { m_ex := UINT_MAX, m_fa := i }) := by
  have h := initialize_levels_loop_find s.m_vars 0 s.m_pred_abs i blk v hi hv hother
  simp only [Nat.zero_add] at h
  unfold qsat.initialize_levels
  rw [h]
  unfold is_exists
  by_cases hp : i % 2 = 0 <;> simp [hp]

/-- C24 (witness): in the sample search with the blocks `[x]`, `[y]`, `[z]`, `[w]`,
`[]`, the variable `w` occurs in block 3 only and gets the level
`(fa = 3, ex unset)`. -/
theorem C24_block_levels_witness :
    sample_alt_qsat.m_vars.get? 3 = some [sample_bw] ∧
    sample_alt_qsat.initialize_levels.m_pred_abs.m_elevel.find sample_bw
      = some (if 3 % 2 = 0 then { m_ex := 3, m_fa := UINT_MAX }
              else { m_ex := UINT_MAX, m_fa := 3 }) :=
  ⟨rfl, C24_block_levels sample_alt_qsat 3 [sample_bw] sample_bw rfl (by decide)
    (by
      intro j b hj hb
      match j, hj, hb with
      | 0, _, hb => cases hb; decide
      | 1, _, hb => cases hb; decide
      | 2, _, hb => cases hb; decide
      | 3, hj, _ => exact absurd rfl hj
      | 4, _, hb => cases hb; decide
      | j + 5, _, hb => simp [sample_alt_qsat] at hb)⟩

/-- C28 (divergence): the recursive variant misses a level lookup. For the goal
`∃y. p ∧ y` with the free boolean constant `p`, `elim_rec` calls `elim` for the
variable `c` and the body `p ∧ c`; `elim` gives a level to `c` only, `p` is no key
of `lit2pred`, so the round of `abstract_atoms` that reaches `p` looks up
`m_elevel.find(p)` and finds no entry; `elim` and the tactic entry do not return
(for the body `c ∧ ¬c` without a free constant `elim` gets to the search). In
the prenex variant `hoist` puts `p` in block 0, and the same lookup finds the level
`(ex = 0, fa unset)`. -/
theorem C28_elim_misses_free_constant :
    sample_collab.extract_vars 0 sample_free = (sample_free_body, [fresh_const 0], 1) ∧
    sample_free_levels.m_vars = [[], [fresh_const 0]] ∧
    (is_uninterp_const sample_p && is_bool sample_p) = true ∧
    sample_free_levels.m_pred_abs.m_lit2pred.find sample_p = none ∧
    sample_free_levels.m_pred_abs.m_elevel.find sample_p = none ∧
    abstract_atoms_round
      ⟨[sample_p], [], sample_free_levels.m_pred_abs, max_level.unset, []⟩ = none ∧
    sample_rec_state.elim_prepare sample_ext_q [fresh_const 0] sample_free_body = none ∧
    (sample_rec_state.elim_prepare sample_ext_q [fresh_const 0] sample_contra_body).isSome
      = true ∧
    (sample_tactic true false).operator sample_ext_q sample_collab
      [sample_contra_script] (sample_goal sample_free false) = none ∧
    sample_free_hoisted.2.m_vars = [[sample_p], [fresh_const 0], []] ∧
    sample_free_hoisted.2.m_pred_abs.m_elevel.find sample_p = some ⟨0, UINT_MAX⟩ ∧
    ((sample_tactic true true).prepare sample_ext_q sample_collab sample_free).isSome
      = true := by
  refine ⟨by decide, by decide, by decide, by decide, by decide, rfl, rfl, by decide, rfl,
    by decide, by decide, by decide⟩

/-- What a call of `mk_assumption_literal` that returns leaves: the state it was
called in, or the state of the inner call of `abstract_atoms`, made after the proxy
was minted, given its level and inserted, with the two assumption maps extended. -/
theorem pred_abs.mk_assumption_literal_cases {ext : externals} {s : pred_abs} {a : expr}
    {mdl : Option model} {lvl : max_level} {defs : List expr}
    {r : expr × pred_abs × Option model × List expr}
    (h : s.mk_assumption_literal ext a mdl lvl defs = some r) :
    r.2.1 = s ∨ ∃ a1 s3 lv defs1, s.pred2asm ext a = some a1 ∧
      (pred_abs.insert { s.fresh_bool.2 with
          m_elevel := s.fresh_bool.2.m_elevel.insert (fresh_const s.m_fresh_id) lvl }
        (fresh_const s.m_fresh_id) lvl).abstract_atoms ((is_not a1).getD a1) max_level.unset
          defs = some (s3, lv, defs1) ∧
      r.2.1 = { s3 with
        m_asm2pred := s3.m_asm2pred.insert ((is_not a1).getD a1) (fresh_const s.m_fresh_id),
        m_pred2asm := s3.m_pred2asm.insert (fresh_const s.m_fresh_id) ((is_not a1).getD a1) } := by
  unfold pred_abs.mk_assumption_literal at h
  split at h
  · simp at h
  · rename_i a1 ha1
    split at h
    · simp only [Option.some.injEq] at h
      subst h
      exact Or.inl rfl
    · split at h
      · simp only [Option.some.injEq] at h
        subst h
        exact Or.inl rfl
      · split at h
        · simp only [Option.some.injEq] at h
          subst h
          exact Or.inl rfl
        · split at h
          · simp only [Option.some.injEq] at h
            subst h
            exact Or.inl rfl
          · simp only [pred_abs.fresh_bool] at h
            split at h
            · simp at h
            · rename_i s3 lv defs1 haa
              split at h
              · simp at h
              · split at h
                · simp at h
                · rename_i s4 hadd
                  simp only [Option.some.injEq] at h
                  subst h
                  unfold pred_abs.add_asm at hadd
                  split at hadd
                  · simp at hadd
                  · simp only [Option.some.injEq] at hadd
                    subst hadd
                    exact Or.inr ⟨a1, s3, lv, defs1, ha1, haa, rfl⟩

theorem pred_abs.insert_preds_length (s : pred_abs) (a : expr) (lvl : max_level) :
    s.m_preds.length ≤ (s.insert a lvl).m_preds.length := by
  unfold pred_abs.insert
  simp

theorem pred_abs.add_pred_preds (s : pred_abs) (p lit : expr) :
    (s.add_pred p lit).m_preds = s.m_preds := by
  unfold pred_abs.add_pred pred_abs.add_lit
  split <;> rfl

theorem pred_abs.add_pred_elevel (s : pred_abs) (p lit : expr) :
    (s.add_pred p lit).m_elevel = s.m_elevel := by
  unfold pred_abs.add_pred pred_abs.add_lit
  split <;> rfl

theorem aa_step_preds_length {c c1 : aa_config} (h : aa_step c c1) :
    c.s.m_preds.length ≤ c1.s.m_preds.length := by
  cases h with
  | marked => exact le_refl _
  | mapped => exact le_refl _
  | const_new a todo mark s level defs l =>
    have := pred_abs.insert_preds_length (s.add_pred a a) a l
    rw [pred_abs.add_pred_preds] at this
    exact this
  | const_old => exact le_refl _
  | atom d args todo mark s level defs s2 l is_pred hm hp hc hb hbool hlvl hpred =>
    have e := pred_abs.compute_level_eq hlvl
    have h1 : s2.m_preds = s.m_preds := by rw [e]; rfl
    show s.m_preds.length ≤ (s2.atom_update _ _ l is_pred).m_preds.length
    unfold pred_abs.atom_update
    cases is_pred
    · simp only [Bool.not_false, if_true]
      refine le_trans ?_ (pred_abs.insert_preds_length _ _ _)
      show s.m_preds.length ≤ (s2.add_pred _ _).m_preds.length
      rw [pred_abs.add_pred_preds, h1]
    · simp only [Bool.not_true, Bool.false_eq_true, if_false]
      show s.m_preds.length ≤ (s2.add_pred _ _).m_preds.length
      rw [pred_abs.add_pred_preds, h1]
  | skip => exact le_refl _

theorem aa_steps_preds_length {c c1 : aa_config} (h : Relation.ReflTransGen aa_step c c1) :
    c.s.m_preds.length ≤ c1.s.m_preds.length := by
  induction h with
  | refl => exact le_refl _
  | tail _ hstep ih => exact le_trans ih (aa_step_preds_length hstep)

theorem pred_abs.abstract_atoms_preds_length {s : pred_abs} {fml : expr} {level : max_level}
    {defs : List expr} {r : pred_abs × max_level × List expr}
    (h : s.abstract_atoms fml level defs = some r) :
    s.m_preds.length ≤ r.1.m_preds.length := by
  obtain ⟨mark, hsteps⟩ := pred_abs.abstract_atoms_steps h
  exact aa_steps_preds_length hsteps

/-- The invariant of the assumption stack is kept by a state change that leaves the
stack and its snapshots alone and removes no level of `m_preds`. -/
theorem pred_abs.stack_inv_frame {s t : pred_abs} (h : s.stack_inv)
    (h1 : t.m_asms = s.m_asms) (h2 : t.m_asms_lim = s.m_asms_lim)
    (h3 : s.m_preds.length ≤ t.m_preds.length) : t.stack_inv := by
  obtain ⟨k1, k2, k3⟩ := h
  refine ⟨?_, ?_, ?_⟩
  · intro e; rw [h1]; exact k1 (by rw [← h2]; exact e)
  · intro e
    rw [h1]
    apply k2
    rw [e] at h3
    exact List.length_eq_zero.1 (Nat.le_zero.1 h3)
  · intro x hx; rw [h2] at hx; exact k3 x hx

theorem pred_abs.stack_inv_push {s : pred_abs} (h : s.stack_inv) : s.push.stack_inv := by
  obtain ⟨k1, k2, k3⟩ := h
  refine ⟨?_, k2, ?_⟩
  · intro e
    simp [pred_abs.push] at e
  · intro x hx
    simp only [pred_abs.push] at hx
    cases hl : s.m_asms_lim with
    | nil =>
      rw [hl] at hx
      simp only [List.nil_append, List.head?_cons, Option.some.injEq] at hx
      rw [← hx, k1 hl]; rfl
    | cons y ys =>
      rw [hl] at hx
      simp only [List.cons_append, List.head?_cons, Option.some.injEq] at hx
      exact k3 x (by rw [hl]; simp [hx])

theorem pred_abs.stack_inv_pop {s t : pred_abs} {n : Nat} (h : s.stack_inv)
    (hp : s.pop n = some t) : t.stack_inv := by
  obtain ⟨k1, k2, k3⟩ := h
  unfold pred_abs.pop at hp
  split at hp
  · simp only at hp
    split at hp
    · simp at hp
    · rename_i sz hsz
      split at hp
      · simp only [Option.some.injEq] at hp
        subst hp
        refine ⟨?_, ?_, ?_⟩
        · intro e
          simp only at e ⊢
          have hlt : s.m_asms_lim.length - n < s.m_asms_lim.length := by
            have := List.get?_eq_some.1 hsz
            obtain ⟨hlt, _⟩ := this
            exact hlt
          have h0 : s.m_asms_lim.length - n = 0 := by
            rcases List.take_eq_nil_iff.1 e with h | h
            · exact h
            · rw [h] at hlt; simp at hlt
          rw [h0] at hsz
          have : sz = 0 := by
            apply k3
            cases hl : s.m_asms_lim with
            | nil => rw [hl] at hsz; simp at hsz
            | cons y ys => rw [hl] at hsz; simpa using hsz
          rw [this]; rfl
        · intro e
          simp only at e ⊢
          rw [k2 e]; simp
        · intro x hx
          simp only at hx
          apply k3
          cases hl : s.m_asms_lim with
          | nil => rw [hl] at hx; simp at hx
          | cons y ys =>
            rw [hl] at hx
            cases hm : (y :: ys).length - n with
            | zero => rw [hm] at hx; simp at hx
            | succ m => rw [hm] at hx; simpa using hx
      · simp at hp
  · simp at hp

theorem pred_abs.get_assumptions_level_zero (s : pred_abs) (mdl : Option model)
    (asms : List expr) (h : s.m_asms_lim = [] ∨ s.m_preds = []) :
    s.get_assumptions mdl asms = some (s, asms) := by
  unfold pred_abs.get_assumptions
  simp only
  have : (if s.m_asms_lim.length > s.m_preds.length then s.m_preds.length
      else s.m_asms_lim.length) = 0 := by
    rcases h with h | h
    · rw [h]; simp
    · rw [h]
      by_cases h0 : s.m_asms_lim.length > 0
      · simp [h0]
      · simp only [List.length_nil, h0, if_false]; omega
  rw [if_pos this]

theorem pred_abs.get_assumptions_no_model (s : pred_abs) (asms : List expr)
    (h1 : s.m_asms_lim ≠ []) (h2 : s.m_preds ≠ []) :
    s.get_assumptions none asms = some (s, asms ++ s.m_asms) := by
  unfold pred_abs.get_assumptions
  simp only
  have : ¬ (if s.m_asms_lim.length > s.m_preds.length then s.m_preds.length
      else s.m_asms_lim.length) = 0 := by
    have a1 : s.m_asms_lim.length ≠ 0 := fun e => h1 (List.length_eq_zero.1 e)
    have a2 : s.m_preds.length ≠ 0 := fun e => h2 (List.length_eq_zero.1 e)
    split <;> assumption
  rw [if_neg this]

theorem pred_abs.stack_inv_get_assumptions {s : pred_abs} {mdl : Option model}
    {asms : List expr} {r : pred_abs × List expr} (h : s.stack_inv)
    (hg : s.get_assumptions mdl asms = some r) : r.1.stack_inv := by
  by_cases hz : s.m_asms_lim = [] ∨ s.m_preds = []
  · rw [pred_abs.get_assumptions_level_zero s mdl asms hz] at hg
    simp only [Option.some.injEq] at hg
    subst hg
    exact h
  · obtain ⟨more, hm⟩ := pred_abs.get_assumptions_state s mdl asms r hg
    rw [hm]
    exact ⟨fun e => absurd (Or.inl e) hz, fun e => absurd (Or.inr e) hz, h.2.2⟩

/-- Every reachable state satisfies the invariant of the assumption stack. -/
theorem pred_abs.reachable_stack_inv {ext : externals} {adm seed : pred_abs → expr → Prop}
    {s : pred_abs} (h : pred_abs.reachable ext adm seed s) : s.stack_inv := by
  induction h with
  | init k => exact ⟨fun _ => rfl, fun _ => rfl, fun x hx => by simp [pred_abs.init] at hx⟩
  | reset s _ _ => exact ⟨fun _ => rfl, fun _ => rfl, fun x hx => by simp [pred_abs.reset] at hx⟩
  | set_expr_level s v lvl _ _ ih => exact ih
  | set_decl_level s f lvl _ ih => exact ih
  | fresh_bool s _ ih => exact ih
  | add_pred s p lit _ ih =>
    refine pred_abs.stack_inv_frame ih ?_ ?_ (by rw [pred_abs.add_pred_preds])
    · unfold pred_abs.add_pred pred_abs.add_lit; split <;> rfl
    · unfold pred_abs.add_pred pred_abs.add_lit; split <;> rfl
  | push s _ ih => exact pred_abs.stack_inv_push ih
  | pop s t n _ hp ih => exact pred_abs.stack_inv_pop ih hp
  | get_assumptions s mdl asms r _ hg ih => exact pred_abs.stack_inv_get_assumptions ih hg
  | abstract_atoms s fml level defs r _ _ hr ih =>
    obtain ⟨h1, h2, _⟩ := pred_abs.abstract_atoms_same_scopes hr
    exact pred_abs.stack_inv_frame ih h1 h2 (pred_abs.abstract_atoms_preds_length hr)
  | mk_assumption_literal s a mdl lvl defs r _ _ hr ih =>
    rcases pred_abs.mk_assumption_literal_cases hr with h | ⟨a1, s3, lv, defs1, _, haa, hr1⟩
    · rw [h]; exact ih
    · obtain ⟨h1, h2, _⟩ := pred_abs.abstract_atoms_same_scopes haa
      have h3 := pred_abs.abstract_atoms_preds_length haa
      rw [hr1]
      refine pred_abs.stack_inv_frame ih h1 h2 (le_trans ?_ h3)
      exact pred_abs.insert_preds_length _ _ _

/-- C26: in every reachable state of `pred_abs`, `get_assumptions` called without a
model returns, appends exactly the accumulated stack `m_asms` (in order) to `out`,
and leaves the state as it is. -/
theorem C26_no_model_no_change (ext : externals) (s : pred_abs)
    (h : pred_abs.reachable ext any_input any_input s) (out : List expr) :
    s.get_assumptions none out = some (s, out ++ s.m_asms) := by
  have hk := pred_abs.reachable_stack_inv h
  by_cases hz : s.m_asms_lim = [] ∨ s.m_preds = []
  · rw [pred_abs.get_assumptions_level_zero s none out hz]
    have : s.m_asms = [] := hz.elim hk.1 hk.2.1
    rw [this, List.append_nil]
  · exact pred_abs.get_assumptions_no_model s out (fun e => hz (Or.inl e))
      (fun e => hz (Or.inr e))

/-- C26 (witness): the sample state at scope depth 1 with the literal `p` on its
stack is reachable, and `get_assumptions` without a model appends `p` to `out`. -/
theorem C26_no_model_no_change_witness :
    sample_stack.m_asms = [sample_p] ∧
    sample_stack.get_assumptions none [sample_q]
      = some (sample_stack, [sample_q] ++ sample_stack.m_asms) :=
  ⟨by decide, C26_no_model_no_change sample_ext sample_stack
    (pred_abs.reachable.get_assumptions sample_stack_abs.1.push (some sample_model_true) []
      (sample_stack, [sample_p])
      (pred_abs.reachable.push _
        (pred_abs.reachable.abstract_atoms
          ((pred_abs.init 0).set_expr_level sample_p ⟨0, UINT_MAX⟩) sample_p max_level.unset []
          sample_stack_abs
          (pred_abs.reachable.set_expr_level _ sample_p ⟨0, UINT_MAX⟩
            (pred_abs.reachable.init 0) trivial) trivial rfl)) rfl) [sample_q]⟩

theorem pred_abs.scopes_sorted_le {s : pred_abs} (h : s.scopes_sorted) :
    ∀ x ∈ s.m_asms_lim, x ≤ s.m_asms.length := by
  intro x hx
  unfold pred_abs.scopes_sorted at h
  rw [List.pairwise_append] at h
  exact h.2.2 x hx _ (List.mem_singleton.2 rfl)

theorem pred_abs.scopes_sorted_congr {s t : pred_abs} (h : s.scopes_sorted)
    (h1 : t.m_asms = s.m_asms) (h2 : t.m_asms_lim = s.m_asms_lim) : t.scopes_sorted := by
  unfold pred_abs.scopes_sorted at *
  rw [h1, h2]
  exact h

theorem pred_abs.scopes_sorted_push {s : pred_abs} (h : s.scopes_sorted) :
    s.push.scopes_sorted := by
  have hle := pred_abs.scopes_sorted_le h
  unfold pred_abs.scopes_sorted at *
  show ((s.m_asms_lim ++ [s.m_asms.length]) ++ [s.m_asms.length]).Pairwise _
  rw [List.pairwise_append]
  refine ⟨h, List.pairwise_singleton _ _, ?_⟩
  intro a ha b hb
  rw [List.mem_singleton] at hb
  subst hb
  rcases List.mem_append.1 ha with h1 | h1
  · exact hle a h1
  · rw [List.mem_singleton] at h1
    exact le_of_eq h1

theorem pred_abs.scopes_sorted_pop {s t : pred_abs} {n : Nat} (h : s.scopes_sorted)
    (hp : s.pop n = some t) : t.scopes_sorted := by
  obtain ⟨h1, h2, sz, hsz, hle, ht⟩ := pred_abs.pop_inv hp
  subst ht
  unfold pred_abs.scopes_sorted at *
  show (s.m_asms_lim.take (s.m_asms_lim.length - n) ++ [(s.m_asms.take sz).length]).Pairwise _
  rw [List.length_take, Nat.min_eq_left hle]
  have hlt : s.m_asms_lim.length - n < s.m_asms_lim.length := by omega
  have e : s.m_asms_lim.take (s.m_asms_lim.length - n) ++ [sz]
      = s.m_asms_lim.take (s.m_asms_lim.length - n + 1) := by
    have hsz1 : s.m_asms_lim[s.m_asms_lim.length - n]? = some sz := by
      rw [← List.get?_eq_getElem?]; exact hsz
    rw [List.take_succ, hsz1]
    rfl
  rw [e]
  rw [List.pairwise_append] at h
  exact List.Pairwise.sublist (List.take_sublist _ _) h.1

theorem pred_abs.scopes_sorted_get_assumptions {s : pred_abs} {mdl : Option model}
    {asms : List expr} {r : pred_abs × List expr} (h : s.scopes_sorted)
    (hg : s.get_assumptions mdl asms = some r) : r.1.scopes_sorted := by
  obtain ⟨more, hm⟩ := pred_abs.get_assumptions_state s mdl asms r hg
  have hle := pred_abs.scopes_sorted_le h
  rw [hm]
  unfold pred_abs.scopes_sorted at *
  show (s.m_asms_lim ++ [(s.m_asms ++ more).length]).Pairwise _
  rw [List.pairwise_append] at h ⊢
  refine ⟨h.1, List.pairwise_singleton _ _, ?_⟩
  intro a ha b hb
  rw [List.mem_singleton] at hb
  subst hb
  have := hle a ha
  rw [List.length_append]
  omega

theorem qsat.scopes_ok_congr {s t : qsat} (h : s.scopes_ok) (h0 : t.m_level = s.m_level)
    (h1 : t.m_pred_abs.m_asms = s.m_pred_abs.m_asms)
    (h2 : t.m_pred_abs.m_asms_lim = s.m_pred_abs.m_asms_lim) : t.scopes_ok := by
  refine ⟨?_, pred_abs.scopes_sorted_congr h.2 h1 h2⟩
  rw [h2, h0]
  exact h.1

theorem qsat.scopes_ok_push {s : qsat} (h : s.scopes_ok) : s.push.scopes_ok := by
  refine ⟨?_, pred_abs.scopes_sorted_push h.2⟩
  show (s.m_pred_abs.m_asms_lim ++ [_]).length = s.m_level + 1
  rw [List.length_append, h.1]
  rfl

theorem qsat.scopes_ok_pop {s t : qsat} {n : Nat} (h : s.scopes_ok)
    (hp : s.pop n = some t) : t.scopes_ok := by
  obtain ⟨hn, pa, hpa, ht⟩ := qsat.pop_qsat_inv hp
  have hs := pred_abs.scopes_sorted_pop h.2 hpa
  obtain ⟨h1, h2, sz, hsz, hle, hpa2⟩ := pred_abs.pop_inv hpa
  subst ht
  refine ⟨?_, hs⟩
  show pa.m_asms_lim.length = s.m_level - n
  rw [hpa2]
  show (s.m_pred_abs.m_asms_lim.take _).length = _
  rw [List.length_take, h.1]
  omega

theorem qsat.scopes_ok_add_assumption {s : qsat} (fml : expr) (h : s.scopes_ok) :
    (s.add_assumption fml).scopes_ok := by
  refine qsat.scopes_ok_congr h rfl ?_ ?_
  · show ((s.m_pred_abs.fresh_bool.2.add_pred _ _).set_expr_level _ _).m_asms = _
    unfold pred_abs.set_expr_level pred_abs.add_pred pred_abs.add_lit
    split <;> rfl
  · show ((s.m_pred_abs.fresh_bool.2.add_pred _ _).set_expr_level _ _).m_asms_lim = _
    unfold pred_abs.set_expr_level pred_abs.add_pred pred_abs.add_lit
    split <;> rfl

theorem qsat.scopes_ok_assert_at {s : qsat} (j : Nat) (e : expr) (h : s.scopes_ok) :
    (s.assert_at j e).scopes_ok := by
  unfold qsat.assert_at
  split <;> exact qsat.scopes_ok_congr h rfl rfl rfl

theorem qsat.scopes_ok_set_core {s : qsat} (core : List expr) (h : s.scopes_ok) :
    (s.set_core core).scopes_ok := by
  unfold qsat.set_core
  split <;> exact qsat.scopes_ok_congr h rfl rfl rfl

theorem qsat.scopes_ok_project {ext : externals} {s t : qsat} (h : s.scopes_ok)
    (hp : s.project ext = some t) : t.scopes_ok := by
  obtain ⟨core, mdl, pa, level, defs, n, s4, _, _, _, haa, _, hpop, hcase⟩ :=
    qsat.project_inv hp
  obtain ⟨h1, h2, _⟩ := pred_abs.abstract_atoms_same_scopes haa
  have hb : (s.before_pop ext mdl core pa defs).scopes_ok :=
    qsat.scopes_ok_congr h rfl h1 h2
  have h4 := qsat.scopes_ok_pop hb hpop
  rcases hcase with ⟨_, _, ht⟩ | ⟨_, fml1, _, ht⟩
  · rw [ht]; exact qsat.scopes_ok_add_assumption _ h4
  · rw [ht]; exact qsat.scopes_ok_assert_at _ _ h4

theorem qsat.scopes_ok_project_qe {ext : externals} {s t : qsat} (h : s.scopes_ok)
    (hp : s.project_qe ext = some t) : t.scopes_ok := by
  unfold qsat.project_qe at hp
  split at hp
  · split at hp
    · simp at hp
    · split at hp
      · simp at hp
      · simp only at hp
        refine qsat.scopes_ok_pop ?_ hp
        refine qsat.scopes_ok_congr (qsat.scopes_ok_add_assumption _
          (qsat.scopes_ok_congr h (t := { s.get_vars s.m_level with
            m_avars := (ext.mbp (s.get_vars s.m_level).m_force_elim
              (s.get_vars s.m_level).m_avars _ _).1 }) rfl rfl rfl)) rfl rfl rfl
  · simp at hp

/-- A round of the search loop after which the loop goes on keeps the level and the
scope depth in step. -/
theorem qsat.check_sat_round_scopes_ok {ext : externals} {ans : kernel_answer} {s t : qsat}
    (h : s.scopes_ok) (hr : s.check_sat_round ext ans = some (round_end.goes_on t)) :
    t.scopes_ok := by
  unfold qsat.check_sat_round at hr
  simp only at hr
  split at hr
  · simp at hr
  · split at hr
    · simp at hr
    · rename_i pa asms hga
      have hpa : pa.scopes_sorted ∧ pa.m_asms_lim = s.m_pred_abs.m_asms_lim := by
        have h1 := pred_abs.scopes_sorted_get_assumptions h.2 hga
        obtain ⟨more, hm⟩ := pred_abs.get_assumptions_state _ _ _ _ hga
        refine ⟨h1, ?_⟩
        have : pa = _ := hm
        rw [this]
      have h1 : ∀ (mo : Option model) (tr : List kernel_event),
          qsat.scopes_ok { s with
            m_num_rounds := s.m_num_rounds + 1
            m_pred_abs := pa
            m_trace := tr
            m_model := mo } := by
        intro mo tr
        refine ⟨?_, hpa.1⟩
        show pa.m_asms_lim.length = s.m_level
        rw [hpa.2]; exact h.1
      cases ans with
      | sat mdl =>
        simp only [Option.some.injEq, round_end.goes_on.injEq] at hr
        rw [← hr]
        exact qsat.scopes_ok_push (h1 _ _)
      | unknown => simp at hr
      | unsat core =>
        simp only at hr
        have h2 := qsat.scopes_ok_set_core core (h1 s.m_model
          (kernel_event.check (is_exists s.m_level) s.m_level asms
            (kernel_answer.unsat core).res :: s.m_trace))
        split at hr
        · simp at hr
        · split at hr
          · simp at hr
          · split at hr
            · simp only [Option.map_eq_some'] at hr
              obtain ⟨u, hu, hut⟩ := hr
              simp only [round_end.goes_on.injEq] at hut
              subst hut
              exact qsat.scopes_ok_project_qe h2 hu
            · simp only [Option.map_eq_some'] at hr
              obtain ⟨u, hu, hut⟩ := hr
              simp only [round_end.goes_on.injEq] at hut
              subst hut
              exact qsat.scopes_ok_pop h2 hu
        · split at hr
          · simp only [Option.map_eq_some'] at hr
            obtain ⟨u, hu, hut⟩ := hr
            simp only [round_end.goes_on.injEq] at hut
            subst hut
            exact qsat.scopes_ok_project h2 hu
          · simp only [Option.map_eq_some'] at hr
            obtain ⟨u, hu, hut⟩ := hr
            simp only [round_end.goes_on.injEq] at hut
            subst hut
            exact qsat.scopes_ok_pop h2 hu

theorem qsat.rounds_scopes_ok {ext : externals} :
    ∀ (script : List kernel_answer) (s t : qsat), s.scopes_ok →
      qsat.rounds ext script s = some t → t.scopes_ok := by
  intro script
  induction script with
  | nil =>
    intro s t h hr
    simp only [qsat.rounds, Option.some.injEq] at hr
    rw [← hr]; exact h
  | cons ans rest ih =>
    intro s t h hr
    simp only [qsat.rounds] at hr
    split at hr
    · rename_i u hu
      exact ih u t (qsat.check_sat_round_scopes_ok h hu) hr
    · simp at hr

theorem initialize_levels_block_scopes (lvl : max_level) (vars : List expr) (pa : pred_abs) :
    (initialize_levels_block lvl vars pa).m_asms = pa.m_asms ∧
    (initialize_levels_block lvl vars pa).m_asms_lim = pa.m_asms_lim := by
  induction vars generalizing pa with
  | nil => exact ⟨rfl, rfl⟩
  | cons v rest ih =>
    rw [initialize_levels_block]
    exact ih _

theorem initialize_levels_loop_scopes (blocks : List (List expr)) (k : Nat) (pa : pred_abs) :
    (initialize_levels_loop k blocks pa).m_asms = pa.m_asms ∧
    (initialize_levels_loop k blocks pa).m_asms_lim = pa.m_asms_lim := by
  induction blocks generalizing k pa with
  | nil => exact ⟨rfl, rfl⟩
  | cons b rest ih =>
    rw [initialize_levels_loop]
    obtain ⟨h1, h2⟩ := ih (k + 1) (initialize_levels_block
      (if is_exists k then ⟨k, UINT_MAX⟩ else ⟨UINT_MAX, k⟩) b pa)
    obtain ⟨h3, h4⟩ := initialize_levels_block_scopes
      (if is_exists k then ⟨k, UINT_MAX⟩ else ⟨UINT_MAX, k⟩) b pa
    exact ⟨h1.trans h3, h2.trans h4⟩

theorem hoist_loop_scopes (tx : collaborators) :
    ∀ (n : Nat) (b : Bool) (fml : expr) (s : qsat) (r : expr × qsat),
      hoist_loop tx n b fml s = some r →
      r.2.m_level = s.m_level ∧ r.2.m_pred_abs.m_asms = s.m_pred_abs.m_asms ∧
      r.2.m_pred_abs.m_asms_lim = s.m_pred_abs.m_asms_lim := by
  intro n
  induction n with
  | zero => intro b fml s r h; simp [hoist_loop] at h
  | succ n ih =>
    intro b fml s r h
    simp only [hoist_loop] at h
    split at h
    · simp only [Option.some.injEq] at h
      subst h
      exact ⟨rfl, rfl, rfl⟩
    · have := ih _ _ _ r h
      exact this

theorem qsat.hoist_scopes {tx : collaborators} {s : qsat} {fml : expr} {r : expr × qsat}
    (h : s.hoist tx fml = some r) :
    r.2.m_level = s.m_level ∧ r.2.m_pred_abs.m_asms = s.m_pred_abs.m_asms ∧
    r.2.m_pred_abs.m_asms_lim = s.m_pred_abs.m_asms_lim := by
  unfold qsat.hoist at h
  split at h
  · simp at h
  · simp only at h
    split at h
    · simp at h
    · rename_i fml2 s2 hloop
      simp only [Option.some.injEq] at h
      subst h
      obtain ⟨h1, h2, h3⟩ := hoist_loop_scopes tx _ _ _ _ _ hloop
      obtain ⟨h4, h5⟩ := initialize_levels_loop_scopes s2.m_vars 0 s2.m_pred_abs
      refine ⟨?_, ?_, ?_⟩
      · show s2.m_level = _
        rw [h1]; split <;> rfl
      · show (initialize_levels_loop 0 s2.m_vars s2.m_pred_abs).m_asms = _
        rw [h4, h2]; split <;> rfl
      · show (initialize_levels_loop 0 s2.m_vars s2.m_pred_abs).m_asms_lim = _
        rw [h5, h3]; split <;> rfl

theorem pred_abs.abstract_atoms_top_scopes {s : pred_abs} {fml : expr} {defs : List expr}
    {r : pred_abs × List expr} (h : s.abstract_atoms_top fml defs = some r) :
    r.1.m_asms = s.m_asms ∧ r.1.m_asms_lim = s.m_asms_lim := by
  unfold pred_abs.abstract_atoms_top at h
  split at h
  · simp at h
  · rename_i s1 lv defs1 haa
    simp only [Option.some.injEq] at h
    subst h
    obtain ⟨h1, h2, _⟩ := pred_abs.abstract_atoms_same_scopes haa
    exact ⟨h1, h2⟩

/-- The prenex variants start the search loop at level 0 with no scope open. -/
theorem qsat.prepare_start {ext : externals} {tx : collaborators} {s s1 : qsat} {fml : expr}
    (h : s.prepare ext tx fml = some s1) :
    s1.m_level = 0 ∧ s1.m_pred_abs.m_asms_lim = [] := by
  unfold qsat.prepare at h
  simp only at h
  split at h
  · simp at h
  · rename_i fml1 s2 hh
    obtain ⟨h1, _, h3⟩ := qsat.hoist_scopes hh
    split at h
    · simp at h
    · rename_i pa defs haa
      obtain ⟨_, h5⟩ := pred_abs.abstract_atoms_top_scopes haa
      split at h
      · simp at h
      · simp only [Option.some.injEq] at h
        subst h
        refine ⟨?_, ?_⟩
        · show s2.m_level = 0
          rw [h1]; rfl
        · show pa.m_asms_lim = []
          rw [h5, h3]; rfl

/-- The recursive variant starts the search loop at level 0 with no scope open. -/
theorem qsat.elim_prepare_start {ext : externals} {s s1 : qsat} {vars : List expr}
    {fml : expr} (h : s.elim_prepare ext vars fml = some s1) :
    s1.m_level = 0 ∧ s1.m_pred_abs.m_asms_lim = [] := by
  unfold qsat.elim_prepare at h
  simp only at h
  split at h
  · simp at h
  · rename_i pa defs haa
    obtain ⟨_, h5⟩ := pred_abs.abstract_atoms_top_scopes haa
    split at h
    · simp at h
    · simp only [Option.some.injEq] at h
      subst h
      refine ⟨rfl, ?_⟩
      show pa.m_asms_lim = []
      rw [h5]
      exact (initialize_levels_loop_scopes _ 0 _).2

/-- C27 (as amended): in a run of the search loop that starts at level 0 with no
scope open (as `reset` leaves the state), at the start of every iteration the search
level equals the scope depth `|asms_lim|` and the snapshots are in order; `push`
increases the level and the scope depth by exactly 1 in every state; and in every
state in which the two are in step, `pop(n)` with `1 <= n <= level` returns,
decreases both by exactly `n` and clears the saved model. -/
theorem C27_level_in_step (ext : externals) (s t : qsat) (script : List kernel_answer)
    (h0 : s.m_level = 0) (h1 : s.m_pred_abs.m_asms_lim = [])
    (hr : qsat.rounds ext script s = some t) :
    t.m_pred_abs.m_asms_lim.length = t.m_level ∧ t.scopes_ok ∧
    (∀ x : qsat, x.push.m_level = x.m_level + 1 ∧
      x.push.m_pred_abs.m_asms_lim.length = x.m_pred_abs.m_asms_lim.length + 1) ∧
    ∀ (x : qsat) (n : Nat), x.scopes_ok → 1 ≤ n → n ≤ x.m_level →
      ∃ u, x.pop n = some u ∧ u.m_level + n = x.m_level ∧
        u.m_pred_abs.m_asms_lim.length + n = x.m_pred_abs.m_asms_lim.length ∧
        u.m_model = none := by
  have hs : s.scopes_ok := by
    refine ⟨by rw [h1, h0]; rfl, ?_⟩
    unfold pred_abs.scopes_sorted
    rw [h1]
    exact List.pairwise_singleton _ _
  have ht := qsat.rounds_scopes_ok script s t hs hr
  refine ⟨ht.1, ht, ?_, ?_⟩
  · intro x
    refine ⟨rfl, ?_⟩
    show (x.m_pred_abs.m_asms_lim ++ [_]).length = _
    rw [List.length_append]; rfl
  · intro x n hx hn1 hn2
    obtain ⟨pa, hpa, hlen⟩ := pred_abs.pop_total x.m_pred_abs n hn1 (by rw [hx.1]; exact hn2)
      (pred_abs.scopes_sorted_le hx.2)
    refine ⟨{ x with m_model := none, m_pred_abs := pa, m_level := x.m_level - n }, ?_, ?_,
      hlen, rfl⟩
    · unfold qsat.pop
      rw [if_pos hn2, hpa]
    · show x.m_level - n + n = x.m_level
      omega

/-- C27 (witness): the sample search for `p ∨ q` starts at level 0 with no scope
open; at the start of its second round the level and the scope depth are both 1, and
`pop(1)` brings both back to 0 and clears the model. -/
theorem C27_level_in_step_witness :
    sample_qsat.m_level = 0 ∧ sample_qsat.m_pred_abs.m_asms_lim = [] ∧
    qsat.rounds sample_ext [.sat sample_model_p] sample_qsat = some sample_round1 ∧
    sample_round1.m_level = 1 ∧
    sample_round1.m_pred_abs.m_asms_lim.length = sample_round1.m_level ∧
    ∃ u, sample_round1.pop 1 = some u ∧ u.m_level + 1 = sample_round1.m_level ∧
      u.m_pred_abs.m_asms_lim.length + 1 = sample_round1.m_pred_abs.m_asms_lim.length ∧
      u.m_model = none :=
  have h := C27_level_in_step sample_ext sample_qsat sample_round1 [.sat sample_model_p]
    rfl (by decide) rfl
  ⟨rfl, by decide, rfl, rfl, h.1, h.2.2.2 sample_round1 1 h.2.1 (le_refl 1) (by decide)⟩

/-- C27 (counterexample): at the start of the second round of the sample search the
level and the scope depth are both 1, and `0 <= level`, but `pop(0)` reads
`m_asms_lim[1]`, an index outside the vector: the call has no defined result. -/
theorem C27_counterexample :
    sample_round1.m_level = 1 ∧ sample_round1.m_pred_abs.m_asms_lim = [0] ∧
    0 ≤ sample_round1.m_level ∧
    sample_round1.m_pred_abs.m_asms_lim.get? (sample_round1.m_pred_abs.m_asms_lim.length - 0)
      = none ∧
    sample_round1.pop 0 = none := by
  refine ⟨rfl, by decide, by decide, by decide, rfl⟩

theorem fv_weight_pos (mark : List expr) (e : expr) : 1 ≤ fv_weight mark e := by
  cases e with
  | app d args => simp only [fv_weight]; split <;> omega
  | var i s => simp [fv_weight]
  | quantifier f b => simp only [fv_weight]; split <;> omega

mutual
theorem fv_weight_mono (m1 m2 : List expr) (h : ∀ x ∈ m1, x ∈ m2) :
    ∀ (e : expr), fv_weight m2 e ≤ fv_weight m1 e
  | .app d args => by
    simp only [fv_weight]
    have ih := fv_weight_list_mono m1 m2 h args
    by_cases h1 : expr.app d args ∈ m1
    · simp [h1, h _ h1]
    · by_cases h2 : expr.app d args ∈ m2
      · simp only [h1, h2, if_true, if_false]; omega
      · simp only [h1, h2, if_false]; omega
  | .var _ _ => by simp [fv_weight]
  | .quantifier f b => by
    simp only [fv_weight]
    have ih := fv_weight_mono m1 m2 h b
    by_cases h1 : expr.quantifier f b ∈ m1
    · simp [h1, h _ h1]
    · by_cases h2 : expr.quantifier f b ∈ m2
      · simp only [h1, h2, if_true, if_false]; omega
      · simp only [h1, h2, if_false]; omega
theorem fv_weight_list_mono (m1 m2 : List expr) (h : ∀ x ∈ m1, x ∈ m2) :
    ∀ (l : List expr), fv_weight_list m2 l ≤ fv_weight_list m1 l
  | [] => by simp [fv_weight_list]
  | a :: l => by
    simp only [fv_weight_list]
    have h1 := fv_weight_mono m1 m2 h a
    have h2 := fv_weight_list_mono m1 m2 h l
    omega
end

mutual
theorem fv_weight_le_size : ∀ (e : expr), fv_weight [] e ≤ e.size
  | .app d args => by
    simp only [fv_weight, List.not_mem_nil, if_false, expr.size]
    have := fv_weight_list_le_size args
    omega
  | .var _ _ => by simp [fv_weight, expr.size]
  | .quantifier _ b => by
    simp only [fv_weight, List.not_mem_nil, if_false, expr.size]
    have := fv_weight_le_size b
    omega
theorem fv_weight_list_le_size : ∀ (l : List expr), fv_weight_list [] l ≤ expr.sizeList l
  | [] => by simp [fv_weight_list, expr.sizeList]
  | a :: l => by
    simp only [fv_weight_list, expr.sizeList]
    have h1 := fv_weight_le_size a
    have h2 := fv_weight_list_le_size l
    omega
end

theorem fv_weight_list_append (mark : List expr) (l1 l2 : List expr) :
    fv_weight_list mark (l1 ++ l2) = fv_weight_list mark l1 + fv_weight_list mark l2 := by
  induction l1 with
  | nil => simp [fv_weight_list]
  | cons a l ih =>
    rw [List.cons_append]
    simp only [fv_weight_list]
    rw [ih]
    omega

theorem fv_weight_list_reverse (mark : List expr) (l : List expr) :
    fv_weight_list mark l.reverse = fv_weight_list mark l := by
  induction l with
  | nil => rfl
  | cons a l ih =>
    rw [List.reverse_cons, fv_weight_list_append, ih]
    simp only [fv_weight_list]
    omega

theorem subexpr_trans {a b c : expr} (h1 : subexpr a b) (h2 : subexpr b c) : subexpr a c := by
  induction h2 with
  | refl => exact h1
  | arg x d args hx _ ih => exact subexpr.arg a x d args hx ih
  | body b f _ ih => exact subexpr.body a b f ih

theorem subexpr_child {x e : expr} (h : x ∈ e.children) : subexpr x e := by
  cases e with
  | app d args => exact subexpr.arg x x d args h (subexpr.refl x)
  | var i s => simp [expr.children] at h
  | quantifier f b =>
    simp only [expr.children, List.mem_singleton] at h
    subst h
    exact subexpr.body x x f (subexpr.refl x)

/-- The vector given to the loop of `get_free_vars` is only appended to. -/
theorem get_free_vars_loop_append (pre : List expr) :
    ∀ (n : Nat) (todo mark vars : List expr),
      get_free_vars_loop n todo mark (pre ++ vars)
        = (get_free_vars_loop n todo mark vars).map (fun r => pre ++ r) := by
  intro n
  induction n with
  | zero => intro todo mark vars; rfl
  | succ n ih =>
    intro todo mark vars
    cases todo with
    | nil => rfl
    | cons e todo =>
      simp only [get_free_vars_loop]
      split
      · exact ih _ _ _
      · cases e with
        | app d args =>
          simp only
          by_cases hc : is_uninterp_const (expr.app d args) = true
          · simp only [hc, if_true]
            rw [List.append_assoc]
            exact ih _ _ _
          · simp only [hc]
            exact ih _ _ _
        | var i s => exact ih _ _ _
        | quantifier f b => exact ih _ _ _

/-- The loop of `get_free_vars` ends within its fuel and keeps its invariant. -/
theorem get_free_vars_loop_spec (fml : expr) :
    ∀ (n : Nat) (todo mark vars : List expr), fv_weight_list mark todo < n →
      fv_inv fml todo mark vars →
      ∃ mark1 vars1, get_free_vars_loop n todo mark vars = some vars1 ∧
        fv_inv fml [] mark1 vars1 := by
  intro n
  induction n with
  | zero => intro todo mark vars h; omega
  | succ n ih =>
    intro todo mark vars hw hinv
    cases todo with
    | nil => exact ⟨mark, vars, rfl, hinv⟩
    | cons e todo =>
      obtain ⟨i1, i2, i3, i4, i5, i6⟩ := hinv
      simp only [fv_weight_list] at hw
      have hpos := fv_weight_pos mark e
      simp only [get_free_vars_loop]
      by_cases hm : e ∈ mark ∨ is_var e = true
      · rw [if_pos hm]
        apply ih
        · omega
        · refine ⟨i1, i2, i3, fun x hx => i4 x (List.mem_cons_of_mem _ hx), ?_, ?_⟩
          · intro m hmm x hx
            rcases i5 m hmm x hx with h | h | h
            · exact Or.inl h
            · rcases List.mem_cons.1 h with h | h
              · subst h
                rcases hm with hm | hm
                · exact Or.inl hm
                · exact Or.inr (Or.inr hm)
              · exact Or.inr (Or.inl h)
            · exact Or.inr (Or.inr h)
          · rcases i6 with h | h | h
            · exact Or.inl h
            · rcases List.mem_cons.1 h with h | h
              · subst h
                rcases hm with hm | hm
                · exact Or.inl hm
                · exact Or.inr (Or.inr hm)
              · exact Or.inr (Or.inl h)
            · exact Or.inr (Or.inr h)
      · rw [if_neg hm]
        have hm1 : e ∉ mark := fun h => hm (Or.inl h)
        have hse : subexpr e fml := i4 e (List.mem_cons_self _ _)
        have hsub : ∀ x ∈ mark, x ∈ e :: mark := fun x hx => List.mem_cons_of_mem _ hx
        -- the facts shared by the two cases that mark `e`
        have hmark : ∀ x ∈ e :: mark, subexpr x fml := by
          intro x hx
          rcases List.mem_cons.1 hx with h | h
          · subst h; exact hse
          · exact i3 x h
        have hclosed : ∀ (todo1 : List expr), (∀ x ∈ e.children, x ∈ todo1) →
            (∀ x ∈ todo, x ∈ todo1) →
            (∀ m ∈ e :: mark, ∀ x ∈ m.children,
              x ∈ e :: mark ∨ x ∈ todo1 ∨ is_var x = true) ∧
            (fml ∈ e :: mark ∨ fml ∈ todo1 ∨ is_var fml = true) := by
          intro todo1 hch htd
          refine ⟨?_, ?_⟩
          · intro m hmm x hx
            rcases List.mem_cons.1 hmm with h | h
            · subst h
              exact Or.inr (Or.inl (hch x hx))
            · rcases i5 m h x hx with h1 | h1 | h1
              · exact Or.inl (hsub x h1)
              · rcases List.mem_cons.1 h1 with h2 | h2
                · subst h2; exact Or.inl (List.mem_cons_self _ _)
                · exact Or.inr (Or.inl (htd x h2))
              · exact Or.inr (Or.inr h1)
          · rcases i6 with h1 | h1 | h1
            · exact Or.inl (hsub _ h1)
            · rcases List.mem_cons.1 h1 with h2 | h2
              · rw [h2]; exact Or.inl (List.mem_cons_self _ _)
              · exact Or.inr (Or.inl (htd _ h2))
            · exact Or.inr (Or.inr h1)
        cases e with
        | var i s => exact absurd (Or.inr rfl) hm
        | quantifier f b =>
          simp only
          apply ih
          · simp only [fv_weight_list]
            simp only [fv_weight, hm1, if_false] at hw
            have h1 := fv_weight_mono mark (expr.quantifier f b :: mark) hsub b
            have h2 := fv_weight_list_mono mark (expr.quantifier f b :: mark) hsub todo
            omega
          · obtain ⟨c1, c2⟩ := hclosed (b :: todo)
              (by intro x hx
                  simp only [expr.children, List.mem_singleton] at hx
                  subst hx; exact List.mem_cons_self _ _)
              (fun x hx => List.mem_cons_of_mem _ hx)
            refine ⟨i1, ?_, hmark, ?_, c1, c2⟩
            · intro c
              rw [i2 c]
              constructor
              · rintro ⟨h1, h2⟩; exact ⟨hsub c h1, h2⟩
              · rintro ⟨h1, h2⟩
                rcases List.mem_cons.1 h1 with h | h
                · subst h; simp [is_uninterp_const] at h2
                · exact ⟨h, h2⟩
            · intro x hx
              rcases List.mem_cons.1 hx with h | h
              · subst h
                exact subexpr_trans (subexpr.body x x f (subexpr.refl x)) hse
              · exact i4 x (List.mem_cons_of_mem _ h)
        | app d args =>
          simp only
          apply ih
          · rw [fv_weight_list_append, fv_weight_list_reverse]
            simp only [fv_weight, hm1, if_false] at hw
            have h1 := fv_weight_list_mono mark (expr.app d args :: mark) hsub args
            have h2 := fv_weight_list_mono mark (expr.app d args :: mark) hsub todo
            omega
          · obtain ⟨c1, c2⟩ := hclosed (args.reverse ++ todo)
              (by intro x hx
                  simp only [expr.children] at hx
                  exact List.mem_append_left _ (List.mem_reverse.2 hx))
              (fun x hx => List.mem_append_right _ hx)
            refine ⟨?_, ?_, hmark, ?_, c1, c2⟩
            · by_cases hc : is_uninterp_const (expr.app d args) = true
              · simp only [hc, if_true]
                rw [List.nodup_append]
                refine ⟨i1, List.nodup_singleton _, ?_⟩
                intro x hx hx2
                rw [List.mem_singleton] at hx2
                subst hx2
                exact hm1 ((i2 _).1 hx).1
              · simp only [hc]
                exact i1
            · intro c
              by_cases hc : is_uninterp_const (expr.app d args) = true
              · rw [if_pos hc, List.mem_append, List.mem_singleton, List.mem_cons, i2 c]
                constructor
                · rintro (⟨h1, h2⟩ | h)
                  · exact ⟨Or.inr h1, h2⟩
                  · subst h; exact ⟨Or.inl rfl, hc⟩
                · rintro ⟨h1 | h1, h2⟩
                  · exact Or.inr h1
                  · exact Or.inl ⟨h1, h2⟩
              · rw [if_neg hc, List.mem_cons, i2 c]
                constructor
                · rintro ⟨h1, h2⟩; exact ⟨Or.inr h1, h2⟩
                · rintro ⟨h1 | h1, h2⟩
                  · subst h1; exact absurd h2 hc
                  · exact ⟨h1, h2⟩
            · intro x hx
              rcases List.mem_append.1 hx with h | h
              · exact subexpr_trans
                  (subexpr.arg x x d args (List.mem_reverse.1 h) (subexpr.refl x)) hse
              · exact i4 x (List.mem_cons_of_mem _ h)

/-- With the worklist empty, every expression that occurs in `fml` is marked or a
bound variable. -/
theorem fv_inv_closed {fml : expr} {mark vars : List expr} (h : fv_inv fml [] mark vars) :
    ∀ c e, subexpr c e → (e ∈ mark ∨ is_var e = true) → (c ∈ mark ∨ is_var c = true) := by
  obtain ⟨_, _, _, _, i5, _⟩ := h
  intro c e hs
  induction hs with
  | refl => exact fun h => h
  | arg a d args ha _ ih =>
    intro he
    apply ih
    rcases he with he | he
    · rcases i5 _ he a (by simpa [expr.children] using ha) with h | h | h
      · exact Or.inl h
      · simp at h
      · exact Or.inr h
    · simp [is_var] at he
  | body b f _ ih =>
    intro he
    apply ih
    rcases he with he | he
    · rcases i5 _ he b (by simp [expr.children]) with h | h | h
      · exact Or.inl h
      · simp at h
      · exact Or.inr h
    · simp [is_var] at he

theorem hoist_loop_vars (tx : collaborators) :
    ∀ (n : Nat) (b : Bool) (fml : expr) (s : qsat) (r : expr × qsat),
      hoist_loop tx n b fml s = some r → ∃ more, r.2.m_vars = s.m_vars ++ more := by
  intro n
  induction n with
  | zero => intro b fml s r h; simp [hoist_loop] at h
  | succ n ih =>
    intro b fml s r h
    simp only [hoist_loop] at h
    split at h
    · simp only [Option.some.injEq] at h
      subst h
      exact ⟨_, rfl⟩
    · obtain ⟨more, hm⟩ := ih _ _ _ r h
      exact ⟨(tx.pull_quantifier s.m_pred_abs.m_fresh_id (!b) fml).2.1 :: more, by
        rw [hm]; simp⟩

/-- The constants `get_free_vars` collects: it returns within its fuel, and the
vector it is given is extended by a list without repetition that holds exactly the
uninterpreted constants that occur in the formula. -/
theorem get_free_vars_spec (fml : expr) :
    ∃ r, (∀ vars, get_free_vars fml vars = some (vars ++ r)) ∧ r.Nodup ∧
      ∀ c, c ∈ r ↔ (is_uninterp_const c = true ∧ subexpr c fml) := by
  have hinit : fv_inv fml [fml] [] [] := by
    refine ⟨List.nodup_nil, ?_, ?_, ?_, ?_, Or.inr (Or.inl (List.mem_singleton.2 rfl))⟩
    · intro c; simp
    · intro e he; simp at he
    · intro e he
      rw [List.mem_singleton] at he
      subst he
      exact subexpr.refl e
    · intro e he; simp at he
  have hw : fv_weight_list [] [fml] < fml.size + 1 := by
    simp only [fv_weight_list]
    have := fv_weight_le_size fml
    omega
  obtain ⟨mark1, r, hr, hinv⟩ := get_free_vars_loop_spec fml _ _ _ _ hw hinit
  have hcl := fv_inv_closed hinv
  obtain ⟨i1, i2, i3, _, _, i6⟩ := hinv
  refine ⟨r, ?_, i1, ?_⟩
  · intro vars
    have := get_free_vars_loop_append vars (fml.size + 1) [fml] [] []
    rw [List.append_nil, hr] at this
    exact this
  · intro c
    rw [i2 c]
    constructor
    · rintro ⟨h1, h2⟩
      exact ⟨h2, i3 c h1⟩
    · rintro ⟨h1, h2⟩
      refine ⟨?_, h1⟩
      have hf : fml ∈ mark1 ∨ is_var fml = true := by
        rcases i6 with h | h | h
        · exact Or.inl h
        · simp at h
        · exact Or.inr h
      rcases hcl c fml h2 hf with h | h
      · exact h
      · obtain ⟨d, hd, _⟩ := is_uninterp_const_eq c h1
        subst hd
        simp [is_var] at h

/-- C25: for every formula `fml`, `get_free_vars(fml, vars)` returns and appends to
`vars` a list `r` that holds every uninterpreted constant occurring in `fml` (also
below quantifiers), each exactly once, and nothing else; and a call of `hoist` on
`fml` that starts without blocks (as after `reset`) and returns leaves `r` as the
leading elements of `vars[0]`, which in elimination mode holds nothing else. -/
theorem C25_free_vars_block0 (fml : expr) :
    ∃ r, (∀ vars, get_free_vars fml vars = some (vars ++ r)) ∧ r.Nodup ∧
      (∀ c, c ∈ r ↔ (is_uninterp_const c = true ∧ subexpr c fml)) ∧
      ∀ (tx : collaborators) (s : qsat) (fml1 : expr) (t : qsat), s.m_vars = [] →
        s.hoist tx fml = some (fml1, t) →
        ∃ rest, t.m_vars.head? = some (r ++ rest) ∧ (s.m_qelim = true → rest = []) := by
  obtain ⟨r, h1, h2, h3⟩ := get_free_vars_spec fml
  refine ⟨r, h1, h2, h3, ?_⟩
  intro tx s fml1 t hs hh
  unfold qsat.hoist at hh
  have hr := h1 []
  rw [List.nil_append] at hr
  rw [hr] at hh
  simp only at hh
  split at hh
  · simp at hh
  · rename_i fml2 s2 hloop
    simp only [Option.some.injEq, Prod.mk.injEq] at hh
    obtain ⟨_, ht⟩ := hh
    subst ht
    obtain ⟨more, hm⟩ := hoist_loop_vars tx _ _ _ _ _ hloop
    show ∃ rest, s2.m_vars.head? = some (r ++ rest) ∧ _
    rw [hm]
    by_cases hq : s.m_qelim = true
    · refine ⟨[], ?_, fun _ => rfl⟩
      simp [hq, hs]
    · refine ⟨(tx.pull_quantifier s.m_pred_abs.m_fresh_id false fml).2.1, ?_,
        fun h => absurd h hq⟩
      simp [hq, hs]

/-- C25 (witness): for `∀y. ¬(p ∧ y)` the constant `p` is appended to the vector
`[q]`, and `hoist` in elimination mode leaves `[p]` as block 0. -/
theorem C25_free_vars_block0_witness :
    get_free_vars (sample_ext_q.push_not sample_free) [sample_q] = some [sample_q, sample_p] ∧
    sample_free_hoisted.2.m_vars.head? = some [sample_p] := by
  obtain ⟨r, h1, _, _, h4⟩ := C25_free_vars_block0 (sample_ext_q.push_not sample_free)
  have hr : r = [sample_p] := by
    have h := h1 []
    have e : get_free_vars (sample_ext_q.push_not sample_free) [] = some [sample_p] := by
      decide
    rw [e] at h
    simpa using h.symm
  subst hr
  obtain ⟨rest, h5, h6⟩ := h4 sample_collab (sample_tactic true true).reset
    sample_free_hoisted.1 sample_free_hoisted.2 rfl rfl
  rw [h6 rfl] at h5
  exact ⟨h1 [sample_q], h5⟩

theorem aa_step_defs_inv {fml : expr} {n0 : Nat} {defs0 : List expr} {c c1 : aa_config}
    (h : aa_step c c1) (hd : aa_defs_inv fml n0 defs0 c) (ht : ∀ t ∈ c.todo, subexpr t fml) :
    aa_defs_inv fml n0 defs0 c1 ∧ ∀ t ∈ c1.todo, subexpr t fml := by
  cases h with
  | marked a todo mark s level defs hm =>
    exact ⟨hd, fun t h => ht t (List.mem_cons_of_mem _ h)⟩
  | mapped a todo mark s level defs p lp hm hp hl =>
    exact ⟨hd, fun t h => ht t (List.mem_cons_of_mem _ h)⟩
  | const_new a todo mark s level defs l hm hp hc hl hn =>
    refine ⟨?_, fun t h => ht t (List.mem_cons_of_mem _ h)⟩
    obtain ⟨new, h1, h2, h3⟩ := hd
    refine ⟨new, h1, ?_, h3⟩
    show ((s.add_pred a a).insert a l).m_fresh_id = _
    have : ((s.add_pred a a).insert a l).m_fresh_id = s.m_fresh_id :=
      pred_abs.add_pred_fresh_id s _ _
    rw [this]; exact h2
  | const_old a todo mark s level defs l hm hp hc hl hn =>
    exact ⟨hd, fun t h => ht t (List.mem_cons_of_mem _ h)⟩
  | atom d args todo mark s level defs s2 l is_pred hm hp hc hb hbool hlvl hpred =>
    have hsa : subexpr (expr.app d args) fml := ht _ (List.mem_cons_self _ _)
    refine ⟨?_, ?_⟩
    · obtain ⟨new, h1, h2, h3⟩ := hd
      have e := pred_abs.compute_level_eq hlvl
      have e3 : s2.m_fresh_id = s.m_fresh_id + 1 := by rw [e]; rfl
      refine ⟨new ++ [mk_eq s.fresh_bool.1 (expr.app d args)], ?_, ?_, ?_⟩
      · show defs ++ [_] = defs0 ++ (new ++ [_])
        have h1' : defs = defs0 ++ new := h1
        rw [h1', List.append_assoc]
      · show (s2.atom_update s.fresh_bool.1 (expr.app d args) l is_pred).m_fresh_id = _
        rw [pred_abs.atom_update_fresh_id, pred_abs.add_pred_fresh_id, e3, List.length_append]
        have h2' : s.m_fresh_id = n0 + new.length := h2
        simp only [List.length_singleton]
        omega
      · intro i x hx
        by_cases hi : i < new.length
        · rw [List.get?_eq_getElem?, List.getElem?_append_left hi,
            ← List.get?_eq_getElem?] at hx
          exact h3 i x hx
        · have hi2 : new.length ≤ i := Nat.le_of_not_lt hi
          rw [List.get?_eq_getElem?, List.getElem?_append_right hi2,
            ← List.get?_eq_getElem?] at hx
          cases hk : i - new.length with
          | zero =>
            rw [hk] at hx
            simp only [List.get?_cons_zero, Option.some.injEq] at hx
            have h2' : s.m_fresh_id = n0 + new.length := h2
            have hi3 : n0 + i = s.m_fresh_id := by omega
            refine ⟨expr.app d args, ?_, hsa, hbool, hb, ?_⟩
            · rw [← hx, hi3]; rfl
            · rw [hbool, Bool.and_true] at hc
              exact hc
          | succ k =>
            rw [hk] at hx
            simp at hx
    · intro t h
      rcases push_unmarked_mem _ _ _ _ h with h | h
      · exact subexpr_trans (subexpr.arg t t d args h (subexpr.refl t)) hsa
      · exact ht t (List.mem_cons_of_mem _ h)
  | skip d args todo mark s level defs boolop hm hp hc hb hbool =>
    have hsa : subexpr (expr.app d args) fml := ht _ (List.mem_cons_self _ _)
    refine ⟨hd, ?_⟩
    intro t h
    rcases push_unmarked_mem _ _ _ _ h with h | h
    · exact subexpr_trans (subexpr.arg t t d args h (subexpr.refl t)) hsa
    · exact ht t (List.mem_cons_of_mem _ h)

theorem aa_steps_defs_inv {fml : expr} {n0 : Nat} {defs0 : List expr} {c c1 : aa_config}
    (h : Relation.ReflTransGen aa_step c c1) (hd : aa_defs_inv fml n0 defs0 c)
    (ht : ∀ t ∈ c.todo, subexpr t fml) :
    aa_defs_inv fml n0 defs0 c1 ∧ ∀ t ∈ c1.todo, subexpr t fml := by
  induction h with
  | refl => exact ⟨hd, ht⟩
  | tail _ hstep ih => exact aa_step_defs_inv hstep ih.1 ih.2

/-- An expression that fails the test `is_boolop` of the code has no boolean
connective at its head. -/
theorem connective_head_of_is_boolop (a : expr) (h : is_boolop a = some false) :
    connective_head a = false := by
  cases a with
  | var i s => rfl
  | quantifier f b => rfl
  | app d args =>
    simp only [connective_head]
    by_cases hf : d.family = family_id.basic_family_id
    · have hall : args.all is_bool = false := by
        cases args with
        | nil =>
          exfalso
          simp only [is_boolop, if_pos hf, List.head?_nil, Option.map_none'] at h
          by_cases he : is_eq (expr.app d []) = true
          · simp [he] at h
          · by_cases hd : is_distinct (expr.app d []) = true
            · simp [he, hd] at h
            · simp [he, hd] at h
        | cons x xs =>
          simp only [is_boolop, if_pos hf, List.head?_cons, Option.map_some'] at h
          have hx : is_bool x = false := by
            cases hb : is_bool x with
            | false => rfl
            | true =>
              exfalso
              rw [hb] at h
              by_cases he : is_eq (expr.app d (x :: xs)) = true
              · by_cases hd : is_distinct (expr.app d (x :: xs)) = true
                · simp [he, hd] at h
                · simp [he, hd] at h
              · by_cases hd : is_distinct (expr.app d (x :: xs)) = true
                · simp [he, hd] at h
                · simp [he, hd] at h
          simp [hx]
      simp [hall]
    · simp [hf]

/-- C21 (as amended): every definition that a call of `abstract_atoms` on `fml` adds
to `defs` is `p = a` for a fresh proxy `p` and a boolean subterm `a` of `fml` whose
head is not a boolean connective and which is no uninterpreted constant, reached
through boolean connectives or nested inside another atom; the proxies are minted
in the order of the definitions, and the counter advances by exactly the number of
definitions added, so no fresh proxy is minted for any other subterm. -/
theorem C21_definitions_for_atoms (s : pred_abs) (fml : expr) (level : max_level)
    (defs : List expr) (r : pred_abs × max_level × List expr)
    (h : s.abstract_atoms fml level defs = some r) :
    ∃ new, r.2.2 = defs ++ new ∧ r.1.m_fresh_id = s.m_fresh_id + new.length ∧
      ∀ i d, new.get? i = some d →
        ∃ a, d = mk_eq (fresh_const (s.m_fresh_id + i)) a ∧ subexpr a fml ∧
          is_bool a = true ∧ connective_head a = false ∧ is_uninterp_const a = false := by
  obtain ⟨mark, hsteps⟩ := pred_abs.abstract_atoms_steps h
  have h0 : aa_defs_inv fml s.m_fresh_id defs
      ⟨[fml], [], { s with m_trail := s.m_trail ++ [fml] }, level, defs⟩ :=
    ⟨[], by simp, rfl, fun i d hd => by simp at hd⟩
  obtain ⟨new, h1, h2, h3⟩ := (aa_steps_defs_inv hsteps h0 (by
    intro t ht
    rw [List.mem_singleton] at ht
    subst ht
    exact subexpr.refl t)).1
  refine ⟨new, h1, h2, ?_⟩
  intro i d hd
  obtain ⟨a, e1, e2, e3, e4, e5⟩ := h3 i d hd
  exact ⟨a, e1, e2, e3, connective_head_of_is_boolop a e4, e5⟩

/-- C21 (witness): on `x < y ∧ (c ∧ x < y)` the call adds the single definition
`p0 = (x < y)`; the conjunctions have a boolean connective at the head and get no
definition. -/
theorem C21_definitions_for_atoms_witness :
    sample_seeded.abstract_atoms sample_fml max_level.unset [] = some sample_abstracted ∧
    sample_abstracted.2.2 = [mk_eq (fresh_const 0) sample_atom] ∧
    connective_head sample_fml = true ∧ connective_head sample_atom = false ∧
    ∃ new, sample_abstracted.2.2 = [] ++ new ∧
      sample_abstracted.1.m_fresh_id = sample_seeded.m_fresh_id + new.length ∧
      ∀ i d, new.get? i = some d →
        ∃ a, d = mk_eq (fresh_const (sample_seeded.m_fresh_id + i)) a ∧ subexpr a sample_fml ∧
          is_bool a = true ∧ connective_head a = false ∧ is_uninterp_const a = false :=
  ⟨rfl, by decide, by decide, by decide,
   C21_definitions_for_atoms sample_seeded sample_fml max_level.unset []
    sample_abstracted rfl⟩

/-- C21 (counterexample): on `c ∧ (ite(x < y, x, y) = x)` the call adds two
definitions, one for the atom `ite(x < y, x, y) = x` and one for the atom `x < y`,
which is nested inside that atom and not reached from the root through boolean
connectives only: the walk pushes the arguments of every application it does not
find in `lit2pred`, atoms included. -/
theorem C21_counterexample :
    sample_nested_abs.2.2
      = [mk_eq (fresh_const 0) sample_nested, mk_eq (fresh_const 1) sample_atom] ∧
    connective_head sample_nested = false ∧ is_bool sample_nested = true ∧
    connective_head sample_atom = false ∧ is_bool sample_atom = true ∧
    reached_by_connectives sample_nested
      (sample_and (sample_const 1 expr_sort.bool_sort) sample_nested) = true ∧
    reached_by_connectives sample_atom
      (sample_and (sample_const 1 expr_sort.bool_sort) sample_nested) = false := by
  refine ⟨by decide, by decide, by decide, by decide, by decide, by decide, by decide⟩

theorem pred_abs.insert_preds_mem (s : pred_abs) (a : expr) (lvl : max_level) (k : Nat)
    (blk : List expr) (x : expr) (h : (s.insert a lvl).m_preds.get? k = some blk)
    (hx : x ∈ blk) :
    (∃ blk0, s.m_preds.get? k = some blk0 ∧ x ∈ blk0) ∨ (x = a ∧ k = level_index lvl) := by
  unfold pred_abs.insert at h
  simp only at h
  rw [List.get?_eq_getElem?, List.getElem?_set] at h
  have hidx : (if lvl.max = UINT_MAX then 0 else lvl.max) = level_index lvl := rfl
  rw [hidx] at h
  by_cases hk : level_index lvl = k
  · rw [if_pos hk] at h
    split at h
    · simp only [Option.some.injEq] at h
      subst h
      rcases List.mem_append.1 hx with h1 | h1
      · left
        rw [List.getD_eq_getElem?_getD] at h1
        by_cases hlen : level_index lvl < s.m_preds.length
        · rw [List.getElem?_append_left hlen] at h1
          rw [List.getElem?_eq_getElem hlen] at h1
          refine ⟨s.m_preds[level_index lvl], ?_, h1⟩
          rw [← hk, List.get?_eq_getElem?, List.getElem?_eq_getElem hlen]
        · rw [List.getElem?_append_right (Nat.le_of_not_lt hlen)] at h1
          rw [List.getElem?_replicate] at h1
          split at h1 <;> simp at h1
      · right
        rw [List.mem_singleton] at h1
        exact ⟨h1, hk.symm⟩
    · simp at h
  · rw [if_neg hk] at h
    left
    by_cases hlen : k < s.m_preds.length
    · rw [List.getElem?_append_left hlen] at h
      exact ⟨blk, by rw [List.get?_eq_getElem?]; exact h, hx⟩
    · rw [List.getElem?_append_right (Nat.le_of_not_lt hlen), List.getElem?_replicate] at h
      split at h
      · simp only [Option.some.injEq] at h
        subst h
        simp at hx
      · simp at h

theorem pred_abs.insert_preds_new (s : pred_abs) (a : expr) (lvl : max_level) :
    ∃ blk, (s.insert a lvl).m_preds.get? (level_index lvl) = some blk ∧ a ∈ blk := by
  unfold pred_abs.insert
  simp only
  have hidx : (if lvl.max = UINT_MAX then 0 else lvl.max) = level_index lvl := rfl
  rw [hidx, List.get?_eq_getElem?, List.getElem?_set]
  rw [if_pos rfl]
  have hlt : level_index lvl
      < (s.m_preds ++ List.replicate (level_index lvl + 1 - s.m_preds.length) []).length := by
    rw [List.length_append, List.length_replicate]
    omega
  rw [if_pos hlt]
  exact ⟨_, rfl, List.mem_append_right _ (List.mem_singleton.2 rfl)⟩

/-- The loop of `compute_level` keeps the entries of `elevel`, and the keys it adds
come from the worklist: they satisfy every property of the worklist that passes to
arguments. -/
theorem compute_level_loop_keys (Q : expr → Prop)
    (hQ : ∀ d args, Q (expr.app d args) → ∀ a ∈ args, Q a)
    (flevel : obj_map func_decl max_level) :
    ∀ (n : Nat) (todo : List expr) (elevel r : obj_map expr max_level),
      compute_level_loop flevel n todo elevel = some r → (∀ t ∈ todo, Q t) →
      elevel_le elevel r ∧ ∀ x l, r.find x = some l → (elevel.find x = some l ∨ Q x) := by
  intro n
  induction n with
  | zero => intro todo elevel r h; simp [compute_level_loop] at h
  | succ n ih =>
    intro todo elevel r h hq
    cases todo with
    | nil =>
      simp only [compute_level_loop, Option.some.injEq] at h
      subst h
      exact ⟨elevel_le_refl _, fun x l hx => Or.inl hx⟩
    | cons a todo =>
      simp only [compute_level_loop] at h
      split at h
      · exact ih _ _ _ h (fun t ht => hq t (List.mem_cons_of_mem _ ht))
      · rename_i hc
        simp only [Bool.not_eq_true, obj_map.contains_eq_false] at hc
        split at h
        · rename_i d args
          have hargs := compute_level_args_todo elevel args
            (match flevel.find d with
              | some lvl => max_level.unset.merge lvl
              | none => max_level.unset) (expr.app d args :: todo) false
          have hnew := compute_level_args_has_new elevel args
            (match flevel.find d with
              | some lvl => max_level.unset.merge lvl
              | none => max_level.unset) (expr.app d args :: todo) false
          rcases hca : compute_level_args elevel args
            (match flevel.find d with
              | some lvl => max_level.unset.merge lvl
              | none => max_level.unset) (expr.app d args :: todo) false
            with ⟨lvl1, todo1, has_new⟩
          rw [hca] at h hargs hnew
          simp only at h hargs hnew
          have hqa : Q (expr.app d args) := hq _ (List.mem_cons_self _ _)
          have htodo1 : ∀ t ∈ todo1, Q t := by
            intro t ht
            rw [hargs] at ht
            rcases List.mem_append.1 ht with h1 | h1
            · rw [List.mem_reverse] at h1
              unfold unlevelled_args at h1
              exact hQ d args hqa t (List.mem_filter.1 h1).1
            · exact hq t h1
          cases has_new with
          | false =>
            simp only [Bool.not_false, if_true] at h
            obtain ⟨h1, h2⟩ := ih _ _ _ h (fun t ht => htodo1 t (List.mem_of_mem_tail ht))
            refine ⟨elevel_le_trans (elevel_le_insert elevel _ lvl1 hc) h1, ?_⟩
            intro x l hx
            rcases h2 x l hx with h3 | h3
            · rw [obj_map.find_insert] at h3
              split at h3
              · rename_i hxa
                rw [hxa]; exact Or.inr hqa
              · exact Or.inl h3
            · exact Or.inr h3
          | true =>
            simp only [Bool.not_true, Bool.false_eq_true, if_false] at h
            exact ih _ _ _ h htodo1
        · simp at h

theorem pred_abs.compute_level_keys (Q : expr → Prop)
    (hQ : ∀ d args, Q (expr.app d args) → ∀ a ∈ args, Q a)
    {s s2 : pred_abs} {e : expr} {l : max_level} (h : s.compute_level e = some (s2, l))
    (he : Q e) :
    elevel_le s.m_elevel s2.m_elevel ∧
    (∀ x lx, s2.m_elevel.find x = some lx → (s.m_elevel.find x = some lx ∨ Q x)) := by
  unfold pred_abs.compute_level at h
  split at h
  · simp at h
  · rename_i elevel hloop
    split at h
    · simp at h
    · simp only [Option.some.injEq, Prod.mk.injEq] at h
      obtain ⟨h1, _⟩ := h
      subst h1
      exact compute_level_loop_keys Q hQ _ _ _ _ _ hloop (by
        intro t ht
        rw [List.mem_singleton] at ht
        subst ht; exact he)

theorem fresh_below_args (n : Nat) :
    ∀ d args, fresh_below n (expr.app d args) = true → ∀ a ∈ args, fresh_below n a = true := by
  intro d args h
  simp only [fresh_below, Bool.and_eq_true] at h
  exact (fresh_below_list_iff _ _).1 h.2

/-- The invariant of the proxies is kept when a proxy whose level is recorded is
inserted at the index of this level. -/
theorem pred_abs.preds_inv_insert {s : pred_abs} (a : expr) (l : max_level)
    (h : s.preds_inv) (ha : s.m_elevel.find a = some l) : (s.insert a l).preds_inv := by
  refine ⟨?_, h.2⟩
  intro k blk x hk hx
  rcases pred_abs.insert_preds_mem s a l k blk x hk hx with ⟨blk0, h1, h2⟩ | ⟨h1, h2⟩
  · exact h.1 k blk0 x h1 h2
  · subst h1
    exact ⟨l, ha, h2⟩

/-- The invariant of the proxies is kept when the counter grows, the levels are
extended by expressions of the manager, and `m_preds` stays as it is. -/
theorem pred_abs.preds_inv_extend {s t : pred_abs} (h : s.preds_inv)
    (hp : t.m_preds = s.m_preds) (hle : elevel_le s.m_elevel t.m_elevel)
    (hkeys : ∀ x l, t.m_elevel.find x = some l → fresh_below t.m_fresh_id x = true) :
    t.preds_inv := by
  refine ⟨?_, hkeys⟩
  intro k blk x hk hx
  rw [hp] at hk
  obtain ⟨l, h1, h2⟩ := h.1 k blk x hk hx
  exact ⟨l, hle x l h1, h2⟩

theorem aa_step_preds_inv {c c1 : aa_config} (h : aa_step c c1)
    (hinv : c.s.preds_inv) (htodo : ∀ t ∈ c.todo, fresh_below c.s.m_fresh_id t = true) :
    c1.s.preds_inv ∧ ∀ t ∈ c1.todo, fresh_below c1.s.m_fresh_id t = true := by
  cases h with
  | marked a todo mark s level defs hm =>
    exact ⟨hinv, fun t ht => htodo t (by simp [ht])⟩
  | mapped a todo mark s level defs p lp hm hp hl =>
    exact ⟨hinv, fun t ht => htodo t (by simp [ht])⟩
  | const_new a todo mark s level defs l hm hp hc hl hn =>
    have hid : ((s.add_pred a a).insert a l).m_fresh_id = s.m_fresh_id :=
      pred_abs.add_pred_fresh_id s _ _
    refine ⟨?_, fun t ht => by
      show fresh_below ((s.add_pred a a).insert a l).m_fresh_id t = true
      rw [hid]; exact htodo t (by simp [ht])⟩
    apply pred_abs.preds_inv_insert
    · refine pred_abs.preds_inv_extend hinv (pred_abs.add_pred_preds s a a) ?_ ?_
      · rw [pred_abs.add_pred_elevel]; exact elevel_le_refl _
      · intro x lx hx
        rw [pred_abs.add_pred_elevel] at hx
        rw [pred_abs.add_pred_fresh_id]
        exact hinv.2 x lx hx
    · rw [pred_abs.add_pred_elevel]; exact hl
  | const_old a todo mark s level defs l hm hp hc hl hn =>
    exact ⟨hinv, fun t ht => htodo t (by simp [ht])⟩
  | atom d args todo mark s level defs s2 l is_pred hm hp hc hb hbool hlvl hpred =>
    have e := pred_abs.compute_level_eq hlvl
    have h3 : s2.m_fresh_id = s.m_fresh_id + 1 := by rw [e]; rfl
    have hp2 : s2.m_preds = s.m_preds := by rw [e]; rfl
    have h4 : (s2.atom_update s.fresh_bool.1 (expr.app d args) l is_pred).m_fresh_id
        = s.m_fresh_id + 1 := by
      rw [pred_abs.atom_update_fresh_id, pred_abs.add_pred_fresh_id, h3]
    have hfa := htodo (expr.app d args) (by simp)
    obtain ⟨k1, k2⟩ := pred_abs.compute_level_keys (fun x => fresh_below s.m_fresh_id x = true)
      (fresh_below_args s.m_fresh_id) hlvl hfa
    have k1' : elevel_le s.m_elevel s2.m_elevel := k1
    have hkeys2 : ∀ x lx, s2.m_elevel.find x = some lx → fresh_below s.m_fresh_id x = true := by
      intro x lx hx
      rcases k2 x lx hx with h1 | h1
      · exact hinv.2 x lx h1
      · exact h1
    have hr : s2.m_elevel.find (fresh_const s.m_fresh_id) = none := by
      cases hf : s2.m_elevel.find (fresh_const s.m_fresh_id) with
      | none => rfl
      | some lx =>
        exact absurd rfl (fresh_below_ne_fresh_const s.m_fresh_id s.m_fresh_id (le_refl _) _
          (hkeys2 _ lx hf))
    -- the state with the level of the proxy recorded
    have hs4 : pred_abs.preds_inv { s2.add_pred s.fresh_bool.1 (expr.app d args) with
        m_elevel := (s2.add_pred s.fresh_bool.1 (expr.app d args)).m_elevel.insert
          s.fresh_bool.1 l } := by
      refine pred_abs.preds_inv_extend hinv ?_ ?_ ?_
      · show (s2.add_pred _ _).m_preds = _
        rw [pred_abs.add_pred_preds, hp2]
      · show elevel_le s.m_elevel ((s2.add_pred _ _).m_elevel.insert _ l)
        rw [pred_abs.add_pred_elevel]
        exact elevel_le_trans k1' (elevel_le_insert _ _ l hr)
      · intro x lx hx
        show fresh_below (s2.add_pred _ _).m_fresh_id x = true
        rw [pred_abs.add_pred_fresh_id, h3]
        have hx' : ((s2.add_pred s.fresh_bool.1 (expr.app d args)).m_elevel.insert
            s.fresh_bool.1 l).find x = some lx := hx
        rw [pred_abs.add_pred_elevel, obj_map.find_insert] at hx'
        split at hx'
        · rename_i hxr
          rw [hxr]
          show fresh_below (s.m_fresh_id + 1) (fresh_const s.m_fresh_id) = true
          simp [fresh_const, fresh_below, fresh_below_list]
        · exact fresh_below_mono _ _ (Nat.le_succ _) x (hkeys2 x lx hx')
    refine ⟨?_, ?_⟩
    · show (s2.atom_update s.fresh_bool.1 (expr.app d args) l is_pred).preds_inv
      unfold pred_abs.atom_update
      cases is_pred
      · simp only [Bool.not_false, if_true]
        apply pred_abs.preds_inv_insert _ _ hs4
        exact obj_map.find_insert_self _ _ _
      · simp only [Bool.not_true, Bool.false_eq_true, if_false]
        exact hs4
    · intro t ht
      show fresh_below (s2.atom_update s.fresh_bool.1 (expr.app d args) l is_pred).m_fresh_id t
        = true
      rw [h4]
      rcases push_unmarked_mem _ _ _ _ ht with h | h
      · exact fresh_below_mono _ _ (Nat.le_succ _) t (fresh_below_args _ d args hfa t h)
      · exact fresh_below_mono _ _ (Nat.le_succ _) t (htodo t (by simp [h]))
  | skip d args todo mark s level defs boolop hm hp hc hb hbool =>
    have hfa := htodo (expr.app d args) (by simp)
    refine ⟨hinv, ?_⟩
    intro t ht
    rcases push_unmarked_mem _ _ _ _ ht with h | h
    · exact fresh_below_args _ d args hfa t h
    · exact htodo t (by simp [h])

theorem aa_steps_preds_inv {c c1 : aa_config} (h : Relation.ReflTransGen aa_step c c1)
    (hinv : c.s.preds_inv) (htodo : ∀ t ∈ c.todo, fresh_below c.s.m_fresh_id t = true) :
    c1.s.preds_inv ∧ ∀ t ∈ c1.todo, fresh_below c1.s.m_fresh_id t = true := by
  induction h with
  | refl => exact ⟨hinv, htodo⟩
  | tail _ hstep ih => exact aa_step_preds_inv hstep ih.1 ih.2

theorem pred_abs.abstract_atoms_preds_inv {s : pred_abs} {fml : expr} {level : max_level}
    {defs : List expr} {r : pred_abs × max_level × List expr}
    (h : s.abstract_atoms fml level defs = some r) (hinv : s.preds_inv)
    (hf : fresh_below s.m_fresh_id fml = true) : r.1.preds_inv := by
  obtain ⟨mark, hsteps⟩ := pred_abs.abstract_atoms_steps h
  refine (aa_steps_preds_inv hsteps ?_ ?_).1
  · exact pred_abs.preds_inv_extend hinv rfl (elevel_le_refl _) hinv.2
  · intro t ht
    rw [List.mem_singleton] at ht
    subst ht
    exact hf

theorem pred_abs.preds_inv_mk_assumption_literal {ext : externals} {s : pred_abs} {a : expr}
    {mdl : Option model} {lvl : max_level} {defs : List expr}
    {r : expr × pred_abs × Option model × List expr} (hinv : s.preds_inv)
    (hadm : ∀ a1, s.pred2asm ext a = some a1 → known_symbols s a1)
    (h : s.mk_assumption_literal ext a mdl lvl defs = some r) : r.2.1.preds_inv := by
  rcases pred_abs.mk_assumption_literal_cases h with h1 | ⟨a1, s3, lv, defs1, ha1, haa, hr⟩
  · rw [h1]; exact hinv
  · have hf : fresh_below s.m_fresh_id a1 = true := hadm a1 ha1
    have hf1 : fresh_below (s.m_fresh_id + 1) ((is_not a1).getD a1) = true := by
      apply fresh_below_mono _ _ (Nat.le_succ _)
      cases hn : is_not a1 with
      | none => exact hf
      | some c =>
        obtain ⟨d, hd, _⟩ := is_not_inv hn
        rw [hd] at hf
        exact fresh_below_args _ d [c] hf c (List.mem_singleton.2 rfl)
    have hp : s.m_elevel.find (fresh_const s.m_fresh_id) = none := by
      cases hfd : s.m_elevel.find (fresh_const s.m_fresh_id) with
      | none => rfl
      | some lx =>
        exact absurd rfl (fresh_below_ne_fresh_const s.m_fresh_id s.m_fresh_id (le_refl _) _
          (hinv.2 _ lx hfd))
    have h1 : pred_abs.preds_inv { s.fresh_bool.2 with
        m_elevel := s.fresh_bool.2.m_elevel.insert (fresh_const s.m_fresh_id) lvl } := by
      refine pred_abs.preds_inv_extend hinv rfl (elevel_le_insert _ _ lvl hp) ?_
      intro x lx hx
      show fresh_below (s.m_fresh_id + 1) x = true
      have hx' : (s.m_elevel.insert (fresh_const s.m_fresh_id) lvl).find x = some lx := hx
      rw [obj_map.find_insert] at hx'
      split at hx'
      · rename_i hxr
        rw [hxr]
        simp [fresh_const, fresh_below, fresh_below_list]
      · exact fresh_below_mono _ _ (Nat.le_succ _) x (hinv.2 x lx hx')
    have h2 := pred_abs.preds_inv_insert (fresh_const s.m_fresh_id) lvl h1
      (obj_map.find_insert_self _ _ _)
    have h3 := pred_abs.abstract_atoms_preds_inv haa h2 hf1
    rw [hr]
    exact pred_abs.preds_inv_extend h3 rfl (elevel_le_refl _) h3.2

/-- Every state reached by calls on expressions of the manager, with levels set only
for expressions that are no proxy yet, satisfies the invariant of the proxies. -/
theorem pred_abs.reachable_preds_inv {ext : externals} {s : pred_abs}
    (h : pred_abs.reachable ext known_symbols pred_abs.seed_ok s) : s.preds_inv := by
  induction h with
  | init k =>
    refine ⟨?_, ?_⟩
    · intro k1 blk x hk; simp [pred_abs.init] at hk
    · intro x l hx; simp [pred_abs.init, obj_map.find_empty] at hx
  | reset s _ _ =>
    refine ⟨?_, ?_⟩
    · intro k1 blk x hk; simp [pred_abs.reset] at hk
    · intro x l hx; simp [pred_abs.reset, obj_map.find_empty] at hx
  | set_expr_level s v lvl _ hseed ih =>
    refine ⟨?_, ?_⟩
    · intro k blk x hk hx
      obtain ⟨l, h1, h2⟩ := ih.1 k blk x hk hx
      have hne : x ≠ v := by
        intro e
        subst e
        exact hseed.2 blk (List.get?_mem hk) hx
      exact ⟨l, by
        show (s.m_elevel.insert v lvl).find x = some l
        rw [obj_map.find_insert_ne _ _ hne]; exact h1, h2⟩
    · intro x l hx
      have hx' : (s.m_elevel.insert v lvl).find x = some l := hx
      rw [obj_map.find_insert] at hx'
      split at hx'
      · rename_i hxv
        rw [hxv]; exact hseed.1
      · exact ih.2 x l hx'
  | set_decl_level s f lvl _ ih => exact ih
  | fresh_bool s _ ih =>
    exact pred_abs.preds_inv_extend ih rfl (elevel_le_refl _)
      (fun x l hx => fresh_below_mono _ _ (Nat.le_succ _) x (ih.2 x l hx))
  | add_pred s p lit _ ih =>
    refine pred_abs.preds_inv_extend ih (pred_abs.add_pred_preds s p lit) ?_ ?_
    · rw [pred_abs.add_pred_elevel]; exact elevel_le_refl _
    · intro x l hx
      rw [pred_abs.add_pred_elevel] at hx
      rw [pred_abs.add_pred_fresh_id]
      exact ih.2 x l hx
  | push s _ ih => exact ih
  | pop s t n _ hp ih =>
    obtain ⟨_, _, sz, _, _, ht⟩ := pred_abs.pop_inv hp
    rw [ht]
    exact ih
  | get_assumptions s mdl asms r _ hg ih =>
    obtain ⟨more, hm⟩ := pred_abs.get_assumptions_state s mdl asms r hg
    rw [hm]
    exact ih
  | abstract_atoms s fml level defs r _ hadm hr ih =>
    exact pred_abs.abstract_atoms_preds_inv hr ih hadm
  | mk_assumption_literal s a mdl lvl defs r _ hadm hr ih =>
    exact pred_abs.preds_inv_mk_assumption_literal ih hadm hr

/-- C22: in every state of `pred_abs` reached by calls of its interface (among them
`abstract_atoms` and `mk_assumption_literal`) on expressions of the manager, levels
being set only for expressions that are no proxy yet, no proxy occurs in `preds[j]`
and `preds[k]` for two different indices `j` and `k`. -/
theorem C22_proxy_one_level (ext : externals) (s : pred_abs)
    (h : pred_abs.reachable ext known_symbols pred_abs.seed_ok s) (j k : Nat)
    (bj bk : List expr) (x : expr) (hj : s.m_preds.get? j = some bj)
    (hk : s.m_preds.get? k = some bk) (hxj : x ∈ bj) (hxk : x ∈ bk) : j = k := by
  have hinv := pred_abs.reachable_preds_inv h
  obtain ⟨l1, h1, h2⟩ := hinv.1 j bj x hj hxj
  obtain ⟨l2, h3, h4⟩ := hinv.1 k bk x hk hxk
  rw [h1] at h3
  simp only [Option.some.injEq] at h3
  subst h3
  rw [h2, h4]

/-- C22 (witness): after `abstract_atoms` on `p ∨ q`, with `p` of block 0 and `q` of
block 1, the state is reachable and `m_preds` is `[[p], [q]]`; the proxy `q` of
`preds[1]` is found at index 1 only. -/
theorem C22_proxy_one_level_witness :
    sample_two_levels.1.m_preds = [[sample_p], [sample_q]] ∧
    sample_two_levels.1.m_preds.get? 1 = some [sample_q] ∧ sample_q ∈ [sample_q] ∧ 1 = 1 :=
  ⟨by decide, rfl, by decide,
    C22_proxy_one_level sample_ext sample_two_levels.1
      (pred_abs.reachable.abstract_atoms sample_two_seeded sample_matrix max_level.unset []
        sample_two_levels
        (pred_abs.reachable.set_expr_level _ sample_q ⟨UINT_MAX, 1⟩
          (pred_abs.reachable.set_expr_level _ sample_p ⟨0, UINT_MAX⟩
            (pred_abs.reachable.init 0) ⟨by decide, fun blk hb => by cases hb⟩)
          ⟨by decide, fun blk hb => by cases hb⟩)
        (show fresh_below 0 sample_matrix = true by decide) rfl)
      1 1 [sample_q] [sample_q] sample_q rfl rfl (by decide) (by decide)⟩

/-- C23 (witness): in the state after construction the atom `x < y` is no key of
`lit2pred`, and after `add_pred(p0, x < y)` both maps hold the pair. -/
theorem C23_add_pred_maps_witness :
    (pred_abs.init 1).m_lit2pred.find sample_atom = none ∧
    ((pred_abs.init 1).add_pred (fresh_const 0) sample_atom).m_pred2lit.find (fresh_const 0)
      = some sample_atom ∧
    ((pred_abs.init 1).add_pred (fresh_const 0) sample_atom).m_lit2pred.find sample_atom
      = some (fresh_const 0) :=
  ⟨rfl, (C23_add_pred_maps (pred_abs.init 1) (fresh_const 0) sample_atom).1,
    (C23_add_pred_maps (pred_abs.init 1) (fresh_const 0) sample_atom).2.1 rfl⟩

theorem lvl_le_unset (b : Nat) : lvl_le b max_level.unset :=
  ⟨Or.inl rfl, Or.inl rfl⟩

theorem max2_le (b x y : Nat) (hx : x = UINT_MAX ∨ x ≤ b) (hy : y = UINT_MAX ∨ y ≤ b) :
    max_level.max2 x y = UINT_MAX ∨ max_level.max2 x y ≤ b := by
  unfold max_level.max2
  by_cases h1 : x = UINT_MAX
  · rw [if_pos h1]; exact hy
  · rw [if_neg h1]
    by_cases h2 : y = UINT_MAX
    · rw [if_pos h2]; exact hx
    · rw [if_neg h2]
      rcases hx with hx | hx
      · exact absurd hx h1
      · rcases hy with hy | hy
        · exact absurd hy h2
        · exact Or.inr (max_le hx hy)

theorem lvl_le_merge {b : Nat} {l1 l2 : max_level} (h1 : lvl_le b l1) (h2 : lvl_le b l2) :
    lvl_le b (l1.merge l2) :=
  ⟨max2_le b _ _ h1.1 h2.1, max2_le b _ _ h1.2 h2.2⟩

theorem mentions_none_list_iff (vs : List expr) (l : List expr) :
    mentions_none_list vs l = true ↔ ∀ a ∈ l, mentions_none vs a = true := by
  induction l with
  | nil => simp [mentions_none_list]
  | cons a l ih => simp [mentions_none_list, ih]

theorem proxy_free_list_iff (m : obj_map expr expr) (l : List expr) :
    proxy_free_list m l = true ↔ ∀ a ∈ l, proxy_free m a = true := by
  induction l with
  | nil => simp [proxy_free_list]
  | cons a l ih => simp [proxy_free_list, ih]

theorem mentions_none_args (vs : List expr) (d : func_decl) (args : List expr)
    (h : mentions_none vs (expr.app d args) = true) : ∀ a ∈ args, mentions_none vs a = true := by
  simp only [mentions_none, Bool.and_eq_true] at h
  exact (mentions_none_list_iff _ _).1 h.2

theorem proxy_free_args (m : obj_map expr expr) (d : func_decl) (args : List expr)
    (h : proxy_free m (expr.app d args) = true) : ∀ a ∈ args, proxy_free m a = true := by
  simp only [proxy_free, Bool.and_eq_true] at h
  exact (proxy_free_list_iff _ _).1 h.2

theorem mentions_none_self (vs : List expr) (e : expr) (h : mentions_none vs e = true) :
    e ∉ vs := by
  cases e with
  | app d args =>
    simp only [mentions_none, Bool.and_eq_true, decide_eq_true_eq] at h
    exact h.1
  | var i s => simpa [mentions_none] using h
  | quantifier f b =>
    simp only [mentions_none, Bool.and_eq_true, decide_eq_true_eq] at h
    exact h.1

mutual
/-- Registering a proxy for another expression, or a first proxy for an expression,
does not make an expression free of proxies. -/
theorem proxy_free_of_insert (m : obj_map expr expr) (k x : expr)
    (h : x ≠ k ∨ m.find k = none) :
    ∀ (e : expr), proxy_free (m.insert k x) e = true → proxy_free m e = true
  | .app d args, he => by
    simp only [proxy_free, Bool.and_eq_true] at he ⊢
    refine ⟨?_, proxy_free_of_insert_list m k x h args he.2⟩
    have h1 := he.1
    rw [obj_map.find_insert] at h1
    by_cases hk : expr.app d args = k
    · rw [if_pos hk] at h1
      simp only [decide_eq_true_eq] at h1
      rcases h with h | h
      · exact absurd (h1.trans hk) h
      · rw [hk, h]
    · rw [if_neg hk] at h1
      exact h1
  | .var _ _, _ => rfl
  | .quantifier f b, he => by
    simp only [proxy_free] at he ⊢
    exact proxy_free_of_insert m k x h b he
theorem proxy_free_of_insert_list (m : obj_map expr expr) (k x : expr)
    (h : x ≠ k ∨ m.find k = none) :
    ∀ (l : List expr), proxy_free_list (m.insert k x) l = true → proxy_free_list m l = true
  | [], _ => rfl
  | a :: l, he => by
    simp only [proxy_free_list, Bool.and_eq_true] at he ⊢
    exact ⟨proxy_free_of_insert m k x h a he.1, proxy_free_of_insert_list m k x h l he.2⟩
end

mutual
/-- An expression free of proxies stays so when an expression that does not occur
in it becomes a key, or when a key is mapped to itself. -/
theorem proxy_free_insert (m : obj_map expr expr) (k x : expr) :
    ∀ (e : expr), (x = k ∨ ¬ subexpr k e) → proxy_free m e = true →
      proxy_free (m.insert k x) e = true
  | .app d args, hk, he => by
    simp only [proxy_free, Bool.and_eq_true] at he ⊢
    refine ⟨?_, proxy_free_insert_list m k x args ?_ he.2⟩
    · rw [obj_map.find_insert]
      by_cases hka : expr.app d args = k
      · rw [if_pos hka]
        rcases hk with hk | hk
        · simp [hk, hka]
        · exact absurd (hka ▸ subexpr.refl _) hk
      · rw [if_neg hka]; exact he.1
    · rcases hk with hk | hk
      · exact Or.inl hk
      · right
        intro a ha hs
        exact hk (subexpr.arg k a d args ha hs)
  | .var _ _, _, _ => rfl
  | .quantifier f b, hk, he => by
    simp only [proxy_free] at he ⊢
    refine proxy_free_insert m k x b ?_ he
    rcases hk with hk | hk
    · exact Or.inl hk
    · exact Or.inr (fun hs => hk (subexpr.body k b f hs))
theorem proxy_free_insert_list (m : obj_map expr expr) (k x : expr) :
    ∀ (l : List expr), (x = k ∨ ∀ a ∈ l, ¬ subexpr k a) → proxy_free_list m l = true →
      proxy_free_list (m.insert k x) l = true
  | [], _, _ => rfl
  | a :: l, hk, he => by
    simp only [proxy_free_list, Bool.and_eq_true] at he ⊢
    refine ⟨proxy_free_insert m k x a ?_ he.1, proxy_free_insert_list m k x l ?_ he.2⟩
    · rcases hk with hk | hk
      · exact Or.inl hk
      · exact Or.inr (hk a (List.mem_cons_self _ _))
    · rcases hk with hk | hk
      · exact Or.inl hk
      · exact Or.inr (fun b hb => hk b (List.mem_cons_of_mem _ hb))
end

theorem fresh_below_subexpr (n : Nat) {c e : expr} (hs : subexpr c e)
    (he : fresh_below n e = true) : fresh_below n c = true := by
  induction hs with
  | refl => exact he
  | arg a d args ha _ ih => exact ih (fresh_below_args n d args he a ha)
  | body b f _ ih =>
    simp only [fresh_below] at he
    exact ih he

/-- A fresh constant does not occur in an expression of the manager. -/
theorem not_subexpr_fresh_const (n i : Nat) (hi : n ≤ i) (e : expr)
    (he : fresh_below n e = true) : ¬ subexpr (fresh_const i) e := by
  intro hs
  exact fresh_below_ne_fresh_const n i hi _ (fresh_below_subexpr n hs he) rfl

theorem compute_level_args_below (pred2lit : obj_map expr expr) (vars : List (List expr))
    (elevel : obj_map expr max_level)
    (hE : ∀ e l, elevel.find e = some l → level_below pred2lit vars e l) (b : Nat) :
    ∀ (args : List expr) (lvl0 : max_level) (todo : List expr) (hn : Bool),
      proxy_free_list pred2lit args = true →
      mentions_none_list (vars.drop (b + 1)).flatten args = true → lvl_le b lvl0 →
      lvl_le b (compute_level_args elevel args lvl0 todo hn).1 := by
  intro args
  induction args with
  | nil => intro lvl0 todo hn _ _ h; exact h
  | cons a rest ih =>
    intro lvl0 todo hn hp hm h
    simp only [proxy_free_list, Bool.and_eq_true] at hp
    simp only [mentions_none_list, Bool.and_eq_true] at hm
    simp only [compute_level_args]
    cases hf : elevel.find a with
    | none => exact ih _ _ _ hp.2 hm.2 h
    | some lvl => exact ih _ _ _ hp.2 hm.2 (lvl_le_merge h (hE a lvl hf b hp.1 hm.1))

/-- The loop of `compute_level` records justified levels only. -/
theorem compute_level_loop_levels (pred2lit : obj_map expr expr) (vars : List (List expr))
    (flevel : obj_map func_decl max_level) (hF : ∀ f, flevel.find f = none) :
    ∀ (n : Nat) (todo : List expr) (elevel r : obj_map expr max_level),
      compute_level_loop flevel n todo elevel = some r →
      (∀ e l, elevel.find e = some l → level_below pred2lit vars e l) →
      ∀ e l, r.find e = some l → level_below pred2lit vars e l := by
  intro n
  induction n with
  | zero => intro todo elevel r h; simp [compute_level_loop] at h
  | succ n ih =>
    intro todo elevel r h hE
    cases todo with
    | nil =>
      simp only [compute_level_loop, Option.some.injEq] at h
      subst h
      exact hE
    | cons a todo =>
      simp only [compute_level_loop] at h
      split at h
      · exact ih _ _ _ h hE
      · rename_i hc
        split at h
        · rename_i d args
          rw [hF d] at h
          simp only at h
          rcases hca : compute_level_args elevel args max_level.unset (expr.app d args :: todo)
            false with ⟨lvl1, todo1, has_new⟩
          rw [hca] at h
          simp only at h
          cases has_new with
          | false =>
            simp only [Bool.not_false, if_true] at h
            refine ih _ _ _ h ?_
            intro e l he
            rw [obj_map.find_insert] at he
            split at he
            · rename_i hea
              simp only [Option.some.injEq] at he
              subst hea
              intro b hp hm
              have := compute_level_args_below pred2lit vars elevel hE b args max_level.unset
                (expr.app d args :: todo) false
                ((proxy_free_list_iff _ _).2 (proxy_free_args _ d args hp))
                ((mentions_none_list_iff _ _).2 (mentions_none_args _ d args hm))
                (lvl_le_unset b)
              rw [hca] at this
              rw [← he]
              exact this
            · exact hE e l he
          | true =>
            simp only [Bool.not_true, Bool.false_eq_true, if_false] at h
            exact ih _ _ _ h hE
        · simp at h

theorem pred_abs.compute_level_levels (vars : List (List expr)) {s s2 : pred_abs} {e : expr}
    {l : max_level} (h : s.compute_level e = some (s2, l))
    (hE : ∀ x lx, s.m_elevel.find x = some lx → level_below s.m_pred2lit vars x lx)
    (hF : ∀ f, s.m_flevel.find f = none) :
    (∀ x lx, s2.m_elevel.find x = some lx → level_below s.m_pred2lit vars x lx) ∧
    s2.m_elevel.find e = some l := by
  unfold pred_abs.compute_level at h
  split at h
  · simp at h
  · rename_i elevel hloop
    split at h
    · simp at h
    · rename_i l1 hl1
      simp only [Option.some.injEq, Prod.mk.injEq] at h
      obtain ⟨h1, h2⟩ := h
      subst h1 h2
      exact ⟨compute_level_loop_levels s.m_pred2lit vars _ hF _ _ _ _ hloop hE, hl1⟩

theorem level_below_of_insert (m : obj_map expr expr) (vars : List (List expr)) (k x e : expr)
    (l : max_level) (h : x ≠ k ∨ m.find k = none) (hl : level_below m vars e l) :
    level_below (m.insert k x) vars e l :=
  fun b hp hm => hl b (proxy_free_of_insert m k x h e hp) hm

theorem pred_abs.add_pred_flevel (s : pred_abs) (p lit : expr) :
    (s.add_pred p lit).m_flevel = s.m_flevel := by
  unfold pred_abs.add_pred pred_abs.add_lit
  split <;> rfl

theorem pred_abs.atom_update_elevel (s2 : pred_abs) (r a : expr) (l : max_level) (b : Bool) :
    (s2.atom_update r a l b).m_elevel = s2.m_elevel.insert r l := by
  unfold pred_abs.atom_update
  cases b
  · show ((s2.add_pred r a).m_elevel).insert r l = _
    rw [pred_abs.add_pred_elevel]
  · show ((s2.add_pred r a).m_elevel).insert r l = _
    rw [pred_abs.add_pred_elevel]

theorem pred_abs.atom_update_flevel (s2 : pred_abs) (r a : expr) (l : max_level) (b : Bool) :
    (s2.atom_update r a l b).m_flevel = s2.m_flevel := by
  unfold pred_abs.atom_update
  cases b
  · show (s2.add_pred r a).m_flevel = _
    rw [pred_abs.add_pred_flevel]
  · show (s2.add_pred r a).m_flevel = _
    rw [pred_abs.add_pred_flevel]

/-- The invariant of the levels is kept when a pair `(p, lit)` is registered and the
level `lp`, justified for both, is recorded for `p`. -/
theorem pred_abs.levels_ok_register (vars : List (List expr)) {s t : pred_abs}
    (p lit : expr) (lp : max_level) (base : obj_map expr max_level)
    (hP : ∀ a q, s.m_lit2pred.find a = some q →
      ∃ lq, s.m_elevel.find q = some lq ∧ level_below s.m_pred2lit vars a lq)
    (hE0 : ∀ x l, base.find x = some l → level_below s.m_pred2lit vars x l)
    (h1 : t.m_pred2lit = s.m_pred2lit.insert p lit)
    (h2 : t.m_lit2pred = s.m_lit2pred.insert lit p ∨ t.m_lit2pred = s.m_lit2pred)
    (h3 : ∀ x l, t.m_elevel.find x = some l → base.find x = some l ∨ (x = p ∧ l = lp))
    (h4 : ∀ a q lq, s.m_lit2pred.find a = some q → s.m_elevel.find q = some lq →
      t.m_elevel.find q = some lq)
    (h5 : t.m_elevel.find p = some lp)
    (hK : ∀ x l, t.m_elevel.find x = some l → fresh_below t.m_fresh_id x = true)
    (hF : ∀ f, t.m_flevel.find f = none)
    (hanti : lit ≠ p ∨ s.m_pred2lit.find p = none)
    (hlp : level_below t.m_pred2lit vars p lp)
    (hll : level_below t.m_pred2lit vars lit lp) : t.levels_ok vars := by
  refine ⟨?_, ?_, hK, hF⟩
  · intro e l he
    rcases h3 e l he with h | ⟨h, h'⟩
    · rw [h1]
      exact level_below_of_insert _ vars p lit e l hanti (hE0 e l h)
    · rw [h, h']; exact hlp
  · intro a q haq
    have hold : s.m_lit2pred.find a = some q →
        ∃ lq, t.m_elevel.find q = some lq ∧ level_below t.m_pred2lit vars a lq := by
      intro h
      obtain ⟨lq, e1, e2⟩ := hP a q h
      refine ⟨lq, h4 a q lq h e1, ?_⟩
      rw [h1]
      exact level_below_of_insert _ vars p lit a lq hanti e2
    rcases h2 with h2 | h2
    · rw [h2, obj_map.find_insert] at haq
      split at haq
      · rename_i hal
        simp only [Option.some.injEq] at haq
        rw [hal, ← haq]
        exact ⟨lp, h5, hll⟩
      · exact hold haq
    · rw [h2] at haq
      exact hold haq

theorem proxy_free_fresh_key (m : obj_map expr expr) (r a : expr) (har : a ≠ r)
    (hr : ∃ d, r = expr.app d []) : proxy_free (m.insert r a) r = false := by
  obtain ⟨d, hd⟩ := hr
  subst hd
  simp only [proxy_free, obj_map.find_insert_self, proxy_free_list, Bool.and_true]
  simpa using har

/-- One round of the loop of `abstract_atoms` keeps the invariant of the levels, and
keeps the joint level at most `b` as long as the worklist mentions no minted proxy
and no variable of the blocks after `b`. -/
theorem aa_step_levels (vars : List (List expr)) {c c1 : aa_config} (h : aa_step c c1)
    (hinv : c.s.levels_ok vars)
    (htodo : ∀ t ∈ c.todo, fresh_below c.s.m_fresh_id t = true) :
    c1.s.levels_ok vars ∧ (∀ t ∈ c1.todo, fresh_below c1.s.m_fresh_id t = true) ∧
    ∀ b, (∀ t ∈ c.todo, proxy_free c.s.m_pred2lit t = true ∧
        mentions_none (vars.drop (b + 1)).flatten t = true) → lvl_le b c.level →
      (∀ t ∈ c1.todo, proxy_free c1.s.m_pred2lit t = true ∧
        mentions_none (vars.drop (b + 1)).flatten t = true) ∧ lvl_le b c1.level := by
  obtain ⟨hE, hP, hK, hF⟩ := hinv
  cases h with
  | marked a todo mark s level defs hm =>
    exact ⟨⟨hE, hP, hK, hF⟩, fun t ht => htodo t (by simp [ht]),
      fun b hc hl => ⟨fun t ht => hc t (by simp [ht]), hl⟩⟩
  | mapped a todo mark s level defs p lp hm hp hl =>
    refine ⟨⟨hE, hP, hK, hF⟩, fun t ht => htodo t (by simp [ht]), ?_⟩
    intro b hc hlev
    refine ⟨fun t ht => hc t (by simp [ht]), lvl_le_merge hlev ?_⟩
    obtain ⟨lq, e1, e2⟩ := hP a p hp
    have e1' : s.m_elevel.find p = some lq := e1
    rw [hl] at e1'
    simp only [Option.some.injEq] at e1'
    rw [e1']
    exact e2 b (hc a (by simp)).1 (hc a (by simp)).2
  | const_new a todo mark s level defs l hm hp hc hl hn =>
    have hid : ((s.add_pred a a).insert a l).m_fresh_id = s.m_fresh_id :=
      pred_abs.add_pred_fresh_id s _ _
    have h1 : ((s.add_pred a a).insert a l).m_pred2lit = s.m_pred2lit.insert a a :=
      pred_abs.add_pred_pred2lit s a a
    have h2 : ((s.add_pred a a).insert a l).m_lit2pred = s.m_lit2pred.insert a a :=
      pred_abs.add_pred_lit2pred_new s a a hp
    have h3 : ((s.add_pred a a).insert a l).m_elevel = s.m_elevel :=
      pred_abs.add_pred_elevel s a a
    have h4 : ((s.add_pred a a).insert a l).m_flevel = s.m_flevel :=
      pred_abs.add_pred_flevel s a a
    have hla : level_below ((s.add_pred a a).insert a l).m_pred2lit vars a l := by
      rw [h1]
      exact level_below_of_insert _ vars a a a l (Or.inr hn) (hE a l hl)
    refine ⟨?_, ?_, ?_⟩
    · refine pred_abs.levels_ok_register vars a a l s.m_elevel hP hE h1 (Or.inl h2) ?_ ?_ ?_
        ?_ ?_ (Or.inr hn) hla hla
      · intro x lx hx; rw [h3] at hx; exact Or.inl hx
      · intro a0 q lq _ hq; rw [h3]; exact hq
      · rw [h3]; exact hl
      · intro x lx hx; rw [h3] at hx; rw [hid]; exact hK x lx hx
      · intro f; rw [h4]; exact hF f
    · intro t ht
      show fresh_below ((s.add_pred a a).insert a l).m_fresh_id t = true
      rw [hid]; exact htodo t (by simp [ht])
    · intro b hcl hlev
      refine ⟨?_, lvl_le_merge hlev (hE a l hl b (hcl a (by simp)).1 (hcl a (by simp)).2)⟩
      intro t ht
      refine ⟨?_, (hcl t (by simp [ht])).2⟩
      show proxy_free ((s.add_pred a a).insert a l).m_pred2lit t = true
      rw [h1]
      exact proxy_free_insert _ a a t (Or.inl rfl) (hcl t (by simp [ht])).1
  | const_old a todo mark s level defs l hm hp hc hl hn =>
    refine ⟨⟨hE, hP, hK, hF⟩, fun t ht => htodo t (by simp [ht]), ?_⟩
    intro b hcl hlev
    exact ⟨fun t ht => hcl t (by simp [ht]),
      lvl_le_merge hlev (hE a l hl b (hcl a (by simp)).1 (hcl a (by simp)).2)⟩
  | atom d args todo mark s level defs s2 l is_pred hm hp hc hb hbool hlvl hpred =>
    have e := pred_abs.compute_level_eq hlvl
    have e1 : s2.m_pred2lit = s.m_pred2lit := by rw [e]; rfl
    have e2 : s2.m_lit2pred = s.m_lit2pred := by rw [e]; rfl
    have e3 : s2.m_fresh_id = s.m_fresh_id + 1 := by rw [e]; rfl
    have e4 : s2.m_flevel = s.m_flevel := by rw [e]; rfl
    have hfa := htodo (expr.app d args) (by simp)
    have hid : (s2.atom_update s.fresh_bool.1 (expr.app d args) l is_pred).m_fresh_id
        = s.m_fresh_id + 1 := by
      rw [pred_abs.atom_update_fresh_id, pred_abs.add_pred_fresh_id, e3]
    have h1 : (s2.atom_update s.fresh_bool.1 (expr.app d args) l is_pred).m_pred2lit
        = s.m_pred2lit.insert (fresh_const s.m_fresh_id) (expr.app d args) := by
      rw [pred_abs.atom_update_pred2lit, pred_abs.add_pred_pred2lit, e1]; rfl
    have h2 : (s2.atom_update s.fresh_bool.1 (expr.app d args) l is_pred).m_lit2pred
        = s.m_lit2pred.insert (expr.app d args) (fresh_const s.m_fresh_id) := by
      rw [pred_abs.atom_update_lit2pred,
        pred_abs.add_pred_lit2pred_new _ _ _ (by rw [e2]; exact hp), e2]; rfl
    have h3 : (s2.atom_update s.fresh_bool.1 (expr.app d args) l is_pred).m_elevel
        = s2.m_elevel.insert (fresh_const s.m_fresh_id) l :=
      pred_abs.atom_update_elevel _ _ _ _ _
    have h4 : (s2.atom_update s.fresh_bool.1 (expr.app d args) l is_pred).m_flevel
        = s.m_flevel := by
      rw [pred_abs.atom_update_flevel, e4]
    obtain ⟨k1, k2⟩ := pred_abs.compute_level_keys (fun x => fresh_below s.m_fresh_id x = true)
      (fresh_below_args s.m_fresh_id) hlvl hfa
    have k1' : elevel_le s.m_elevel s2.m_elevel := k1
    have hkeys2 : ∀ x lx, s2.m_elevel.find x = some lx → fresh_below s.m_fresh_id x = true := by
      intro x lx hx
      rcases k2 x lx hx with h0 | h0
      · exact hK x lx h0
      · exact h0
    obtain ⟨hE2, hl2⟩ := pred_abs.compute_level_levels vars hlvl
      (s := s.fresh_bool.2) hE hF
    have hE2' : ∀ x lx, s2.m_elevel.find x = some lx → level_below s.m_pred2lit vars x lx := hE2
    have har : expr.app d args ≠ fresh_const s.m_fresh_id := by
      intro hc1
      rw [hc1] at hc
      simp [fresh_const, is_uninterp_const, is_bool] at hc
    have hanti : expr.app d args ≠ fresh_const s.m_fresh_id ∨
        s.m_pred2lit.find (fresh_const s.m_fresh_id) = none := Or.inl har
    refine ⟨?_, ?_, ?_⟩
    · refine pred_abs.levels_ok_register vars (fresh_const s.m_fresh_id) (expr.app d args) l
        s2.m_elevel hP hE2' h1 (Or.inl h2) ?_ ?_ ?_ ?_ ?_ hanti ?_ ?_
      · intro x lx hx
        rw [h3, obj_map.find_insert] at hx
        split at hx
        · rename_i hxr
          simp only [Option.some.injEq] at hx
          exact Or.inr ⟨hxr, hx.symm⟩
        · exact Or.inl hx
      · intro a0 q lq _ hq
        rw [h3]
        have hq2 := k1' q lq hq
        have hne : q ≠ fresh_const s.m_fresh_id :=
          fresh_below_ne_fresh_const s.m_fresh_id s.m_fresh_id (le_refl _) q (hK q lq hq)
        rw [obj_map.find_insert_ne _ _ hne]
        exact hq2
      · rw [h3]; exact obj_map.find_insert_self _ _ _
      · intro x lx hx
        rw [hid]
        rw [h3, obj_map.find_insert] at hx
        split at hx
        · rename_i hxr
          rw [hxr]
          simp [fresh_const, fresh_below, fresh_below_list]
        · exact fresh_below_mono _ _ (Nat.le_succ _) x (hkeys2 x lx hx)
      · intro f; rw [h4]; exact hF f
      · intro b hp1
        rw [h1, proxy_free_fresh_key _ _ _ har ⟨_, rfl⟩] at hp1
        cases hp1
      · rw [h1]
        exact level_below_of_insert _ vars _ _ _ l hanti (hE2' _ l hl2)
    · intro t ht
      show fresh_below (s2.atom_update s.fresh_bool.1 (expr.app d args) l is_pred).m_fresh_id t
        = true
      rw [hid]
      rcases push_unmarked_mem _ _ _ _ ht with h | h
      · exact fresh_below_mono _ _ (Nat.le_succ _) t (fresh_below_args _ d args hfa t h)
      · exact fresh_below_mono _ _ (Nat.le_succ _) t (htodo t (by simp [h]))
    · intro b hcl hlev
      have hca := hcl (expr.app d args) (by simp)
      refine ⟨?_, lvl_le_merge hlev (hE2' _ l hl2 b hca.1 hca.2)⟩
      intro t ht
      have hmem : t ∈ args ∨ t ∈ todo := push_unmarked_mem _ _ _ _ ht
      have hkn : fresh_below s.m_fresh_id t = true := by
        rcases hmem with h | h
        · exact fresh_below_args _ d args hfa t h
        · exact htodo t (by simp [h])
      have hcl1 : proxy_free s.m_pred2lit t = true ∧
          mentions_none (vars.drop (b + 1)).flatten t = true := by
        rcases hmem with h | h
        · exact ⟨proxy_free_args _ d args hca.1 t h, mentions_none_args _ d args hca.2 t h⟩
        · exact hcl t (by simp [h])
      refine ⟨?_, hcl1.2⟩
      show proxy_free (s2.atom_update s.fresh_bool.1 (expr.app d args) l is_pred).m_pred2lit t
        = true
      rw [h1]
      exact proxy_free_insert _ _ _ t
        (Or.inr (not_subexpr_fresh_const s.m_fresh_id s.m_fresh_id (le_refl _) t hkn)) hcl1.1
  | skip d args todo mark s level defs boolop hm hp hc hb hbool =>
    have hfa := htodo (expr.app d args) (by simp)
    refine ⟨⟨hE, hP, hK, hF⟩, ?_, ?_⟩
    · intro t ht
      rcases push_unmarked_mem _ _ _ _ ht with h | h
      · exact fresh_below_args _ d args hfa t h
      · exact htodo t (by simp [h])
    · intro b hcl hlev
      refine ⟨?_, hlev⟩
      intro t ht
      have hca := hcl (expr.app d args) (by simp)
      rcases push_unmarked_mem _ _ _ _ ht with h | h
      · exact ⟨proxy_free_args _ d args hca.1 t h, mentions_none_args _ d args hca.2 t h⟩
      · exact hcl t (by simp [h])

theorem aa_steps_levels (vars : List (List expr)) {c c1 : aa_config}
    (h : Relation.ReflTransGen aa_step c c1) (hinv : c.s.levels_ok vars)
    (htodo : ∀ t ∈ c.todo, fresh_below c.s.m_fresh_id t = true) :
    c1.s.levels_ok vars ∧ (∀ t ∈ c1.todo, fresh_below c1.s.m_fresh_id t = true) ∧
    ∀ b, (∀ t ∈ c.todo, proxy_free c.s.m_pred2lit t = true ∧
        mentions_none (vars.drop (b + 1)).flatten t = true) → lvl_le b c.level →
      (∀ t ∈ c1.todo, proxy_free c1.s.m_pred2lit t = true ∧
        mentions_none (vars.drop (b + 1)).flatten t = true) ∧ lvl_le b c1.level := by
  induction h with
  | refl => exact ⟨hinv, htodo, fun b h1 h2 => ⟨h1, h2⟩⟩
  | tail _ hstep ih =>
    obtain ⟨i1, i2, i3⟩ := ih
    obtain ⟨j1, j2, j3⟩ := aa_step_levels vars hstep i1 i2
    refine ⟨j1, j2, ?_⟩
    intro b h1 h2
    obtain ⟨k1, k2⟩ := i3 b h1 h2
    exact j3 b k1 k2

/-- A call of `abstract_atoms` on an expression of the manager keeps the invariant
of the levels; when the formula mentions no minted proxy and no variable of the blocks
after `b`, the joint level it returns stays at most `b`. -/
theorem pred_abs.abstract_atoms_levels (vars : List (List expr)) {s : pred_abs} {fml : expr}
    {level : max_level} {defs : List expr} {r : pred_abs × max_level × List expr}
    (h : s.abstract_atoms fml level defs = some r) (hinv : s.levels_ok vars)
    (hf : fresh_below s.m_fresh_id fml = true) :
    r.1.levels_ok vars ∧
    ∀ b, proxy_free s.m_pred2lit fml = true →
      mentions_none (vars.drop (b + 1)).flatten fml = true → lvl_le b level →
      lvl_le b r.2.1 := by
  obtain ⟨mark, hsteps⟩ := pred_abs.abstract_atoms_steps h
  have h0 : pred_abs.levels_ok { s with m_trail := s.m_trail ++ [fml] } vars := hinv
  obtain ⟨i1, _, i3⟩ := aa_steps_levels vars hsteps h0 (by
    intro t ht
    rw [List.mem_singleton] at ht
    subst ht
    exact hf)
  refine ⟨i1, ?_⟩
  intro b hp hm hl
  refine (i3 b ?_ hl).2
  intro t ht
  rw [List.mem_singleton] at ht
  subst ht
  exact ⟨hp, hm⟩

theorem pred_abs.levels_ok_congr (vars : List (List expr)) {s t : pred_abs}
    (h : s.levels_ok vars) (h1 : t.m_pred2lit = s.m_pred2lit)
    (h2 : t.m_lit2pred = s.m_lit2pred) (h3 : t.m_elevel = s.m_elevel)
    (h4 : t.m_flevel = s.m_flevel) (h5 : s.m_fresh_id ≤ t.m_fresh_id) : t.levels_ok vars := by
  obtain ⟨hE, hP, hK, hF⟩ := h
  refine ⟨?_, ?_, ?_, ?_⟩
  · rw [h1, h3]; exact hE
  · rw [h1, h2, h3]; exact hP
  · rw [h3]
    intro x l hx
    exact fresh_below_mono _ _ h5 x (hK x l hx)
  · rw [h4]; exact hF

theorem pred_abs.values_known_congr {s t : pred_abs} (h : s.values_known)
    (h1 : t.m_pred2lit = s.m_pred2lit) (h5 : s.m_fresh_id ≤ t.m_fresh_id) :
    t.values_known := by
  intro p x hp
  rw [h1] at hp
  exact fresh_below_mono _ _ h5 x (h p x hp)

theorem aa_step_values_known {c c1 : aa_config} (h : aa_step c c1) (hv : c.s.values_known)
    (htodo : ∀ t ∈ c.todo, fresh_below c.s.m_fresh_id t = true) : c1.s.values_known := by
  have hle := aa_step_fresh_le h
  obtain ⟨a, rest, hc, hm, _⟩ := aa_step_maps_change h
  have ha : fresh_below c.s.m_fresh_id a = true := htodo a (by rw [hc]; simp)
  rcases hm with ⟨h1, _⟩ | ⟨p, _, h1, _, _, _⟩
  · exact pred_abs.values_known_congr hv h1 hle
  · intro q x hq
    rw [h1, obj_map.find_insert] at hq
    split at hq
    · simp only [Option.some.injEq] at hq
      rw [← hq]
      exact fresh_below_mono _ _ hle a ha
    · exact fresh_below_mono _ _ hle x (hv q x hq)

theorem aa_steps_values_known (vars : List (List expr)) {c c1 : aa_config}
    (h : Relation.ReflTransGen aa_step c c1) (hinv : c.s.levels_ok vars)
    (hv : c.s.values_known)
    (htodo : ∀ t ∈ c.todo, fresh_below c.s.m_fresh_id t = true) :
    c1.s.levels_ok vars ∧ c1.s.values_known ∧
    ∀ t ∈ c1.todo, fresh_below c1.s.m_fresh_id t = true := by
  induction h with
  | refl => exact ⟨hinv, hv, htodo⟩
  | tail _ hstep ih =>
    obtain ⟨i1, i2, i3⟩ := ih
    obtain ⟨j1, j2, _⟩ := aa_step_levels vars hstep i1 i3
    exact ⟨j1, aa_step_values_known hstep i2 i3, j2⟩

theorem pred_abs.abstract_atoms_values_known (vars : List (List expr)) {s : pred_abs}
    {fml : expr} {level : max_level} {defs : List expr} {r : pred_abs × max_level × List expr}
    (h : s.abstract_atoms fml level defs = some r) (hinv : s.levels_ok vars)
    (hv : s.values_known) (hf : fresh_below s.m_fresh_id fml = true) : r.1.values_known := by
  obtain ⟨mark, hsteps⟩ := pred_abs.abstract_atoms_steps h
  have h0 : pred_abs.levels_ok { s with m_trail := s.m_trail ++ [fml] } vars := hinv
  have h1 : pred_abs.values_known { s with m_trail := s.m_trail ++ [fml] } := hv
  exact (aa_steps_values_known vars hsteps h0 h1 (by
    intro t ht
    rw [List.mem_singleton] at ht
    subst ht
    exact hf)).2.1

/-- The state after construction or `reset`, with no level recorded, satisfies the
invariant of the levels. -/
theorem pred_abs.levels_ok_empty (vars : List (List expr)) (pa : pred_abs)
    (h1 : pa.m_elevel = obj_map.empty) (h2 : pa.m_lit2pred = obj_map.empty)
    (h3 : ∀ f, pa.m_flevel.find f = none) : pa.levels_ok vars := by
  refine ⟨?_, ?_, ?_, h3⟩
  · intro e l he; rw [h1] at he; simp [obj_map.find_empty] at he
  · intro a p hp; rw [h2] at hp; simp [obj_map.find_empty] at hp
  · intro x l hx; rw [h1] at hx; simp [obj_map.find_empty] at hx

/-- Recording a justified level for an expression of the manager keeps the invariant
of the levels, as long as the expression is no proxy of a key of `lit2pred`. -/
theorem pred_abs.levels_ok_set_expr_level (vars : List (List expr)) {pa : pred_abs}
    (v : expr) (lvl : max_level) (h : pa.levels_ok vars)
    (hl : level_below pa.m_pred2lit vars v lvl)
    (hv : fresh_below pa.m_fresh_id v = true)
    (hp : ∀ a, pa.m_lit2pred.find a ≠ some v) : (pa.set_expr_level v lvl).levels_ok vars := by
  obtain ⟨hE, hP, hK, hF⟩ := h
  refine ⟨?_, ?_, ?_, hF⟩
  · intro e l he
    have he' : (pa.m_elevel.insert v lvl).find e = some l := he
    rw [obj_map.find_insert] at he'
    split at he'
    · rename_i hev
      simp only [Option.some.injEq] at he'
      rw [hev, ← he']
      exact hl
    · exact hE e l he'
  · intro a p hap
    obtain ⟨lp, e1, e2⟩ := hP a p hap
    refine ⟨lp, ?_, e2⟩
    show (pa.m_elevel.insert v lvl).find p = some lp
    rw [obj_map.find_insert_ne _ _ (fun hpv => hp a (by rw [← hpv]; exact hap))]
    exact e1
  · intro x l hx
    have hx' : (pa.m_elevel.insert v lvl).find x = some l := hx
    rw [obj_map.find_insert] at hx'
    split at hx'
    · rename_i hxv
      rw [hxv]; exact hv
    · exact hK x l hx'

/-- The level of a block is justified for every variable of the block. -/
theorem level_below_block (vars : List (List expr)) (i : Nat) (v : expr) (b : Nat)
    (hm : mentions_none (vars.drop (b + 1)).flatten v = true)
    (hi : ∃ blk, vars.get? i = some blk ∧ v ∈ blk) :
    lvl_le b (if is_exists i then ⟨i, UINT_MAX⟩ else ⟨UINT_MAX, i⟩) := by
  have hib : i ≤ b := by
    by_contra hc
    obtain ⟨blk, h1, h2⟩ := hi
    apply mentions_none_self _ _ hm
    rw [List.mem_flatten]
    refine ⟨blk, ?_, h2⟩
    rw [List.mem_iff_get?]
    refine ⟨i - (b + 1), ?_⟩
    rw [List.get?_eq_getElem?, List.getElem?_drop]
    have : b + 1 + (i - (b + 1)) = i := by omega
    rw [this, ← List.get?_eq_getElem?]; exact h1
  split
  · exact ⟨Or.inr hib, Or.inl rfl⟩
  · exact ⟨Or.inl rfl, Or.inr hib⟩

theorem initialize_levels_block_levels_ok (vars : List (List expr)) (i : Nat) :
    ∀ (vs : List expr) (pa : pred_abs), pa.levels_ok vars → pa.m_lit2pred = obj_map.empty →
      (∀ v ∈ vs, ∃ blk, vars.get? i = some blk ∧ v ∈ blk) →
      (∀ v ∈ vs, fresh_below pa.m_fresh_id v = true) →
      (initialize_levels_block (if is_exists i then ⟨i, UINT_MAX⟩ else ⟨UINT_MAX, i⟩) vs
        pa).levels_ok vars ∧
      (initialize_levels_block (if is_exists i then ⟨i, UINT_MAX⟩ else ⟨UINT_MAX, i⟩) vs
        pa).m_lit2pred = obj_map.empty ∧
      (initialize_levels_block (if is_exists i then ⟨i, UINT_MAX⟩ else ⟨UINT_MAX, i⟩) vs
        pa).m_pred2lit = pa.m_pred2lit ∧
      (initialize_levels_block (if is_exists i then ⟨i, UINT_MAX⟩ else ⟨UINT_MAX, i⟩) vs
        pa).m_fresh_id = pa.m_fresh_id := by
  intro vs
  induction vs with
  | nil => intro pa h h2 _ _; exact ⟨h, h2, rfl, rfl⟩
  | cons v rest ih =>
    intro pa h h2 hin hkn
    rw [initialize_levels_block]
    have h1 : (pa.set_expr_level v
        (if is_exists i then ⟨i, UINT_MAX⟩ else ⟨UINT_MAX, i⟩)).levels_ok vars := by
      apply pred_abs.levels_ok_set_expr_level vars v _ h
      · intro b _ hm
        exact level_below_block vars i v b hm (hin v (List.mem_cons_self _ _))
      · exact hkn v (List.mem_cons_self _ _)
      · intro a ha
        rw [h2] at ha
        simp [obj_map.find_empty] at ha
    obtain ⟨i1, i2, i3, i4⟩ := ih (pa.set_expr_level v
        (if is_exists i then ⟨i, UINT_MAX⟩ else ⟨UINT_MAX, i⟩)) h1 h2
      (fun w hw => hin w (List.mem_cons_of_mem _ hw))
      (fun w hw => hkn w (List.mem_cons_of_mem _ hw))
    exact ⟨i1, i2, i3, i4⟩

theorem initialize_levels_loop_levels_ok (vars : List (List expr)) :
    ∀ (blocks : List (List expr)) (k : Nat) (pa : pred_abs), pa.levels_ok vars →
      pa.m_lit2pred = obj_map.empty →
      (∀ j blk, blocks.get? j = some blk → vars.get? (k + j) = some blk) →
      (∀ blk ∈ blocks, ∀ v ∈ blk, fresh_below pa.m_fresh_id v = true) →
      (initialize_levels_loop k blocks pa).levels_ok vars ∧
      (initialize_levels_loop k blocks pa).m_lit2pred = obj_map.empty ∧
      (initialize_levels_loop k blocks pa).m_pred2lit = pa.m_pred2lit ∧
      (initialize_levels_loop k blocks pa).m_fresh_id = pa.m_fresh_id := by
  intro blocks
  induction blocks with
  | nil => intro k pa h h2 _ _; exact ⟨h, h2, rfl, rfl⟩
  | cons blk rest ih =>
    intro k pa h h2 hget hkn
    rw [initialize_levels_loop]
    obtain ⟨i1, i2, i3, i4⟩ := initialize_levels_block_levels_ok vars k blk pa h h2
      (fun v hv => ⟨blk, by simpa using hget 0 blk (by simp), hv⟩)
      (fun v hv => hkn blk (List.mem_cons_self _ _) v hv)
    obtain ⟨j1, j2, j3, j4⟩ := ih (k + 1) _ i1 i2
      (fun j b hj => by
        have := hget (j + 1) b (by simpa using hj)
        have e : k + 1 + j = k + (j + 1) := by omega
        rw [e]; exact this)
      (fun b hb v hv => by rw [i4]; exact hkn b (List.mem_cons_of_mem _ hb) v hv)
    exact ⟨j1, j2, j3.trans i3, j4.trans i4⟩

/-- After `initialize_levels` in a state without recorded levels and proxies, the
invariant of the search holds. -/
theorem qsat.initialize_levels_search_inv (s : qsat)
    (h1 : s.m_pred_abs.m_elevel = obj_map.empty)
    (h2 : s.m_pred_abs.m_lit2pred = obj_map.empty)
    (h3 : s.m_pred_abs.m_pred2lit = obj_map.empty)
    (h4 : ∀ f, s.m_pred_abs.m_flevel.find f = none)
    (hkn : ∀ blk ∈ s.m_vars, ∀ v ∈ blk, fresh_below s.m_pred_abs.m_fresh_id v = true) :
    s.initialize_levels.search_inv ∧
    s.initialize_levels.m_pred_abs.m_fresh_id = s.m_pred_abs.m_fresh_id := by
  obtain ⟨i1, _, i3, i4⟩ := initialize_levels_loop_levels_ok s.m_vars s.m_vars 0 s.m_pred_abs
    (pred_abs.levels_ok_empty _ _ h1 h2 h4) h2
    (fun j blk hj => by rw [Nat.zero_add]; exact hj) hkn
  refine ⟨⟨i1, ?_⟩, i4⟩
  intro p x hp
  have hp' : (initialize_levels_loop 0 s.m_vars s.m_pred_abs).m_pred2lit.find p = some x := hp
  rw [i3, h3] at hp'
  simp [obj_map.find_empty] at hp'

mutual
theorem rewrite_spec_known (m : obj_map expr expr) (n : Nat)
    (hv : ∀ p x, m.find p = some x → fresh_below n x = true) :
    ∀ (e : expr), fresh_below n e = true → fresh_below n (rewrite_spec m e) = true
  | .app d args, he => by
    cases hf : m.find (expr.app d args) with
    | some x =>
      rw [rewrite_spec_of_find _ _ x hf]
      exact hv _ _ hf
    | none =>
      have e1 : rewrite_spec m (expr.app d args) = expr.app d (rewrite_spec_list m args) := by
        simp [rewrite_spec, hf]
      rw [e1]
      simp only [fresh_below, Bool.and_eq_true] at he ⊢
      exact ⟨he.1, rewrite_spec_list_known m n hv args he.2⟩
  | .var i s, he => by
    cases hf : m.find (expr.var i s) with
    | some x =>
      rw [rewrite_spec_of_find _ _ x hf]
      exact hv _ _ hf
    | none =>
      have e1 : rewrite_spec m (expr.var i s) = expr.var i s := by
        simp [rewrite_spec, hf]
      rw [e1]; exact he
  | .quantifier f b, he => by
    cases hf : m.find (expr.quantifier f b) with
    | some x =>
      rw [rewrite_spec_of_find _ _ x hf]
      exact hv _ _ hf
    | none =>
      have e1 : rewrite_spec m (expr.quantifier f b) = expr.quantifier f b := by
        simp [rewrite_spec, hf]
      rw [e1]; exact he
theorem rewrite_spec_list_known (m : obj_map expr expr) (n : Nat)
    (hv : ∀ p x, m.find p = some x → fresh_below n x = true) :
    ∀ (l : List expr), fresh_below_list n l = true →
      fresh_below_list n (rewrite_spec_list m l) = true
  | [], _ => rfl
  | a :: l, he => by
    simp only [fresh_below_list, Bool.and_eq_true] at he
    simp only [rewrite_spec_list, fresh_below_list, Bool.and_eq_true]
    exact ⟨rewrite_spec_known m n hv a he.1, rewrite_spec_list_known m n hv l he.2⟩
end

/-- The core that `get_core` concretizes from a core of the kernel over symbols of
the manager is a list of expressions of the manager. -/
theorem qsat.get_core_known {s : qsat} {level : Nat} {core : List expr}
    (hv : s.m_pred_abs.values_known)
    (hg : is_ground_list (s.get_kernel level).m_core = true)
    (hk : fresh_below_list s.m_pred_abs.m_fresh_id (s.get_kernel level).m_core = true)
    (h : s.get_core level = some core) :
    fresh_below_list s.m_pred_abs.m_fresh_id core = true := by
  unfold qsat.get_core pred_abs.pred2lit at h
  rw [mk_concrete_eq _ _ hg] at h
  simp only [Option.some.injEq] at h
  rw [← h, ← rewrite_spec_list_eq_map]
  exact rewrite_spec_list_known _ _ hv _ hk

theorem qsat.search_inv_congr {s t : qsat} (h : s.search_inv) (hv : t.m_vars = s.m_vars)
    (h1 : t.m_pred_abs.m_pred2lit = s.m_pred_abs.m_pred2lit)
    (h2 : t.m_pred_abs.m_lit2pred = s.m_pred_abs.m_lit2pred)
    (h3 : t.m_pred_abs.m_elevel = s.m_pred_abs.m_elevel)
    (h4 : t.m_pred_abs.m_flevel = s.m_pred_abs.m_flevel)
    (h5 : s.m_pred_abs.m_fresh_id ≤ t.m_pred_abs.m_fresh_id) : t.search_inv := by
  refine ⟨?_, pred_abs.values_known_congr h.2 h1 h5⟩
  show t.m_pred_abs.levels_ok t.m_vars
  rw [hv]
  exact pred_abs.levels_ok_congr _ h.1 h1 h2 h3 h4 h5

theorem level_below_unset (m : obj_map expr expr) (vars : List (List expr)) (e : expr) :
    level_below m vars e max_level.unset :=
  fun b _ _ => lvl_le_unset b

/-- The invariant of the search is kept by `add_assumption` for an expression of the
manager. -/
theorem qsat.search_inv_add_assumption {s : qsat} (fml : expr) (h : s.search_inv)
    (hf : fresh_below s.m_pred_abs.m_fresh_id fml = true) :
    (s.add_assumption fml).search_inv := by
  obtain ⟨⟨hE, hP, hK, hF⟩, hV⟩ := h
  have hne : fml ≠ fresh_const s.m_pred_abs.m_fresh_id :=
    fresh_below_ne_fresh_const _ _ (le_refl _) fml hf
  have h1 : (s.add_assumption fml).m_pred_abs.m_pred2lit
      = s.m_pred_abs.m_pred2lit.insert (fresh_const s.m_pred_abs.m_fresh_id) fml := by
    show ((s.m_pred_abs.fresh_bool.2.add_pred _ _).set_expr_level _ _).m_pred2lit = _
    unfold pred_abs.set_expr_level
    exact pred_abs.add_pred_pred2lit _ _ _
  have h2 : (s.add_assumption fml).m_pred_abs.m_lit2pred
        = s.m_pred_abs.m_lit2pred.insert fml (fresh_const s.m_pred_abs.m_fresh_id) ∨
      (s.add_assumption fml).m_pred_abs.m_lit2pred = s.m_pred_abs.m_lit2pred := by
    show ((s.m_pred_abs.fresh_bool.2.add_pred _ _).set_expr_level _ _).m_lit2pred = _ ∨
      ((s.m_pred_abs.fresh_bool.2.add_pred _ _).set_expr_level _ _).m_lit2pred = _
    unfold pred_abs.set_expr_level pred_abs.add_pred pred_abs.add_lit
    split
    · exact Or.inl rfl
    · exact Or.inr rfl
  have h3 : (s.add_assumption fml).m_pred_abs.m_elevel
      = s.m_pred_abs.m_elevel.insert (fresh_const s.m_pred_abs.m_fresh_id) max_level.unset := by
    show ((s.m_pred_abs.fresh_bool.2.add_pred _ _).m_elevel).insert _ _ = _
    rw [pred_abs.add_pred_elevel]
    rfl
  have h4 : (s.add_assumption fml).m_pred_abs.m_flevel = s.m_pred_abs.m_flevel := by
    show ((s.m_pred_abs.fresh_bool.2.add_pred _ _).set_expr_level _ _).m_flevel = _
    unfold pred_abs.set_expr_level
    exact pred_abs.add_pred_flevel _ _ _
  have h5 : (s.add_assumption fml).m_pred_abs.m_fresh_id = s.m_pred_abs.m_fresh_id + 1 := by
    show ((s.m_pred_abs.fresh_bool.2.add_pred _ _).set_expr_level _ _).m_fresh_id = _
    unfold pred_abs.set_expr_level
    exact pred_abs.add_pred_fresh_id _ _ _
  refine ⟨?_, ?_⟩
  · show (s.add_assumption fml).m_pred_abs.levels_ok s.m_vars
    refine pred_abs.levels_ok_register s.m_vars (fresh_const s.m_pred_abs.m_fresh_id) fml
      max_level.unset s.m_pred_abs.m_elevel hP hE h1 h2 ?_ ?_ ?_ ?_ ?_ (Or.inl hne)
      (level_below_unset _ _ _) (level_below_unset _ _ _)
    · intro x l hx
      rw [h3, obj_map.find_insert] at hx
      split at hx
      · rename_i hxr
        simp only [Option.some.injEq] at hx
        exact Or.inr ⟨hxr, hx.symm⟩
      · exact Or.inl hx
    · intro a q lq _ hq
      rw [h3]
      have hqne : q ≠ fresh_const s.m_pred_abs.m_fresh_id :=
        fresh_below_ne_fresh_const _ _ (le_refl _) q (hK q lq hq)
      rw [obj_map.find_insert_ne _ _ hqne]
      exact hq
    · rw [h3]; exact obj_map.find_insert_self _ _ _
    · intro x l hx
      rw [h5]
      rw [h3, obj_map.find_insert] at hx
      split at hx
      · rename_i hxr
        rw [hxr]
        simp [fresh_const, fresh_below, fresh_below_list]
      · exact fresh_below_mono _ _ (Nat.le_succ _) x (hK x l hx)
    · intro f; rw [h4]; exact hF f
  · intro p x hp
    rw [h5]
    rw [h1, obj_map.find_insert] at hp
    split at hp
    · simp only [Option.some.injEq] at hp
      rw [← hp]
      exact fresh_below_mono _ _ (Nat.le_succ _) fml hf
    · exact fresh_below_mono _ _ (Nat.le_succ _) x (hV p x hp)

theorem qsat.search_inv_pop {s t : qsat} {n : Nat} (h : s.search_inv)
    (hp : s.pop n = some t) :
    t.search_inv ∧ t.m_vars = s.m_vars ∧ t.m_pred_abs.m_fresh_id = s.m_pred_abs.m_fresh_id ∧
    t.m_force_elim = s.m_force_elim ∧ t.m_fa = s.m_fa ∧ t.m_ex = s.m_ex := by
  obtain ⟨_, pa, hpa, ht⟩ := qsat.pop_qsat_inv hp
  obtain ⟨_, _, sz, _, _, hpa2⟩ := pred_abs.pop_inv hpa
  subst ht
  subst hpa2
  exact ⟨qsat.search_inv_congr h rfl rfl rfl rfl rfl (le_refl _), rfl, rfl, rfl, rfl, rfl⟩

theorem qsat.search_inv_assert_at {s : qsat} (j : Nat) (e : expr) (h : s.search_inv) :
    (s.assert_at j e).search_inv := by
  unfold qsat.assert_at
  split <;> exact qsat.search_inv_congr h rfl rfl rfl rfl rfl (le_refl _)

theorem qsat.search_inv_set_core {s : qsat} (core : List expr) (h : s.search_inv) :
    (s.set_core core).search_inv := by
  unfold qsat.set_core
  split <;> exact qsat.search_inv_congr h rfl rfl rfl rfl rfl (le_refl _)

/-- The invariant of the search is kept by `project_qe`, for externals and a kernel
core over symbols of the manager. -/
theorem qsat.search_inv_project_qe {ext : externals} {s t : qsat} (hext : ext.known)
    (h : s.search_inv)
    (hg : is_ground_list (s.get_kernel s.m_level).m_core = true)
    (hk : fresh_below_list s.m_pred_abs.m_fresh_id (s.get_kernel s.m_level).m_core = true)
    (hp : s.project_qe ext = some t) :
    t.search_inv ∧ t.m_vars = s.m_vars ∧ s.m_pred_abs.m_fresh_id ≤ t.m_pred_abs.m_fresh_id := by
  unfold qsat.project_qe at hp
  split at hp
  · split at hp
    · simp at hp
    · rename_i mdl hmdl
      split at hp
      · simp at hp
      · rename_i core hcore
        simp only at hp
        have hck := qsat.get_core_known h.2 hg hk hcore
        have hlem := hext (s.get_vars s.m_level).m_force_elim (s.get_vars s.m_level).m_avars
          mdl core _ hck
        have h1 : qsat.search_inv { s.get_vars s.m_level with
            m_avars := (ext.mbp (s.get_vars s.m_level).m_force_elim
              (s.get_vars s.m_level).m_avars mdl core).1 } :=
          qsat.search_inv_congr h rfl rfl rfl rfl rfl (le_refl _)
        have h2 := qsat.search_inv_add_assumption _ h1 hlem
        have hpop := fun hh => qsat.search_inv_pop hh hp
        obtain ⟨i1, i2, i3, _⟩ := hpop (qsat.search_inv_congr h2 rfl rfl rfl rfl rfl (le_refl _))
        refine ⟨i1, i2, ?_⟩
        rw [i3]
        show s.m_pred_abs.m_fresh_id ≤
          ((s.m_pred_abs.fresh_bool.2.add_pred _ _).set_expr_level _ _).m_fresh_id
        unfold pred_abs.set_expr_level
        rw [pred_abs.add_pred_fresh_id]
        exact Nat.le_succ _
  · simp at hp

/-- The invariant of the search is kept by `project`, for externals and a kernel core
over symbols of the manager. -/
theorem qsat.search_inv_project {ext : externals} {s t : qsat} (hext : ext.known)
    (h : s.search_inv)
    (hg : is_ground_list (s.get_kernel s.m_level).m_core = true)
    (hk : fresh_below_list s.m_pred_abs.m_fresh_id (s.get_kernel s.m_level).m_core = true)
    (hp : s.project ext = some t) :
    t.search_inv ∧ t.m_vars = s.m_vars ∧ s.m_pred_abs.m_fresh_id ≤ t.m_pred_abs.m_fresh_id := by
  obtain ⟨core, mdl, pa, level, defs, n, s4, hcore, _, _, haa, _, hpop, hcase⟩ :=
    qsat.project_inv hp
  have hck := qsat.get_core_known h.2 hg hk hcore
  have hlem : fresh_below s.m_pred_abs.m_fresh_id (s.lemma_of ext (s.m_level - 1) mdl core)
      = true := hext _ _ mdl core _ hck
  have hle := pred_abs.abstract_atoms_fresh_le haa
  have hle' : s.m_pred_abs.m_fresh_id ≤ pa.m_fresh_id := hle
  have hb : (s.before_pop ext mdl core pa defs).search_inv :=
    ⟨(pred_abs.abstract_atoms_levels s.m_vars haa h.1 hlem).1,
     pred_abs.abstract_atoms_values_known s.m_vars haa h.1 h.2 hlem⟩
  obtain ⟨i1, i2, i3, _⟩ := qsat.search_inv_pop hb hpop
  have i3' : s4.m_pred_abs.m_fresh_id = pa.m_fresh_id := i3
  have i2' : s4.m_vars = s.m_vars := i2
  rcases hcase with ⟨_, _, ht⟩ | ⟨_, fml1, _, ht⟩
  · rw [ht]
    refine ⟨qsat.search_inv_add_assumption _ i1 ?_, i2', ?_⟩
    · rw [i3']
      exact fresh_below_mono _ _ hle' _ hlem
    · show s.m_pred_abs.m_fresh_id ≤
        ((s4.m_pred_abs.fresh_bool.2.add_pred _ _).set_expr_level _ _).m_fresh_id
      unfold pred_abs.set_expr_level
      rw [pred_abs.add_pred_fresh_id]
      show _ ≤ s4.m_pred_abs.m_fresh_id + 1
      omega
  · rw [ht]
    refine ⟨qsat.search_inv_assert_at _ _ i1, ?_, ?_⟩
    · unfold qsat.assert_at
      split <;> exact i2'
    · unfold qsat.assert_at
      split
      · show _ ≤ s4.m_pred_abs.m_fresh_id; omega
      · show _ ≤ s4.m_pred_abs.m_fresh_id; omega

theorem qsat.set_core_get_kernel (s : qsat) (core : List expr) :
    ((s.set_core core).get_kernel s.m_level).m_core = core := by
  unfold qsat.set_core qsat.get_kernel
  by_cases h : is_exists s.m_level = true
  · simp [h]
  · simp [h]

/-- The state in which a round handles the answer unsat satisfies the invariant of
the search, and the kernel of the level holds the core. -/
theorem qsat.enter_unsat_search_inv {s s2 : qsat} {core : List expr} (h : s.search_inv)
    (he : s.enter_unsat core = some s2) :
    s2.search_inv ∧ s2.m_vars = s.m_vars ∧
    s2.m_pred_abs.m_fresh_id = s.m_pred_abs.m_fresh_id ∧
    s2.m_level = s.m_level ∧ (s2.get_kernel s2.m_level).m_core = core := by
  unfold qsat.enter_unsat at he
  simp only at he
  split at he
  · simp at he
  · split at he
    · simp at he
    · rename_i pa asms hga
      obtain ⟨more, hm⟩ := pred_abs.get_assumptions_state _ _ _ _ hga
      have hpa : pa = { s.m_pred_abs with m_asms := s.m_pred_abs.m_asms ++ more } := hm
      simp only [Option.some.injEq] at he
      subst he
      subst hpa
      refine ⟨qsat.search_inv_set_core core
        (qsat.search_inv_congr h rfl rfl rfl rfl rfl (le_refl _)), ?_, ?_, ?_, ?_⟩
      · unfold qsat.set_core; split <;> rfl
      · unfold qsat.set_core; split <;> rfl
      · exact qsat.set_core_level _ _
      · rw [qsat.set_core_level]
        exact qsat.set_core_get_kernel _ core

/-- A round of the search loop after which the loop goes on keeps the invariant of
the search, for externals and a kernel answer over symbols of the manager. -/
theorem qsat.check_sat_round_search_inv {ext : externals} {ans : kernel_answer} {s t : qsat}
    (hext : ext.known) (h : s.search_inv)
    (hans : ∀ core, ans = kernel_answer.unsat core →
      is_ground_list core = true ∧ fresh_below_list s.m_pred_abs.m_fresh_id core = true)
    (hr : s.check_sat_round ext ans = some (round_end.goes_on t)) :
    t.search_inv ∧ t.m_vars = s.m_vars ∧ s.m_pred_abs.m_fresh_id ≤ t.m_pred_abs.m_fresh_id := by
  cases ans with
  | sat mdl =>
    unfold qsat.check_sat_round at hr
    simp only at hr
    split at hr
    · simp at hr
    · split at hr
      · simp at hr
      · rename_i pa asms hga
        obtain ⟨more, hm⟩ := pred_abs.get_assumptions_state _ _ _ _ hga
        have hpa : pa = { s.m_pred_abs with m_asms := s.m_pred_abs.m_asms ++ more } := hm
        simp only [Option.some.injEq, round_end.goes_on.injEq] at hr
        subst hr
        subst hpa
        exact ⟨qsat.search_inv_congr h rfl rfl rfl rfl rfl (le_refl _), rfl, le_refl _⟩
  | unknown =>
    unfold qsat.check_sat_round at hr
    simp only at hr
    split at hr
    · simp at hr
    · split at hr <;> simp at hr
  | unsat core =>
    rw [qsat.check_sat_round_unsat] at hr
    obtain ⟨hg, hk⟩ := hans core rfl
    split at hr
    · simp at hr
    · rename_i s2 he
      obtain ⟨i1, i2, i3, i4, i5⟩ := qsat.enter_unsat_search_inv h he
      have hg2 : is_ground_list (s2.get_kernel s2.m_level).m_core = true := by rw [i5]; exact hg
      have hk2 : fresh_below_list s2.m_pred_abs.m_fresh_id (s2.get_kernel s2.m_level).m_core
          = true := by rw [i5, i3]; exact hk
      have hpop : ∀ u, s2.pop 1 = some u →
          u.search_inv ∧ u.m_vars = s.m_vars ∧
            s.m_pred_abs.m_fresh_id ≤ u.m_pred_abs.m_fresh_id := by
        intro u hu
        obtain ⟨j1, j2, j3, _⟩ := qsat.search_inv_pop i1 hu
        exact ⟨j1, j2.trans i2, by rw [j3, i3]⟩
      split at hr
      · simp at hr
      · split at hr
        · simp at hr
        · split at hr
          · simp only [Option.map_eq_some'] at hr
            obtain ⟨u, hu, hut⟩ := hr
            simp only [round_end.goes_on.injEq] at hut
            subst hut
            obtain ⟨j1, j2, j3⟩ := qsat.search_inv_project_qe hext i1 hg2 hk2 hu
            exact ⟨j1, j2.trans i2, by rw [← i3]; exact j3⟩
          · simp only [Option.map_eq_some'] at hr
            obtain ⟨u, hu, hut⟩ := hr
            simp only [round_end.goes_on.injEq] at hut
            subst hut
            exact hpop u hu
      · split at hr
        · simp only [Option.map_eq_some'] at hr
          obtain ⟨u, hu, hut⟩ := hr
          simp only [round_end.goes_on.injEq] at hut
          subst hut
          obtain ⟨j1, j2, j3⟩ := qsat.search_inv_project hext i1 hg2 hk2 hu
          exact ⟨j1, j2.trans i2, by rw [← i3]; exact j3⟩
        · simp only [Option.map_eq_some'] at hr
          obtain ⟨u, hu, hut⟩ := hr
          simp only [round_end.goes_on.injEq] at hut
          subst hut
          exact hpop u hu

/-- The invariant of the search holds along the rounds of the search loop, for
externals and kernel answers over symbols of the manager. -/
theorem qsat.rounds_search_inv {ext : externals} (hext : ext.known) :
    ∀ (script : List kernel_answer) (s t : qsat), s.search_inv →
      cores_known s.m_pred_abs.m_fresh_id script →
      qsat.rounds ext script s = some t →
      t.search_inv ∧ t.m_vars = s.m_vars ∧
        s.m_pred_abs.m_fresh_id ≤ t.m_pred_abs.m_fresh_id := by
  intro script
  induction script with
  | nil =>
    intro s t h _ hr
    simp only [qsat.rounds, Option.some.injEq] at hr
    rw [← hr]; exact ⟨h, rfl, le_refl _⟩
  | cons ans rest ih =>
    intro s t h hc hr
    simp only [qsat.rounds] at hr
    split at hr
    · rename_i u hu
      obtain ⟨i1, i2, i3⟩ := qsat.check_sat_round_search_inv hext h (by
        intro core hcore
        exact hc core (by rw [hcore]; exact List.mem_cons_self _ _)) hu
      obtain ⟨j1, j2, j3⟩ := ih u t i1 (by
        intro core hcore
        obtain ⟨c1, c2⟩ := hc core (List.mem_cons_of_mem _ hcore)
        exact ⟨c1, fresh_below_list_mono _ _ i3 core c2⟩) hr
      exact ⟨j1, j2.trans i2, le_trans i3 j3⟩
    · simp at hr

theorem hoist_loop_inv (tx : collaborators) (htx : tx.known) :
    ∀ (n : Nat) (b : Bool) (fml : expr) (s : qsat) (r : expr × qsat),
      hoist_loop tx n b fml s = some r → s.hoist_inv fml → r.2.hoist_inv r.1 := by
  intro n
  induction n with
  | zero => intro b fml s r h; simp [hoist_loop] at h
  | succ n ih =>
    intro b fml s r h hinv
    obtain ⟨h1, h2, h3, h4, h5, h6⟩ := hinv
    obtain ⟨c1, c2, c3⟩ := htx s.m_pred_abs.m_fresh_id (!b) fml h2
    have hstep : qsat.hoist_inv { s with
        m_vars := s.m_vars ++ [(tx.pull_quantifier s.m_pred_abs.m_fresh_id (!b) fml).2.1],
        m_pred_abs := { s.m_pred_abs with
          m_fresh_id := (tx.pull_quantifier s.m_pred_abs.m_fresh_id (!b) fml).2.2 } }
        (tx.pull_quantifier s.m_pred_abs.m_fresh_id (!b) fml).1 := by
      refine ⟨?_, c2, h3, h4, h5, h6⟩
      intro blk hblk v hv
      rcases List.mem_append.1 hblk with hb | hb
      · exact fresh_below_mono _ _ c1 v (h1 blk hb v hv)
      · rw [List.mem_singleton] at hb
        subst hb
        exact c3 v hv
    simp only [hoist_loop] at h
    split at h
    · simp only [Option.some.injEq] at h
      subst h
      exact hstep
    · exact ih _ _ _ r h hstep

/-- After `hoist` from a state without proxies and levels, on a formula of the
manager, the invariant of the search holds and the matrix is a formula of the
manager. -/
theorem qsat.hoist_search_inv {tx : collaborators} {s : qsat} {fml : expr} {r : expr × qsat}
    (htx : tx.known) (hv0 : s.m_vars = [])
    (hf : fresh_below s.m_pred_abs.m_fresh_id fml = true)
    (h3 : s.m_pred_abs.m_elevel = obj_map.empty)
    (h4 : s.m_pred_abs.m_lit2pred = obj_map.empty)
    (h5 : s.m_pred_abs.m_pred2lit = obj_map.empty)
    (h6 : ∀ f, s.m_pred_abs.m_flevel.find f = none)
    (h : s.hoist tx fml = some r) :
    r.2.search_inv ∧ fresh_below r.2.m_pred_abs.m_fresh_id r.1 = true := by
  unfold qsat.hoist at h
  split at h
  · simp at h
  · rename_i vars hfv
    obtain ⟨fr, hfr, _, hmem⟩ := get_free_vars_spec fml
    have hvars : vars = fr := by
      have := hfr []
      rw [hfv] at this
      simpa using this
    have hkv : ∀ v ∈ vars, fresh_below s.m_pred_abs.m_fresh_id v = true := by
      intro v hv
      rw [hvars] at hv
      exact fresh_below_subexpr _ ((hmem v).1 hv).2 hf
    simp only at h
    split at h
    · simp at h
    · rename_i fml2 s2 hloop
      simp only [Option.some.injEq] at h
      subst h
      have hfin := hoist_loop_inv tx htx _ _ _ _ _ hloop (by
        split
        · obtain ⟨c1, c2, c3⟩ := htx s.m_pred_abs.m_fresh_id true fml hf
          refine ⟨?_, c2, h3, h4, h5, h6⟩
          intro blk hblk v hv
          have hblk' : blk ∈ (s.m_vars ++ [vars]) ++
              [(tx.pull_quantifier s.m_pred_abs.m_fresh_id true fml).2.1] := hblk
          rw [hv0] at hblk'
          simp only [List.nil_append, List.cons_append, List.mem_cons, List.mem_singleton,
            List.not_mem_nil, or_false] at hblk'
          rcases hblk' with hb | hb
          · subst hb
            exact fresh_below_mono _ _ c1 v (hkv v hv)
          · subst hb
            exact c3 v hv
        · obtain ⟨c1, c2, c3⟩ := htx s.m_pred_abs.m_fresh_id false fml hf
          refine ⟨?_, c2, h3, h4, h5, h6⟩
          intro blk hblk v hv
          have hblk' : blk ∈ (s.m_vars ++ [vars]).dropLast ++
              [(s.m_vars ++ [vars]).getLastD [] ++
                (tx.pull_quantifier s.m_pred_abs.m_fresh_id false fml).2.1] := hblk
          rw [hv0] at hblk'
          simp only [List.nil_append, List.dropLast_single, List.getLastD_cons,
            List.getLastD_nil, List.mem_singleton] at hblk'
          subst hblk'
          rcases List.mem_append.1 hv with hv1 | hv1
          · exact fresh_below_mono _ _ c1 v (hkv v hv1)
          · exact c3 v hv1)
      obtain ⟨g1, g2, g3, g4, g5, g6⟩ := hfin
      obtain ⟨i1, i2⟩ := qsat.initialize_levels_search_inv s2 g3 g4 g5 g6 g1
      refine ⟨i1, ?_⟩
      show fresh_below s2.initialize_levels.m_pred_abs.m_fresh_id fml2 = true
      rw [i2]
      exact g2

/-- The state `operator()` hands to `check_sat` satisfies the invariant of the
search, for a tactic object without levels of symbols, a hoister that works in the
manager and a goal of the manager. -/
theorem qsat.prepare_search_inv {ext : externals} {tx : collaborators} {s s1 : qsat}
    {fml : expr} (htx : tx.known) (hF : ∀ f, s.m_pred_abs.m_flevel.find f = none)
    (hf : fresh_below s.m_pred_abs.m_fresh_id
      (if s.m_qelim then ext.push_not fml else fml) = true)
    (h : s.prepare ext tx fml = some s1) : s1.search_inv := by
  unfold qsat.prepare at h
  simp only at h
  split at h
  · simp at h
  · rename_i fml1 s2 hh
    obtain ⟨i1, i2⟩ := qsat.hoist_search_inv htx (s := s.reset) rfl hf rfl rfl rfl hF hh
    split at h
    · simp at h
    · rename_i pa defs haa
      split at h
      · simp at h
      · simp only [Option.some.injEq] at h
        subst h
        unfold pred_abs.abstract_atoms_top at haa
        split at haa
        · simp at haa
        · rename_i pa1 lvl1 defs1 haa1
          simp only [Option.some.injEq, Prod.mk.injEq] at haa
          obtain ⟨e1, _⟩ := haa
          subst e1
          exact ⟨(pred_abs.abstract_atoms_levels s2.m_vars haa1 i1.1 i2).1,
            pred_abs.abstract_atoms_values_known s2.m_vars haa1 i1.1 i1.2 i2⟩

/-- The state `elim` hands to `check_sat` satisfies the invariant of the search, for
a tactic object without levels of symbols, and variables and a body of the manager. -/
theorem qsat.elim_prepare_search_inv {ext : externals} {s s1 : qsat} {vars : List expr}
    {fml : expr} (hF : ∀ f, s.m_pred_abs.m_flevel.find f = none)
    (hv : ∀ v ∈ vars, fresh_below s.m_pred_abs.m_fresh_id v = true)
    (hf : fresh_below s.m_pred_abs.m_fresh_id (ext.push_not fml) = true)
    (h : s.elim_prepare ext vars fml = some s1) : s1.search_inv := by
  unfold qsat.elim_prepare at h
  simp only at h
  obtain ⟨i1, i2⟩ := qsat.initialize_levels_search_inv { s.reset with m_vars := [[], vars] }
    rfl rfl rfl hF (by
      intro blk hblk v hv1
      simp only [List.mem_cons, List.mem_singleton, List.not_mem_nil, or_false] at hblk
      rcases hblk with hb | hb
      · subst hb; simp at hv1
      · subst hb; exact hv v hv1)
  split at h
  · simp at h
  · rename_i pa defs haa
    split at h
    · simp at h
    · simp only [Option.some.injEq] at h
      subst h
      unfold pred_abs.abstract_atoms_top at haa
      split at haa
      · simp at haa
      · rename_i pa1 lvl1 defs1 haa1
        simp only [Option.some.injEq, Prod.mk.injEq] at haa
        obtain ⟨e1, _⟩ := haa
        subst e1
        have hf' : fresh_below (qsat.initialize_levels
            { s.reset with m_vars := [[], vars] }).m_pred_abs.m_fresh_id (ext.push_not fml)
            = true := by rw [i2]; exact hf
        exact ⟨(pred_abs.abstract_atoms_levels _ haa1 i1.1 hf').1,
          pred_abs.abstract_atoms_values_known _ haa1 i1.1 i1.2 hf'⟩

theorem qsat.enter_unsat_scopes_ok {s s2 : qsat} {core : List expr} (h : s.scopes_ok)
    (he : s.enter_unsat core = some s2) : s2.scopes_ok := by
  unfold qsat.enter_unsat at he
  simp only at he
  split at he
  · simp at he
  · split at he
    · simp at he
    · rename_i pa asms hga
      have h1 := pred_abs.scopes_sorted_get_assumptions h.2 hga
      obtain ⟨more, hm⟩ := pred_abs.get_assumptions_state _ _ _ _ hga
      have hpa : pa = { s.m_pred_abs with m_asms := s.m_pred_abs.m_asms ++ more } := hm
      simp only [Option.some.injEq] at he
      subst he
      apply qsat.scopes_ok_set_core
      refine ⟨?_, h1⟩
      show pa.m_asms_lim.length = s.m_level
      rw [hpa]
      exact h.1

/-- In a run of a prenex variant, the state in which a round handles the answer unsat
(the state in which `project` runs when the level is at least 2) has the level and
the scopes in step and satisfies the invariant of the levels, and the lemma computed
there is an expression of the manager: for a tactic object without levels of symbols,
and a hoister, externals, a goal and kernel cores of the manager. -/
theorem qsat.project_state_in_run (ext : externals) (tx : collaborators) (u s1 s2 s : qsat)
    (fml : expr) (pre : List kernel_answer) (kcore : List expr)
    (htx : tx.known) (hext : ext.known)
    (hF : ∀ f, u.m_pred_abs.m_flevel.find f = none)
    (hf : fresh_below u.m_pred_abs.m_fresh_id
      (if u.m_qelim then ext.push_not fml else fml) = true)
    (hprep : u.prepare ext tx fml = some s1)
    (hpre : cores_known s1.m_pred_abs.m_fresh_id pre)
    (hrounds : qsat.rounds ext pre s1 = some s2)
    (hg : is_ground_list kcore = true)
    (hk : fresh_below_list s2.m_pred_abs.m_fresh_id kcore = true)
    (he : s2.enter_unsat kcore = some s) :
    s.in_step ∧ s.levels_ok ∧
    ∀ mdl core, s.get_core s.m_level = some core →
      fresh_below s.m_pred_abs.m_fresh_id (s.lemma_of ext (s.m_level - 1) mdl core) = true := by
  have h1 := qsat.prepare_search_inv htx hF hf hprep
  obtain ⟨h2, _, _⟩ := qsat.rounds_search_inv hext pre s1 s2 h1 hpre hrounds
  obtain ⟨h3, _, h4, _, h5⟩ := qsat.enter_unsat_search_inv h2 he
  obtain ⟨p1, p2⟩ := qsat.prepare_start hprep
  have hs1 : s1.scopes_ok := by
    refine ⟨by rw [p2, p1]; rfl, ?_⟩
    unfold pred_abs.scopes_sorted
    rw [p2]
    exact List.pairwise_singleton _ _
  have hs2 := qsat.rounds_scopes_ok pre s1 s2 hs1 hrounds
  have hs := qsat.enter_unsat_scopes_ok hs2 he
  refine ⟨⟨hs.1, pred_abs.scopes_sorted_le hs.2⟩, h3.1, ?_⟩
  intro mdl core hcore
  have hck := qsat.get_core_known h3.2 (by rw [h5]; exact hg) (by rw [h5, h4]; exact hk) hcore
  exact hext _ _ mdl core _ hck

/-- Outside the contract of MBP the bound fails: with a projection that returns the
core as it is, `project` at level 3 in the sample run learns the lemma `¬z` over the
variable `z` of block 2, one of the variables it asked MBP to eliminate; the joint
level is `(ex = 2, fa unset)` and `3 - 2 = 1` scope is popped. -/
theorem qsat.project_outside_contract :
    sample_alt_level3.m_level = 3 ∧
    (sample_alt_level3.m_vars.drop 2).flatten = [sample_bz, sample_bw] ∧
    sample_alt_level3.lemma_of sample_ext 2 (sample_model_of [sample_bz]) [sample_bz]
      = mk_not sample_bz ∧
    (sample_alt_level3.m_pred_abs.abstract_atoms (mk_not sample_bz) max_level.unset []).map
      (fun r => r.2.1) = some ⟨2, UINT_MAX⟩ ∧
    (sample_alt_level3.project sample_ext).map (fun t => t.m_level) = some 2 := by
  decide

theorem qsat.none_left_congr {s t : qsat} (h : s.none_left)
    (h1 : t.m_force_elim = s.m_force_elim) (h2 : t.m_free_vars = s.m_free_vars) :
    t.none_left := by
  unfold qsat.none_left
  rw [h1, h2]; exact h

/-- Outside the contract of MBP: with a projection that hands the variable back for
the empty core although elimination is forced, the `qe2` variant ends with
`free_vars = [c]` and the result goal holds `¬true` all the same: `operator()` never
reads `m_free_vars`. -/
theorem qsat.operator_outside_contract :
    (sample_ext_q.mbp true [fresh_const 0] (sample_model_of [fresh_const 0]) []).1
      = [fresh_const 0] ∧
    ((sample_tactic true true).operator sample_ext_q sample_collab [sample_contra_script]
        (sample_goal sample_contra false)).map
      (fun r => (r.1.result.map (fun g => g.m_forms), r.2.m_free_vars))
      = some ([[mk_not mk_true]], [fresh_const 0]) := by
  decide

end qe
